import Mathlib

/-!
Fibonacci heap (`Лабораторна робота 8.cpp`): pointer-level embedding

The C++ program manipulates a graph of heap-allocated `FibHeapNode`s through raw
pointers.  The embedding keeps that level of detail:

* a `Store` maps addresses (`Nat`) to node records; `delete` empties the cell.  In
  `_create_node` and `insert` the operator `new` returns the next unused address, so that
  no address is handed out twice and a pointer to a freed node stays dangling; a C++
  allocator may also hand out an address that `delete` has released, and
  `_create_node_at` and `insert_at` are the same two functions with the address that
  `new` returns given as an argument;
* a pointer is an `Option Nat` (`none` is `nullptr`);
* every function of the class is a function on the store and the `FibHeap` record
  (`m_minNode`, `m_numOfNodes`), returning `Except Fault _`: a `Fault` is raised where
  the C++ program has undefined behaviour (dereferencing `nullptr` or a freed node,
  indexing the bucket array out of bounds, converting a non-finite `double` to `int`),
  and `Fault.outOfFuel` when a loop did not finish within the supplied fuel;
* `int` fields are `Int`; no test in this development comes near `2^31` nodes, so the
  counters `degree` and `m_numOfNodes` are not reduced modulo `2^32`;
* `(int)(log2(n) / log2(1.618))` is modelled by the exact value of
  `floor (log n / log 1.618)`, computed in integer arithmetic.
-/

namespace Lab8

/-- The ways an execution can leave the defined behaviour of the C++ program. -/
inductive Fault where
  | nullDeref
  | danglingDeref
  | outOfBounds
  | badCast
  | outOfFuel
deriving DecidableEq, Repr

/-- `struct FibHeapNode`. -/
structure FibHeapNode where
  key : Int
  left : Option Nat
  right : Option Nat
  parent : Option Nat
  child : Option Nat
  degree : Int
  mark : Bool
deriving DecidableEq, Repr

/-- The free store: the node record at every allocated address, and the next address
that `new` hands out. -/
structure Store where
  cells : Nat → Option FibHeapNode
  next : Nat

/-- The data members of `class FibHeap`. -/
structure FibHeap where
  m_minNode : Option Nat
  m_numOfNodes : Int
deriving DecidableEq, Repr

/-- The store before any allocation. -/
def Store.empty : Store := ⟨fun _ => none, 0⟩

/-- `FibHeap::FibHeap()`. -/
def FibHeap.empty : FibHeap := ⟨none, 0⟩

/-- `const int FibHeap::m_minimumKey = 0x80000000`, the minimum `int` value. -/
def m_minimumKey : Int := -2147483648

/-- Reading `*p`. -/
def Store.load (s : Store) (p : Option Nat) : Except Fault FibHeapNode :=
  match p with
  | none => .error .nullDeref
  | some a =>
    match s.cells a with
    | none => .error .danglingDeref
    | some n => .ok n

/-- The store with the record at address `a` replaced by `f` of it (nothing changes when
`a` is not allocated). -/
def Store.upd (s : Store) (a : Nat) (f : FibHeapNode → FibHeapNode) : Store :=
  ⟨fun q => if q = a then (s.cells a).map f else s.cells q, s.next⟩

/-- Writing a field of `*p`. -/
def Store.modify (s : Store) (p : Option Nat) (f : FibHeapNode → FibHeapNode) :
    Except Fault Store :=
  match p with
  | none => .error .nullDeref
  | some a =>
    match s.cells a with
    | none => .error .danglingDeref
    | some _ => .ok (s.upd a f)

/-- The store with the cell at address `a` emptied. -/
def Store.erase (s : Store) (a : Nat) : Store :=
  ⟨fun q => if q = a then none else s.cells q, s.next⟩

/-- `delete p`. -/
def Store.free (s : Store) (p : Option Nat) : Except Fault Store :=
  match p with
  | none => .error .nullDeref
  | some a =>
    match s.cells a with
    | none => .error .danglingDeref
    | some _ => .ok (s.erase a)

/-- `FibHeap::_create_node`. -/
def _create_node (s : Store) (newKey : Int) : Store × Option Nat :=
  let a := s.next
  let newNode : FibHeapNode :=
    { key := newKey, left := some a, right := some a, parent := none, child := none,
      degree := 0, mark := false }
  (⟨fun q => if q = a then some newNode else s.cells q, a + 1⟩, some a)

/-- `FibHeap::_remove_from_circular_list`. -/
def _remove_from_circular_list (s : Store) (x : Option Nat) : Except Fault Store := do
  let nx ← s.load x
  if nx.right = x then
    pure s
  else
    let leftSib := nx.left
    let rightSib := nx.right
    let s ← s.modify leftSib (fun n => { n with right := rightSib })
    let s ← s.modify rightSib (fun n => { n with left := leftSib })
    pure s

/-- `FibHeap::_merge`. -/
def _merge (s : Store) (a b : Option Nat) : Except Fault (Store × Option Nat) :=
  if a = none then
    pure (s, b)
  else if b = none then
    pure (s, a)
  else do
    let na ← s.load a
    let nb ← s.load b
    let ab : Option Nat × Option Nat := if na.key > nb.key then (b, a) else (a, b)
    let a := ab.1
    let b := ab.2
    let aRight := (← s.load a).right
    let bLeft := (← s.load b).left
    let s ← s.modify a (fun n => { n with right := b })
    let s ← s.modify b (fun n => { n with left := a })
    let s ← s.modify aRight (fun n => { n with left := bLeft })
    let s ← s.modify bLeft (fun n => { n with right := aRight })
    pure (s, a)

/-- `FibHeap::_insert_node`. -/
def _insert_node (s : Store) (h : FibHeap) (newNode : Option Nat) :
    Except Fault (Store × FibHeap) := do
  let (s, m) ← _merge s h.m_minNode newNode
  pure (s, ⟨m, h.m_numOfNodes + 1⟩)

/-- `FibHeap::insert`: the new store, the new heap record and the returned node. -/
def insert (s : Store) (h : FibHeap) (newKey : Int) :
    Except Fault (Store × FibHeap × Option Nat) := do
  let (s, newNode) := _create_node s newKey
  let (s, h) ← _insert_node s h newNode
  pure (s, h, newNode)

/-- `FibHeap::_create_node` when `new` returns the address `a`, an address that holds no
node: the next unused one or one that `delete` has released. -/
def _create_node_at (s : Store) (a : Nat) (newKey : Int) : Store × Option Nat :=
  let newNode : FibHeapNode :=
    { key := newKey, left := some a, right := some a, parent := none, child := none,
      degree := 0, mark := false }
  (⟨fun q => if q = a then some newNode else s.cells q, max s.next (a + 1)⟩, some a)

/-- `FibHeap::insert` when `new` returns the address `a`. -/
def insert_at (s : Store) (h : FibHeap) (a : Nat) (newKey : Int) :
    Except Fault (Store × FibHeap × Option Nat) := do
  let (s, newNode) := _create_node_at s a newKey
  let (s, h) ← _insert_node s h newNode
  pure (s, h, newNode)

/-- `FibHeap::merge`: the new store, `*this` and `another` after the call. -/
def merge (s : Store) (h another : FibHeap) : Except Fault (Store × FibHeap × FibHeap) := do
  let (s, m) ← _merge s h.m_minNode another.m_minNode
  pure (s, ⟨m, h.m_numOfNodes + another.m_numOfNodes⟩, ⟨none, 0⟩)

/-- The `do { y->parent = nullptr; y = y->right; } while (y != x)` loop of
`_unparent_all`, entered at `y`. -/
def unparentLoop (x : Option Nat) : Nat → Store → Option Nat → Except Fault Store
  | 0, _, _ => .error .outOfFuel
  | fuel + 1, s, y => do
    let s ← s.modify y (fun n => { n with parent := none })
    let y := (← s.load y).right
    if y ≠ x then unparentLoop x fuel s y else pure s

/-- `FibHeap::_unparent_all`. -/
def _unparent_all (fuel : Nat) (s : Store) (x : Option Nat) : Except Fault Store :=
  if x = none then pure s else unparentLoop x fuel s x

/-- `FibHeap::_make_child`. -/
def _make_child (s : Store) (child parent : Option Nat) : Except Fault Store := do
  let s ← _remove_from_circular_list s child
  let s ← s.modify child (fun n => { n with right := child })
  let s ← s.modify child (fun n => { n with left := child })
  let s ← s.modify child (fun n => { n with parent := parent })
  let (s, c) ← _merge s (← s.load parent).child child
  let s ← s.modify parent (fun n => { n with child := c })
  let s ← s.modify parent (fun n => { n with degree := n.degree + 1 })
  let s ← s.modify child (fun n => { n with mark := false })
  pure s

/-- The integer part of `log n / log 1.618` for `n ≥ 1`: the greatest `d` with
`1.618^d ≤ n` (no such `d` exceeds `n`). -/
def dnVal (n : Nat) : Nat :=
  Nat.findGreatest (fun d => 1618 ^ d ≤ n * 1000 ^ d) n

/-- The value of `(int)(log2(n) / log2(1.618))`.  For `n ≤ 0` the quotient is `-inf` or
NaN and the conversion to `int` is undefined. -/
def Dn (n : Int) : Except Fault Nat :=
  if n ≤ 0 then .error .badCast else pure (dnVal n.toNat)

/-- Reading `A[d]`. -/
def readA (A : List (Option Nat)) (d : Int) : Except Fault (Option Nat) :=
  if d < 0 then .error .outOfBounds
  else
    match A.get? d.toNat with
    | none => .error .outOfBounds
    | some v => pure v

/-- Writing `A[d] = v`. -/
def writeA (A : List (Option Nat)) (d : Int) (v : Option Nat) :
    Except Fault (List (Option Nat)) :=
  if d < 0 then .error .outOfBounds
  else if d.toNat < A.length then pure (A.set d.toNat v)
  else .error .outOfBounds

/-- The inner loop `while (A[d] != nullptr)` of `_consolidate`.  The result is the
store, the bucket array, `x`, `d` and `breakFlag` when the loop is left. -/
def consolidateInner :
    Nat → Store → List (Option Nat) → Option Nat → Int →
      Except Fault (Store × List (Option Nat) × Option Nat × Int × Bool)
  | 0, _, _, _, _ => .error .outOfFuel
  | fuel + 1, s, A, x, d => do
    let Ad ← readA A d
    if Ad = none then
      pure (s, A, x, d, false)
    else
      let y := Ad
      if y = x then
        pure (s, A, x, d, true)
      else
        let nx ← s.load x
        let ny ← s.load y
        let xy : Option Nat × Option Nat := if nx.key > ny.key then (y, x) else (x, y)
        let x := xy.1
        let y := xy.2
        let s ← _make_child s y x
        let A ← writeA A d none
        consolidateInner fuel s A x (d + 1)

/-- The outer loop `while (true)` of `_consolidate`; it returns the store and `x` when
`breakFlag` ends it. -/
def consolidateLoop :
    Nat → Store → List (Option Nat) → Option Nat → Except Fault (Store × Option Nat)
  | 0, _, _, _ => .error .outOfFuel
  | fuel + 1, s, A, x => do
    let d := (← s.load x).degree
    let (s, A, x, _, breakFlag) ← consolidateInner (fuel + 1) s A x d
    if breakFlag then
      pure (s, x)
    else
      let A ← writeA A (← s.load x).degree x
      let x := (← s.load x).right
      consolidateLoop fuel s A x

/-- The loop `do { if (iter->key < m_minNode->key) m_minNode = iter; iter = iter->right; }
while (iter != x)` of `_consolidate`; it returns `m_minNode`. -/
def minScanLoop (x : Option Nat) :
    Nat → Store → Option Nat → Option Nat → Except Fault (Option Nat)
  | 0, _, _, _ => .error .outOfFuel
  | fuel + 1, s, minNode, iter => do
    let ni ← s.load iter
    let nm ← s.load minNode
    let minNode := if ni.key < nm.key then iter else minNode
    let iter := ni.right
    if iter ≠ x then minScanLoop x fuel s minNode iter else pure minNode

/-- `FibHeap::_consolidate`. -/
def _consolidate (fuel : Nat) (s : Store) (h : FibHeap) : Except Fault (Store × FibHeap) := do
  let dn ← Dn h.m_numOfNodes
  let A : List (Option Nat) := List.replicate (dn + 1) none
  let (s, x) ← consolidateLoop fuel s A h.m_minNode
  let m ← minScanLoop x fuel s x x
  pure (s, ⟨m, h.m_numOfNodes⟩)

/-- `FibHeap::_extract_min_node`. -/
def _extract_min_node (fuel : Nat) (s : Store) (h : FibHeap) :
    Except Fault (Store × FibHeap × Option Nat) :=
  let min := h.m_minNode
  if min ≠ none then do
    let s ← _unparent_all fuel s (← s.load min).child
    let (s, _) ← _merge s min (← s.load min).child
    let s ← _remove_from_circular_list s min
    let (s, h) ←
      if min = (← s.load min).right then
        (pure (s, (⟨none, h.m_numOfNodes⟩ : FibHeap)) : Except Fault (Store × FibHeap))
      else
        _consolidate fuel s ⟨(← s.load min).right, h.m_numOfNodes⟩
    pure (s, ⟨h.m_minNode, h.m_numOfNodes - 1⟩, min)
  else
    pure (s, h, min)

/-- `FibHeap::extract_min`: the new store, the new heap record and the returned key. -/
def extract_min (fuel : Nat) (s : Store) (h : FibHeap) :
    Except Fault (Store × FibHeap × Int) := do
  let (s, h, minNode) ← _extract_min_node fuel s h
  let ret := (← s.load minNode).key
  let s ← s.free minNode
  pure (s, h, ret)

/-- `FibHeap::_cut`. -/
def _cut (s : Store) (h : FibHeap) (x y : Option Nat) : Except Fault Store := do
  let s ← _remove_from_circular_list s x
  let nx ← s.load x
  let s ←
    if nx.right = x then
      s.modify y (fun n => { n with child := none })
    else
      s.modify y (fun n => { n with child := nx.right })
  let s ← s.modify y (fun n => { n with degree := n.degree - 1 })
  let (s, _) ← _merge s h.m_minNode x
  let s ← s.modify x (fun n => { n with parent := none })
  let s ← s.modify x (fun n => { n with mark := false })
  pure s

/-- `FibHeap::_cascading_cut`; the fuel bounds the depth of the recursion. -/
def _cascading_cut (h : FibHeap) : Nat → Store → Option Nat → Except Fault Store
  | 0, _, _ => .error .outOfFuel
  | fuel + 1, s, y => do
    let ny ← s.load y
    let z := ny.parent
    if z ≠ none then
      if ny.mark = false then
        s.modify y (fun n => { n with mark := true })
      else
        let s ← _cut s h y z
        _cascading_cut h fuel s z
    else
      pure s

/-- `FibHeap::_decrease_key`. -/
def _decrease_key (fuel : Nat) (s : Store) (h : FibHeap) (x : Option Nat) (newKey : Int) :
    Except Fault (Store × FibHeap) := do
  let s ← s.modify x (fun n => { n with key := newKey })
  let y := (← s.load x).parent
  let s ←
    if y ≠ none then do
      let nx ← s.load x
      let ny ← s.load y
      if nx.key < ny.key then
        let s ← _cut s h x y
        _cascading_cut h fuel s y
      else
        pure s
    else
      pure s
  let nx ← s.load x
  let nm ← s.load h.m_minNode
  if nx.key < nm.key then
    pure (s, ⟨x, h.m_numOfNodes⟩)
  else
    pure (s, h)

/-- `FibHeap::decrease_key`. -/
def decrease_key (fuel : Nat) (s : Store) (h : FibHeap) (x : Option Nat) (newKey : Int) :
    Except Fault (Store × FibHeap) :=
  _decrease_key fuel s h x newKey

/-- `FibHeap::delete_node`. -/
def delete_node (fuel : Nat) (s : Store) (h : FibHeap) (x : Option Nat) :
    Except Fault (Store × FibHeap) := do
  let (s, h) ← _decrease_key fuel s h x m_minimumKey
  let (s, h, _) ← extract_min fuel s h
  pure (s, h)

/-- Inserting the keys of a list one after the other; the nodes returned by the
calls of `insert` are collected in order. -/
def insertAll : List Int → Store → FibHeap → Except Fault (Store × FibHeap × List (Option Nat))
  | [], s, h => pure (s, h, [])
  | k :: ks, s, h => do
    let (s, h, p) ← insert s h k
    let (s, h, ps) ← insertAll ks s h
    pure (s, h, p :: ps)

/-- Calling `extract_min` `n` times; the returned keys are collected in order. -/
def extractAll (fuel : Nat) : Nat → Store → FibHeap → Except Fault (Store × FibHeap × List Int)
  | 0, s, h => pure (s, h, [])
  | n + 1, s, h => do
    let (s, h, k) ← extract_min fuel s h
    let (s, h, ks) ← extractAll fuel n s h
    pure (s, h, k :: ks)

/-- The addresses met from `x` by following `right` until the walk is back at `start`
(at most `fuel` of them). -/
def walkRight (s : Store) (start : Nat) : Nat → Nat → List Nat
  | 0, _ => []
  | fuel + 1, x =>
    match s.cells x with
    | none => [x]
    | some n =>
      match n.right with
      | none => [x]
      | some y => if y = start then [x] else x :: walkRight s start fuel y

/-- The root list of a heap: the nodes met from `m_minNode` along `right`. -/
def rootList (s : Store) (h : FibHeap) : List Nat :=
  match h.m_minNode with
  | none => []
  | some m => walkRight s m s.next m

/-- The `degree` fields of a list of nodes. -/
def degreesOf (s : Store) (l : List Nat) : List (Option Int) :=
  l.map (fun a => (s.cells a).map (fun n => n.degree))

/-- The `key` fields of a list of nodes. -/
def keysOf (s : Store) (l : List Nat) : List (Option Int) :=
  l.map (fun a => (s.cells a).map (fun n => n.key))

/-- The allocated addresses of a store. -/
def liveNodes (s : Store) : List Nat :=
  (List.range s.next).filter (fun a => (s.cells a).isSome)


/-- The nodes met from `x` by following `child` and `right` pointers, the walk along
`right` ending when it is back at `start`: the node `x`, then the nodes below `x`, then
the nodes met from the right neighbour of `x`. -/
def collectFrom (s : Store) : Nat → Nat → Nat → List Nat
  | 0, _, _ => []
  | fuel + 1, start, x =>
    match s.cells x with
    | none => []
    | some n =>
      x :: ((match n.child with
          | none => []
          | some c => collectFrom s fuel c c) ++
        (match n.right with
          | none => []
          | some y => if y = start then [] else collectFrom s fuel start y))

/-- The nodes of a heap: those reachable from `m_minNode` through `right` and `child`
pointers. -/
def nodesOf (s : Store) (h : FibHeap) : List Nat :=
  match h.m_minNode with
  | none => []
  | some m => collectFrom s s.next m m

/-! ## Reading the pointer graph -/

/-- The `right` field of the node at `a` (`none` when `a` is not allocated). -/
def Store.rgt (s : Store) (a : Nat) : Option Nat := (s.cells a).bind (fun n => n.right)

/-- The `left` field of the node at `a`. -/
def Store.lft (s : Store) (a : Nat) : Option Nat := (s.cells a).bind (fun n => n.left)

/-- The `key` field of the node at `a`. -/
def Store.keyAt (s : Store) (a : Nat) : Option Int := (s.cells a).map (fun n => n.key)

/-- The key of the node at `a` as a number (`0` when `a` is not allocated). -/
def Store.kv (s : Store) (a : Nat) : Int := (s.keyAt a).getD 0

/-- The `degree` field of the node at `a`. -/
def Store.deg (s : Store) (a : Nat) : Option Int := (s.cells a).map (fun n => n.degree)

/-- The node record with the two sibling links and the mark blanked: what is left of a
node for a reader that only looks at `key`, `parent`, `child` and `degree`. -/
def core (n : FibHeapNode) : FibHeapNode :=
  { n with left := none, right := none, mark := false }

/-- The node `y` is the right neighbour of `x` and `x` is the left neighbour of `y`. -/
def Lnk (s : Store) (x y : Nat) : Prop := s.rgt x = some y ∧ s.lft y = some x

/-- The list `l` is laid out as a circular doubly-linked list: each element is linked to
the next one and the last one to the first. -/
def Cyc (s : Store) : List Nat → Prop
  | [] => True
  | a :: l => List.Chain' (Lnk s) (a :: l ++ [a])

/-- A forest of nodes in first-child / next-sibling form: `node a kids rest` is the tree
rooted at address `a` with children `kids`, followed by the sibling trees `rest`. -/
inductive Forest where
  | nil : Forest
  | node (a : Nat) (kids : Forest) (rest : Forest) : Forest

/-- The addresses of the roots of a forest. -/
def Forest.tops : Forest → List Nat
  | .nil => []
  | .node a _ r => a :: r.tops

/-- The addresses of all the nodes of a forest. -/
def Forest.addrs : Forest → List Nat
  | .nil => []
  | .node a k r => a :: (k.addrs ++ r.addrs)

/-- The addresses of the nodes of a forest that are not roots. -/
def Forest.inner : Forest → List Nat
  | .nil => []
  | .node _ k r => k.addrs ++ r.inner

/-- The forest made of the trees of `f` followed by the trees of `g`. -/
def Forest.append : Forest → Forest → Forest
  | .nil, g => g
  | .node a k r, g => .node a k (r.append g)

/-- The node at `a` has parent `par`, its `degree` is the number of its children `k`,
its `child` pointer is null when it has no children and points to the first of them
otherwise, and its key is at most the key of each child. -/
def NodeOK (s : Store) (par : Option Nat) (a : Nat) (k : Forest) : Prop :=
  ∃ n, s.cells a = some n ∧ n.parent = par ∧ n.degree = (k.tops.length : Int) ∧
    n.child = k.tops.head? ∧ (∀ c ∈ k.tops, n.key ≤ s.kv c)

/-- The trees of the forest are laid out in the store below the parent `par`: every
node is as `NodeOK` says and the children of every node form a circular list.  (The
circular list of the roots themselves is stated apart, by `Cyc`.) -/
def Lay (s : Store) : Option Nat → Forest → Prop
  | _, .nil => True
  | par, .node a k r => NodeOK s par a k ∧ Cyc s k.tops ∧ Lay s (some a) k ∧ Lay s par r

/-- The degree bound behind the size of the bucket array: a node with `d` children
heads a tree of at least `1.618^d` nodes. -/
def DegOK : Forest → Prop
  | .nil => True
  | .node _ k r =>
    1618 ^ k.tops.length ≤ (1 + k.addrs.length) * 1000 ^ k.tops.length ∧ DegOK k ∧ DegOK r

/-- The forest `f` is laid out in the store as a heap-ordered forest below the parent
`par`: its roots form a circular list, no node occurs twice, and the degree bound
holds. -/
structure Shape (s : Store) (par : Option Nat) (f : Forest) : Prop where
  cyc : Cyc s f.tops
  lay : Lay s par f
  nodup : f.addrs.Nodup
  deg : DegOK f

/-- The forest `f` is the content of the heap `h` in the store `s`: the roots of `f` are
the circular root list, listed from `m_minNode` on (which is null when the forest is
empty), `m_minNode` has the least key among the roots, and `m_numOfNodes` is the number
of nodes. -/
structure WF (s : Store) (h : FibHeap) (f : Forest) : Prop where
  shape : Shape s none f
  size : h.m_numOfNodes = (f.addrs.length : Int)
  bound : ∀ a ∈ f.addrs, a < s.next
  minHead : h.m_minNode = f.tops.head?
  minLeast : ∀ m, h.m_minNode = some m → ∀ r ∈ f.tops, s.kv m ≤ s.kv r

/-- The store after the four pointer writes of `_merge`: `a->right = b`, `b->left = a`,
`aRight->left = bLeft`, `bLeft->right = aRight`. -/
def splice (s : Store) (a b aRight bLeft : Nat) : Store :=
  (((s.upd a (fun n => { n with right := some b })).upd b
    (fun n => { n with left := some a })).upd aRight
    (fun n => { n with left := some bLeft })).upd bLeft
    (fun n => { n with right := some aRight })

/-- The store after the two pointer writes of `_remove_from_circular_list`:
`leftSib->right = rightSib`, `rightSib->left = leftSib`. -/
def unlink (s : Store) (leftSib rightSib : Nat) : Store :=
  (s.upd leftSib (fun n => { n with right := some rightSib })).upd rightSib
    (fun n => { n with left := some leftSib })

/-- The store `s'` differs from `s` only in cells of `L`, and in no key; nothing was
allocated or freed. -/
structure Frame (s s' : Store) (L : List Nat) : Prop where
  next : s'.next = s.next
  key : ∀ a, s'.keyAt a = s.keyAt a
  off : ∀ a, a ∉ L → s'.cells a = s.cells a

/-- The store after `_unparent_all` has walked the nodes of `l`. -/
def unparentAll (s : Store) (l : List Nat) : Store :=
  l.foldl (fun s a => s.upd a (fun n => { n with parent := none })) s

/-- The node that `_merge` returns on well-formed arguments: the other one when one is
null, otherwise the one of smaller key, the first one when the keys are equal. -/
def pickMin (s : Store) : Option Nat → Option Nat → Option Nat
  | none, b => b
  | some a, none => some a
  | some a, some b => if s.kv a ≤ s.kv b then some a else some b

/-- The store after `child->left = child->right = child; child->parent = parent` of
`_make_child`. -/
def selfLoop (s : Store) (y x : Nat) : Store :=
  ((s.upd y (fun n => { n with right := some y })).upd y
    (fun n => { n with left := some y })).upd y (fun n => { n with parent := some x })

/-- The store after `parent->child = c; parent->degree++; child->mark = false` of
`_make_child`. -/
def attach (s : Store) (x y : Nat) (c : Option Nat) : Store :=
  ((s.upd x (fun n => { n with child := c })).upd x
    (fun n => { n with degree := n.degree + 1 })).upd y (fun n => { n with mark := false })

/-- The invariant of the scan loop of `_consolidate`, for a heap whose `m_numOfNodes` is
`N`: the roots are a laid-out forest `g` of fewer than `N` nodes, the bucket array has
`dnVal N + 1` entries, the nodes held in it are the list `B`, and the node in bucket `i`
is a root of degree `i`. -/
structure CInv (s : Store) (g : Forest) (A : List (Option Nat)) (B : List Nat) (N : Nat) :
    Prop where
  shape : Shape s none g
  small : g.addrs.length < N
  len : A.length = dnVal N + 1
  bNodup : B.Nodup
  bMem : ∀ y, y ∈ B ↔ ∃ i, A.get? i = some (some y)
  aRoot : ∀ i y, A.get? i = some (some y) → y ∈ g.tops ∧ s.deg y = some (i : Int)

/-- A heap is well-formed in a store when some forest is its content. -/
def WellFormed (s : Store) (h : FibHeap) : Prop := ∃ f, WF s h f

/-- The worlds that a program can reach from the start using only the constructor,
`insert`, `merge` and `extract_min`: a store and the heap objects that live in it.  An
operation acts on the first heap of the list (`merge` on the first two, which are two
different heap objects), and the list can be reordered at will; a call counts once it has
returned, with whatever fuel it needed. -/
inductive Reach : Store → List FibHeap → Prop
  | init : Reach Store.empty []
  | create {s : Store} {hs : List FibHeap} : Reach s hs → Reach s (FibHeap.empty :: hs)
  | reorder {s : Store} {hs hs' : List FibHeap} : Reach s hs → hs.Perm hs' → Reach s hs'
  | insert {s s' : Store} {h h' : FibHeap} {hs : List FibHeap} {k : Int} {p : Option Nat} :
      Reach s (h :: hs) → insert s h k = .ok (s', h', p) → Reach s' (h' :: hs)
  | merge {s s' : Store} {h₁ h₂ h₁' h₂' : FibHeap} {hs : List FibHeap} :
      Reach s (h₁ :: h₂ :: hs) → merge s h₁ h₂ = .ok (s', h₁', h₂') →
      Reach s' (h₁' :: h₂' :: hs)
  | extract {s s' : Store} {h h' : FibHeap} {hs : List FibHeap} {fuel : Nat} {k : Int} :
      Reach s (h :: hs) → extract_min fuel s h = .ok (s', h', k) → Reach s' (h' :: hs)

/-- The invariant of the reachable worlds: every heap is well-formed and no node belongs
to two heaps. -/
def WInv (s : Store) (hs : List FibHeap) : Prop :=
  (∀ h ∈ hs, WellFormed s h) ∧
    hs.Pairwise (fun a b => (nodesOf s a).Disjoint (nodesOf s b))

/-- The heap-order invariant of a store: every node whose `parent` field is a node has a
key not smaller than the key of that node. -/
def HeapOrder (s : Store) : Prop :=
  ∀ x nx y ny, s.cells x = some nx → nx.parent = some y → s.cells y = some ny →
    ny.key ≤ nx.key

/-- The heap-order invariant at every node but `e`. -/
def HeapOrderOff (s : Store) (e : Nat) : Prop :=
  ∀ x nx y ny, x ≠ e → s.cells x = some nx → nx.parent = some y → s.cells y = some ny →
    ny.key ≤ nx.key

/-- No address from `next` on is allocated, or stored in a `parent` field. -/
structure Fresh (s : Store) : Prop where
  alloc : ∀ a, s.next ≤ a → s.cells a = none
  par : ∀ a n p, s.cells a = some n → n.parent = some p → p < s.next

/-- The store `s'` comes from `s` by writes that allocate and free nothing, change no key,
and leave each `parent` field as it was, or null, or pointing to a node whose key is not
greater than the key of the node. -/
structure Ev (s s' : Store) : Prop where
  next : s'.next = s.next
  dead : ∀ a, s.cells a = none → s'.cells a = none
  live : ∀ a n, s.cells a = some n → ∃ n', s'.cells a = some n' ∧ n'.key = n.key ∧
    (n'.parent = n.parent ∨ n'.parent = none ∨
      ∃ p np, n'.parent = some p ∧ s.cells p = some np ∧ np.key ≤ n.key)

/-- The worlds that a program can reach from the start using the constructor, `insert`,
`merge`, `extract_min` and `decrease_key(x, newKey)` on an allocated node `x` with
`newKey <= x->key`: a store and the heap objects that live in it.  An operation acts on
the first heap of the list (`merge` on the first two), and the list can be reordered at
will; a call counts once it has returned, with whatever fuel it needed. -/
inductive ReachDK : Store → List FibHeap → Prop
  | init : ReachDK Store.empty []
  | create {s : Store} {hs : List FibHeap} : ReachDK s hs → ReachDK s (FibHeap.empty :: hs)
  | reorder {s : Store} {hs hs' : List FibHeap} : ReachDK s hs → hs.Perm hs' → ReachDK s hs'
  | insert {s s' : Store} {h h' : FibHeap} {hs : List FibHeap} {k : Int} {p : Option Nat} :
      ReachDK s (h :: hs) → insert s h k = .ok (s', h', p) → ReachDK s' (h' :: hs)
  | merge {s s' : Store} {h₁ h₂ h₁' h₂' : FibHeap} {hs : List FibHeap} :
      ReachDK s (h₁ :: h₂ :: hs) → merge s h₁ h₂ = .ok (s', h₁', h₂') →
      ReachDK s' (h₁' :: h₂' :: hs)
  | extract {s s' : Store} {h h' : FibHeap} {hs : List FibHeap} {fuel : Nat} {k : Int} :
      ReachDK s (h :: hs) → extract_min fuel s h = .ok (s', h', k) → ReachDK s' (h' :: hs)
  | decrease {s s' : Store} {h h' : FibHeap} {hs : List FibHeap} {fuel : Nat} {x : Nat}
      {nx : FibHeapNode} {newKey : Int} :
      ReachDK s (h :: hs) → s.cells x = some nx → newKey ≤ nx.key →
      decrease_key fuel s h (some x) newKey = .ok (s', h') → ReachDK s' (h' :: hs)

/-- The four pointers of the record stay inside the list `L`: `left` and `right` are
nodes of `L`, `parent` and `child` are null or nodes of `L`. -/
def PtrsIn (L : List Nat) (n : FibHeapNode) : Prop :=
  (∃ l ∈ L, n.left = some l) ∧ (∃ r ∈ L, n.right = some r) ∧
    (∀ p, n.parent = some p → p ∈ L) ∧ (∀ c, n.child = some c → c ∈ L)

/-- Every node of `L` is allocated and its pointers stay inside `L`. -/
def Closed (s : Store) (L : List Nat) : Prop :=
  ∀ a ∈ L, ∃ n, s.cells a = some n ∧ PtrsIn L n

/-- What is left of a node for a reader that only looks at `key`, `parent` and `mark`. -/
def tag (n : FibHeapNode) : Int × Option Nat × Bool := (n.key, n.parent, n.mark)

/-- Whether the node at `a` is allocated and marked. -/
def isMarked (s : Store) (a : Nat) : Bool :=
  match s.cells a with
  | none => false
  | some n => n.mark

/-- Min correctness of the heap `h` with respect to the nodes `L`: `m_minNode` is an
allocated node and its key is at most the key of every node of `L`, all of them
allocated. -/
def MinCorrect (s : Store) (h : FibHeap) (L : List Nat) : Prop :=
  ∃ m nm, h.m_minNode = some m ∧ s.cells m = some nm ∧
    ∀ a ∈ L, ∃ na, s.cells a = some na ∧ nm.key ≤ na.key

/-- The circular list entered at `y->child`: the nodes met from the `child` pointer of
the node at `y` along `right` until the walk is back at its start (no node when the
pointer is null). -/
def childrenOf (s : Store) (y : Nat) : List Nat :=
  match (s.cells y).bind (fun n => n.child) with
  | none => []
  | some c => walkRight s c s.next c

/-- The record `n` of the node at `x` is linked into a doubly-linked list:
`x->left->right == x` and `x->right->left == x`. -/
def Linked (s : Store) (x : Nat) (n : FibHeapNode) : Prop :=
  (∃ l nl, n.left = some l ∧ s.cells l = some nl ∧ nl.right = some x) ∧
    (∃ r nr, n.right = some r ∧ s.cells r = some nr ∧ nr.left = some x)

/-- The record `n` of the node at `y` agrees with the child list of `y`: `degree` is the
number of nodes in the circular list entered at `child`, `child` is null exactly when
`degree` is 0, and every node of that list has `y` as its parent. -/
def ChildrenOK (s : Store) (y : Nat) (n : FibHeapNode) : Prop :=
  n.degree = ((childrenOf s y).length : Int) ∧ (n.child = none ↔ n.degree = 0) ∧
    ∀ c ∈ childrenOf s y, ∃ nc, s.cells c = some nc ∧ nc.parent = some y

/-- The store `s'` comes from `s` by writes that mark no node and leave no marked node
without a parent that had one. -/
def Calm (s s' : Store) : Prop :=
  ∀ a n', s'.cells a = some n' → n'.mark = true →
    ∃ n, s.cells a = some n ∧ n.mark = true ∧ (n'.parent = none → n.parent = none)

/-- Every marked node of `s'` was a marked node of `s`. -/
def NoNewMark (s s' : Store) : Prop :=
  ∀ a n', s'.cells a = some n' → n'.mark = true → ∃ n, s.cells a = some n ∧ n.mark = true

/-- Every marked node without parent of `s'` was a marked node without parent of `s`. -/
def NoNewMarkedRoot (s s' : Store) : Prop :=
  ∀ a n', s'.cells a = some n' → n'.parent = none → n'.mark = true →
    ∃ n, s.cells a = some n ∧ n.parent = none ∧ n.mark = true

/-- The worlds that a program can reach from the start using the constructor, `insert`,
`extract_min` and `decrease_key(x, newKey)` on an allocated node `x` with
`newKey <= x->key`, together with the set `X` of the nodes that a call of `extract_min`
has turned from a node with a parent into a node without one. -/
inductive ReachX : Store → List FibHeap → (Nat → Prop) → Prop
  | init : ReachX Store.empty [] (fun _ => False)
  | create {s : Store} {hs : List FibHeap} {X : Nat → Prop} :
      ReachX s hs X → ReachX s (FibHeap.empty :: hs) X
  | reorder {s : Store} {hs hs' : List FibHeap} {X : Nat → Prop} :
      ReachX s hs X → hs.Perm hs' → ReachX s hs' X
  | insert {s s' : Store} {h h' : FibHeap} {hs : List FibHeap} {X : Nat → Prop} {k : Int}
      {p : Option Nat} :
      ReachX s (h :: hs) X → insert s h k = .ok (s', h', p) → ReachX s' (h' :: hs) X
  | extract {s s' : Store} {h h' : FibHeap} {hs : List FibHeap} {X : Nat → Prop} {fuel : Nat}
      {k : Int} :
      ReachX s (h :: hs) X → extract_min fuel s h = .ok (s', h', k) →
      ReachX s' (h' :: hs) (fun a => X a ∨
        ∃ n n', s.cells a = some n ∧ n.parent ≠ none ∧ s'.cells a = some n' ∧ n'.parent = none)
  | decrease {s s' : Store} {h h' : FibHeap} {hs : List FibHeap} {X : Nat → Prop} {fuel : Nat}
      {x : Nat} {nx : FibHeapNode} {newKey : Int} :
      ReachX s (h :: hs) X → s.cells x = some nx → newKey ≤ nx.key →
      decrease_key fuel s h (some x) newKey = .ok (s', h') → ReachX s' (h' :: hs) X

/-- The statements of `_extract_min_node` before its call of `_consolidate`, for a heap
whose root list is not left empty: the store and the heap record (`m_minNode` set to
`min->right`) that `_consolidate` is entered with. -/
def consolidateEntry (fuel : Nat) (s : Store) (h : FibHeap) : Except Fault (Store × FibHeap) := do
  let min := h.m_minNode
  let s ← _unparent_all fuel s (← s.load min).child
  let (s, _) ← _merge s min (← s.load min).child
  let s ← _remove_from_circular_list s min
  pure (s, ⟨(← s.load min).right, h.m_numOfNodes⟩)

/-- The states of the scan loop of `_consolidate` for a heap with `m_numOfNodes = N`:
the scan invariant `CInv` holds for some forest and some list of bucket nodes, and the
current node `x` is a root. -/
def ScanInv (s : Store) (A : List (Option Nat)) (x : Nat) (N : Nat) : Prop :=
  ∃ g B, CInv s g A B N ∧ x ∈ g.tops

/-- What is left of a node for a reader that only looks at `parent`, `mark` and
`degree`. -/
def pmd (n : FibHeapNode) : Option Nat × Bool × Int := (n.parent, n.mark, n.degree)

/-- The depth of the node `a` in the forest `f` (0 for a root, and for a node that is
not in `f`). -/
def Forest.depthOf : Forest → Nat → Nat
  | .nil, _ => 0
  | .node b k r, a => if a = b then 0 else if a ∈ k.addrs then k.depthOf a + 1 else r.depthOf a

/-- Every parent pointer of a node of `L` points to a node of `L` of smaller rank. -/
def Ranked (s : Store) (L : List Nat) (rk : Nat → Nat) : Prop :=
  ∀ a ∈ L, ∀ n p, s.cells a = some n → n.parent = some p → p ∈ L ∧ rk p < rk a

/-- Every tree of the forest is a binomial tree as far as its size goes: a node with `d`
children heads a tree of exactly `2^d` nodes. -/
def Binom : Forest → Prop
  | .nil => True
  | .node _ k r => 1 + k.addrs.length = 2 ^ k.tops.length ∧ Binom k ∧ Binom r

/-- The nodes of the tree that the node at `x` heads: `x` itself and the nodes met from
`x->child` through `child` and `right` pointers. -/
def treeOf (s : Store) (x : Nat) : List Nat :=
  match s.cells x with
  | none => []
  | some n =>
    x :: (match n.child with
      | none => []
      | some c => collectFrom s s.next c c)
end Lab8

/-!
Splay tree (`Лабораторна робота 3.cpp`): pointer-level embedding of `Splayer<T>`

* a `Mem T` maps addresses (`Nat`) to `Node<T>` records; a pointer is an `Option Nat`
  (`none` is `nullptr`); the functions allocate and free nothing;
* every function is a function on the store, returning `Except Trap _`: a `Trap` is raised
  where the C++ program has undefined behaviour (dereferencing `nullptr` or a pointer to
  no node), and `Trap.outOfFuel` when the loop of `splay` did not finish within the
  supplied fuel;
* a reference `Node<T>*&` to a member `left` or `right` of a node is the address of the
  node together with a `Member`; the reference `parent` of `zig` to `m_node->parent` is
  read where it is used;
* `&&` and `||` evaluate their right operand only when the left one does not decide;
* the statements with which `zigzig` and `zigzag` both begin are the function `relink`.
-/

namespace Lab3

/-- The ways an execution can leave the defined behaviour of the C++ program. -/
inductive Trap where
  | nullDeref
  | danglingDeref
  | outOfFuel
deriving DecidableEq, Repr

/-- `struct Node<T>`: the data and the three pointers. -/
structure Node (T : Type) where
  data : T
  left : Option Nat
  right : Option Nat
  parent : Option Nat

/-- The free store: the node record at every allocated address. -/
abbrev Mem (T : Type) := Nat → Option (Node T)

/-- Reading `*p`. -/
def fetch {T : Type} (s : Mem T) (p : Option Nat) : Except Trap (Node T) :=
  match p with
  | none => .error .nullDeref
  | some a =>
    match s a with
    | none => .error .danglingDeref
    | some n => .ok n

/-- The store with the record at address `a` replaced by `f` of it (nothing changes when
`a` is not allocated). -/
def patch {T : Type} (s : Mem T) (a : Nat) (f : Node T → Node T) : Mem T :=
  fun q => if q = a then (s a).map f else s q

/-- Writing a member of `*p`. -/
def amend {T : Type} (s : Mem T) (p : Option Nat) (f : Node T → Node T) :
    Except Trap (Mem T) :=
  match p with
  | none => .error .nullDeref
  | some a =>
    match s a with
    | none => .error .danglingDeref
    | some _ => .ok (patch s a f)

/-- `Node::isLeftSon`, called on `*self`. -/
def isLeftSon {T : Type} (s : Mem T) (self : Option Nat) : Except Trap Bool := do
  let n ← fetch s self
  if n.parent = none then
    pure false
  else
    let p ← fetch s n.parent
    if p.left = none then
      pure false
    else
      pure (decide (p.left = self))

/-- `Node::isRightSon`, called on `*self`. -/
def isRightSon {T : Type} (s : Mem T) (self : Option Nat) : Except Trap Bool := do
  let n ← fetch s self
  if n.parent = none then
    pure false
  else
    let p ← fetch s n.parent
    if p.right = none then
      pure false
    else
      pure (decide (p.right = self))

/-- The pointer members `left` and `right` of a node, to which `set` takes a
reference. -/
inductive Member where
  | left
  | right
deriving DecidableEq, Repr

/-- The record with its member `m` set to `value`. -/
def Member.assign {T : Type} (m : Member) (value : Option Nat) (n : Node T) : Node T :=
  match m with
  | .left => { n with left := value }
  | .right => { n with right := value }

/-- `detail::set(var, value, new_parent)` with `var` the member `m` of `*owner`:
`var = value; if (var) var->parent = new_parent;`. -/
def set {T : Type} (s : Mem T) (owner : Option Nat) (m : Member) (value new_parent : Option Nat) :
    Except Trap (Mem T) := do
  let s ← amend s owner (m.assign value)
  if value ≠ none then
    amend s value (fun n => { n with parent := new_parent })
  else
    pure s

/-- `Splayer<T>::zig`; `parent` is a reference to `m_node->parent`, read when it is
used. -/
def zig {T : Type} (s : Mem T) (m_node : Option Nat) : Except Trap (Mem T) := do
  let isL ← isLeftSon s m_node
  let s ←
    if isL then do
      let parent := (← fetch s m_node).parent
      let s ← set s parent .left (← fetch s m_node).right parent
      let parent := (← fetch s m_node).parent
      set s m_node .right parent m_node
    else do
      let isR ← isRightSon s m_node
      if isR then do
        let parent := (← fetch s m_node).parent
        let s ← set s parent .right (← fetch s m_node).left parent
        let parent := (← fetch s m_node).parent
        set s m_node .left parent m_node
      else
        pure s
  amend s m_node (fun n => { n with parent := none })

/-- The statements `if (grandparent->isLeftSon()) mostParent->left = m_node; else if
(grandparent->isRightSon()) mostParent->right = m_node;` with which `zigzig` and `zigzag`
both begin. -/
def relink {T : Type} (s : Mem T) (m_node grandparent mostParent : Option Nat) :
    Except Trap (Mem T) := do
  let gL ← isLeftSon s grandparent
  if gL then
    amend s mostParent (fun n => { n with left := m_node })
  else do
    let gR ← isRightSon s grandparent
    if gR then
      amend s mostParent (fun n => { n with right := m_node })
    else
      pure s

/-- `Splayer<T>::zigzig`. -/
def zigzig {T : Type} (s : Mem T) (m_node : Option Nat) : Except Trap (Mem T) := do
  let mostParent := (← fetch s (← fetch s (← fetch s m_node).parent).parent).parent
  let grandparent := (← fetch s (← fetch s m_node).parent).parent
  let s ← relink s m_node grandparent mostParent
  let parent := (← fetch s m_node).parent
  let nL ← isLeftSon s m_node
  let pL ← if nL then isLeftSon s parent else pure false
  let s ←
    if nL && pL then do
      let s ← set s grandparent .left (← fetch s parent).right grandparent
      let s ← set s parent .right grandparent parent
      let s ← set s parent .left (← fetch s m_node).right parent
      set s m_node .right parent m_node
    else do
      let nR ← isRightSon s m_node
      let pR ← if nR then isRightSon s parent else pure false
      if nR && pR then do
        let s ← set s grandparent .right (← fetch s parent).left grandparent
        let s ← set s parent .left grandparent parent
        let s ← set s parent .right (← fetch s m_node).left parent
        set s m_node .left parent m_node
      else
        pure s
  amend s m_node (fun n => { n with parent := mostParent })

/-- `Splayer<T>::zigzag`. -/
def zigzag {T : Type} (s : Mem T) (m_node : Option Nat) : Except Trap (Mem T) := do
  let mostParent := (← fetch s (← fetch s (← fetch s m_node).parent).parent).parent
  let grandparent := (← fetch s (← fetch s m_node).parent).parent
  let s ← relink s m_node grandparent mostParent
  let parent := (← fetch s m_node).parent
  let nR ← isRightSon s m_node
  let pL ← if nR then isLeftSon s parent else pure false
  let s ←
    if nR && pL then do
      let s ← set s grandparent .left (← fetch s m_node).right grandparent
      let s ← set s parent .right (← fetch s m_node).left parent
      let s ← set s m_node .left parent m_node
      set s m_node .right grandparent m_node
    else do
      let nL ← isLeftSon s m_node
      let pR ← if nL then isRightSon s parent else pure false
      if nL && pR then do
        let s ← set s grandparent .right (← fetch s m_node).left grandparent
        let s ← set s parent .left (← fetch s m_node).right parent
        let s ← set s m_node .right parent m_node
        set s m_node .left grandparent m_node
      else
        pure s
  amend s m_node (fun n => { n with parent := mostParent })

/-- The loop of `Splayer<T>::splay`; the fuel bounds the number of its turns. -/
def splayLoop {T : Type} : Nat → Mem T → Option Nat → Except Trap (Mem T × Option Nat)
  | 0, _, _ => .error .outOfFuel
  | fuel + 1, s, m_node => do
    if (← fetch s m_node).parent ≠ none then
      let parent := (← fetch s m_node).parent
      let nR ← isRightSon s m_node
      let c₁ ← if nR then isLeftSon s parent else pure false
      let c₂ ← if c₁ then pure true else do
        let nL ← isLeftSon s m_node
        if nL then isRightSon s parent else pure false
      if c₂ then
        let s ← zigzag s m_node
        splayLoop fuel s m_node
      else
        let nL ← isLeftSon s m_node
        let d₁ ← if nL then isLeftSon s parent else pure false
        let d₂ ← if d₁ then pure true else do
          let nR ← isRightSon s m_node
          if nR then isRightSon s parent else pure false
        if d₂ then
          let s ← zigzig s m_node
          splayLoop fuel s m_node
        else
          let s ← zig s m_node
          pure (s, m_node)
    else
      pure (s, m_node)

/-- `lab::splay(node)`, that is `Splayer{node}.splay()`. -/
def splay {T : Type} (fuel : Nat) (s : Mem T) (node : Option Nat) :
    Except Trap (Mem T × Option Nat) :=
  splayLoop fuel s node

/-- A binary tree of addresses. -/
inductive Tree where
  | nil
  | node (l : Tree) (a : Nat) (r : Tree)
deriving DecidableEq, Repr

/-- The address of the root (null for the empty tree). -/
def Tree.root : Tree → Option Nat
  | .nil => none
  | .node _ a _ => some a

/-- The in-order sequence of the addresses. -/
def Tree.inorder : Tree → List Nat
  | .nil => []
  | .node l a r => l.inorder ++ a :: r.inorder

/-- The tree `t` is laid out in the store below the parent `par`: the node at the root
has `parent == par`, its `left` and `right` are the roots of the two subtrees, and these
are laid out below it. -/
def Laid {T : Type} (s : Mem T) : Option Nat → Tree → Prop
  | _, .nil => True
  | par, .node l a r =>
    (∃ d, s a = some ⟨d, l.root, r.root, par⟩) ∧ Laid s (some a) l ∧ Laid s (some a) r

/-- The side on which a subtree hangs. -/
inductive Dir where
  | L
  | R
deriving DecidableEq, Repr

/-- One step of the path from a subtree up to the root: the subtree hangs on side `dir`
of the node `p`, whose other subtree is `sib`. -/
structure Crumb where
  dir : Dir
  p : Nat
  sib : Tree

/-- The tree that has `t` at the end of the path `c` (the nearest ancestor first). -/
def plug : List Crumb → Tree → Tree
  | [], t => t
  | ⟨.L, p, sib⟩ :: c, t => plug c (.node t p sib)
  | ⟨.R, p, sib⟩ :: c, t => plug c (.node sib p t)

/-- The parent of the subtree at the end of the path `c`. -/
def ctxPar : List Crumb → Option Nat
  | [] => none
  | f :: _ => some f.p

/-- The addresses before the subtree at the end of the path, in in-order. -/
def ctxL : List Crumb → List Nat
  | [] => []
  | ⟨.L, _, _⟩ :: c => ctxL c
  | ⟨.R, p, sib⟩ :: c => ctxL c ++ (sib.inorder ++ [p])

/-- The addresses after the subtree at the end of the path, in in-order. -/
def ctxR : List Crumb → List Nat
  | [] => []
  | ⟨.L, p, sib⟩ :: c => (p :: sib.inorder) ++ ctxR c
  | ⟨.R, _, _⟩ :: c => ctxR c

/-- The store with the record at `v` replaced by `f` of it, when `v` is not null. -/
def patcho {T : Type} (s : Mem T) (v : Option Nat) (f : Node T → Node T) : Mem T :=
  match v with
  | none => s
  | some c => patch s c f

/-- The store after `set(var, value, new_parent)` with `var` the member `m` of the node
at `x`, when no pointer is dangling. -/
def assigned {T : Type} (s : Mem T) (x : Nat) (m : Member) (value new_parent : Option Nat) :
    Mem T :=
  patcho (patch s x (m.assign value)) value (fun n => { n with parent := new_parent })

/-- The pointer `v` is null or points to an allocated node. -/
def alive {T : Type} (s : Mem T) (v : Option Nat) : Bool :=
  match v with
  | none => true
  | some c => (s c).isSome

/-- What `zigzig` and `zigzag` make of the record of `mostParent`: the pointer to the
node `g` is replaced by a pointer to the node `n`. -/
def relinkNode {T : Type} (g n : Nat) (q : Node T) : Node T :=
  if q.left = some g then { q with left := some n }
  else if q.right = some g then { q with right := some n }
  else q

/-- A store with five nodes, the data being integers: the node 4 with the sons 2 and 5,
and the node 2 with the sons 1 and 3. -/
def demoStore : Mem Int := fun a =>
  if a = 1 then some ⟨10, none, none, some 2⟩
  else if a = 2 then some ⟨20, some 1, some 3, some 4⟩
  else if a = 3 then some ⟨30, none, none, some 2⟩
  else if a = 4 then some ⟨40, some 2, some 5, none⟩
  else if a = 5 then some ⟨50, none, none, some 4⟩
  else none

/-- The tree of the five nodes of `demoStore`. -/
def demoTree : Tree :=
  .node (.node (.node .nil 1 .nil) 2 (.node .nil 3 .nil)) 4 (.node .nil 5 .nil)

end Lab3

namespace Lab8

/-! ## The `Except` monad and the store -/

theorem bind_ok {α β : Type} (x : Except Fault α) (f : α → Except Fault β) (b : β) :
    (x >>= f) = .ok b ↔ ∃ a, x = .ok a ∧ f a = .ok b := by
  cases x with
  | error e => simp [bind, Except.bind]
  | ok a => simp [bind, Except.bind]

theorem load_eq_ok (s : Store) (p : Option Nat) (n : FibHeapNode) :
    s.load p = .ok n ↔ ∃ a, p = some a ∧ s.cells a = some n := by
  unfold Store.load
  cases p with
  | none => simp
  | some a =>
    cases h : s.cells a with
    | none => simp [h]
    | some m => simp [h]

theorem load_some {s : Store} {a : Nat} {n : FibHeapNode} (h : s.cells a = some n) :
    s.load (some a) = .ok n := by
  simp [Store.load, h]

theorem modify_eq_ok (s s' : Store) (p : Option Nat) (f : FibHeapNode → FibHeapNode) :
    s.modify p f = .ok s' ↔ ∃ a n, p = some a ∧ s.cells a = some n ∧ s' = s.upd a f := by
  unfold Store.modify
  cases p with
  | none => simp
  | some a =>
    cases h : s.cells a with
    | none => simp [h]
    | some m => simp [h, eq_comm]

theorem modify_some {s : Store} {a : Nat} {n : FibHeapNode} (h : s.cells a = some n)
    (f : FibHeapNode → FibHeapNode) : s.modify (some a) f = .ok (s.upd a f) := by
  simp [Store.modify, h]

@[simp] theorem upd_cells (s : Store) (a q : Nat) (f : FibHeapNode → FibHeapNode) :
    (s.upd a f).cells q = if q = a then (s.cells a).map f else s.cells q := rfl

@[simp] theorem upd_next (s : Store) (a : Nat) (f : FibHeapNode → FibHeapNode) :
    (s.upd a f).next = s.next := rfl

theorem upd_cells_self {s : Store} {a : Nat} {n : FibHeapNode} (h : s.cells a = some n)
    (f : FibHeapNode → FibHeapNode) : (s.upd a f).cells a = some (f n) := by
  simp [h]

theorem upd_cells_ne {s : Store} {a q : Nat} (h : q ≠ a) (f : FibHeapNode → FibHeapNode) :
    (s.upd a f).cells q = s.cells q := by
  simp [h]

/-! ## Circular lists -/

theorem upd_isSome (s : Store) (a q : Nat) (f : FibHeapNode → FibHeapNode) :
    ((s.upd a f).cells q).isSome = (s.cells q).isSome := by
  by_cases h : q = a <;> simp [h]

theorem modify_live {s : Store} {a : Nat} (h : (s.cells a).isSome)
    (f : FibHeapNode → FibHeapNode) : s.modify (some a) f = .ok (s.upd a f) := by
  obtain ⟨n, hn⟩ := Option.isSome_iff_exists.mp h
  exact modify_some hn f

theorem rgt_upd (s : Store) (a q : Nat) (f : FibHeapNode → FibHeapNode) :
    (s.upd a f).rgt q = if q = a then (s.cells a).bind (fun n => (f n).right) else s.rgt q := by
  unfold Store.rgt
  by_cases h : q = a
  · subst h; cases hc : s.cells q <;> simp [hc]
  · simp [h]

theorem lft_upd (s : Store) (a q : Nat) (f : FibHeapNode → FibHeapNode) :
    (s.upd a f).lft q = if q = a then (s.cells a).bind (fun n => (f n).left) else s.lft q := by
  unfold Store.lft
  by_cases h : q = a
  · subst h; cases hc : s.cells q <;> simp [hc]
  · simp [h]

theorem rgt_isSome {s : Store} {a b : Nat} (h : s.rgt a = some b) : (s.cells a).isSome := by
  unfold Store.rgt at h
  cases hc : s.cells a <;> simp_all

theorem lft_isSome {s : Store} {a b : Nat} (h : s.lft a = some b) : (s.cells a).isSome := by
  unfold Store.lft at h
  cases hc : s.cells a <;> simp_all

theorem chain_frame {s s' : Store} {l : List Nat} (h : List.Chain' (Lnk s) l)
    (hr : ∀ x ∈ l.dropLast, s'.rgt x = s.rgt x) (hl : ∀ y ∈ l.tail, s'.lft y = s.lft y) :
    List.Chain' (Lnk s') l := by
  induction l with
  | nil => exact List.chain'_nil
  | cons a l ih =>
    cases l with
    | nil => exact List.chain'_singleton a
    | cons b l' =>
      rw [List.chain'_cons] at h ⊢
      refine ⟨⟨?_, ?_⟩, ih h.2 ?_ ?_⟩
      · rw [hr a (by simp)]; exact h.1.1
      · rw [hl b (by simp)]; exact h.1.2
      · intro x hx; exact hr x (by simp [List.dropLast_cons₂, hx])
      · intro y hy; exact hl y (by simp at hy ⊢; exact Or.inr hy)

theorem cyc_cons_iff (s : Store) (a : Nat) (l : List Nat) :
    Cyc s (a :: l) ↔ List.Chain' (Lnk s) (a :: l ++ [a]) := Iff.rfl

theorem cyc_singleton (s : Store) (a : Nat) : Cyc s [a] ↔ Lnk s a a := by
  simp [Cyc]

/-- A circular list can be entered at any of its elements. -/
theorem cyc_rotate (s : Store) (l₁ l₂ : List Nat) : Cyc s (l₁ ++ l₂) ↔ Cyc s (l₂ ++ l₁) := by
  cases l₁ with
  | nil => simp
  | cons a l₁ =>
    cases l₂ with
    | nil => simp
    | cons b l₂ =>
      simp only [List.cons_append, cyc_cons_iff]
      have e₁ : a :: (l₁ ++ b :: l₂ ++ [a]) = (a :: l₁) ++ ((b :: l₂) ++ [a]) := by simp
      have e₂ : b :: (l₂ ++ a :: l₁ ++ [b]) = (b :: l₂) ++ ((a :: l₁) ++ [b]) := by simp
      rw [e₁, e₂, List.chain'_append, List.chain'_append, List.chain'_append,
        List.chain'_append]
      simp only [List.head?_cons, List.head?_append, List.getLast?_singleton,
        List.chain'_singleton, Option.mem_def, Option.some.injEq, forall_eq', true_and,
        Option.or_some]
      constructor
      · rintro ⟨h1, ⟨h2, h3⟩, h4⟩; exact ⟨h2, ⟨h1, h4⟩, h3⟩
      · rintro ⟨h1, ⟨h2, h3⟩, h4⟩; exact ⟨h2, ⟨h1, h4⟩, h3⟩

theorem rgt_setRight (s : Store) (a q : Nat) (v : Option Nat) :
    (s.upd a (fun n => { n with right := v })).rgt q =
      if q = a then (if (s.cells a).isSome then v else none) else s.rgt q := by
  rw [rgt_upd]; cases h : s.cells a <;> simp

theorem rgt_setLeft (s : Store) (a q : Nat) (v : Option Nat) :
    (s.upd a (fun n => { n with left := v })).rgt q = s.rgt q := by
  rw [rgt_upd]; split
  · next h => subst h; rfl
  · rfl

theorem lft_setLeft (s : Store) (a q : Nat) (v : Option Nat) :
    (s.upd a (fun n => { n with left := v })).lft q =
      if q = a then (if (s.cells a).isSome then v else none) else s.lft q := by
  rw [lft_upd]; cases h : s.cells a <;> simp

theorem lft_setRight (s : Store) (a q : Nat) (v : Option Nat) :
    (s.upd a (fun n => { n with right := v })).lft q = s.lft q := by
  rw [lft_upd]; split
  · next h => subst h; rfl
  · rfl

theorem splice_rgt {s : Store} {a b aR bL : Nat} (ha : (s.cells a).isSome)
    (hb : (s.cells bL).isSome) (q : Nat) :
    (splice s a b aR bL).rgt q =
      if q = bL then some aR else if q = a then some b else s.rgt q := by
  simp only [splice, rgt_setRight, rgt_setLeft, upd_isSome, ha, hb, if_true]

theorem splice_lft {s : Store} {a b aR bL : Nat} (ha : (s.cells aR).isSome)
    (hb : (s.cells b).isSome) (q : Nat) :
    (splice s a b aR bL).lft q =
      if q = aR then some bL else if q = b then some a else s.lft q := by
  simp only [splice, lft_setRight, lft_setLeft, upd_isSome, ha, hb, if_true]

theorem core_upd_lr (s : Store) (a q : Nat) (f : FibHeapNode → FibHeapNode)
    (hf : ∀ n, core (f n) = core n) :
    ((s.upd a f).cells q).map core = (s.cells q).map core := by
  by_cases h : q = a
  · subst h; cases hc : s.cells q <;> simp [hc, hf]
  · simp [h]

theorem core_setRight (s : Store) (a q : Nat) (v : Option Nat) :
    ((s.upd a (fun n => { n with right := v })).cells q).map core = (s.cells q).map core :=
  core_upd_lr s a q _ (fun _ => rfl)

theorem core_setLeft (s : Store) (a q : Nat) (v : Option Nat) :
    ((s.upd a (fun n => { n with left := v })).cells q).map core = (s.cells q).map core :=
  core_upd_lr s a q _ (fun _ => rfl)

theorem core_setMark (s : Store) (a q : Nat) (v : Bool) :
    ((s.upd a (fun n => { n with mark := v })).cells q).map core = (s.cells q).map core :=
  core_upd_lr s a q _ (fun _ => rfl)

theorem core_upd_ne {s : Store} {a q : Nat} (h : q ≠ a) (f : FibHeapNode → FibHeapNode) :
    ((s.upd a f).cells q).map core = (s.cells q).map core := by
  rw [upd_cells_ne h]

theorem splice_core (s : Store) (a b aR bL q : Nat) :
    ((splice s a b aR bL).cells q).map core = (s.cells q).map core := by
  simp only [splice, core_setRight, core_setLeft]

theorem splice_cells_ne (s : Store) {a b aR bL q : Nat} (h1 : q ≠ a) (h2 : q ≠ b)
    (h3 : q ≠ aR) (h4 : q ≠ bL) : (splice s a b aR bL).cells q = s.cells q := by
  simp [splice, h1, h2, h3, h4]

theorem splice_next (s : Store) (a b aR bL : Nat) : (splice s a b aR bL).next = s.next := rfl

theorem splice_isSome (s : Store) (a b aR bL q : Nat) :
    ((splice s a b aR bL).cells q).isSome = (s.cells q).isSome := by
  simp only [splice, upd_isSome]

theorem unlink_rgt {s : Store} {l r : Nat} (hl : (s.cells l).isSome) (q : Nat) :
    (unlink s l r).rgt q = if q = l then some r else s.rgt q := by
  simp only [unlink, rgt_setRight, rgt_setLeft, upd_isSome, hl, if_true]

theorem unlink_lft {s : Store} {l r : Nat} (hr : (s.cells r).isSome) (q : Nat) :
    (unlink s l r).lft q = if q = r then some l else s.lft q := by
  simp only [unlink, lft_setRight, lft_setLeft, upd_isSome, hr, if_true]

theorem unlink_core (s : Store) (l r q : Nat) :
    ((unlink s l r).cells q).map core = (s.cells q).map core := by
  simp only [unlink, core_setRight, core_setLeft]

theorem unlink_cells_ne (s : Store) {l r q : Nat} (h1 : q ≠ l) (h2 : q ≠ r) :
    (unlink s l r).cells q = s.cells q := by
  simp [unlink, h1, h2]

theorem unlink_isSome (s : Store) (l r q : Nat) :
    ((unlink s l r).cells q).isSome = (s.cells q).isSome := by
  simp only [unlink, upd_isSome]

/-- The right neighbour of the entry of a circular list. -/
theorem cyc_rgt {s : Store} {a : Nat} {la : List Nat} (h : Cyc s (a :: la)) :
    s.rgt a = some (la.headD a) := by
  cases la with
  | nil => exact ((cyc_singleton s a).mp h).1
  | cons b l =>
    rw [cyc_cons_iff] at h
    exact (List.chain'_cons.mp h).1.1

/-- The left neighbour of the entry of a circular list. -/
theorem cyc_lft {s : Store} {a : Nat} {la : List Nat} (h : Cyc s (a :: la)) :
    s.lft a = some (la.getLastD a) := by
  have h' : Cyc s (la ++ [a]) := (cyc_rotate s [a] la).mp h
  cases la using List.reverseRecOn with
  | nil => exact ((cyc_singleton s a).mp h).2
  | append_singleton l z =>
    have h2 : Cyc s ([z] ++ (a :: l)) := (cyc_rotate s (a :: l) [z]).mp (by simpa using h)
    simp only [List.singleton_append, cyc_cons_iff] at h2
    have := (List.chain'_cons.mp h2).1.2
    simpa using this

theorem cyc_live {s : Store} {l : List Nat} (h : Cyc s l) {x : Nat} (hx : x ∈ l) :
    (s.cells x).isSome := by
  obtain ⟨l₁, l₂, rfl⟩ := List.append_of_mem hx
  have h' : Cyc s (x :: l₂ ++ l₁) := (cyc_rotate s l₁ (x :: l₂)).mp h
  exact rgt_isSome (cyc_rgt h')


theorem head?_concat' (la : List Nat) (a : Nat) : (la ++ [a]).head? = some (la.headD a) := by
  cases la <;> simp

theorem getLast?_cons' (lb : List Nat) (b : Nat) : (b :: lb).getLast? = some (lb.getLastD b) := by
  cases lb using List.reverseRecOn with
  | nil => simp
  | append_singleton l z => simp [List.getLast?_cons]

theorem headD_mem (la : List Nat) (a : Nat) : la.headD a ∈ a :: la := by
  cases la <;> simp

theorem getLastD_mem (lb : List Nat) (b : Nat) : lb.getLastD b ∈ b :: lb := by
  cases lb using List.reverseRecOn with
  | nil => simp
  | append_singleton l z => simp

theorem headD_not_mem_tail {la : List Nat} {a : Nat} (nd : (a :: la).Nodup) :
    la.headD a ∉ (la ++ [a]).tail := by
  cases la with
  | nil => simp
  | cons x l =>
    simp only [List.nodup_cons, List.mem_cons, not_or] at nd
    simp only [List.headD_cons, List.cons_append, List.tail_cons, List.mem_append,
      List.mem_singleton, not_or]
    exact ⟨nd.2.1, fun h => nd.1.1 h.symm⟩

theorem getLastD_not_mem_dropLast {lb : List Nat} {b : Nat} (nd : (b :: lb).Nodup) :
    lb.getLastD b ∉ (b :: lb).dropLast := by
  cases lb using List.reverseRecOn with
  | nil => simp
  | append_singleton l z =>
    have e : (b :: (l ++ [z])).dropLast = b :: l := by
      rw [← List.cons_append, List.dropLast_concat]
    rw [e]
    have nd' : (b :: l ++ [z]).Nodup := by simpa using nd
    rw [List.nodup_append] at nd'
    simp only [List.getLastD_concat]
    intro h
    exact nd'.2.2 h (by simp)

/-- The four pointer writes of `_merge` turn two disjoint circular lists, entered at `a`
and at `b`, into one: `a`, then the list of `b`, then the rest of the list of `a`. -/
theorem splice_cyc {s : Store} {a b : Nat} {la lb : List Nat} (ha : Cyc s (a :: la))
    (hb : Cyc s (b :: lb)) (nd : (a :: la ++ b :: lb).Nodup) :
    Cyc (splice s a b (la.headD a) (lb.getLastD b)) (a :: b :: lb ++ la) := by
  have nda : (a :: la).Nodup := (List.nodup_append.mp nd).1
  have ndb : (b :: lb).Nodup := (List.nodup_append.mp nd).2.1
  have dis : ∀ x, x ∈ a :: la → x ∈ b :: lb → False := fun x h1 h2 =>
    (List.nodup_append.mp nd).2.2 h1 h2
  have hR : ∀ q, (splice s a b (la.headD a) (lb.getLastD b)).rgt q = _ :=
    splice_rgt (cyc_live ha (List.mem_cons_self a la))
      (cyc_live hb (getLastD_mem lb b))
  have hL : ∀ q, (splice s a b (la.headD a) (lb.getLastD b)).lft q = _ :=
    splice_lft (cyc_live ha (headD_mem la a))
      (cyc_live hb (List.mem_cons_self b lb))
  have hane : a ≠ lb.getLastD b := fun h => dis a (List.mem_cons_self a la) (h ▸ getLastD_mem lb b)
  have hbne : b ≠ la.headD a := fun h => dis b (h ▸ headD_mem la a) (List.mem_cons_self b lb)
  show Cyc _ (a :: (b :: (lb ++ la)))
  rw [cyc_cons_iff] at ha hb ⊢
  have e : a :: (b :: (lb ++ la)) ++ [a] = [a] ++ ((b :: lb) ++ (la ++ [a])) := by simp
  have ea : a :: la ++ [a] = [a] ++ (la ++ [a]) := by simp
  rw [ea, List.chain'_append] at ha
  rw [List.chain'_append] at hb
  rw [e, List.chain'_append, List.chain'_append]
  refine ⟨List.chain'_singleton a, ⟨?_, ?_, ?_⟩, ?_⟩
  · refine chain_frame hb.1 ?_ ?_
    · intro x hx
      have hxm : x ∈ b :: lb := List.mem_of_mem_dropLast hx
      rw [hR, if_neg, if_neg]
      · rintro rfl; exact dis x (List.mem_cons_self x la) hxm
      · rintro rfl; exact getLastD_not_mem_dropLast ndb hx
    · intro y hy
      have hym : y ∈ b :: lb := List.mem_cons_of_mem b (by simpa using hy)
      rw [hL, if_neg, if_neg]
      · rintro rfl; exact (List.nodup_cons.mp ndb).1 (by simpa using hy)
      · rintro rfl; exact dis _ (headD_mem la a) hym
  · refine chain_frame ha.2.1 ?_ ?_
    · intro x hx
      rw [List.dropLast_concat] at hx
      rw [hR, if_neg, if_neg]
      · rintro rfl; exact (List.nodup_cons.mp nda).1 hx
      · rintro rfl; exact dis _ (List.mem_cons_of_mem a hx) (getLastD_mem lb b)
    · intro y hy
      have hym : y ∈ a :: la := by
        have := List.mem_of_mem_tail hy
        simp only [List.mem_append, List.mem_singleton] at this
        simp only [List.mem_cons]; tauto
      rw [hL, if_neg, if_neg]
      · rintro rfl; exact dis y hym (List.mem_cons_self y lb)
      · rintro rfl; exact headD_not_mem_tail nda hy
  · intro x hx y hy
    rw [getLast?_cons'] at hx
    rw [head?_concat'] at hy
    simp only [Option.mem_def, Option.some.injEq] at hx hy
    subst hx hy
    refine ⟨?_, ?_⟩
    · rw [hR, if_pos rfl]
    · rw [hL, if_pos rfl]
  · intro x hx y hy
    simp only [List.getLast?_singleton, Option.mem_def, Option.some.injEq, List.cons_append,
      List.head?_cons] at hx hy
    subst hx hy
    refine ⟨?_, ?_⟩
    · rw [hR, if_neg hane, if_pos rfl]
    · rw [hL, if_neg hbne, if_pos rfl]


/-- The two pointer writes of `_remove_from_circular_list` take the entry `x` out of a
circular list of at least two nodes. -/
theorem unlink_cyc {s : Store} {x : Nat} {l : List Nat} (h : Cyc s (x :: l))
    (nd : (x :: l).Nodup) : Cyc (unlink s (l.getLastD x) (l.headD x)) l := by
  cases l with
  | nil => trivial
  | cons y l' =>
    have ndl : (y :: l').Nodup := (List.nodup_cons.mp nd).2
    have hlive : ∀ q, q ∈ x :: y :: l' → (s.cells q).isSome := fun q hq => cyc_live h hq
    have hR : ∀ q, (unlink s ((y :: l').getLastD x) ((y :: l').headD x)).rgt q = _ :=
      unlink_rgt (hlive _ (getLastD_mem (y :: l') x))
    have hL : ∀ q, (unlink s ((y :: l').getLastD x) ((y :: l').headD x)).lft q = _ :=
      unlink_lft (hlive _ (headD_mem (y :: l') x))
    have ez : (y :: l').getLastD x = l'.getLastD y := by
      cases l' using List.reverseRecOn with
      | nil => rfl
      | append_singleton l z =>
        show ((y :: l) ++ [z]).getLastD x = _
        rw [List.getLastD_concat, List.getLastD_concat]
    rw [cyc_cons_iff] at h ⊢
    have e : x :: y :: l' ++ [x] = [x] ++ ((y :: l') ++ [x]) := by simp
    rw [e, List.chain'_append, List.chain'_append] at h
    rw [List.chain'_append]
    refine ⟨chain_frame h.2.1.1 ?_ ?_, List.chain'_singleton y, ?_⟩
    · intro q hq
      rw [hR, if_neg]
      rintro rfl
      rw [ez] at hq
      exact getLastD_not_mem_dropLast ndl hq
    · intro q hq
      rw [hL, if_neg]
      rintro rfl
      simp only [List.headD_cons, List.tail_cons] at hq
      exact (List.nodup_cons.mp ndl).1 hq
    · intro a ha b hb
      rw [getLast?_cons'] at ha
      simp only [Option.mem_def, Option.some.injEq, List.head?_cons] at ha hb
      subst ha hb
      refine ⟨?_, ?_⟩
      · rw [hR, ez, if_pos rfl]; rfl
      · rw [hL, List.headD_cons, if_pos rfl, ez]

theorem rgt_eq_some {s : Store} {a b : Nat} (h : s.rgt a = some b) :
    ∃ n, s.cells a = some n ∧ n.right = some b := by
  unfold Store.rgt at h
  cases hc : s.cells a with
  | none => simp [hc] at h
  | some n => exact ⟨n, rfl, by simpa [hc] using h⟩

theorem lft_eq_some {s : Store} {a b : Nat} (h : s.lft a = some b) :
    ∃ n, s.cells a = some n ∧ n.left = some b := by
  unfold Store.lft at h
  cases hc : s.cells a with
  | none => simp [hc] at h
  | some n => exact ⟨n, rfl, by simpa [hc] using h⟩

/-- `_remove_from_circular_list` on the only node of a circular list changes nothing. -/
theorem remove_single {s : Store} {x : Nat} (h : s.rgt x = some x) :
    _remove_from_circular_list s (some x) = .ok s := by
  obtain ⟨n, hn, hr⟩ := rgt_eq_some h
  simp [_remove_from_circular_list, load_some hn, hr, bind, Except.bind, pure, Except.pure]

/-- `_remove_from_circular_list` on a node with other neighbours performs the two
pointer writes. -/
theorem remove_unlink {s : Store} {x l r : Nat} (hr : s.rgt x = some r) (hl : s.lft x = some l)
    (hne : r ≠ x) (hlv : (s.cells l).isSome) (hrv : (s.cells r).isSome) :
    _remove_from_circular_list s (some x) = .ok (unlink s l r) := by
  obtain ⟨n, hn, hnr⟩ := rgt_eq_some hr
  obtain ⟨n', hn', hnl⟩ := lft_eq_some hl
  have : n' = n := by rw [hn] at hn'; exact (Option.some.inj hn').symm
  subst this
  simp only [_remove_from_circular_list, load_some hn, hnr, hnl, bind, Except.bind,
    Option.some.injEq, hne, if_false, modify_live hlv]
  rw [modify_live (by rw [upd_isSome]; exact hrv)]
  rfl

/-- `_merge` of two non-null nodes when the first key is not the greater one. -/
theorem merge_le {s : Store} {a b aR bL : Nat} {na nb : FibHeapNode}
    (ha : s.cells a = some na) (hb : s.cells b = some nb) (hk : na.key ≤ nb.key)
    (hR : na.right = some aR) (hL : nb.left = some bL)
    (hRv : (s.cells aR).isSome) (hLv : (s.cells bL).isSome) :
    _merge s (some a) (some b) = .ok (splice s a b aR bL, some a) := by
  have hk' : ¬ na.key > nb.key := not_lt.mpr hk
  simp only [_merge, load_some ha, load_some hb, bind, Except.bind, hk', if_false, hR, hL,
    modify_some ha, reduceCtorEq]
  rw [modify_live (by rw [upd_isSome, hb]; rfl)]
  simp only []
  rw [modify_live (by rw [upd_isSome, upd_isSome]; exact hRv)]
  simp only []
  rw [modify_live (by rw [upd_isSome, upd_isSome, upd_isSome]; exact hLv)]
  rfl

/-- `_merge` of two non-null nodes when the first key is the greater one. -/
theorem merge_gt {s : Store} {a b bR aL : Nat} {na nb : FibHeapNode}
    (ha : s.cells a = some na) (hb : s.cells b = some nb) (hk : nb.key < na.key)
    (hR : nb.right = some bR) (hL : na.left = some aL)
    (hRv : (s.cells bR).isSome) (hLv : (s.cells aL).isSome) :
    _merge s (some a) (some b) = .ok (splice s b a bR aL, some b) := by
  have hk' : na.key > nb.key := hk
  simp only [_merge, load_some ha, load_some hb, bind, Except.bind, hk', if_true, hR, hL,
    modify_some hb, reduceCtorEq, if_false]
  rw [modify_live (by rw [upd_isSome, ha]; rfl)]
  simp only []
  rw [modify_live (by rw [upd_isSome, upd_isSome]; exact hRv)]
  simp only []
  rw [modify_live (by rw [upd_isSome, upd_isSome, upd_isSome]; exact hLv)]
  rfl


/-! ## Forests -/

@[simp] theorem tops_nil : Forest.nil.tops = [] := rfl
@[simp] theorem tops_node (a : Nat) (k r : Forest) : (Forest.node a k r).tops = a :: r.tops := rfl
@[simp] theorem addrs_nil : Forest.nil.addrs = [] := rfl
@[simp] theorem addrs_node (a : Nat) (k r : Forest) :
    (Forest.node a k r).addrs = a :: (k.addrs ++ r.addrs) := rfl
@[simp] theorem inner_nil : Forest.nil.inner = [] := rfl
@[simp] theorem inner_node (a : Nat) (k r : Forest) :
    (Forest.node a k r).inner = k.addrs ++ r.inner := rfl
@[simp] theorem nil_append (g : Forest) : Forest.nil.append g = g := rfl
@[simp] theorem node_append (a : Nat) (k r g : Forest) :
    (Forest.node a k r).append g = .node a k (r.append g) := rfl

@[simp] theorem append_nil (f : Forest) : f.append .nil = f := by
  induction f with
  | nil => rfl
  | node a k r _ ihr => simp [ihr]

@[simp] theorem tops_append (f g : Forest) : (f.append g).tops = f.tops ++ g.tops := by
  induction f with
  | nil => rfl
  | node a k r _ ihr => simp [ihr]

@[simp] theorem addrs_append (f g : Forest) : (f.append g).addrs = f.addrs ++ g.addrs := by
  induction f with
  | nil => rfl
  | node a k r _ ihr => simp [ihr]

@[simp] theorem inner_append (f g : Forest) : (f.append g).inner = f.inner ++ g.inner := by
  induction f with
  | nil => rfl
  | node a k r _ ihr => simp [ihr]

theorem tops_subset_addrs (f : Forest) : ∀ x ∈ f.tops, x ∈ f.addrs := by
  induction f with
  | nil => simp
  | node a k r _ ihr =>
    intro x hx
    simp only [tops_node, List.mem_cons] at hx
    simp only [addrs_node, List.mem_cons, List.mem_append]
    rcases hx with rfl | hx
    · exact Or.inl rfl
    · exact Or.inr (Or.inr (ihr x hx))

theorem inner_subset_addrs (f : Forest) : ∀ x ∈ f.inner, x ∈ f.addrs := by
  induction f with
  | nil => simp
  | node a k r _ ihr =>
    intro x hx
    simp only [inner_node, List.mem_append] at hx
    simp only [addrs_node, List.mem_cons, List.mem_append]
    rcases hx with hx | hx
    · exact Or.inr (Or.inl hx)
    · exact Or.inr (Or.inr (ihr x hx))

theorem addrs_perm (f : Forest) : f.addrs.Perm (f.tops ++ f.inner) := by
  induction f with
  | nil => simp
  | node a k r _ ihr =>
    simp only [addrs_node, tops_node, inner_node, List.cons_append]
    refine List.Perm.cons a ?_
    refine (List.Perm.append_left _ ihr).trans ?_
    rw [← List.append_assoc, ← List.append_assoc]
    exact List.Perm.append_right _ List.perm_append_comm

theorem tops_length_le (f : Forest) : f.tops.length ≤ f.addrs.length := by
  have := (addrs_perm f).length_eq
  simp only [List.length_append] at this
  omega

theorem tops_eq_nil {f : Forest} : f.tops = [] ↔ f = .nil := by
  cases f <;> simp

theorem addrs_eq_nil {f : Forest} : f.addrs = [] ↔ f = .nil := by
  cases f <;> simp

/-- A root of a forest splits the forest into the trees before it, its own tree and the
trees after it. -/
theorem tops_split {f : Forest} {x : Nat} (h : x ∈ f.tops) :
    ∃ (f₁ k f₂ : Forest), f = f₁.append (.node x k f₂) := by
  induction f with
  | nil => simp at h
  | node a k r _ ihr =>
    simp only [tops_node, List.mem_cons] at h
    by_cases hxa : x = a
    · subst hxa; exact ⟨.nil, k, r, rfl⟩
    · obtain ⟨f₁, k', f₂, e⟩ := ihr (h.resolve_left hxa)
      exact ⟨.node a k f₁, k', f₂, by simp [e]⟩

theorem head?_tops_nil {k : Forest} {o : Option Nat} (h : o = k.tops.head?) :
    k = .nil → o = none := by
  rintro rfl; exact h

theorem head?_tops_some {k : Forest} {o : Option Nat} (h : o = k.tops.head?) :
    k ≠ .nil → ∃ c ∈ k.tops, o = some c := by
  intro hk
  cases k with
  | nil => exact absurd rfl hk
  | node a k r => exact ⟨a, by simp, h⟩

theorem mem_of_head? {l : List Nat} {a : Nat} (h : l.head? = some a) : a ∈ l := by
  cases l with
  | nil => simp at h
  | cons b l => simp only [List.head?_cons, Option.some.injEq] at h; simp [h]

theorem lay_append (s : Store) (par : Option Nat) (f g : Forest) :
    Lay s par (f.append g) ↔ Lay s par f ∧ Lay s par g := by
  induction f with
  | nil => simp [Lay]
  | node a k r _ ihr => simp only [node_append, Lay, ihr]; tauto

theorem degOK_append (f g : Forest) : DegOK (f.append g) ↔ DegOK f ∧ DegOK g := by
  induction f with
  | nil => simp [DegOK]
  | node a k r _ ihr => simp only [node_append, DegOK, ihr]; tauto

theorem core_eq {n n' : FibHeapNode} (h : core n' = core n) :
    n'.key = n.key ∧ n'.parent = n.parent ∧ n'.child = n.child ∧ n'.degree = n.degree := by
  simp only [core, FibHeapNode.mk.injEq] at h
  tauto

theorem core_cells {s s' : Store} {c : Nat} {n : FibHeapNode}
    (h : (s'.cells c).map core = (s.cells c).map core) (hn : s.cells c = some n) :
    ∃ n', s'.cells c = some n' ∧ core n' = core n := by
  rw [hn] at h
  cases hc : s'.cells c with
  | none => simp [hc] at h
  | some n' => exact ⟨n', rfl, by simpa [hc] using h⟩

theorem cyc_congr {s s' : Store} {l : List Nat} (h : ∀ c ∈ l, s'.cells c = s.cells c)
    (hc : Cyc s l) : Cyc s' l := by
  cases l with
  | nil => trivial
  | cons a l =>
    rw [cyc_cons_iff] at hc ⊢
    refine chain_frame hc ?_ ?_
    · intro x hx
      have hx' : x ∈ a :: l := by
        have := List.mem_of_mem_dropLast hx
        simp only [List.cons_append, List.mem_cons, List.mem_append, List.mem_singleton] at this
        simp only [List.mem_cons]; tauto
      simp only [Store.rgt, h x hx']
    · intro y hy
      have hy' : y ∈ a :: l := by
        have := List.mem_of_mem_tail hy
        simp only [List.cons_append, List.mem_cons, List.mem_append, List.mem_singleton] at this
        simp only [List.mem_cons]; tauto
      simp only [Store.lft, h y hy']

theorem nodeOK_frame {s s' : Store} {par : Option Nat} {a : Nat} {k : Forest}
    (ha : (s'.cells a).map core = (s.cells a).map core)
    (hk : ∀ c ∈ k.tops, s'.kv c = s.kv c) (h : NodeOK s par a k) :
    NodeOK s' par a k := by
  obtain ⟨n, hn, h1, h2, h3, h5⟩ := h
  obtain ⟨n', hn', hc⟩ := core_cells ha hn
  obtain ⟨e1, e2, e3, e4⟩ := core_eq hc
  refine ⟨n', hn', by rw [e2, h1], by rw [e4, h2], by rw [e3, h3], ?_⟩
  intro c hc'
  rw [e1, hk c hc']; exact h5 c hc'

/-- The layout of a forest only depends on the cells of its nodes, and for the roots only
on the fields other than `left` and `right`. -/
theorem lay_frame {s s' : Store} {f : Forest} : ∀ {par : Option Nat},
    (∀ c ∈ f.tops, (s'.cells c).map core = (s.cells c).map core) →
    (∀ c ∈ f.inner, s'.cells c = s.cells c) → Lay s par f → Lay s' par f := by
  induction f with
  | nil => intros; trivial
  | node a k r ihk ihr =>
    intro par ht hi h
    simp only [Lay] at h ⊢
    have hk : ∀ c ∈ k.addrs, s'.cells c = s.cells c := fun c hc =>
      hi c (by simp [hc])
    refine ⟨nodeOK_frame (ht a (by simp))
        (fun c hc => by simp only [Store.kv, Store.keyAt, hk c (tops_subset_addrs k c hc)]) h.1,
      cyc_congr (fun c hc => hk c (tops_subset_addrs k c hc)) h.2.1, ?_, ?_⟩
    · exact ihk (fun c hc => by rw [hk c (tops_subset_addrs k c hc)])
        (fun c hc => hk c (inner_subset_addrs k c hc)) h.2.2.1
    · exact ihr (fun c hc => ht c (by simp [hc])) (fun c hc => hi c (by simp [hc])) h.2.2.2

theorem lay_congr {s s' : Store} {f : Forest} {par : Option Nat}
    (h : ∀ c ∈ f.addrs, s'.cells c = s.cells c) (hl : Lay s par f) : Lay s' par f :=
  lay_frame (fun c hc => by rw [h c (tops_subset_addrs f c hc)])
    (fun c hc => h c (inner_subset_addrs f c hc)) hl


/-! ## Frames and views -/

theorem Frame.refl (s : Store) (L : List Nat) : Frame s s L :=
  ⟨rfl, fun _ => rfl, fun _ _ => rfl⟩

theorem Frame.trans {s₁ s₂ s₃ : Store} {L : List Nat} (h₁ : Frame s₁ s₂ L)
    (h₂ : Frame s₂ s₃ L) : Frame s₁ s₃ L :=
  ⟨h₂.next.trans h₁.next, fun a => (h₂.key a).trans (h₁.key a),
    fun a ha => (h₂.off a ha).trans (h₁.off a ha)⟩

theorem Frame.mono {s s' : Store} {L L' : List Nat} (h : Frame s s' L)
    (hs : ∀ a ∈ L, a ∈ L') : Frame s s' L' :=
  ⟨h.next, h.key, fun a ha => h.off a (fun hh => ha (hs a hh))⟩

theorem Frame.kv {s s' : Store} {L : List Nat} (h : Frame s s' L) (a : Nat) :
    s'.kv a = s.kv a := by
  simp only [Store.kv, h.key a]

theorem Frame.isSome {s s' : Store} {L : List Nat} (h : Frame s s' L) (a : Nat) :
    (s'.cells a).isSome = (s.cells a).isSome := by
  have := h.key a
  simp only [Store.keyAt] at this
  cases h1 : s'.cells a <;> cases h2 : s.cells a <;> simp_all

theorem keyAt_of_core {s s' : Store} {a : Nat}
    (h : (s'.cells a).map core = (s.cells a).map core) : s'.keyAt a = s.keyAt a := by
  have : ∀ o : Option FibHeapNode, o.map (fun n => n.key) = (o.map core).map (fun n => n.key) := by
    intro o; cases o <;> rfl
  simp only [Store.keyAt]
  rw [this, h, ← this]

theorem keyAt_upd (s : Store) (a q : Nat) (f : FibHeapNode → FibHeapNode)
    (hf : ∀ n, (f n).key = n.key) : (s.upd a f).keyAt q = s.keyAt q := by
  simp only [Store.keyAt, upd_cells]
  by_cases h : q = a
  · subst h; cases hc : s.cells q <;> simp [hc, hf]
  · simp [h]

theorem frame_upd (s : Store) (a : Nat) (f : FibHeapNode → FibHeapNode)
    (hf : ∀ n, (f n).key = n.key) {L : List Nat} (ha : a ∈ L) : Frame s (s.upd a f) L :=
  ⟨rfl, fun q => keyAt_upd s a q f hf, fun q hq => upd_cells_ne (fun (h : q = a) => hq (h ▸ ha)) f⟩

theorem frame_splice (s : Store) (a b aR bL : Nat) {L : List Nat} (h1 : a ∈ L) (h2 : b ∈ L)
    (h3 : aR ∈ L) (h4 : bL ∈ L) : Frame s (splice s a b aR bL) L :=
  ⟨rfl, fun q => keyAt_of_core (splice_core s a b aR bL q), fun _ hq =>
    splice_cells_ne s (fun h => hq (h ▸ h1)) (fun h => hq (h ▸ h2)) (fun h => hq (h ▸ h3))
      (fun h => hq (h ▸ h4))⟩

theorem frame_unlink (s : Store) (l r : Nat) {L : List Nat} (h1 : l ∈ L) (h2 : r ∈ L) :
    Frame s (unlink s l r) L :=
  ⟨rfl, fun q => keyAt_of_core (unlink_core s l r q), fun _ hq =>
    unlink_cells_ne s (fun h => hq (h ▸ h1)) (fun h => hq (h ▸ h2))⟩

/-- The trees of a laid-out forest can be listed starting from any tree. -/
theorem Shape.rot {s : Store} {par : Option Nat} {f₁ f₂ : Forest}
    (h : Shape s par (f₁.append f₂)) : Shape s par (f₂.append f₁) := by
  obtain ⟨h1, h2, h3, h4⟩ := h
  refine ⟨?_, ?_, ?_, ?_⟩
  · rw [tops_append] at h1 ⊢; exact (cyc_rotate s _ _).mp h1
  · rw [lay_append] at h2 ⊢; exact ⟨h2.2, h2.1⟩
  · rw [addrs_append] at h3 ⊢; exact (List.perm_append_comm.nodup_iff).mp h3
  · rw [degOK_append] at h4 ⊢; exact ⟨h4.2, h4.1⟩

/-- A laid-out forest seen from one of its roots. -/
theorem Shape.view {s : Store} {par : Option Nat} {g : Forest} {x : Nat} (h : Shape s par g)
    (hx : x ∈ g.tops) : ∃ k r, Shape s par (.node x k r) ∧ (Forest.node x k r).addrs.Perm g.addrs ∧
      (x :: r.tops).Perm g.tops := by
  obtain ⟨f₁, k, f₂, rfl⟩ := tops_split hx
  refine ⟨k, f₂.append f₁, ?_, ?_, ?_⟩
  · have := h.rot
    simpa using this
  · simp only [addrs_node, addrs_append]
    have : (f₁.addrs ++ x :: (k.addrs ++ f₂.addrs)).Perm
        ((x :: (k.addrs ++ f₂.addrs)) ++ f₁.addrs) := List.perm_append_comm
    refine List.Perm.trans ?_ this.symm
    simp [List.append_assoc]
  · simp only [tops_append, tops_node]
    have : (f₁.tops ++ x :: f₂.tops).Perm ((x :: f₂.tops) ++ f₁.tops) := List.perm_append_comm
    exact this.symm

theorem Shape.live {s : Store} {par : Option Nat} {g : Forest} (h : Shape s par g) {x : Nat}
    (hx : x ∈ g.tops) :
    (s.cells x).isSome := cyc_live h.cyc hx

/-- In a heap-ordered forest every key is at least the key of some root. -/
theorem lay_lower {s : Store} {f : Forest} {lo : Int} : ∀ {par : Option Nat},
    Lay s par f → (∀ r ∈ f.tops, lo ≤ s.kv r) → ∀ a ∈ f.addrs, lo ≤ s.kv a := by
  induction f generalizing lo with
  | nil => intro _ _ _ a ha; simp at ha
  | node b k r ihk ihr =>
    intro par h hr a ha
    simp only [Lay] at h
    simp only [addrs_node, List.mem_cons, List.mem_append] at ha
    have hb : lo ≤ s.kv b := hr b (by simp)
    rcases ha with rfl | ha | ha
    · exact hb
    · obtain ⟨n, hn, -, -, -, h5⟩ := h.1
      have e : s.kv b = n.key := by simp [Store.kv, Store.keyAt, hn]
      exact ihk h.2.2.1 (fun c hc => le_trans (e ▸ hb) (h5 c hc)) a ha
    · exact ihr h.2.2.2 (fun c hc => hr c (by simp [hc])) a ha


/-! ## The walks along a circular list -/

theorem unparentAll_nil (s : Store) : unparentAll s [] = s := rfl

theorem unparentAll_cons (s : Store) (a : Nat) (l : List Nat) :
    unparentAll s (a :: l) = unparentAll (s.upd a (fun n => { n with parent := none })) l := rfl

theorem unparentAll_cells (s : Store) (l : List Nat) (q : Nat) :
    (unparentAll s l).cells q =
      if q ∈ l then (s.cells q).map (fun n => { n with parent := none }) else s.cells q := by
  induction l generalizing s with
  | nil => simp [unparentAll_nil]
  | cons a l ih =>
    rw [unparentAll_cons, ih]
    by_cases hq : q = a
    · subst hq
      by_cases hl : q ∈ l
      · cases hc : s.cells q <;> simp [hl, hc]
      · simp [hl]
    · by_cases hl : q ∈ l <;> simp [hl, hq]

theorem unparentAll_next (s : Store) (l : List Nat) : (unparentAll s l).next = s.next := by
  induction l generalizing s with
  | nil => rfl
  | cons a l ih => rw [unparentAll_cons, ih]; rfl

theorem unparentAll_rgt (s : Store) (l : List Nat) (q : Nat) :
    (unparentAll s l).rgt q = s.rgt q := by
  simp only [Store.rgt, unparentAll_cells]
  split
  · cases s.cells q <;> rfl
  · rfl

theorem unparentAll_lft (s : Store) (l : List Nat) (q : Nat) :
    (unparentAll s l).lft q = s.lft q := by
  simp only [Store.lft, unparentAll_cells]
  split
  · cases s.cells q <;> rfl
  · rfl

theorem unparentAll_keyAt (s : Store) (l : List Nat) (q : Nat) :
    (unparentAll s l).keyAt q = s.keyAt q := by
  simp only [Store.keyAt, unparentAll_cells]
  split
  · cases s.cells q <;> rfl
  · rfl

theorem frame_unparentAll (s : Store) (l : List Nat) {L : List Nat} (h : ∀ a ∈ l, a ∈ L) :
    Frame s (unparentAll s l) L :=
  ⟨unparentAll_next s l, unparentAll_keyAt s l, fun q hq => by
    rw [unparentAll_cells, if_neg (fun hh => hq (h q hh))]⟩

theorem cyc_unparentAll {s : Store} (l l' : List Nat) (h : Cyc s l') :
    Cyc (unparentAll s l) l' := by
  cases l' with
  | nil => trivial
  | cons a l' =>
    rw [cyc_cons_iff] at h ⊢
    exact chain_frame h (fun x _ => unparentAll_rgt s l x) (fun x _ => unparentAll_lft s l x)

/-- The loop of `_unparent_all`, started at `y` inside the circular list entered at `c`,
clears the `parent` field of `y` and of the nodes after it. -/
theorem unparentLoop_spec (c : Nat) : ∀ (post : List Nat) (y : Nat) (s : Store) (fuel : Nat),
    List.Chain' (fun u v => s.rgt u = some v) (y :: post ++ [c]) → c ∉ post →
    post.length < fuel →
    unparentLoop (some c) fuel s (some y) = .ok (unparentAll s (y :: post)) := by
  intro post
  induction post with
  | nil =>
    intro y s fuel hch _ hf
    obtain ⟨fuel, rfl⟩ : ∃ f, fuel = f + 1 := ⟨fuel - 1, by omega⟩
    have hr : s.rgt y = some c := by simpa using hch
    obtain ⟨n, hn, hnr⟩ := rgt_eq_some hr
    simp only [unparentLoop, modify_some hn, bind, Except.bind,
      load_some (upd_cells_self hn _), hnr, ne_eq, not_true_eq_false, if_false]
    rfl
  | cons z post ih =>
    intro y s fuel hch hc hf
    obtain ⟨fuel, rfl⟩ : ∃ f, fuel = f + 1 := ⟨fuel - 1, by omega⟩
    simp only [List.cons_append, List.chain'_cons] at hch
    obtain ⟨n, hn, hnr⟩ := rgt_eq_some hch.1
    have hzc : z ≠ c := fun h => hc (h ▸ List.mem_cons_self z post)
    simp only [unparentLoop, modify_some hn, bind, Except.bind,
      load_some (upd_cells_self hn _), hnr, ne_eq, Option.some.injEq, hzc, not_false_eq_true,
      if_true]
    rw [ih z _ fuel ?_ (fun h => hc (List.mem_cons_of_mem z h))
      (by simp only [List.length_cons] at hf; omega)]
    · rfl
    · have := hch.2
      refine List.Chain'.imp ?_ this
      intro u v huv
      rw [rgt_upd]
      split
      · next h => subst h; simpa [hn, Store.rgt] using huv
      · exact huv

theorem chain_rgt_of_cyc {s : Store} {a : Nat} {l : List Nat} (h : Cyc s (a :: l)) :
    List.Chain' (fun u v => s.rgt u = some v) (a :: l ++ [a]) :=
  List.Chain'.imp (fun _ _ h => h.1) ((cyc_cons_iff s a l).mp h)

/-- `_unparent_all` on a circular list entered at `c`. -/
theorem unparent_all_spec {s : Store} {c : Nat} {l : List Nat} (h : Cyc s (c :: l))
    (nd : (c :: l).Nodup) {fuel : Nat} (hf : l.length < fuel) :
    _unparent_all fuel s (some c) = .ok (unparentAll s (c :: l)) := by
  simp only [_unparent_all, reduceCtorEq, if_false]
  exact unparentLoop_spec c l c s fuel (chain_rgt_of_cyc h) (List.nodup_cons.mp nd).1 hf

theorem kv_of_cells {s : Store} {a : Nat} {n : FibHeapNode} (h : s.cells a = some n) :
    s.kv a = n.key := by
  simp [Store.kv, Store.keyAt, h]

/-- The loop that looks for the least key along the root list: started at `it` with the
candidate `m`, it ends with a node that is `m` or one of the nodes walked through, of key
at most the key of `m` and of each of these nodes. -/
theorem minScanLoop_spec (x : Nat) (s : Store) : ∀ (post : List Nat) (it m : Nat) (fuel : Nat),
    List.Chain' (fun u v => s.rgt u = some v) (it :: post ++ [x]) → x ∉ post →
    post.length < fuel → (s.cells m).isSome →
    ∃ m', minScanLoop (some x) fuel s (some m) (some it) = .ok (some m') ∧
      (m' = m ∨ m' ∈ it :: post) ∧ s.kv m' ≤ s.kv m ∧ ∀ r ∈ it :: post, s.kv m' ≤ s.kv r := by
  intro post
  induction post with
  | nil =>
    intro it m fuel hch _ hf hm
    obtain ⟨fuel, rfl⟩ : ∃ f, fuel = f + 1 := ⟨fuel - 1, by omega⟩
    have hr : s.rgt it = some x := by simpa using hch
    obtain ⟨n, hn, hnr⟩ := rgt_eq_some hr
    obtain ⟨nm, hnm⟩ := Option.isSome_iff_exists.mp hm
    simp only [minScanLoop, load_some hn, load_some hnm, bind, Except.bind, hnr, ne_eq,
      not_true_eq_false, if_false, pure, Except.pure]
    rw [← kv_of_cells hn, ← kv_of_cells hnm]
    by_cases hlt : s.kv it < s.kv m
    · refine ⟨it, by simp [hlt], Or.inr (by simp), le_of_lt hlt, ?_⟩
      intro r hr; simp only [List.mem_singleton] at hr; subst hr; exact le_refl _
    · refine ⟨m, by simp [hlt], Or.inl rfl, le_refl _, ?_⟩
      intro r hr; simp only [List.mem_singleton] at hr; subst hr; exact not_lt.mp hlt
  | cons z post ih =>
    intro it m fuel hch hc hf hm
    obtain ⟨fuel, rfl⟩ : ∃ f, fuel = f + 1 := ⟨fuel - 1, by omega⟩
    simp only [List.cons_append, List.chain'_cons] at hch
    obtain ⟨n, hn, hnr⟩ := rgt_eq_some hch.1
    obtain ⟨nm, hnm⟩ := Option.isSome_iff_exists.mp hm
    have hzx : z ≠ x := fun h => hc (h ▸ List.mem_cons_self z post)
    have hf' : post.length < fuel := by simp only [List.length_cons] at hf; omega
    have hc' : x ∉ post := fun h => hc (List.mem_cons_of_mem z h)
    simp only [minScanLoop, load_some hn, load_some hnm, bind, Except.bind, hnr, ne_eq,
      Option.some.injEq, hzx, not_false_eq_true, if_true]
    rw [← kv_of_cells hn, ← kv_of_cells hnm]
    by_cases hlt : s.kv it < s.kv m
    · obtain ⟨m', h1, h2, h3, h4⟩ := ih z it fuel hch.2 hc' hf' (by rw [hn]; rfl)
      refine ⟨m', by simpa [hlt] using h1, ?_, le_trans h3 (le_of_lt hlt), ?_⟩
      · rcases h2 with rfl | h2
        · exact Or.inr (by simp)
        · exact Or.inr (List.mem_cons_of_mem _ h2)
      · intro r hr
        simp only [List.mem_cons] at hr
        rcases hr with rfl | hr
        · exact h3
        · exact h4 r (by simpa using hr)
    · obtain ⟨m', h1, h2, h3, h4⟩ := ih z m fuel hch.2 hc' hf' hm
      refine ⟨m', by simpa [hlt] using h1, ?_, h3, ?_⟩
      · rcases h2 with rfl | h2
        · exact Or.inl rfl
        · exact Or.inr (List.mem_cons_of_mem _ h2)
      · intro r hr
        simp only [List.mem_cons] at hr
        rcases hr with rfl | hr
        · exact le_trans h3 (not_lt.mp hlt)
        · exact h4 r (by simpa using hr)


/-! ## Binomial trees -/

theorem binom_append (f g : Forest) : Binom (f.append g) ↔ Binom f ∧ Binom g := by
  induction f with
  | nil => simp [Binom]
  | node a k r _ ihr => simp only [node_append, Binom, ihr]; tauto

/-- Two chains of right neighbours of the same length from the same node are equal. -/
theorem chain_rgt_unique {s : Store} : ∀ (l₁ l₂ : List Nat) (c e₁ e₂ : Nat),
    List.Chain' (fun u v => s.rgt u = some v) (c :: l₁ ++ [e₁]) →
    List.Chain' (fun u v => s.rgt u = some v) (c :: l₂ ++ [e₂]) →
    l₁.length = l₂.length → l₁ = l₂ := by
  intro l₁
  induction l₁ with
  | nil =>
    intro l₂ c e₁ e₂ _ _ hl
    exact (List.length_eq_zero.mp hl.symm).symm
  | cons a l₁ ih =>
    intro l₂ c e₁ e₂ h₁ h₂ hl
    cases l₂ with
    | nil => simp at hl
    | cons b l₂ =>
      simp only [List.cons_append, List.chain'_cons] at h₁ h₂
      have e : a = b := Option.some.inj (h₁.1.symm.trans h₂.1)
      subst e
      rw [ih l₂ a e₁ e₂ (by simpa using h₁.2) (by simpa using h₂.2) (by simpa using hl)]

/-- The children of a node are determined by the store. -/
theorem kids_tops_unique {s : Store} {p p' : Option Nat} {a : Nat} {k k' : Forest}
    (h : NodeOK s p a k) (hc : Cyc s k.tops) (h' : NodeOK s p' a k') (hc' : Cyc s k'.tops) :
    k.tops = k'.tops := by
  obtain ⟨n, hn, -, hd, hch, -⟩ := h
  obtain ⟨n', hn', -, hd', hch', -⟩ := h'
  rw [hn] at hn'; cases hn'
  have hlen : k.tops.length = k'.tops.length := by
    have := hd.symm.trans hd'
    exact_mod_cast this
  have hhead : k.tops.head? = k'.tops.head? := hch.symm.trans hch'
  cases h1 : k.tops with
  | nil =>
    rw [h1] at hlen
    exact (List.length_eq_zero.mp hlen.symm).symm
  | cons c l =>
    cases h2 : k'.tops with
    | nil => rw [h1, h2] at hlen; simp at hlen
    | cons c' l' =>
      rw [h1, h2] at hhead hlen
      simp only [List.head?_cons, Option.some.injEq] at hhead
      subst hhead
      rw [h1] at hc
      rw [h2] at hc'
      rw [chain_rgt_unique l l' c c c (chain_rgt_of_cyc hc) (chain_rgt_of_cyc hc')
        (by simpa using hlen)]

/-- A forest is determined by its roots and the store it is laid out in. -/
theorem lay_unique {s : Store} : ∀ (f f' : Forest) (p p' : Option Nat), Lay s p f →
    Lay s p' f' → f.tops = f'.tops → f = f' := by
  intro f
  induction f with
  | nil =>
    intro f' _ _ _ _ ht
    exact (tops_eq_nil.mp ht.symm).symm
  | node a k r ihk ihr =>
    intro f' p p' hl hl' ht
    cases f' with
    | nil => simp at ht
    | node a' k' r' =>
      simp only [tops_node, List.cons.injEq] at ht
      obtain ⟨rfl, htr⟩ := ht
      simp only [Lay] at hl hl'
      have hk := kids_tops_unique hl.1 hl.2.1 hl'.1 hl'.2.1
      rw [ihk k' (some a) (some a) hl.2.2.1 hl'.2.2.1 hk, ihr r' p p' hl.2.2.2 hl'.2.2.2 htr]

/-- The tree below a node of a laid-out forest. -/
theorem lay_find {s : Store} : ∀ (f : Forest) (p : Option Nat), Lay s p f → ∀ a ∈ f.addrs,
    ∃ k q, NodeOK s q a k ∧ Cyc s k.tops ∧ Lay s (some a) k ∧
      (∀ c ∈ k.addrs, c ∈ f.addrs) ∧
      (Binom f → 1 + k.addrs.length = 2 ^ k.tops.length ∧ Binom k) := by
  intro f
  induction f with
  | nil => intro _ _ a ha; simp at ha
  | node b k r ihk ihr =>
    intro p hl a ha
    simp only [Lay] at hl
    simp only [addrs_node, List.mem_cons, List.mem_append] at ha
    rcases ha with rfl | ha | ha
    · exact ⟨k, p, hl.1, hl.2.1, hl.2.2.1, fun c hc => by simp [hc],
        fun hb => ⟨hb.1, hb.2.1⟩⟩
    · obtain ⟨k₀, q, h1, h2, h3, h4, h5⟩ := ihk (some b) hl.2.2.1 a ha
      exact ⟨k₀, q, h1, h2, h3, fun c hc => by simp [h4 c hc], fun hb => h5 hb.2.1⟩
    · obtain ⟨k₀, q, h1, h2, h3, h4, h5⟩ := ihr p hl.2.2.2 a ha
      exact ⟨k₀, q, h1, h2, h3, fun c hc => by simp [h4 c hc], fun hb => h5 hb.2.2⟩

/-- Being binomial is a property of the store: it passes from a laid-out forest to any
forest laid out in the same store on some of its nodes. -/
theorem binom_transfer {s : Store} {f : Forest} {p : Option Nat} (hl : Lay s p f)
    (hb : Binom f) : ∀ (f' : Forest) (p' : Option Nat), Lay s p' f' →
    (∀ a ∈ f'.addrs, a ∈ f.addrs) → Binom f' := by
  intro f'
  induction f' with
  | nil => intros; trivial
  | node a k' r' _ ihr =>
    intro p' hl' hsub
    simp only [Lay] at hl'
    obtain ⟨k, q, h1, h2, h3, -, h5⟩ := lay_find f p hl a (hsub a (by simp))
    have hk : k = k' := lay_unique k k' (some a) (some a) h3 hl'.2.2.1
      (kids_tops_unique h1 h2 hl'.1 hl'.2.1)
    subst hk
    obtain ⟨e1, e2⟩ := h5 hb
    exact ⟨e1, e2, ihr p' hl'.2.2.2 (fun c hc => hsub c (by simp [hc]))⟩


/-! ## The list primitives on laid-out forests -/

theorem rgt_congr {s s' : Store} {q : Nat} (h : s'.cells q = s.cells q) : s'.rgt q = s.rgt q := by
  simp only [Store.rgt, h]

theorem lft_congr {s s' : Store} {q : Nat} (h : s'.cells q = s.cells q) : s'.lft q = s.lft q := by
  simp only [Store.lft, h]

theorem kv_congr {s s' : Store} {q : Nat} (h : s'.cells q = s.cells q) : s'.kv q = s.kv q := by
  simp only [Store.kv, Store.keyAt, h]

theorem kv_of_core {s s' : Store} {q : Nat}
    (h : (s'.cells q).map core = (s.cells q).map core) : s'.kv q = s.kv q := by
  simp only [Store.kv, keyAt_of_core h]

/-- A laid-out forest stays laid out when the store changes neither the inner nodes nor,
for the roots, the parent, key, child, degree and sibling links. -/
theorem Shape.frame {s s' : Store} {par : Option Nat} {f : Forest} (h : Shape s par f)
    (ht : ∀ c ∈ f.tops, (s'.cells c).map core = (s.cells c).map core ∧ s'.rgt c = s.rgt c ∧
      s'.lft c = s.lft c)
    (hi : ∀ c ∈ f.inner, s'.cells c = s.cells c) : Shape s' par f := by
  refine ⟨?_, lay_frame (fun c hc => (ht c hc).1) hi h.lay, h.nodup, h.deg⟩
  have hc := h.cyc
  cases hf : f.tops with
  | nil => trivial
  | cons a l =>
    rw [hf] at hc
    rw [cyc_cons_iff] at hc ⊢
    have hmem : ∀ q, q ∈ a :: l ++ [a] → q ∈ f.tops := by
      intro q hq
      rw [hf]
      simp only [List.cons_append, List.mem_cons, List.mem_append, List.mem_singleton] at hq
      simp only [List.mem_cons]; tauto
    exact chain_frame hc (fun q hq => (ht q (hmem q (List.mem_of_mem_dropLast hq))).2.1)
      (fun q hq => (ht q (hmem q (List.mem_of_mem_tail hq))).2.2)

theorem Shape.congr {s s' : Store} {par : Option Nat} {f : Forest} (h : Shape s par f)
    (hc : ∀ c ∈ f.addrs, s'.cells c = s.cells c) : Shape s' par f :=
  h.frame (fun c hc' => by
    have := hc c (tops_subset_addrs f c hc')
    exact ⟨by rw [this], rgt_congr this, lft_congr this⟩)
    (fun c hc' => hc c (inner_subset_addrs f c hc'))

/-- The children of the first tree of a laid-out forest are a laid-out forest. -/
theorem Shape.kids {s : Store} {par : Option Nat} {x : Nat} {k r : Forest}
    (h : Shape s par (.node x k r)) : Shape s (some x) k := by
  have hl := h.lay
  have hn := h.nodup
  have hd := h.deg
  simp only [Lay, DegOK, addrs_node, List.nodup_cons, List.nodup_append] at hl hn hd
  exact ⟨hl.2.1, hl.2.2.1, hn.2.1, hd.2.1⟩

theorem Shape.nodeOK {s : Store} {par : Option Nat} {x : Nat} {k r : Forest}
    (h : Shape s par (.node x k r)) : NodeOK s par x k := by
  have hl := h.lay
  simp only [Lay] at hl
  exact hl.1

theorem mem_tops_not_inner {f : Forest} (nd : f.addrs.Nodup) {q : Nat} (hq : q ∈ f.tops) :
    q ∉ f.inner := by
  have := (addrs_perm f).nodup_iff.mp nd
  exact fun h => (List.nodup_append.mp this).2.2 hq h

/-- Splicing the root lists of two disjoint laid-out forests. -/
theorem shape_splice {s : Store} {par : Option Nat} {a b : Nat} {ka ra kb rb : Forest}
    (hA : Shape s par (.node a ka ra)) (hB : Shape s par (.node b kb rb))
    (dis : ∀ q ∈ (Forest.node a ka ra).addrs, q ∉ (Forest.node b kb rb).addrs) :
    Shape (splice s a b (ra.tops.headD a) (rb.tops.getLastD b)) par
      (.node a ka (.node b kb (rb.append ra))) := by
  have ndAB : ((Forest.node a ka ra).addrs ++ (Forest.node b kb rb).addrs).Nodup :=
    List.nodup_append.mpr ⟨hA.nodup, hB.nodup, fun q h1 h2 => dis q h1 h2⟩
  have pm : (Forest.node a ka (.node b kb (rb.append ra))).addrs.Perm
      ((Forest.node a ka ra).addrs ++ (Forest.node b kb rb).addrs) := by
    simp only [addrs_node, addrs_append, List.cons_append]
    refine List.Perm.cons a ?_
    have : (ka.addrs ++ ra.addrs ++ b :: (kb.addrs ++ rb.addrs)).Perm
        (ka.addrs ++ (b :: (kb.addrs ++ rb.addrs) ++ ra.addrs)) := by
      rw [List.append_assoc]
      exact List.Perm.append_left _ List.perm_append_comm
    refine List.Perm.trans ?_ this.symm
    simp [List.append_assoc]
  have ndN : (Forest.node a ka (.node b kb (rb.append ra))).addrs.Nodup := pm.nodup_iff.mpr ndAB
  have hcyc : Cyc (splice s a b (ra.tops.headD a) (rb.tops.getLastD b))
      (a :: b :: rb.tops ++ ra.tops) := by
    refine splice_cyc hA.cyc hB.cyc ?_
    have h1 : ((Forest.node a ka ra).tops ++ (Forest.node b kb rb).tops).Sublist
        (((Forest.node a ka ra).tops ++ (Forest.node a ka ra).inner) ++
          ((Forest.node b kb rb).tops ++ (Forest.node b kb rb).inner)) :=
      List.Sublist.append (List.sublist_append_left _ _) (List.sublist_append_left _ _)
    have h2 : (((Forest.node a ka ra).tops ++ (Forest.node a ka ra).inner) ++
          ((Forest.node b kb rb).tops ++ (Forest.node b kb rb).inner)).Nodup :=
      ((addrs_perm _).append (addrs_perm _)).nodup_iff.mp ndAB
    exact h1.nodup h2
  have hlay0 : Lay s par (.node a ka (.node b kb (rb.append ra))) := by
    have h1 := hA.lay
    have h2 := hB.lay
    simp only [Lay, lay_append] at h1 h2 ⊢
    tauto
  refine ⟨by simpa using hcyc, ?_, ndN, ?_⟩
  · refine lay_frame (fun c _ => splice_core s a b _ _ c) ?_ hlay0
    intro c hc
    have hnt : c ∉ (Forest.node a ka (.node b kb (rb.append ra))).tops := fun h =>
      mem_tops_not_inner ndN h hc
    simp only [tops_node, tops_append, List.mem_cons, List.mem_append, not_or] at hnt
    refine splice_cells_ne s hnt.1 hnt.2.1 ?_ ?_
    · intro h
      have := headD_mem ra.tops a
      rw [← h] at this
      simp only [List.mem_cons] at this
      tauto
    · intro h
      have := getLastD_mem rb.tops b
      rw [← h] at this
      simp only [List.mem_cons] at this
      tauto
  · have h1 := hA.deg
    have h2 := hB.deg
    simp only [DegOK, degOK_append] at h1 h2 ⊢
    tauto

/-- Taking the first tree out of the root list of a laid-out forest. -/
theorem shape_unlink {s : Store} {par : Option Nat} {x : Nat} {k r : Forest}
    (h : Shape s par (.node x k r)) :
    Shape (unlink s (r.tops.getLastD x) (r.tops.headD x)) par r := by
  have hn := h.nodup
  have hl := h.lay
  have hd := h.deg
  simp only [addrs_node, List.nodup_cons, List.nodup_append, Lay, DegOK] at hn hl hd
  have ndt : (x :: r.tops).Nodup := by
    have := (List.sublist_append_left (Forest.node x k r).tops (Forest.node x k r).inner).nodup
      ((addrs_perm _).nodup_iff.mp h.nodup)
    simpa using this
  refine ⟨unlink_cyc h.cyc ndt, ?_, hn.2.2.1, hd.2.2⟩
  refine lay_frame (fun c _ => unlink_core s _ _ c) ?_ hl.2.2.2
  intro c hc
  have hnt : c ∉ r.tops := fun h' => mem_tops_not_inner hn.2.2.1 h' hc
  have hcx : c ≠ x := fun h' => hn.1 (by
    rw [← h']; simp only [List.mem_append]; exact Or.inr (inner_subset_addrs r c hc))
  refine unlink_cells_ne s ?_ ?_
  · intro h'
    have := getLastD_mem r.tops x
    rw [← h'] at this
    simp only [List.mem_cons] at this
    tauto
  · intro h'
    have := headD_mem r.tops x
    rw [← h'] at this
    simp only [List.mem_cons] at this
    tauto


theorem kv_le_of_cells {s : Store} {a b : Nat} {na nb : FibHeapNode} (ha : s.cells a = some na)
    (hb : s.cells b = some nb) : s.kv a ≤ s.kv b ↔ na.key ≤ nb.key := by
  rw [kv_of_cells ha, kv_of_cells hb]

/-- `_merge` on the entries of two circular lists, first key not greater. -/
theorem merge_cyc_le {s : Store} {a b : Nat} {la lb : List Nat} (hA : Cyc s (a :: la))
    (hB : Cyc s (b :: lb)) (hk : s.kv a ≤ s.kv b) :
    _merge s (some a) (some b) = .ok (splice s a b (la.headD a) (lb.getLastD b), some a) := by
  obtain ⟨na, hna, hnar⟩ := rgt_eq_some (cyc_rgt hA)
  obtain ⟨nb, hnb, hnbl⟩ := lft_eq_some (cyc_lft hB)
  exact merge_le hna hnb ((kv_le_of_cells hna hnb).mp hk) hnar hnbl
    (cyc_live hA (headD_mem la a)) (cyc_live hB (getLastD_mem lb b))

/-- `_merge` on the entries of two circular lists, first key greater. -/
theorem merge_cyc_gt {s : Store} {a b : Nat} {la lb : List Nat} (hA : Cyc s (a :: la))
    (hB : Cyc s (b :: lb)) (hk : s.kv b < s.kv a) :
    _merge s (some a) (some b) = .ok (splice s b a (lb.headD b) (la.getLastD a), some b) := by
  obtain ⟨nb, hnb, hnbr⟩ := rgt_eq_some (cyc_rgt hB)
  obtain ⟨na, hna, hnal⟩ := lft_eq_some (cyc_lft hA)
  have : nb.key < na.key := by
    rw [kv_of_cells hna, kv_of_cells hnb] at hk; exact hk
  exact merge_gt hna hnb this hnbr hnal
    (cyc_live hB (headD_mem lb b)) (cyc_live hA (getLastD_mem la a))

/-- `_remove_from_circular_list` on the entry of a circular list without repetition. -/
theorem remove_cyc {s : Store} {x : Nat} {l : List Nat} (h : Cyc s (x :: l))
    (nd : (x :: l).Nodup) :
    _remove_from_circular_list s (some x) = .ok (unlink s (l.getLastD x) (l.headD x)) ∨
      (l = [] ∧ _remove_from_circular_list s (some x) = .ok s) := by
  cases l with
  | nil => exact Or.inr ⟨rfl, remove_single (cyc_rgt h)⟩
  | cons y l' =>
    left
    refine remove_unlink (cyc_rgt h) (cyc_lft h) ?_ (cyc_live h (getLastD_mem _ x))
      (cyc_live h (headD_mem _ x))
    simp only [List.headD_cons]
    intro e
    exact (List.nodup_cons.mp nd).1 (e ▸ List.mem_cons_self y l')

theorem tops_nodup {f : Forest} (nd : f.addrs.Nodup) : f.tops.Nodup :=
  (List.sublist_append_left f.tops f.inner).nodup ((addrs_perm f).nodup_iff.mp nd)

/-- `_merge` of the root lists of two disjoint laid-out forests, entered at `m₁` and
`m₂`: the result is laid out, has the nodes of both, and the returned node is the one of
smaller key (`m₁` when the keys are equal). -/
theorem merge_shape {s : Store} {par : Option Nat} {f₁ f₂ : Forest} {m₁ m₂ : Nat}
    (h₁ : Shape s par f₁) (h₂ : Shape s par f₂) (dis : ∀ q ∈ f₁.addrs, q ∉ f₂.addrs)
    (hm₁ : m₁ ∈ f₁.tops) (hm₂ : m₂ ∈ f₂.tops) :
    ∃ s' f' m, _merge s (some m₁) (some m₂) = .ok (s', some m) ∧ Shape s' par f' ∧
      f'.addrs.Perm (f₁.addrs ++ f₂.addrs) ∧ f'.tops.Perm (f₁.tops ++ f₂.tops) ∧
      Frame s s' (f₁.tops ++ f₂.tops) ∧
      (∀ q, (s'.cells q).map core = (s.cells q).map core) ∧
      m = (if s.kv m₁ ≤ s.kv m₂ then m₁ else m₂) ∧ f'.tops.head? = some m ∧
      (Binom f₁ → Binom f₂ → Binom f') := by
  obtain ⟨k₁, r₁, v₁, p₁, t₁⟩ := h₁.view hm₁
  obtain ⟨k₂, r₂, v₂, p₂, t₂⟩ := h₂.view hm₂
  have hbin : ∀ {ga gb rest : Forest} {a b : Nat} {ka kb : Forest}, Binom (.node a ka ga) →
      Binom (.node b kb gb) → rest = gb.append ga → Binom (.node a ka (.node b kb rest)) := by
    intro ga gb rest a b ka kb b1 b2 e
    subst e
    exact ⟨b1.1, b1.2.1, b2.1, b2.2.1, (binom_append _ _).mpr ⟨b2.2.2, b1.2.2⟩⟩
  have hb₁ : Binom f₁ → Binom (.node m₁ k₁ r₁) := fun hb =>
    binom_transfer h₁.lay hb _ _ v₁.lay (fun a ha => p₁.subset ha)
  have hb₂ : Binom f₂ → Binom (.node m₂ k₂ r₂) := fun hb =>
    binom_transfer h₂.lay hb _ _ v₂.lay (fun a ha => p₂.subset ha)
  have dis12 : ∀ q ∈ (Forest.node m₁ k₁ r₁).addrs, q ∉ (Forest.node m₂ k₂ r₂).addrs :=
    fun q hq hq' => dis q (p₁.subset hq) (p₂.subset hq')
  have hin : ∀ {a b aR bL : Nat}, a ∈ f₁.tops ++ f₂.tops → b ∈ f₁.tops ++ f₂.tops →
      aR ∈ f₁.tops ++ f₂.tops → bL ∈ f₁.tops ++ f₂.tops →
      Frame s (splice s a b aR bL) (f₁.tops ++ f₂.tops) := fun h1 h2 h3 h4 =>
    frame_splice s _ _ _ _ h1 h2 h3 h4
  have m1in : ∀ q, q ∈ m₁ :: r₁.tops → q ∈ f₁.tops ++ f₂.tops := fun q hq =>
    List.mem_append_left _ (t₁.subset hq)
  have m2in : ∀ q, q ∈ m₂ :: r₂.tops → q ∈ f₁.tops ++ f₂.tops := fun q hq =>
    List.mem_append_right _ (t₂.subset hq)
  by_cases hk : s.kv m₁ ≤ s.kv m₂
  · refine ⟨_, _, m₁, merge_cyc_le v₁.cyc v₂.cyc hk, shape_splice v₁ v₂ dis12, ?_, ?_, ?_,
      fun q => splice_core s _ _ _ _ q, by rw [if_pos hk], rfl,
      fun b1 b2 => hbin (hb₁ b1) (hb₂ b2) rfl⟩
    · refine List.Perm.trans ?_ (p₁.append p₂)
      simp only [addrs_node, addrs_append, List.cons_append]
      refine List.Perm.cons m₁ ?_
      have : (k₁.addrs ++ r₁.addrs ++ m₂ :: (k₂.addrs ++ r₂.addrs)).Perm
          (k₁.addrs ++ (m₂ :: (k₂.addrs ++ r₂.addrs) ++ r₁.addrs)) := by
        rw [List.append_assoc]
        exact List.Perm.append_left _ List.perm_append_comm
      refine List.Perm.trans ?_ this.symm
      simp [List.append_assoc]
    · refine List.Perm.trans ?_ (t₁.append t₂)
      simp only [tops_node, tops_append, List.cons_append]
      refine List.Perm.cons m₁ ?_
      exact @List.perm_append_comm _ (m₂ :: r₂.tops) r₁.tops
    · exact hin (m1in _ (by simp)) (m2in _ (by simp)) (m1in _ (headD_mem _ _))
        (m2in _ (getLastD_mem _ _))
  · have hk' : s.kv m₂ < s.kv m₁ := not_le.mp hk
    have dis21 : ∀ q ∈ (Forest.node m₂ k₂ r₂).addrs, q ∉ (Forest.node m₁ k₁ r₁).addrs :=
      fun q hq hq' => dis12 q hq' hq
    refine ⟨_, _, m₂, merge_cyc_gt v₁.cyc v₂.cyc hk', shape_splice v₂ v₁ dis21, ?_, ?_, ?_,
      fun q => splice_core s _ _ _ _ q, by rw [if_neg hk], rfl,
      fun b1 b2 => hbin (hb₂ b2) (hb₁ b1) rfl⟩
    · refine List.Perm.trans ?_ (p₁.append p₂)
      refine List.Perm.trans ?_ List.perm_append_comm
      simp only [addrs_node, addrs_append, List.cons_append]
      refine List.Perm.cons m₂ ?_
      have : (k₂.addrs ++ r₂.addrs ++ m₁ :: (k₁.addrs ++ r₁.addrs)).Perm
          (k₂.addrs ++ (m₁ :: (k₁.addrs ++ r₁.addrs) ++ r₂.addrs)) := by
        rw [List.append_assoc]
        exact List.Perm.append_left _ List.perm_append_comm
      refine List.Perm.trans ?_ this.symm
      simp [List.append_assoc]
    · refine List.Perm.trans ?_ (t₁.append t₂)
      refine List.Perm.trans ?_ List.perm_append_comm
      simp only [tops_node, tops_append, List.cons_append]
      refine List.Perm.cons m₂ ?_
      exact @List.perm_append_comm _ (m₁ :: r₁.tops) r₂.tops
    · exact hin (m2in _ (by simp)) (m1in _ (by simp)) (m2in _ (headD_mem _ _))
        (m1in _ (getLastD_mem _ _))


/-! ## `merge` and `insert` -/

theorem merge_none_left (s : Store) (b : Option Nat) : _merge s none b = .ok (s, b) := by
  simp [_merge, pure, Except.pure]

theorem merge_none_right (s : Store) (a : Option Nat) : _merge s a none = .ok (s, a) := by
  cases a <;> simp [_merge, pure, Except.pure]

theorem WF.minNull {s : Store} {h : FibHeap} {f : Forest} (w : WF s h f)
    (hm : h.m_minNode = none) : f = .nil := by
  have := w.minHead
  rw [hm] at this
  cases f with
  | nil => rfl
  | node a k r => simp at this

theorem WF.minRoot {s : Store} {h : FibHeap} {f : Forest} (w : WF s h f) (m : Nat)
    (hm : h.m_minNode = some m) : m ∈ f.tops ∧ ∀ r ∈ f.tops, s.kv m ≤ s.kv r := by
  have := w.minHead
  rw [hm] at this
  exact ⟨mem_of_head? this.symm, w.minLeast m hm⟩

theorem shape_nil (s : Store) (par : Option Nat) : Shape s par .nil :=
  ⟨trivial, trivial, List.nodup_nil, trivial⟩

/-- The empty heap in any store. -/
theorem wf_empty (s : Store) : WF s FibHeap.empty .nil :=
  ⟨shape_nil s none, rfl, by simp, rfl, fun m hm => by simp [FibHeap.empty] at hm⟩

/-- The root list of the merged heap, on two well-formed heaps with disjoint nodes. -/
theorem wf_merge_roots {s : Store} {h₁ h₂ : FibHeap} {f₁ f₂ : Forest} (w₁ : WF s h₁ f₁)
    (w₂ : WF s h₂ f₂) (dis : ∀ q ∈ f₁.addrs, q ∉ f₂.addrs) :
    ∃ s' f' m, _merge s h₁.m_minNode h₂.m_minNode = .ok (s', m) ∧
      WF s' ⟨m, h₁.m_numOfNodes + h₂.m_numOfNodes⟩ f' ∧
      f'.addrs.Perm (f₁.addrs ++ f₂.addrs) ∧ Frame s s' (f₁.addrs ++ f₂.addrs) ∧
      (∀ q, (s'.cells q).map core = (s.cells q).map core) ∧
      m = pickMin s h₁.m_minNode h₂.m_minNode ∧ (Binom f₁ → Binom f₂ → Binom f') := by
  cases hm₁ : h₁.m_minNode with
  | none =>
    have e := w₁.minNull hm₁
    subst e
    refine ⟨s, f₂, h₂.m_minNode, merge_none_left s _, ?_, by simp, Frame.refl s _,
      fun _ => rfl, rfl, fun _ b => b⟩
    refine ⟨w₂.shape, ?_, w₂.bound, w₂.minHead, w₂.minLeast⟩
    have := w₁.size; have := w₂.size
    simp only [addrs_nil, List.length_nil, Nat.cast_zero] at *
    omega
  | some m₁ =>
    cases hm₂ : h₂.m_minNode with
    | none =>
      have e := w₂.minNull hm₂
      subst e
      refine ⟨s, f₁, some m₁, merge_none_right s _, ?_, by simp, Frame.refl s _,
        fun _ => rfl, rfl, fun b _ => b⟩
      refine ⟨w₁.shape, ?_, w₁.bound, by rw [← hm₁]; exact w₁.minHead, fun m hm => ?_⟩
      · have := w₁.size; have := w₂.size
        simp only [addrs_nil, List.length_nil, Nat.cast_zero] at *
        omega
      · simp only [Option.some.injEq] at hm
        subst hm
        exact w₁.minLeast _ hm₁
    | some m₂ =>
      obtain ⟨t₁, min₁⟩ := w₁.minRoot m₁ hm₁
      obtain ⟨t₂, min₂⟩ := w₂.minRoot m₂ hm₂
      obtain ⟨s', f', m, e, sh, pa, pt, fr, co, hm, hh, hbin⟩ :=
        merge_shape w₁.shape w₂.shape dis t₁ t₂
      refine ⟨s', f', some m, e, ?_, pa, ?_, co, by simp only [hm, pickMin]; split <;> rfl,
        hbin⟩
      · refine ⟨sh, ?_, ?_, hh.symm, ?_⟩
        · have := w₁.size; have := w₂.size; have := pa.length_eq
          simp only [List.length_append] at this
          simp only [*]
          push_cast
          omega
        · intro a ha
          rw [fr.next]
          have := pa.subset ha
          simp only [List.mem_append] at this
          rcases this with h | h
          · exact w₁.bound a h
          · exact w₂.bound a h
        · intro m' hm'
          simp only [Option.some.injEq] at hm'
          subst hm'
          have hmin : ∀ r ∈ f₁.tops ++ f₂.tops, s.kv m ≤ s.kv r := by
            intro r hr
            simp only [List.mem_append] at hr
            rw [hm]
            split
            · next hle =>
              rcases hr with h | h
              · exact min₁ r h
              · exact le_trans hle (min₂ r h)
            · next hgt =>
              rcases hr with h | h
              · exact le_trans (le_of_lt (not_le.mp hgt)) (min₁ r h)
              · exact min₂ r h
          intro r hr
          rw [fr.kv, fr.kv]; exact hmin r (pt.subset hr)
      · exact fr.mono (fun a ha => by
          simp only [List.mem_append] at ha ⊢
          rcases ha with h | h
          · exact Or.inl (tops_subset_addrs _ _ h)
          · exact Or.inr (tops_subset_addrs _ _ h))

/-- `merge` on two well-formed heaps with disjoint nodes. -/
theorem wf_merge {s : Store} {h₁ h₂ : FibHeap} {f₁ f₂ : Forest} (w₁ : WF s h₁ f₁)
    (w₂ : WF s h₂ f₂) (dis : ∀ q ∈ f₁.addrs, q ∉ f₂.addrs) :
    ∃ s' f' m, merge s h₁ h₂ =
        .ok (s', ⟨m, h₁.m_numOfNodes + h₂.m_numOfNodes⟩, ⟨none, 0⟩) ∧
      WF s' ⟨m, h₁.m_numOfNodes + h₂.m_numOfNodes⟩ f' ∧
      f'.addrs.Perm (f₁.addrs ++ f₂.addrs) ∧ Frame s s' (f₁.addrs ++ f₂.addrs) ∧
      (∀ q, (s'.cells q).map core = (s.cells q).map core) ∧
      m = pickMin s h₁.m_minNode h₂.m_minNode ∧ (Binom f₁ → Binom f₂ → Binom f') := by
  obtain ⟨s', f', m, e, w, pa, fr, co, hm, hbin⟩ := wf_merge_roots w₁ w₂ dis
  refine ⟨s', f', m, ?_, w, pa, fr, co, hm, hbin⟩
  simp only [merge, e, bind, Except.bind, pure, Except.pure]


theorem WF.ofCells {s s' : Store} {h : FibHeap} {f : Forest} (w : WF s h f)
    (hc : ∀ c ∈ f.addrs, s'.cells c = s.cells c) (hn : s.next ≤ s'.next) : WF s' h f := by
  refine ⟨w.shape.congr hc, w.size, fun a ha => lt_of_lt_of_le (w.bound a ha) hn, w.minHead,
    fun m hm => ?_⟩
  obtain ⟨h1, h2⟩ := w.minRoot m hm
  intro r hr
  rw [kv_congr (hc m (tops_subset_addrs f m h1)), kv_congr (hc r (tops_subset_addrs f r hr))]
  exact h2 r hr

theorem create_node_cells (s : Store) (k : Int) (q : Nat) :
    (_create_node s k).1.cells q =
      if q = s.next then some ⟨k, some s.next, some s.next, none, none, 0, false⟩
      else s.cells q := rfl

theorem create_node_next (s : Store) (k : Int) : (_create_node s k).1.next = s.next + 1 := rfl

theorem create_node_ptr (s : Store) (k : Int) : (_create_node s k).2 = some s.next := rfl

/-- A freshly created node is a well-formed heap of one node. -/
theorem wf_create_node (s : Store) (k : Int) :
    WF (_create_node s k).1 ⟨some s.next, 1⟩ (.node s.next .nil .nil) := by
  have hc : (_create_node s k).1.cells s.next =
      some ⟨k, some s.next, some s.next, none, none, 0, false⟩ := by
    rw [create_node_cells, if_pos rfl]
  refine ⟨⟨?_, ?_, by simp, by simp [DegOK]⟩, by simp, ?_, rfl, ?_⟩
  · simp only [tops_node, tops_nil, cyc_singleton, Lnk, Store.rgt, Store.lft, hc,
      Option.some_bind, and_self]
  · simp only [Lay, and_true]
    exact ⟨⟨_, hc, rfl, by simp, rfl, by simp⟩, trivial⟩
  · intro a ha
    simp only [addrs_node, addrs_nil, List.append_nil, List.mem_singleton] at ha
    rw [create_node_next]; omega
  · intro m hm
    simp only [Option.some.injEq] at hm
    subst hm
    simp

/-- `insert` on a well-formed heap: the new node is at the address `s.next`, the heap
is well-formed again with this one node more, and `m_minNode` is the old one unless the
new key is smaller. -/
theorem wf_insert {s : Store} {h : FibHeap} {f : Forest} (w : WF s h f) (k : Int) :
    ∃ s' f' m, insert s h k = .ok (s', ⟨m, h.m_numOfNodes + 1⟩, some s.next) ∧
      WF s' ⟨m, h.m_numOfNodes + 1⟩ f' ∧ f'.addrs.Perm (s.next :: f.addrs) ∧
      s'.next = s.next + 1 ∧ s'.keyAt s.next = some k ∧
      (∀ q, q ≠ s.next → s'.keyAt q = s.keyAt q) ∧
      (∀ q, q ∉ f.addrs → q ≠ s.next → s'.cells q = s.cells q) ∧
      m = pickMin (_create_node s k).1 h.m_minNode (some s.next) ∧
      (∀ q, (s'.cells q).map core = ((_create_node s k).1.cells q).map core) ∧
      (Binom f → Binom f') := by
  have fresh : s.next ∉ f.addrs := fun hh => lt_irrefl _ (w.bound _ hh)
  have hcell : ∀ q, q ≠ s.next → (_create_node s k).1.cells q = s.cells q := fun q hq => by
    rw [create_node_cells, if_neg hq]
  have w₀ : WF (_create_node s k).1 h f :=
    w.ofCells (fun c hc => hcell c (fun e => fresh (e ▸ hc))) (by rw [create_node_next]; omega)
  have w₁ := wf_create_node s k
  obtain ⟨s', f', m, e, w', pa, fr, co, hm, hbin⟩ := wf_merge_roots w₀ w₁
    (fun q hq => by
      simp only [addrs_node, addrs_nil, List.append_nil, List.mem_singleton]
      exact fun e => fresh (e ▸ hq))
  refine ⟨s', f', m, ?_, w', ?_, by rw [fr.next, create_node_next], ?_, ?_, ?_, hm, co,
    fun b => hbin b ⟨by simp, trivial, trivial⟩⟩
  · simp only [insert, _insert_node, bind, Except.bind, pure, Except.pure]
    rw [create_node_ptr]
    simp only [e]
  · refine pa.trans ?_
    simp only [addrs_node, addrs_nil, List.append_nil]
    exact List.perm_append_comm
  · rw [fr.key]
    simp [Store.keyAt, create_node_cells]
  · intro q hq
    rw [fr.key]
    simp only [Store.keyAt, hcell q hq]
  · intro q hq hq'
    rw [fr.off q (by simp [hq, hq']), hcell q hq']


/-! ## `_make_child` -/

theorem selfLoop_cells_ne (s : Store) {y x q : Nat} (h : q ≠ y) :
    (selfLoop s y x).cells q = s.cells q := by
  simp [selfLoop, h]

theorem selfLoop_cells_self {s : Store} {y : Nat} {n : FibHeapNode} (x : Nat)
    (h : s.cells y = some n) :
    (selfLoop s y x).cells y =
      some { n with right := some y, left := some y, parent := some x } := by
  simp [selfLoop, h]

theorem selfLoop_isSome (s : Store) (y x q : Nat) :
    ((selfLoop s y x).cells q).isSome = (s.cells q).isSome := by
  simp only [selfLoop, upd_isSome]

theorem attach_isSome (s : Store) (x y q : Nat) (c : Option Nat) :
    ((attach s x y c).cells q).isSome = (s.cells q).isSome := by
  simp only [attach, upd_isSome]

theorem attach_cells_ne (s : Store) {x y q : Nat} (c : Option Nat) (h1 : q ≠ x) (h2 : q ≠ y) :
    (attach s x y c).cells q = s.cells q := by
  simp [attach, h1, h2]

theorem attach_cells_x {s : Store} {x y : Nat} {n : FibHeapNode} (c : Option Nat) (hxy : x ≠ y)
    (h : s.cells x = some n) :
    (attach s x y c).cells x = some { n with child := c, degree := n.degree + 1 } := by
  simp [attach, h, hxy]

theorem attach_cells_y {s : Store} {x y : Nat} {n : FibHeapNode} (c : Option Nat) (hxy : x ≠ y)
    (h : s.cells y = some n) :
    (attach s x y c).cells y = some { n with mark := false } := by
  simp [attach, h, Ne.symm hxy]

theorem attach_rgt (s : Store) (x y q : Nat) (c : Option Nat) :
    (attach s x y c).rgt q = s.rgt q := by
  simp only [attach, rgt_upd]
  by_cases h1 : q = y
  · subst h1
    by_cases h2 : q = x
    · subst h2; cases hc : s.cells q <;> simp [hc, Store.rgt]
    · cases hc : s.cells q <;> simp [hc, h2, Store.rgt]
  · by_cases h2 : q = x
    · subst h2; cases hc : s.cells q <;> simp [hc, h1, Store.rgt]
    · simp [h1, h2]

theorem attach_lft (s : Store) (x y q : Nat) (c : Option Nat) :
    (attach s x y c).lft q = s.lft q := by
  simp only [attach, lft_upd]
  by_cases h1 : q = y
  · subst h1
    by_cases h2 : q = x
    · subst h2; cases hc : s.cells q <;> simp [hc, Store.lft]
    · cases hc : s.cells q <;> simp [hc, h2, Store.lft]
  · by_cases h2 : q = x
    · subst h2; cases hc : s.cells q <;> simp [hc, h1, Store.lft]
    · simp [h1, h2]

theorem attach_keyAt (s : Store) (x y q : Nat) (c : Option Nat) :
    (attach s x y c).keyAt q = s.keyAt q := by
  simp only [attach]
  refine (keyAt_upd _ _ _ _ ?_).trans ((keyAt_upd _ _ _ _ ?_).trans (keyAt_upd _ _ _ _ ?_)) <;>
    intro _ <;> rfl

theorem selfLoop_keyAt (s : Store) (y x q : Nat) :
    (selfLoop s y x).keyAt q = s.keyAt q := by
  simp only [selfLoop]
  refine (keyAt_upd _ _ _ _ ?_).trans ((keyAt_upd _ _ _ _ ?_).trans (keyAt_upd _ _ _ _ ?_)) <;>
    intro _ <;> rfl

/-- The run of `_make_child` in terms of its parts. -/
theorem make_child_eq {s s₁ s₅ : Store} {y x : Nat} {c : Option Nat} {nx : FibHeapNode}
    (hrem : _remove_from_circular_list s (some y) = .ok s₁) (hy : (s₁.cells y).isSome)
    (hx : (selfLoop s₁ y x).cells x = some nx)
    (hm : _merge (selfLoop s₁ y x) nx.child (some y) = .ok (s₅, c))
    (hx₅ : (s₅.cells x).isSome) (hy₅ : (s₅.cells y).isSome) :
    _make_child s (some y) (some x) = .ok (attach s₅ x y c) := by
  simp only [_make_child, hrem, bind, Except.bind]
  rw [modify_live hy]
  simp only []
  rw [modify_live (by rw [upd_isSome]; exact hy)]
  simp only []
  rw [modify_live (by rw [upd_isSome, upd_isSome]; exact hy)]
  simp only []
  have hx' := hx
  simp only [selfLoop] at hx' hm
  rw [load_some hx']
  simp only [hm]
  rw [modify_live hx₅]
  simp only []
  rw [modify_live (by rw [upd_isSome]; exact hx₅)]
  simp only []
  rw [modify_live (by rw [upd_isSome, upd_isSome]; exact hy₅)]
  rfl


theorem getLastD_mem_of_ne_nil {l : List Nat} (h : l ≠ []) (d : Nat) : l.getLastD d ∈ l := by
  cases l using List.reverseRecOn with
  | nil => exact absurd rfl h
  | append_singleton l z => simp

theorem headD_mem_of_ne_nil {l : List Nat} (h : l ≠ []) (d : Nat) : l.headD d ∈ l := by
  cases l with
  | nil => exact absurd rfl h
  | cons a l => simp

theorem cyc_frame {s s' : Store} {l : List Nat} (h : Cyc s l)
    (hq : ∀ q ∈ l, s'.rgt q = s.rgt q ∧ s'.lft q = s.lft q) : Cyc s' l := by
  cases l with
  | nil => trivial
  | cons a l =>
    rw [cyc_cons_iff] at h ⊢
    have hmem : ∀ q, q ∈ a :: l ++ [a] → q ∈ a :: l := by
      intro q hq
      simp only [List.cons_append, List.mem_cons, List.mem_append, List.mem_singleton] at hq
      simp only [List.mem_cons]; tauto
    exact chain_frame h (fun q hq' => (hq q (hmem q (List.mem_of_mem_dropLast hq'))).1)
      (fun q hq' => (hq q (hmem q (List.mem_of_mem_tail hq'))).2)

theorem deg_of_core {s s' : Store} {q : Nat}
    (h : (s'.cells q).map core = (s.cells q).map core) : s'.deg q = s.deg q := by
  have : ∀ o : Option FibHeapNode,
      o.map (fun n => n.degree) = (o.map core).map (fun n => n.degree) := by
    intro o; cases o <;> rfl
  simp only [Store.deg]
  rw [this, h, ← this]

theorem deg_congr {s s' : Store} {q : Nat} (h : s'.cells q = s.cells q) : s'.deg q = s.deg q := by
  simp only [Store.deg, h]

theorem deg_of_cells {s : Store} {q : Nat} {n : FibHeapNode} (h : s.cells q = some n) :
    s.deg q = some n.degree := by
  simp [Store.deg, h]

theorem selfLoop_deg (s : Store) (y x q : Nat) : (selfLoop s y x).deg q = s.deg q := by
  by_cases h : q = y
  · subst h
    cases hc : s.cells q with
    | none =>
      have : ((selfLoop s q x).cells q).isSome = false := by rw [selfLoop_isSome, hc]; rfl
      simp only [Store.deg, hc]
      cases h' : (selfLoop s q x).cells q with
      | none => rfl
      | some n => rw [h'] at this; simp at this
    | some n => rw [deg_of_cells (selfLoop_cells_self x hc), deg_of_cells hc]
  · exact deg_congr (selfLoop_cells_ne s h)

theorem attach_core_ne (s : Store) {x y q : Nat} (c : Option Nat) (h : q ≠ x) :
    ((attach s x y c).cells q).map core = (s.cells q).map core := by
  simp only [attach]
  rw [core_setMark, core_upd_ne h, core_upd_ne h]

theorem nodeOK_cells {s : Store} {par : Option Nat} {a : Nat} {k : Forest}
    (h : NodeOK s par a k) : (s.cells a).isSome := by
  obtain ⟨n, hn, -⟩ := h
  rw [hn]; rfl

theorem degOK_link {dx dy ax ay : Nat} (h : dx = dy)
    (hx : 1618 ^ dx ≤ (1 + ax) * 1000 ^ dx) (hy : 1618 ^ dy ≤ (1 + ay) * 1000 ^ dy) :
    1618 ^ (dx + 1) ≤ (1 + (ax + (1 + ay))) * 1000 ^ (dx + 1) := by
  subst h
  rw [pow_succ, pow_succ]
  have : 1618 ^ dx * 1618 ≤ ((1 + ax) * 1000 ^ dx + (1 + ay) * 1000 ^ dx) * 1000 := by
    generalize 1618 ^ dx = P at hx hy ⊢
    generalize (1 + ax) * 1000 ^ dx = A at hx ⊢
    generalize (1 + ay) * 1000 ^ dx = B at hy ⊢
    omega
  calc 1618 ^ dx * 1618 ≤ ((1 + ax) * 1000 ^ dx + (1 + ay) * 1000 ^ dx) * 1000 := this
    _ = (1 + (ax + (1 + ay))) * (1000 ^ dx * 1000) := by ring


/-- The grafting step of `_make_child`: the detached tree of `y` is spliced into the
child list of `x`. -/
theorem graft_spec {s : Store} {x y : Nat} {kx ky : Forest} {nx : FibHeapNode}
    (shK : Shape s (some x) kx) (shY : Shape s (some x) (.node y ky .nil))
    (hch : nx.child = kx.tops.head?)
    (dis : ∀ q ∈ kx.addrs, q ∉ (Forest.node y ky .nil).addrs) :
    ∃ s₅ kx' cm, _merge s nx.child (some y) = .ok (s₅, some cm) ∧ Shape s₅ (some x) kx' ∧
      kx'.addrs.Perm (kx.addrs ++ (y :: ky.addrs)) ∧ kx'.tops.Perm (kx.tops ++ [y]) ∧
      Frame s s₅ (kx.tops ++ [y]) ∧ (∀ q, (s₅.cells q).map core = (s.cells q).map core) ∧
      kx'.tops.head? = some cm ∧ (Binom kx → Binom (.node y ky .nil) → Binom kx') := by
  have hch0 := head?_tops_nil hch
  have hch1 := head?_tops_some hch
  by_cases hk : kx = .nil
  · subst hk
    rw [hch0 rfl]
    exact ⟨s, .node y ky .nil, y, merge_none_left s _, shY, by simp, by simp, Frame.refl s _,
      fun _ => rfl, rfl, fun _ b => b⟩
  · obtain ⟨c, hc, hcc⟩ := hch1 hk
    rw [hcc]
    obtain ⟨s₅, kx', m, e, sh, pa, pt, fr, co, -, hh⟩ :=
      merge_shape shK shY dis hc (by simp : y ∈ (Forest.node y ky .nil).tops)
    refine ⟨s₅, kx', m, e, sh, ?_, ?_, ?_, co, hh⟩
    · simpa using pa
    · simpa using pt
    · simpa using fr


theorem frame_selfLoop (s : Store) (y x : Nat) {L : List Nat} (hy : y ∈ L) :
    Frame s (selfLoop s y x) L :=
  ⟨rfl, selfLoop_keyAt s y x, fun q hq => selfLoop_cells_ne s (fun (e : q = y) => hq (e ▸ hy))⟩

theorem frame_attach (s : Store) (x y : Nat) (c : Option Nat) {L : List Nat} (hx : x ∈ L)
    (hy : y ∈ L) : Frame s (attach s x y c) L :=
  ⟨rfl, fun q => attach_keyAt s x y q c, fun q hq =>
    attach_cells_ne s c (fun (e : q = x) => hq (e ▸ hx)) (fun (e : q = y) => hq (e ▸ hy))⟩

set_option maxHeartbeats 800000 in
/-- `_make_child y x` on two distinct roots of a laid-out forest, the key of `x` not
greater than the key of `y` and both of the same degree: the tree of `y` becomes a child
of `x`, and the forest is laid out again with the same nodes. -/
theorem make_child_spec {s : Store} {g : Forest} {x y : Nat} (h : Shape s none g)
    (hx : x ∈ g.tops) (hy : y ∈ g.tops) (hxy : x ≠ y) (hk : s.kv x ≤ s.kv y)
    (hd : s.deg x = s.deg y) :
    ∃ s' g', _make_child s (some y) (some x) = .ok s' ∧ Shape s' none g' ∧
      g'.addrs.Perm g.addrs ∧ (y :: g'.tops).Perm g.tops ∧ Frame s s' g.addrs ∧
      s'.deg x = (s.deg x).map (fun d => d + 1) ∧ (∀ z, z ≠ x → s'.deg z = s.deg z) ∧
      (Binom g → Binom g') := by
  obtain ⟨ky, r, vy, py, ty⟩ := h.view hy
  have hxr : x ∈ r.tops := by
    have := ty.symm.subset hx
    simp only [List.mem_cons] at this
    exact this.resolve_left hxy
  obtain ⟨r₁, kx, r₂, rfl⟩ := tops_split hxr
  generalize hR : r₁.append (.node x kx r₂) = R at *
  have ndg : (y :: (ky.addrs ++ R.addrs)).Nodup := vy.nodup
  have hyK : y ∉ ky.addrs := fun hh => (List.nodup_cons.mp ndg).1 (List.mem_append_left _ hh)
  have hyR : y ∉ R.addrs := fun hh => (List.nodup_cons.mp ndg).1 (List.mem_append_right _ hh)
  have hKR : ∀ q ∈ ky.addrs, q ∉ R.addrs := fun q h1 h2 =>
    (List.nodup_append.mp (List.nodup_cons.mp ndg).2).2.2 h1 h2
  have ndt : (y :: R.tops).Nodup := by simpa using tops_nodup vy.nodup
  have hRne : R.tops ≠ [] := by rw [← hR]; simp
  have hl_mem : R.tops.getLastD y ∈ R.tops := getLastD_mem_of_ne_nil hRne y
  have hr_mem : R.tops.headD y ∈ R.tops := headD_mem_of_ne_nil hRne y
  have hrem : _remove_from_circular_list s (some y) =
      .ok (unlink s (R.tops.getLastD y) (R.tops.headD y)) := by
    rcases remove_cyc vy.cyc ndt with h1 | ⟨h1, _⟩
    · exact h1
    · exact absurd h1 hRne
  generalize hs₁ : unlink s (R.tops.getLastD y) (R.tops.headD y) = s₁ at hrem
  have sh₁ : Shape s₁ none R := hs₁ ▸ shape_unlink vy
  have fr₁ : Frame s s₁ (Forest.node y ky R).addrs := hs₁ ▸
    frame_unlink s _ _
      (List.mem_cons_of_mem _ (List.mem_append_right _ (tops_subset_addrs R _ hl_mem)))
      (List.mem_cons_of_mem _ (List.mem_append_right _ (tops_subset_addrs R _ hr_mem)))
  have off₁ : ∀ q, q ∉ R.tops → s₁.cells q = s.cells q := fun q hq => by
    rw [← hs₁]
    exact unlink_cells_ne s (fun e => hq (e ▸ hl_mem)) (fun e => hq (e ▸ hr_mem))
  have core₁ : ∀ q, (s₁.cells q).map core = (s.cells q).map core := fun q => by
    rw [← hs₁]; exact unlink_core s _ _ q
  have hyRt : y ∉ R.tops := fun hh => hyR (tops_subset_addrs R y hh)
  obtain ⟨ny, hny, hny1, hny2, hny3, hny5⟩ := vy.nodeOK
  have hny₁ : s₁.cells y = some ny := by rw [off₁ y hyRt]; exact hny
  -- the detached node
  generalize hs₄ : selfLoop s₁ y x = s₄
  have hy₄ : s₄.cells y = some { ny with right := some y, left := some y, parent := some x } := by
    rw [← hs₄]; exact selfLoop_cells_self x hny₁
  have off₄ : ∀ q, q ≠ y → s₄.cells q = s₁.cells q := fun q hq => by
    rw [← hs₄]; exact selfLoop_cells_ne s₁ hq
  have key₄ : ∀ q, s₄.keyAt q = s.keyAt q := fun q => by
    rw [← hs₄, selfLoop_keyAt, fr₁.key]
  have kv₄ : ∀ q, s₄.kv q = s.kv q := fun q => by simp only [Store.kv, key₄]
  have sh₄R : Shape s₄ none R :=
    sh₁.congr (fun c hc => off₄ c (fun e => hyR (e ▸ hc)))
  have cK : ∀ c ∈ ky.addrs, s₄.cells c = s.cells c := fun c hc => by
    rw [off₄ c (fun e => hyK (e ▸ hc)),
      off₁ c (fun hh => hKR c hc (tops_subset_addrs R c hh))]
  have shY : Shape s₄ (some x) (.node y ky .nil) := by
    have hl := vy.lay
    have hdg := vy.deg
    simp only [Lay, DegOK] at hl hdg
    refine ⟨?_, ?_, ?_, ?_⟩
    · simp only [tops_node, tops_nil, cyc_singleton, Lnk, Store.rgt, Store.lft, hy₄,
        Option.some_bind, and_self]
    · simp only [Lay, and_true]
      refine ⟨⟨_, hy₄, rfl, hny2, hny3, fun c hc => ?_⟩, ?_, ?_⟩
      · rw [kv₄]; exact hny5 c hc
      · exact cyc_congr (fun c hc => cK c (tops_subset_addrs ky c hc)) hl.2.1
      · exact lay_congr cK hl.2.2.1
    · simp only [addrs_node, addrs_nil, List.append_nil, List.nodup_cons]
      exact ⟨hyK, (List.nodup_append.mp (List.nodup_cons.mp ndg).2).1⟩
    · simp only [DegOK, and_true]
      exact ⟨hdg.1, hdg.2.1⟩
  -- the tree of `x`
  have sh₄x : Shape s₄ none (.node x kx (r₂.append r₁)) := by
    have := sh₄R
    rw [← hR] at this
    simpa using this.rot
  generalize hRr : r₂.append r₁ = Rr at sh₄x
  have pR : (Forest.node x kx Rr).addrs.Perm R.addrs := by
    rw [← hR, ← hRr]
    simp only [addrs_node, addrs_append]
    have : (r₁.addrs ++ x :: (kx.addrs ++ r₂.addrs)).Perm
        ((x :: (kx.addrs ++ r₂.addrs)) ++ r₁.addrs) := List.perm_append_comm
    refine List.Perm.trans ?_ this.symm
    simp [List.append_assoc]
  have tR : (x :: Rr.tops).Perm R.tops := by
    rw [← hR, ← hRr]
    simp only [tops_append, tops_node]
    exact (@List.perm_append_comm _ r₁.tops (x :: r₂.tops)).symm
  have ndx : (x :: (kx.addrs ++ Rr.addrs)).Nodup := sh₄x.nodup
  have hxK : x ∉ kx.addrs := fun hh => (List.nodup_cons.mp ndx).1 (List.mem_append_left _ hh)
  have hxRr : x ∉ Rr.addrs := fun hh => (List.nodup_cons.mp ndx).1 (List.mem_append_right _ hh)
  have hKRr : ∀ q ∈ kx.addrs, q ∉ Rr.addrs := fun q h1 h2 =>
    (List.nodup_append.mp (List.nodup_cons.mp ndx).2).2.2 h1 h2
  have hKxR : ∀ q ∈ kx.addrs, q ∈ R.addrs := fun q hq => pR.subset (by simp [hq])
  have hRrR : ∀ q ∈ Rr.addrs, q ∈ R.addrs := fun q hq => pR.subset (by simp [hq])
  have hxR : x ∈ R.addrs := pR.subset (by simp)
  have shK : Shape s₄ (some x) kx := sh₄x.kids
  obtain ⟨nx, hnx, hnx1, hnx2, hnx3, hnx5⟩ := sh₄x.nodeOK
  have disK : ∀ q ∈ kx.addrs, q ∉ (Forest.node y ky .nil).addrs := by
    intro q hq
    simp only [addrs_node, addrs_nil, List.append_nil, List.mem_cons, not_or]
    exact ⟨fun e => hyR (e ▸ hKxR q hq), fun hh => hKR q hh (hKxR q hq)⟩
  obtain ⟨s₅, kx', cm, hm, sh₅, pa₅, pt₅, fr₅, core₅, hcm, hbK⟩ :=
    graft_spec shK shY hnx3 disK
  have hx₅ : s₅.cells x = some nx := by
    rw [fr₅.off x ?_, hnx]
    simp only [List.mem_append, List.mem_singleton, not_or]
    exact ⟨fun hh => hxK (tops_subset_addrs kx x hh), hxy⟩
  have hy₅ : (s₅.cells y).isSome := by rw [fr₅.isSome, hy₄]; rfl
  have hmk : _make_child s (some y) (some x) = .ok (attach s₅ x y (some cm)) := by
    refine make_child_eq hrem (by rw [hny₁]; rfl) (hs₄ ▸ hnx) (hs₄ ▸ hm) (by rw [hx₅]; rfl) hy₅
  generalize hs' : attach s₅ x y (some cm) = s' at hmk
  have hx' : s'.cells x = some { nx with child := some cm, degree := nx.degree + 1 } := by
    rw [← hs']; exact attach_cells_x _ hxy hx₅
  have key' : ∀ q, s'.keyAt q = s.keyAt q := fun q => by
    rw [← hs', attach_keyAt, fr₅.key, key₄]
  have kv' : ∀ q, s'.kv q = s.kv q := fun q => by simp only [Store.kv, key']
  have lenT : kx'.tops.length = kx.tops.length + 1 := by
    have := pt₅.length_eq
    simpa using this
  have lenA : kx'.addrs.length = kx.addrs.length + (1 + ky.addrs.length) := by
    have := pa₅.length_eq
    simp only [List.length_append, List.length_cons] at this
    omega
  have hxK' : x ∉ kx'.addrs := by
    intro hh
    have := pa₅.subset hh
    simp only [List.mem_append, List.mem_cons] at this
    rcases this with h1 | h1 | h1
    · exact hxK h1
    · exact hxy h1
    · exact hKR x h1 hxR
  have disK'Rr : ∀ q ∈ kx'.addrs, q ∉ Rr.addrs := by
    intro q hh h2
    have := pa₅.subset hh
    simp only [List.mem_append, List.mem_cons] at this
    rcases this with h1 | h1 | h1
    · exact hKRr q h1 h2
    · exact hyR (h1 ▸ hRrR q h2)
    · exact hKR q h1 (hRrR q h2)
  have cRr : ∀ c ∈ Rr.addrs, s'.cells c = s₄.cells c := by
    intro c hc
    have hcx : c ≠ x := fun e => hxRr (e ▸ hc)
    have hcy : c ≠ y := fun e => hyR (e ▸ hRrR c hc)
    rw [← hs', attach_cells_ne _ _ hcx hcy, fr₅.off c ?_]
    simp only [List.mem_append, List.mem_singleton, not_or]
    exact ⟨fun hh => hKRr c (tops_subset_addrs kx c hh) hc, hcy⟩
  have shK' : Shape s' (some x) kx' := by
    refine sh₅.frame (fun c hc => ⟨?_, ?_, ?_⟩) (fun c hc => ?_)
    · rw [← hs']
      exact attach_core_ne _ _ (fun e => hxK' (e ▸ tops_subset_addrs kx' c hc))
    · rw [← hs']; exact attach_rgt _ _ _ _ _
    · rw [← hs']; exact attach_lft _ _ _ _ _
    · have hcx : c ≠ x := fun e => hxK' (e ▸ inner_subset_addrs kx' c hc)
      have hcy : c ≠ y := by
        intro e
        have hyt : y ∈ kx'.tops := pt₅.symm.subset (by simp)
        exact mem_tops_not_inner sh₅.nodup hyt (e ▸ hc)
      rw [← hs']; exact attach_cells_ne _ _ hcx hcy
  have hdeg : kx.tops.length = ky.tops.length := by
    have e1 : s.deg x = some nx.degree := by
      rw [← deg_of_core (core₁ x), ← deg_congr (off₄ x hxy)]
      exact deg_of_cells hnx
    rw [e1, deg_of_cells hny, hnx2, hny2] at hd
    exact_mod_cast Option.some.inj hd
  refine ⟨s', .node x kx' Rr, hmk, ⟨?_, ?_, ?_, ?_⟩, ?_, ?_, ?_, ?_, ?_, ?_⟩
  · -- the root list
    refine cyc_frame sh₄x.cyc (fun q hq => ?_)
    have hq' : s₅.cells q = s₄.cells q := by
      refine fr₅.off q ?_
      simp only [List.mem_append, List.mem_singleton, not_or]
      have hqR : q ∈ R.tops := tR.subset hq
      refine ⟨fun hh => ?_, fun e => hyRt (e ▸ hqR)⟩
      have hqt : q ∈ (Forest.node x kx Rr).tops := hq
      exact mem_tops_not_inner sh₄x.nodup hqt (by simp [tops_subset_addrs kx q hh])
    rw [← hs', attach_rgt, attach_lft]
    exact ⟨rgt_congr hq', lft_congr hq'⟩
  · -- the layout
    simp only [Lay]
    refine ⟨⟨_, hx', hnx1, ?_, hcm.symm, fun c hc => ?_⟩, shK'.cyc, shK'.lay, ?_⟩
    · simp only [hnx2, lenT]; push_cast; ring
    · have hc' := pt₅.subset hc
      simp only [List.mem_append, List.mem_singleton] at hc'
      rw [kv', ← kv₄]
      rcases hc' with h1 | h1
      · exact hnx5 c h1
      · subst h1
        rw [kv₄, ← kv_of_cells hnx, kv₄]
        exact hk
    · have hl := sh₄x.lay
      simp only [Lay] at hl
      exact lay_congr cRr hl.2.2.2
  · -- no repetition
    simp only [addrs_node, List.nodup_cons, List.mem_append, not_or, List.nodup_append]
    exact ⟨⟨hxK', hxRr⟩, sh₅.nodup, (List.nodup_append.mp (List.nodup_cons.mp ndx).2).2.1,
      disK'Rr⟩
  · -- the degree bound
    have hdx := sh₄x.deg
    have hdy := vy.deg
    simp only [DegOK] at hdx hdy ⊢
    refine ⟨?_, sh₅.deg, hdx.2.2⟩
    rw [lenT, lenA]
    exact degOK_link hdeg hdx.1 hdy.1
  · -- the nodes
    refine List.Perm.trans ?_ py
    simp only [addrs_node]
    have h1 : (x :: (kx'.addrs ++ Rr.addrs)).Perm (y :: ky.addrs ++ (x :: (kx.addrs ++ Rr.addrs))) := by
      have a1 : (x :: (kx'.addrs ++ Rr.addrs)).Perm (kx'.addrs ++ x :: Rr.addrs) :=
        List.perm_middle.symm
      have a2 : (kx'.addrs ++ x :: Rr.addrs).Perm
          ((kx.addrs ++ (y :: ky.addrs)) ++ x :: Rr.addrs) := List.Perm.append_right _ pa₅
      have a3 : ((kx.addrs ++ (y :: ky.addrs)) ++ x :: Rr.addrs).Perm
          (((y :: ky.addrs) ++ kx.addrs) ++ x :: Rr.addrs) :=
        List.Perm.append_right _ List.perm_append_comm
      have a4 : (((y :: ky.addrs) ++ kx.addrs) ++ x :: Rr.addrs).Perm
          ((y :: ky.addrs) ++ (x :: (kx.addrs ++ Rr.addrs))) := by
        rw [List.append_assoc]
        exact List.Perm.append_left _ List.perm_middle
      exact a1.trans (a2.trans (a3.trans a4))
    refine h1.trans ?_
    simp only [List.cons_append]
    exact List.Perm.cons y (List.Perm.append_left _ pR)
  · -- the roots
    exact (List.Perm.cons y tR).trans ty
  · -- the frame
    have f4 : Frame s₁ s₄ (Forest.node y ky R).addrs := by
      rw [← hs₄]
      exact frame_selfLoop s₁ y x (by simp)
    have f5 : Frame s₄ s₅ (Forest.node y ky R).addrs := fr₅.mono (fun a ha => by
      simp only [List.mem_append, List.mem_singleton] at ha
      simp only [addrs_node, List.mem_cons, List.mem_append]
      rcases ha with h1 | h1
      · exact Or.inr (Or.inr (hKxR a (tops_subset_addrs kx a h1)))
      · exact Or.inl h1)
    have f8 : Frame s₅ s' (Forest.node y ky R).addrs := by
      rw [← hs']
      exact frame_attach s₅ x y _ (by simp [hxR]) (by simp)
    exact (((fr₁.trans f4).trans f5).trans f8).mono (fun a ha => py.subset ha)
  · -- the degree of `x`
    have e1 : s.deg x = some nx.degree := by
      rw [← deg_of_core (core₁ x), ← deg_congr (off₄ x hxy)]
      exact deg_of_cells hnx
    rw [e1, deg_of_cells hx']
    rfl
  · -- the other degrees
    intro z hz
    rw [← hs', deg_of_core (attach_core_ne _ _ hz), deg_of_core (core₅ z), ← hs₄, selfLoop_deg,
      deg_of_core (core₁ z)]
  · -- the tree sizes
    intro bg
    have bY : Binom (.node y ky R) :=
      binom_transfer h.lay bg _ _ vy.lay (fun a ha => py.subset ha)
    simp only [Binom] at bY
    obtain ⟨by1, by2, bR⟩ := bY
    rw [← hR, binom_append] at bR
    simp only [Binom] at bR
    obtain ⟨b1, bx1, bx2, b2⟩ := bR
    have bRr : Binom Rr := by rw [← hRr, binom_append]; exact ⟨b2, b1⟩
    refine ⟨?_, hbK bx2 ⟨by1, by2, trivial⟩, bRr⟩
    rw [lenT, lenA, pow_succ, ← hdeg] at *
    omega


/-! ## `_consolidate` -/

theorem le_dnVal {d N : Nat} (h : 1618 ^ d ≤ N * 1000 ^ d) (hd : d ≤ N) : d ≤ dnVal N :=
  Nat.le_findGreatest hd h

/-- The degree of a root of a laid-out forest of fewer than `N` nodes is a valid index of
the bucket array. -/
theorem deg_in_bounds {s : Store} {g : Forest} {x : Nat} {N : Nat} (sh : Shape s none g)
    (small : g.addrs.length < N) (hx : x ∈ g.tops) :
    ∃ d : Nat, s.deg x = some (d : Int) ∧ d ≤ dnVal N := by
  obtain ⟨k, r, v, p, -⟩ := sh.view hx
  obtain ⟨n, hn, -, h2, -⟩ := v.nodeOK
  have hd := v.deg
  simp only [DegOK] at hd
  have hlen : 1 + k.addrs.length ≤ g.addrs.length := by
    have := p.length_eq
    simp only [addrs_node, List.length_cons, List.length_append] at this
    omega
  refine ⟨k.tops.length, by rw [deg_of_cells hn, h2], le_dnVal ?_ ?_⟩
  · refine le_trans hd.1 (Nat.mul_le_mul_right _ ?_)
    omega
  · have := tops_length_le k
    omega

theorem readA_ok {A : List (Option Nat)} {d : Nat} (h : d < A.length) :
    ∃ v, A.get? d = some v ∧ readA A (d : Int) = .ok v := by
  have h0 : ¬ ((d : Int) < 0) := by omega
  obtain ⟨v, hv⟩ : ∃ v, A.get? d = some v := ⟨A.get ⟨d, h⟩, List.get?_eq_get h⟩
  refine ⟨v, hv, ?_⟩
  simp only [readA, h0, if_false, Int.toNat_ofNat, hv]
  rfl

theorem writeA_ok {A : List (Option Nat)} {d : Nat} (h : d < A.length) (v : Option Nat) :
    writeA A (d : Int) v = .ok (A.set d v) := by
  have h0 : ¬ ((d : Int) < 0) := by omega
  simp only [writeA, h0, if_false, Int.toNat_ofNat, h, if_true]
  rfl

theorem cyc_rgt_mem {s : Store} {l : List Nat} (h : Cyc s l) {x : Nat} (hx : x ∈ l) :
    ∃ y ∈ l, s.rgt x = some y := by
  obtain ⟨l₁, l₂, rfl⟩ := List.append_of_mem hx
  have h' : Cyc s (x :: l₂ ++ l₁) := (cyc_rotate s l₁ (x :: l₂)).mp h
  refine ⟨_, ?_, cyc_rgt h'⟩
  have := headD_mem (l₂ ++ l₁) x
  simp only [List.mem_cons, List.mem_append] at this ⊢
  tauto

theorem CInv.b_le {s : Store} {g : Forest} {A : List (Option Nat)} {B : List Nat} {N : Nat}
    (c : CInv s g A B N) : B.length ≤ g.tops.length := by
  refine (List.Nodup.subperm c.bNodup ?_).length_le
  intro y hy
  obtain ⟨i, hi⟩ := (c.bMem y).mp hy
  exact (c.aRoot i y hi).1

theorem get?_set_none_iff {A : List (Option Nat)} {d i : Nat} {z : Nat} :
    (A.set d none).get? i = some (some z) ↔ i ≠ d ∧ A.get? i = some (some z) := by
  simp only [List.get?_eq_getElem?, List.getElem?_set]
  by_cases h : d = i
  · subst h
    by_cases hl : d < A.length <;> simp [hl]
  · simp [h, Ne.symm h]


/-- One linking step of the scan: the roots `w` and `l` have the same degree `d`, the
key of `w` is not the greater one, `l` or `w` is the node in bucket `d` and the other one
is in no bucket.  After `_make_child l w` and `A[d] = nullptr` the invariant holds again
without the node of bucket `d`. -/
theorem link_step {N : Nat} {s : Store} {g : Forest} {A : List (Option Nat)} {B : List Nat}
    {w l y : Nat} {d : Nat} (c : CInv s g A B N) (hw : w ∈ g.tops) (hl : l ∈ g.tops)
    (hwl : w ≠ l) (hk : s.kv w ≤ s.kv l) (hdw : s.deg w = some (d : Int))
    (hdl : s.deg l = some (d : Int)) (hAd : A.get? d = some (some y))
    (hy : y = w ∨ y = l) (hnb : ∀ z, z = w ∨ z = l → z ≠ y → z ∉ B) :
    ∃ s' g', _make_child s (some l) (some w) = .ok s' ∧
      CInv s' g' (A.set d none) (B.erase y) N ∧ w ∈ g'.tops ∧
      s'.deg w = some ((d + 1 : Nat) : Int) ∧ w ∉ B.erase y ∧
      g'.addrs.Perm g.addrs ∧ Frame s s' g.addrs ∧ g'.tops.length + 1 = g.tops.length ∧
      (B.erase y).length + 1 = B.length ∧ (Binom g → Binom g') := by
  obtain ⟨s', g', hmk, sh', pa, pt, fr, hdx, hdz, hbn⟩ :=
    make_child_spec c.shape hw hl hwl hk (hdw.trans hdl.symm)
  have hyB : y ∈ B := (c.bMem y).mpr ⟨d, hAd⟩
  have huniq : ∀ i z, A.get? i = some (some z) → z = y → i = d := by
    intro i z hi hz
    subst hz
    have h1 := (c.aRoot i z hi).2
    have h2 := (c.aRoot d z hAd).2
    rw [h1] at h2
    exact_mod_cast Option.some.inj h2
  have hwt : w ∈ g'.tops := by
    have := pt.symm.subset hw
    simp only [List.mem_cons] at this
    exact this.resolve_left hwl
  have hwB : w ∉ B.erase y := by
    intro hh
    by_cases e : w = y
    · rw [e] at hh
      exact (List.Nodup.mem_erase_iff c.bNodup).mp hh |>.1 rfl
    · exact hnb w (Or.inl rfl) e (List.mem_of_mem_erase hh)
  refine ⟨s', g', hmk, ⟨sh', ?_, ?_, c.bNodup.erase y, ?_, ?_⟩, hwt, ?_, hwB, pa, fr, ?_, ?_,
    hbn⟩
  · rw [pa.length_eq]; exact c.small
  · rw [List.length_set]; exact c.len
  · intro z
    rw [List.Nodup.mem_erase_iff c.bNodup, c.bMem]
    constructor
    · rintro ⟨hzy, i, hi⟩
      exact ⟨i, get?_set_none_iff.mpr ⟨fun e => hzy (by
        rw [e, hAd] at hi
        exact (Option.some.inj (Option.some.inj hi)).symm), hi⟩⟩
    · rintro ⟨i, hi⟩
      obtain ⟨hid, hi'⟩ := get?_set_none_iff.mp hi
      exact ⟨fun e => hid (huniq i z hi' e), i, hi'⟩
  · intro i z hi
    obtain ⟨hid, hi'⟩ := get?_set_none_iff.mp hi
    obtain ⟨hzt, hzd⟩ := c.aRoot i z hi'
    have hzy : z ≠ y := fun e => hid (huniq i z hi' e)
    have hzB : z ∈ B := (c.bMem z).mpr ⟨i, hi'⟩
    have hzw : z ≠ w := fun e => hnb z (Or.inl e) hzy hzB
    have hzl : z ≠ l := fun e => hnb z (Or.inr e) hzy hzB
    refine ⟨?_, by rw [hdz z hzw]; exact hzd⟩
    have := pt.symm.subset hzt
    simp only [List.mem_cons] at this
    exact this.resolve_left hzl
  · rw [hdx, hdw]; simp
  · have := pt.length_eq
    simpa using this
  · rw [List.length_erase_of_mem hyB]
    have : 0 < B.length := List.length_pos_of_mem hyB
    omega


set_option maxHeartbeats 800000 in
/-- The inner loop of `_consolidate`: it ends within as many turns as there are roots,
keeps the invariant, and leaves `x` either found in its own bucket (`breakFlag`) or in
front of an empty bucket and in no bucket itself. -/
theorem inner_spec (N : Nat) : ∀ (fuel : Nat) (s : Store) (g : Forest) (A : List (Option Nat))
    (B : List Nat) (x d : Nat), CInv s g A B N → x ∈ g.tops → s.deg x = some (d : Int) →
    (x ∉ B ∨ A.get? d = some (some x)) → g.tops.length ≤ fuel →
    ∃ s' g' A' B' x' d' flag,
      consolidateInner fuel s A (some x) (d : Int) =
        .ok (s', A', some x', ((d' : Nat) : Int), flag) ∧
      CInv s' g' A' B' N ∧ x' ∈ g'.tops ∧ s'.deg x' = some (d' : Int) ∧
      g'.addrs.Perm g.addrs ∧ Frame s s' g.addrs ∧
      (flag = true → A'.get? d' = some (some x')) ∧
      (flag = false → A'.get? d' = some none ∧ x' ∉ B') ∧
      g'.tops.length + B.length = g.tops.length + B'.length ∧ B'.length ≤ B.length ∧
      (Binom g → Binom g') := by
  intro fuel
  induction fuel with
  | zero =>
    intro s g A B x d _ hx _ _ hf
    have := List.length_pos_of_mem hx
    omega
  | succ fuel ih =>
    intro s g A B x d c hx hdx hxB hf
    obtain ⟨d₀, hd₀, hdb⟩ := deg_in_bounds c.shape c.small hx
    have hdd : d₀ = d := by
      rw [hdx] at hd₀
      exact_mod_cast (Option.some.inj hd₀).symm
    subst hdd
    have hlt : d₀ < A.length := by rw [c.len]; omega
    obtain ⟨v, hv, hread⟩ := readA_ok hlt
    rw [consolidateInner]
    simp only [hread, bind, Except.bind]
    cases v with
    | none =>
      refine ⟨s, g, A, B, x, d₀, false, by simp [pure, Except.pure], c, hx, hdx, List.Perm.refl _,
        Frame.refl s _, by simp, fun _ => ⟨hv, ?_⟩, rfl, le_refl _, fun b => b⟩
      rcases hxB with h | h
      · exact h
      · rw [hv] at h; simp at h
    | some y =>
      by_cases hyx : y = x
      · subst hyx
        exact ⟨s, g, A, B, y, d₀, true, by simp [pure, Except.pure], c, hx, hdx,
          List.Perm.refl _, Frame.refl s _, fun _ => hv, by simp, rfl, le_refl _, fun b => b⟩
      · have hxnB : x ∉ B := by
          rcases hxB with h | h
          · exact h
          · rw [hv] at h
            exact absurd (Option.some.inj (Option.some.inj h)) hyx
        obtain ⟨hyt, hdy⟩ := c.aRoot d₀ y hv
        obtain ⟨nx, hnx⟩ := Option.isSome_iff_exists.mp (c.shape.live hx)
        obtain ⟨ny, hny⟩ := Option.isSome_iff_exists.mp (c.shape.live hyt)
        have hlen : g.tops.length ≤ fuel + 1 := hf
        simp only [reduceCtorEq, if_false, Option.some.injEq, hyx, load_some hnx, load_some hny]
        by_cases hgt : nx.key > ny.key
        · -- `y` wins
          have hk : s.kv y ≤ s.kv x := by
            rw [kv_of_cells hnx, kv_of_cells hny]; exact le_of_lt hgt
          obtain ⟨s₁, g₁, hmk, c₁, hw, hdw, hwB, pa₁, fr₁, hl₁, hb₁, hbn₁⟩ :=
            link_step c hyt hx hyx hk hdy hdx hv (Or.inl rfl)
              (fun z hz hzy => by
                rcases hz with e | e
                · exact absurd e hzy
                · rw [e]; exact hxnB)
          obtain ⟨s', g', A', B', x', d', flag, hrun, c', hx', hd', pa', fr', hf1, hf2, hm1, hm2,
              hbn'⟩ :=
            ih s₁ g₁ (A.set d₀ none) (B.erase y) y (d₀ + 1) c₁ hw hdw (Or.inl hwB) (by omega)
          refine ⟨s', g', A', B', x', d', flag, ?_, c', hx', hd', pa'.trans pa₁,
            fr₁.trans (fr'.mono (fun a ha => pa₁.subset ha)), hf1, hf2, by omega, by omega,
            fun b => hbn' (hbn₁ b)⟩
          simp only [hgt, if_true, hmk, writeA_ok hlt]
          rw [← hrun]; push_cast; rfl
        · -- `x` wins
          have hk : s.kv x ≤ s.kv y := by
            rw [kv_of_cells hnx, kv_of_cells hny]; exact not_lt.mp hgt
          obtain ⟨s₁, g₁, hmk, c₁, hw, hdw, hwB, pa₁, fr₁, hl₁, hb₁, hbn₁⟩ :=
            link_step c hx hyt (Ne.symm hyx) hk hdx hdy hv (Or.inr rfl)
              (fun z hz hzy => by
                rcases hz with e | e
                · rw [e]; exact hxnB
                · exact absurd e hzy)
          obtain ⟨s', g', A', B', x', d', flag, hrun, c', hx', hd', pa', fr', hf1, hf2, hm1, hm2,
              hbn'⟩ :=
            ih s₁ g₁ (A.set d₀ none) (B.erase y) x (d₀ + 1) c₁ hw hdw (Or.inl hwB) (by omega)
          refine ⟨s', g', A', B', x', d', flag, ?_, c', hx', hd', pa'.trans pa₁,
            fr₁.trans (fr'.mono (fun a ha => pa₁.subset ha)), hf1, hf2, by omega, by omega,
            fun b => hbn' (hbn₁ b)⟩
          simp only [hgt, if_false, hmk, writeA_ok hlt]
          rw [← hrun]; push_cast; rfl


theorem get?_set_some_iff {A : List (Option Nat)} {d i : Nat} {x z : Nat} (hd : d < A.length) :
    (A.set d (some x)).get? i = some (some z) ↔
      (i = d ∧ z = x) ∨ (i ≠ d ∧ A.get? i = some (some z)) := by
  simp only [List.get?_eq_getElem?, List.getElem?_set]
  by_cases h : d = i
  · subst h
    simp [hd, eq_comm]
  · simp [h, Ne.symm h]

set_option maxHeartbeats 800000 in
/-- The scan loop of `_consolidate` ends, on a root of a laid-out forest with the same
nodes. -/
theorem loop_spec (N : Nat) : ∀ (fuel : Nat) (s : Store) (g : Forest) (A : List (Option Nat))
    (B : List Nat) (x : Nat), CInv s g A B N → x ∈ g.tops →
    2 * g.tops.length + 1 ≤ fuel + B.length →
    ∃ s' g' x', consolidateLoop fuel s A (some x) = .ok (s', some x') ∧ Shape s' none g' ∧
      x' ∈ g'.tops ∧ g'.addrs.Perm g.addrs ∧ Frame s s' g.addrs ∧ (Binom g → Binom g') := by
  intro fuel
  induction fuel with
  | zero =>
    intro s g A B x c hx hf
    have := c.b_le
    have := List.length_pos_of_mem hx
    omega
  | succ fuel ih =>
    intro s g A B x c hx hf
    have hb := c.b_le
    obtain ⟨d, hd, -⟩ := deg_in_bounds c.shape c.small hx
    obtain ⟨nx, hnx⟩ := Option.isSome_iff_exists.mp (c.shape.live hx)
    have hnd : nx.degree = (d : Int) := by
      rw [deg_of_cells hnx] at hd; exact Option.some.inj hd
    have hxB : x ∉ B ∨ A.get? d = some (some x) := by
      by_cases h : x ∈ B
      · right
        obtain ⟨i, hi⟩ := (c.bMem x).mp h
        have := (c.aRoot i x hi).2
        rw [hd] at this
        have e : d = i := by exact_mod_cast Option.some.inj this
        rw [e]; exact hi
      · exact Or.inl h
    obtain ⟨s₁, g₁, A₁, B₁, x₁, d₁, flag, hrun, c₁, hx₁, hd₁, pa₁, fr₁, hf1, hf2, hm1, hm2,
        hbn₁⟩ :=
      inner_spec N (fuel + 1) s g A B x d c hx hd hxB (by omega)
    rw [consolidateLoop]
    simp only [bind, Except.bind, load_some hnx, hnd, hrun]
    cases flag with
    | true =>
      exact ⟨s₁, g₁, x₁, by simp [pure, Except.pure], c₁.shape, hx₁, pa₁, fr₁, hbn₁⟩
    | false =>
      obtain ⟨hA₁, hxB₁⟩ := hf2 rfl
      obtain ⟨n₁, hn₁⟩ := Option.isSome_iff_exists.mp (c₁.shape.live hx₁)
      have hnd₁ : n₁.degree = (d₁ : Int) := by
        rw [deg_of_cells hn₁] at hd₁; exact Option.some.inj hd₁
      have hlt : d₁ < A₁.length := by
        by_contra hge
        rw [List.get?_eq_none.mpr (not_lt.mp hge)] at hA₁
        simp at hA₁
      obtain ⟨x₂, hx₂, hr₂⟩ := cyc_rgt_mem c₁.shape.cyc hx₁
      obtain ⟨n₁', hn₁', hnr⟩ := rgt_eq_some hr₂
      have e₁ : n₁' = n₁ := by rw [hn₁] at hn₁'; exact (Option.some.inj hn₁').symm
      subst e₁
      have c₂ : CInv s₁ g₁ (A₁.set d₁ (some x₁)) (x₁ :: B₁) N := by
        refine ⟨c₁.shape, c₁.small, by rw [List.length_set]; exact c₁.len,
          List.nodup_cons.mpr ⟨hxB₁, c₁.bNodup⟩, ?_, ?_⟩
        · intro z
          simp only [List.mem_cons, c₁.bMem, get?_set_some_iff hlt]
          constructor
          · rintro (e | ⟨i, hi⟩)
            · exact ⟨d₁, Or.inl ⟨rfl, e⟩⟩
            · refine ⟨i, Or.inr ⟨fun e => ?_, hi⟩⟩
              rw [e, hA₁] at hi; simp at hi
          · rintro ⟨i, (⟨-, e⟩ | ⟨-, hi⟩)⟩
            · exact Or.inl e
            · exact Or.inr ⟨i, hi⟩
        · intro i z hi
          rcases (get?_set_some_iff hlt).mp hi with ⟨e1, e2⟩ | ⟨-, hi'⟩
          · subst e1 e2; exact ⟨hx₁, hd₁⟩
          · exact c₁.aRoot i z hi'
      obtain ⟨s', g', x', hrun', sh', hx', pa', fr', hbn'⟩ :=
        ih s₁ g₁ (A₁.set d₁ (some x₁)) (x₁ :: B₁) x₂ c₂ hx₂ (by
          simp only [List.length_cons]; omega)
      refine ⟨s', g', x', ?_, sh', hx', pa'.trans pa₁,
        fr₁.trans (fr'.mono (fun a ha => pa₁.subset ha)), fun b => hbn' (hbn₁ b)⟩
      simp only [Bool.false_eq_true, if_false, load_some hn₁, hnd₁, writeA_ok hlt, hnr, hrun']

theorem dn_ok {N : Nat} (h : 0 < N) : Dn (N : Int) = .ok (dnVal N) := by
  have : ¬ ((N : Int) ≤ 0) := by omega
  simp only [Dn, this, if_false, Int.toNat_ofNat]
  rfl

theorem get?_replicate_none (n i : Nat) (y : Nat) :
    (List.replicate n (none : Option Nat)).get? i ≠ some (some y) := by
  intro h
  have := List.get?_mem h
  simp [List.mem_replicate] at this

set_option maxHeartbeats 800000 in
/-- `_consolidate` on a laid-out root list of fewer than `m_numOfNodes` nodes: it ends,
the forest is laid out again with the same nodes and keys, and `m_minNode` is a root of
least key. -/
theorem consolidate_spec {s : Store} {g : Forest} {x : Nat} {N fuel : Nat}
    (sh : Shape s none g) (hx : x ∈ g.tops) (small : g.addrs.length < N)
    (hf : 2 * g.addrs.length + 1 ≤ fuel) :
    ∃ s' g' m, _consolidate fuel s ⟨some x, (N : Int)⟩ = .ok (s', ⟨some m, (N : Int)⟩) ∧
      Shape s' none g' ∧ m ∈ g'.tops ∧ (∀ r ∈ g'.tops, s'.kv m ≤ s'.kv r) ∧
      g'.addrs.Perm g.addrs ∧ Frame s s' g.addrs ∧ (Binom g → Binom g') := by
  have hN : 0 < N := by omega
  have c₀ : CInv s g (List.replicate (dnVal N + 1) none) [] N :=
    ⟨sh, small, by simp, List.nodup_nil, fun y => by
      simp only [List.not_mem_nil, false_iff, not_exists]
      exact fun i => get?_replicate_none _ i y,
      fun i y hi => absurd hi (get?_replicate_none _ i y)⟩
  have htl := tops_length_le g
  obtain ⟨s', g', x', hrun, sh', hx', pa, fr, hbn⟩ :=
    loop_spec N fuel s g _ [] x c₀ hx (by simp only [List.length_nil]; omega)
  obtain ⟨k, r, v, pv, tv⟩ := sh'.view hx'
  have ndt : (x' :: r.tops).Nodup := by simpa using tops_nodup v.nodup
  have hlen : r.tops.length < fuel := by
    have h1 := tv.length_eq
    have h2 := tops_length_le g'
    have h3 := pa.length_eq
    simp only [List.length_cons] at h1
    omega
  obtain ⟨m, hscan, hm1, -, hm3⟩ := minScanLoop_spec x' s' r.tops x' x' fuel
    (chain_rgt_of_cyc v.cyc) (List.nodup_cons.mp ndt).1 hlen (sh'.live hx')
  refine ⟨s', g', m, ?_, sh', ?_, ?_, pa, fr, hbn⟩
  · simp only [_consolidate, dn_ok hN, bind, Except.bind, hrun, hscan]
    rfl
  · rcases hm1 with e | e
    · rw [e]; exact hx'
    · exact tv.subset e
  · intro q hq
    exact hm3 q (tv.symm.subset hq)


/-! ## `extract_min` -/

theorem lay_reparent {s s' : Store} {par' : Option Nat} {f : Forest} : ∀ {par : Option Nat},
    (∀ c ∈ f.tops, s'.cells c = (s.cells c).map (fun n => { n with parent := par' })) →
    (∀ c ∈ f.inner, s'.cells c = s.cells c) → Lay s par f → Lay s' par' f := by
  induction f with
  | nil => intros; trivial
  | node a k r _ ihr =>
    intro par ht hi h
    simp only [Lay] at h ⊢
    have hk : ∀ c ∈ k.addrs, s'.cells c = s.cells c := fun c hc => hi c (by simp [hc])
    obtain ⟨⟨n, hn, h1, h2, h3, h5⟩, hcyc, hlk, hlr⟩ := h
    refine ⟨⟨{ n with parent := par' }, by rw [ht a (by simp), hn]; rfl, rfl, h2, h3, ?_⟩,
      cyc_congr (fun c hc => hk c (tops_subset_addrs k c hc)) hcyc, lay_congr hk hlk, ?_⟩
    · intro c hc
      rw [kv_congr (hk c (tops_subset_addrs k c hc))]
      exact h5 c hc
    · exact ihr (fun c hc => ht c (by simp [hc])) (fun c hc => hi c (by simp [hc])) hlr

/-- After `_unparent_all` the children of a node are a laid-out forest of roots. -/
theorem shape_unparent {s : Store} {par : Option Nat} {f : Forest} (h : Shape s par f) :
    Shape (unparentAll s f.tops) none f := by
  refine ⟨cyc_unparentAll _ _ h.cyc, lay_reparent (fun c hc => ?_) (fun c hc => ?_) h.lay,
    h.nodup, h.deg⟩
  · rw [unparentAll_cells, if_pos hc]
  · rw [unparentAll_cells, if_neg (fun hh => mem_tops_not_inner h.nodup hh hc)]

theorem unparent_all_none (fuel : Nat) (s : Store) : _unparent_all fuel s none = .ok s := by
  simp [_unparent_all, pure, Except.pure]

/-- `_unparent_all` on the child pointer of a node whose children are laid out. -/
theorem unparent_kids {s : Store} {m : Nat} {k : Forest} {child : Option Nat} {fuel : Nat}
    (sh : Shape s (some m) k) (hch : child = k.tops.head?) (hf : k.tops.length ≤ fuel) :
    _unparent_all fuel s child = .ok (unparentAll s k.tops) := by
  have hch0 := head?_tops_nil hch
  have hch1 := head?_tops_some hch
  by_cases hk : k = .nil
  · subst hk
    rw [hch0 rfl, unparent_all_none]
    rfl
  · obtain ⟨c, hc, hcc⟩ := hch1 hk
    obtain ⟨kc, rc, v, -, tv⟩ := sh.view hc
    have ndt : (c :: rc.tops).Nodup := by simpa using tops_nodup v.nodup
    have hlen : rc.tops.length < fuel := by
      have := tv.length_eq
      simp only [List.length_cons] at this
      omega
    rw [hcc, unparent_all_spec v.cyc ndt hlen]
    congr 1
    -- the cleared cells do not depend on the order of the walk
    have hcells : ∀ q, (unparentAll s (c :: rc.tops)).cells q = (unparentAll s k.tops).cells q := by
      intro q
      rw [unparentAll_cells, unparentAll_cells]
      by_cases hq : q ∈ k.tops
      · rw [if_pos hq, if_pos (tv.symm.subset hq)]
      · rw [if_neg hq, if_neg (fun hh => hq (tv.subset hh))]
    have hnext : (unparentAll s (c :: rc.tops)).next = (unparentAll s k.tops).next := by
      rw [unparentAll_next, unparentAll_next]
    cases h1 : unparentAll s (c :: rc.tops) with
    | mk c1 n1 =>
      cases h2 : unparentAll s k.tops with
      | mk c2 n2 =>
        rw [h1, h2] at hcells hnext
        simp only at hcells hnext
        rw [funext hcells, hnext]


/-- Splicing a laid-out forest into a root list that contains, besides the roots of the
laid-out forest `r`, the node `m`. -/
theorem splice_bare {s : Store} {m c : Nat} {kc rc r : Forest} (hc₁ : Cyc s (m :: r.tops))
    (hl₁ : Lay s none r) (h₂ : Shape s none (.node c kc rc))
    (nd : (m :: (r.addrs ++ (Forest.node c kc rc).addrs)).Nodup) :
    Cyc (splice s m c (r.tops.headD m) (rc.tops.getLastD c))
        (m :: (Forest.node c kc (rc.append r)).tops) ∧
      Lay (splice s m c (r.tops.headD m) (rc.tops.getLastD c)) none
        (.node c kc (rc.append r)) := by
  have hmr : m ∉ r.addrs := fun hh => (List.nodup_cons.mp nd).1 (List.mem_append_left _ hh)
  have hmc : m ∉ (Forest.node c kc rc).addrs := fun hh =>
    (List.nodup_cons.mp nd).1 (List.mem_append_right _ hh)
  have ndr : r.addrs.Nodup := (List.nodup_append.mp (List.nodup_cons.mp nd).2).1
  have dis : ∀ q ∈ r.addrs, q ∉ (Forest.node c kc rc).addrs := fun q h1 h2 =>
    (List.nodup_append.mp (List.nodup_cons.mp nd).2).2.2 h1 h2
  have ndN : (Forest.node c kc (rc.append r)).addrs.Nodup := by
    have : (Forest.node c kc (rc.append r)).addrs.Perm
        ((Forest.node c kc rc).addrs ++ r.addrs) := by
      simp [List.append_assoc]
    exact this.nodup_iff.mpr (List.nodup_append.mpr ⟨h₂.nodup, ndr, fun q h1 h2 => dis q h2 h1⟩)
  have ndl : (m :: r.tops ++ c :: rc.tops).Nodup := by
    have h1 : (m :: r.tops ++ c :: rc.tops).Sublist
        (m :: ((r.tops ++ r.inner) ++ ((Forest.node c kc rc).tops ++
          (Forest.node c kc rc).inner))) :=
      List.Sublist.cons₂ m
        (List.Sublist.append (List.sublist_append_left _ _) (List.sublist_append_left _ _))
    refine h1.nodup ?_
    have : (m :: ((r.tops ++ r.inner) ++ ((Forest.node c kc rc).tops ++
          (Forest.node c kc rc).inner))).Perm
        (m :: (r.addrs ++ (Forest.node c kc rc).addrs)) :=
      List.Perm.cons m (((addrs_perm r).append (addrs_perm _)).symm)
    exact this.nodup_iff.mpr nd
  refine ⟨by simpa using splice_cyc hc₁ h₂.cyc ndl, ?_⟩
  have hlay0 : Lay s none (.node c kc (rc.append r)) := by
    have h2 := h₂.lay
    simp only [Lay, lay_append] at h2 ⊢
    tauto
  refine lay_frame (fun q _ => splice_core s _ _ _ _ q) ?_ hlay0
  intro q hq
  have hqa : q ∈ (Forest.node c kc (rc.append r)).addrs := inner_subset_addrs _ q hq
  have hnt : q ∉ (Forest.node c kc (rc.append r)).tops := fun h => mem_tops_not_inner ndN h hq
  simp only [tops_node, tops_append, List.mem_cons, List.mem_append, not_or] at hnt
  have hqm : q ≠ m := by
    intro e
    simp only [addrs_node, addrs_append, List.mem_cons, List.mem_append] at hqa
    simp only [addrs_node, List.mem_cons, List.mem_append] at hmc
    rw [e] at hqa
    rcases hqa with h | h | h | h
    · exact hmc (Or.inl h)
    · exact hmc (Or.inr (Or.inl h))
    · exact hmc (Or.inr (Or.inr h))
    · exact hmr h
  refine splice_cells_ne s hqm hnt.1 ?_ ?_
  · intro h
    have := headD_mem r.tops m
    rw [← h] at this
    simp only [List.mem_cons] at this
    tauto
  · intro h
    have := getLastD_mem rc.tops c
    rw [← h] at this
    simp only [List.mem_cons] at this
    tauto

/-- Taking the node `m` out of a root list whose other nodes are the roots of the
laid-out forest `G`. -/
theorem unlink_bare {s : Store} {m : Nat} {G : Forest} (hc : Cyc s (m :: G.tops))
    (hl : Lay s none G) (nd : (m :: G.addrs).Nodup) (hd : DegOK G) :
    Shape (unlink s (G.tops.getLastD m) (G.tops.headD m)) none G := by
  have ndG : G.addrs.Nodup := (List.nodup_cons.mp nd).2
  have hmG : m ∉ G.addrs := (List.nodup_cons.mp nd).1
  have ndt : (m :: G.tops).Nodup :=
    List.nodup_cons.mpr ⟨fun hh => hmG (tops_subset_addrs G m hh), tops_nodup ndG⟩
  refine ⟨unlink_cyc hc ndt, ?_, ndG, hd⟩
  refine lay_frame (fun c _ => unlink_core s _ _ c) ?_ hl
  intro c hc'
  have hnt : c ∉ G.tops := fun h' => mem_tops_not_inner ndG h' hc'
  have hcm : c ≠ m := fun h' => hmG (h' ▸ inner_subset_addrs G c hc')
  refine unlink_cells_ne s ?_ ?_
  · intro h'
    have := getLastD_mem G.tops m
    rw [← h'] at this
    simp only [List.mem_cons] at this
    tauto
  · intro h'
    have := headD_mem G.tops m
    rw [← h'] at this
    simp only [List.mem_cons] at this
    tauto


theorem cells_key_of_frame {s s' : Store} {L : List Nat} (fr : Frame s s' L) {q : Nat}
    {n n' : FibHeapNode} (h : s.cells q = some n) (h' : s'.cells q = some n') :
    n'.key = n.key := by
  have := fr.key q
  simp only [Store.keyAt, h, h', Option.map_some', Option.some.injEq] at this
  exact this

set_option maxHeartbeats 1000000 in
/-- The first part of `_extract_min_node` on the tree of the minimum `m`: the children of
`m` lose their parent and are spliced into the root list, and `m` is taken out of the
list.  What is left is a laid-out forest `G` of all the other nodes; the `right` pointer
of `m` still points into it. -/
theorem extract_prep {s : Store} {m : Nat} {k r : Forest} {fuel : Nat}
    (v : Shape s none (.node m k r)) (hf : k.tops.length ≤ fuel) :
    ∃ s₁ s₂ s₃ G nm n₃,
      s.cells m = some nm ∧ _unparent_all fuel s nm.child = .ok s₁ ∧ s₁.cells m = some nm ∧
      _merge s₁ (some m) nm.child = .ok (s₂, some m) ∧
      _remove_from_circular_list s₂ (some m) = .ok s₃ ∧
      s₃.cells m = some n₃ ∧ n₃.key = nm.key ∧
      Shape s₃ none G ∧ G.addrs.Perm (k.addrs ++ r.addrs) ∧
      (G = .nil → n₃.right = some m) ∧ (G ≠ .nil → ∃ x ∈ G.tops, n₃.right = some x) ∧
      Frame s s₃ (Forest.node m k r).addrs ∧ (Binom (.node m k r) → Binom G) := by
  obtain ⟨nm, hnm, hn1, hn2, hch, hn5⟩ := v.nodeOK
  have hn3 := head?_tops_nil hch
  have hn4 := head?_tops_some hch
  have ndf : (m :: (k.addrs ++ r.addrs)).Nodup := v.nodup
  have hmk : m ∉ k.addrs := fun hh => (List.nodup_cons.mp ndf).1 (List.mem_append_left _ hh)
  have hmr : m ∉ r.addrs := fun hh => (List.nodup_cons.mp ndf).1 (List.mem_append_right _ hh)
  have ndk : k.addrs.Nodup := (List.nodup_append.mp (List.nodup_cons.mp ndf).2).1
  have ndr : r.addrs.Nodup := (List.nodup_append.mp (List.nodup_cons.mp ndf).2).2.1
  have dkr : ∀ q ∈ k.addrs, q ∉ r.addrs := fun q h1 h2 =>
    (List.nodup_append.mp (List.nodup_cons.mp ndf).2).2.2 h1 h2
  have hlay := v.lay
  have hdeg := v.deg
  simp only [Lay, DegOK] at hlay hdeg
  by_cases hk : k = .nil
  · -- no children
    subst hk
    have hch : nm.child = none := hn3 rfl
    by_cases hr : r.tops = []
    · have hr' : r = .nil := tops_eq_nil.mp hr
      subst hr'
      obtain ⟨n', hn', hnr⟩ := rgt_eq_some (cyc_rgt v.cyc)
      have e : n' = nm := by rw [hnm] at hn'; exact (Option.some.inj hn').symm
      subst e
      refine ⟨s, s, s, .nil, n', n', hnm, by rw [hch, unparent_all_none], hnm,
        by rw [hch, merge_none_right], remove_single (cyc_rgt v.cyc), hnm, rfl,
        shape_nil s none, by simp, fun _ => by simpa using hnr, fun h => absurd rfl h,
        Frame.refl s _, fun _ => trivial⟩
    · have hl_mem := getLastD_mem_of_ne_nil hr m
      have hr_mem := headD_mem_of_ne_nil hr m
      have hmt : m ∉ r.tops := fun hh => hmr (tops_subset_addrs r m hh)
      have hrem : _remove_from_circular_list s (some m) =
          .ok (unlink s (r.tops.getLastD m) (r.tops.headD m)) := by
        rcases remove_cyc v.cyc (by simpa using tops_nodup v.nodup) with h1 | ⟨h1, _⟩
        · exact h1
        · exact absurd h1 hr
      have hm₃ : (unlink s (r.tops.getLastD m) (r.tops.headD m)).cells m = some nm := by
        rw [unlink_cells_ne s (fun (e : m = _) => hmt (e ▸ hl_mem))
          (fun (e : m = _) => hmt (e ▸ hr_mem)), hnm]
      obtain ⟨n', hn', hnr⟩ := rgt_eq_some (cyc_rgt v.cyc)
      have e : n' = nm := by rw [hnm] at hn'; exact (Option.some.inj hn').symm
      subst e
      refine ⟨s, s, _, r, n', n', hnm, by rw [hch, unparent_all_none], hnm,
        by rw [hch, merge_none_right], hrem, hm₃, rfl, shape_unlink v, by simp,
        fun h => absurd (tops_eq_nil.mpr h) hr, fun _ => ⟨_, hr_mem, hnr⟩, ?_, ?_⟩
      · exact frame_unlink s _ _
          (List.mem_cons_of_mem _ (List.mem_append_right _ (tops_subset_addrs r _ hl_mem)))
          (List.mem_cons_of_mem _ (List.mem_append_right _ (tops_subset_addrs r _ hr_mem)))
      · intro b
        simp only [Binom] at b
        exact b.2.2
  · -- children
    obtain ⟨c, hc, hcc⟩ := hn4 hk
    have hun := unparent_kids v.kids hch hf
    generalize hs₁ : unparentAll s k.tops = s₁ at hun
    have off₁ : ∀ q, q ∉ k.tops → s₁.cells q = s.cells q := fun q hq => by
      rw [← hs₁, unparentAll_cells, if_neg hq]
    have fr₁ : Frame s s₁ (Forest.node m k r).addrs := by
      rw [← hs₁]
      exact frame_unparentAll s _ (fun a ha =>
        List.mem_cons_of_mem _ (List.mem_append_left _ (tops_subset_addrs k a ha)))
    have hm₁ : s₁.cells m = some nm := by
      rw [off₁ m (fun hh => hmk (tops_subset_addrs k m hh)), hnm]
    have shK : Shape s₁ none k := hs₁ ▸ shape_unparent v.kids
    have cyc₁ : Cyc s₁ (m :: r.tops) := hs₁ ▸ cyc_unparentAll _ _ v.cyc
    have lay₁ : Lay s₁ none r :=
      lay_congr (fun q hq => off₁ q (fun hh => dkr q (tops_subset_addrs k q hh) hq)) hlay.2.2.2
    obtain ⟨kc, rc, vc, pc, tc⟩ := shK.view hc
    have hkv : s₁.kv m ≤ s₁.kv c := by
      rw [fr₁.kv, fr₁.kv, kv_of_cells hnm]
      exact hn5 c hc
    have hmerge := merge_cyc_le cyc₁ vc.cyc hkv
    have nd2 : (m :: (r.addrs ++ (Forest.node c kc rc).addrs)).Nodup := by
      have : (m :: (r.addrs ++ (Forest.node c kc rc).addrs)).Perm (m :: (k.addrs ++ r.addrs)) :=
        List.Perm.cons m ((List.Perm.append_left _ pc).trans List.perm_append_comm)
      exact this.nodup_iff.mpr ndf
    obtain ⟨cyc₂, lay₂⟩ := splice_bare cyc₁ lay₁ vc nd2
    generalize hs₂ : splice s₁ m c (r.tops.headD m) (rc.tops.getLastD c) = s₂ at hmerge cyc₂ lay₂
    have hin : ∀ q, q ∈ m :: r.tops ∨ q ∈ c :: rc.tops → q ∈ (Forest.node m k r).addrs := by
      intro q hq
      simp only [addrs_node, List.mem_cons, List.mem_append]
      rcases hq with hq | hq
      · simp only [List.mem_cons] at hq
        rcases hq with hq | hq
        · exact Or.inl hq
        · exact Or.inr (Or.inr (tops_subset_addrs r q hq))
      · exact Or.inr (Or.inl (tops_subset_addrs k q (tc.subset hq)))
    have fr₂ : Frame s₁ s₂ (Forest.node m k r).addrs := by
      rw [← hs₂]
      exact frame_splice s₁ _ _ _ _ (hin m (Or.inl (by simp))) (hin c (Or.inr (by simp)))
        (hin _ (Or.inl (headD_mem _ _))) (hin _ (Or.inr (getLastD_mem _ _)))
    generalize hG : Forest.node c kc (rc.append r) = G at cyc₂ lay₂
    have pG : G.addrs.Perm (k.addrs ++ r.addrs) := by
      rw [← hG]
      have : (Forest.node c kc (rc.append r)).addrs = (Forest.node c kc rc).addrs ++ r.addrs := by
        simp [List.append_assoc]
      rw [this]
      exact List.Perm.append_right _ pc
    have ndG : (m :: G.addrs).Nodup :=
      (List.Perm.cons m pG).nodup_iff.mpr ndf
    have hGt : G.tops ≠ [] := by rw [← hG]; simp
    have hdG : DegOK G := by
      have h1 := vc.deg
      rw [← hG]
      simp only [DegOK, degOK_append] at h1 ⊢
      exact ⟨h1.1, h1.2.1, h1.2.2, hdeg.2.2⟩
    have hl_mem := getLastD_mem_of_ne_nil hGt m
    have hr_mem := headD_mem_of_ne_nil hGt m
    have hmG : m ∉ G.tops := fun hh => (List.nodup_cons.mp ndG).1 (tops_subset_addrs G m hh)
    have hrem : _remove_from_circular_list s₂ (some m) =
        .ok (unlink s₂ (G.tops.getLastD m) (G.tops.headD m)) := by
      rcases remove_cyc cyc₂ (List.nodup_cons.mpr ⟨hmG, tops_nodup (List.nodup_cons.mp ndG).2⟩)
        with h1 | ⟨h1, _⟩
      · exact h1
      · exact absurd h1 hGt
    have sh₃ := unlink_bare cyc₂ lay₂ ndG hdG
    generalize hs₃ : unlink s₂ (G.tops.getLastD m) (G.tops.headD m) = s₃ at hrem sh₃
    have hGin : ∀ q ∈ G.tops, q ∈ (Forest.node m k r).addrs := fun q hq =>
      List.mem_cons_of_mem _ (pG.subset (tops_subset_addrs G q hq))
    have fr₃ : Frame s₂ s₃ (Forest.node m k r).addrs := by
      rw [← hs₃]
      exact frame_unlink s₂ _ _ (hGin _ hl_mem) (hGin _ hr_mem)
    obtain ⟨n₂, hn₂, hn₂r⟩ := rgt_eq_some (cyc_rgt cyc₂)
    have hm₃ : s₃.cells m = some n₂ := by
      rw [← hs₃, unlink_cells_ne s₂ (fun (e : m = _) => hmG (e ▸ hl_mem))
        (fun (e : m = _) => hmG (e ▸ hr_mem)), hn₂]
    have fr := (fr₁.trans fr₂).trans fr₃
    have hbG : Binom (.node m k r) → Binom G := by
      intro b
      simp only [Binom] at b
      have bc : Binom (.node c kc rc) :=
        binom_transfer shK.lay b.2.1 _ _ vc.lay (fun a ha => pc.subset ha)
      simp only [Binom] at bc
      rw [← hG]
      simp only [Binom, binom_append]
      exact ⟨bc.1, bc.2.1, bc.2.2, b.2.2⟩
    refine ⟨s₁, s₂, s₃, G, nm, n₂, hnm, hun, hm₁, by rw [hcc]; exact hmerge, hrem, hm₃,
      cells_key_of_frame fr hnm hm₃, sh₃, pG, fun h => absurd (tops_eq_nil.mpr h) hGt,
      fun _ => ⟨_, hr_mem, hn₂r⟩, fr, hbG⟩


theorem free_some {s : Store} {a : Nat} {n : FibHeapNode} (h : s.cells a = some n) :
    s.free (some a) = .ok (s.erase a) := by
  simp [Store.free, h]

@[simp] theorem erase_cells (s : Store) (a q : Nat) :
    (s.erase a).cells q = if q = a then none else s.cells q := rfl

@[simp] theorem erase_next (s : Store) (a : Nat) : (s.erase a).next = s.next := rfl

theorem erase_cells_ne (s : Store) {a q : Nat} (h : q ≠ a) : (s.erase a).cells q = s.cells q := by
  simp [h]

set_option maxHeartbeats 1000000 in
/-- `extract_min` on a well-formed non-empty heap, with fuel for twice the number of
nodes: it returns the key of `m_minNode`, which is a least key of the heap, frees that
node, and leaves a well-formed heap of all the other nodes. -/
theorem wf_extract_min {s : Store} {h : FibHeap} {f : Forest} {fuel : Nat} (w : WF s h f)
    (hne : f ≠ .nil) (hf : 2 * f.addrs.length + 1 ≤ fuel) :
    ∃ s' h' f' m k, h.m_minNode = some m ∧ s.keyAt m = some k ∧
      extract_min fuel s h = .ok (s', h', k) ∧ WF s' h' f' ∧ (m :: f'.addrs).Perm f.addrs ∧
      (∀ a ∈ f.addrs, k ≤ s.kv a) ∧ h'.m_numOfNodes = h.m_numOfNodes - 1 ∧
      s'.next = s.next ∧ (∀ q, q ≠ m → s'.keyAt q = s.keyAt q) ∧ s'.cells m = none ∧
      (∀ q, q ∉ f.addrs → s'.cells q = s.cells q) ∧ (Binom f → Binom f') := by
  cases hm : h.m_minNode with
  | none => exact absurd (w.minNull hm) hne
  | some m =>
    obtain ⟨hmt, hmin⟩ := w.minRoot m hm
    obtain ⟨k, r, v, pv, tv⟩ := w.shape.view hmt
    have hlen : (1 + (k.addrs.length + r.addrs.length)) = f.addrs.length := by
      have := pv.length_eq
      simp only [addrs_node, List.length_cons, List.length_append] at this
      omega
    have hkl := tops_length_le k
    obtain ⟨s₁, s₂, s₃, G, nm, n₃, hnm, hun, hm₁, hmerge, hrem, hm₃, hkey, sh₃, pG, hG0, hG1, fr,
        hbG⟩ :=
      extract_prep v (show k.tops.length ≤ fuel by omega)
    have hbv : Binom f → Binom G := fun b =>
      hbG (binom_transfer w.shape.lay b _ _ v.lay (fun a ha => pv.subset ha))
    have hGlen : G.addrs.length = k.addrs.length + r.addrs.length := by
      have := pG.length_eq
      simpa using this
    have ndf : (m :: (k.addrs ++ r.addrs)).Nodup := v.nodup
    have hmG : m ∉ G.addrs := fun hh => (List.nodup_cons.mp ndf).1 (pG.subset hh)
    have pmG : (m :: G.addrs).Perm f.addrs := (List.Perm.cons m pG).trans pv
    have hleast : ∀ a ∈ f.addrs, nm.key ≤ s.kv a := by
      intro a ha
      refine lay_lower w.shape.lay (fun q hq => ?_) a ha
      rw [← kv_of_cells hnm]
      exact hmin q hq
    have hN : h.m_numOfNodes = ((f.addrs.length : Nat) : Int) := w.size
    have hmf : m ∈ f.addrs := tops_subset_addrs f m hmt
    have fr' : Frame s s₃ f.addrs := fr.mono (fun a ha => pv.subset ha)
    have hrun0 : ∀ (res : Except Fault (Store × FibHeap)),
        (if some m = n₃.right then
            (pure (s₃, (⟨none, h.m_numOfNodes⟩ : FibHeap)) : Except Fault (Store × FibHeap))
          else _consolidate fuel s₃ ⟨n₃.right, h.m_numOfNodes⟩) = res →
        _extract_min_node fuel s h =
          res.bind (fun sh => .ok (sh.1, ⟨sh.2.m_minNode, sh.2.m_numOfNodes - 1⟩, some m)) := by
      intro res hres
      simp only [_extract_min_node, hm, ne_eq, reduceCtorEq, not_false_eq_true, if_true,
        load_some hnm, hun, load_some hm₁, hmerge, hrem, load_some hm₃, bind, Except.bind]
      rw [← hres]
      split <;> rfl
    by_cases hGn : G = .nil
    · -- the heap becomes empty
      have hr := hG0 hGn
      have e := hrun0 (.ok (s₃, ⟨none, h.m_numOfNodes⟩)) (by rw [hr, if_pos rfl]; rfl)
      refine ⟨s₃.erase m, ⟨none, h.m_numOfNodes - 1⟩, .nil, m, nm.key, rfl,
        by simp [Store.keyAt, hnm], ?_, ?_, ?_, hleast, rfl, fr'.next, ?_, by simp, ?_,
        fun _ => trivial⟩
      · simp only [extract_min, e, bind, Except.bind, pure, Except.pure, load_some hm₃,
          free_some hm₃, hkey]
      · refine ⟨shape_nil _ none, ?_, by simp, rfl, fun m' hm' => by simp at hm'⟩
        rw [hN, ← hlen, ← hGlen, hGn]
        simp
      · rw [hGn] at pmG; simpa using pmG
      · intro q hq
        simp only [Store.keyAt, erase_cells, if_neg hq]
        exact fr'.key q
      · intro q hq
        have hqm : q ≠ m := fun e => hq (e ▸ hmf)
        rw [erase_cells_ne _ hqm]
        exact fr'.off q hq
    · -- consolidation of the remaining roots
      obtain ⟨x, hx, hr⟩ := hG1 hGn
      have hxm : x ≠ m := fun e => hmG (e ▸ tops_subset_addrs G x hx)
      have small : G.addrs.length < f.addrs.length := by omega
      obtain ⟨s₄, G₀, m', hcons, sh₀, hm₀, hmin₀, pa₀, fr₄, hb₀⟩ :=
        consolidate_spec sh₃ hx small (show 2 * G.addrs.length + 1 ≤ fuel by omega)
      obtain ⟨k', r', sh₄, pv', tv'⟩ := sh₀.view hm₀
      have hb₄ : Binom f → Binom (Forest.node m' k' r') := fun b =>
        binom_transfer sh₀.lay (hb₀ (hbv b)) _ _ sh₄.lay (fun a ha => pv'.subset ha)
      generalize hG' : Forest.node m' k' r' = G' at sh₄ pv' tv' hb₄
      have hm' : G'.tops.head? = some m' := by rw [← hG']; rfl
      have pa₄ : G'.addrs.Perm G.addrs := pv'.trans pa₀
      have hmin' : ∀ q ∈ G'.tops, s₄.kv m' ≤ s₄.kv q := fun q hq =>
        hmin₀ q (tv'.subset (by rw [← hG'] at hq; exact hq))
      have hmG' : m ∉ G'.addrs := fun hh => hmG (pa₄.subset hh)
      have hm₄ : s₄.cells m = some n₃ := by rw [fr₄.off m hmG, hm₃]
      have e := hrun0 (.ok (s₄, ⟨some m', ((f.addrs.length : Nat) : Int)⟩)) (by
        rw [hr, if_neg (fun e => hxm (Option.some.inj e).symm), hN]
        exact hcons)
      refine ⟨s₄.erase m, ⟨some m', h.m_numOfNodes - 1⟩, G', m, nm.key, rfl,
        by simp [Store.keyAt, hnm], ?_, ?_, ?_, hleast, rfl, ?_, ?_, by simp, ?_, hb₄⟩
      · simp only [extract_min, e, Except.bind, bind, pure, Except.pure, load_some hm₄,
          free_some hm₄, hkey]
        rw [hN]
      · have hcong : ∀ c ∈ G'.addrs, (s₄.erase m).cells c = s₄.cells c := fun c hc =>
          erase_cells_ne _ (fun e => hmG' (e ▸ hc))
        refine ⟨sh₄.congr hcong, ?_, ?_, hm'.symm, fun m₀ hm₀ => ?_⟩
        · rw [hN, pa₄.length_eq, hGlen, ← hlen]
          push_cast; ring
        · intro a ha
          rw [erase_next, fr₄.next, fr'.next]
          exact w.bound a (pmG.subset (List.mem_cons_of_mem _ (pa₄.subset ha)))
        · simp only [Option.some.injEq] at hm₀
          subst hm₀
          intro q hq
          rw [kv_congr (hcong _ (tops_subset_addrs G' _ (mem_of_head? hm'))),
            kv_congr (hcong _ (tops_subset_addrs G' _ hq))]
          exact hmin' q hq
      · exact (List.Perm.cons m pa₄).trans pmG
      · rw [erase_next, fr₄.next, fr'.next]
      · intro q hq
        simp only [Store.keyAt, erase_cells, if_neg hq]
        exact (fr₄.key q).trans (fr'.key q)
      · intro q hq
        have hqm : q ≠ m := fun e => hq (e ▸ hmf)
        have hqG : q ∉ G.addrs := fun hh => hq (pmG.subset (List.mem_cons_of_mem _ hh))
        rw [erase_cells_ne _ hqm, fr₄.off q hqG]
        exact fr'.off q hq


/-! ## The nodes of a heap -/

theorem length_le_of_bound {l : List Nat} {n : Nat} (nd : l.Nodup) (hb : ∀ a ∈ l, a < n) :
    l.length ≤ n := by
  have : l.Subperm (List.range n) :=
    List.Nodup.subperm nd (fun a ha => List.mem_range.mpr (hb a ha))
  simpa using this.length_le

/-- The walk through `child` and `right` pointers lists the nodes of a laid-out forest. -/
theorem collect_addrs {s : Store} : ∀ (f : Forest) (par : Option Nat) (x : Nat) (k r : Forest)
    (start fuel : Nat), f = .node x k r → Lay s par f →
    List.Chain' (fun u v => s.rgt u = some v) (f.tops ++ [start]) → start ∉ r.tops →
    f.addrs.Nodup → f.addrs.length ≤ fuel → collectFrom s fuel start x = f.addrs := by
  intro f
  induction f with
  | nil => intro _ _ _ _ _ _ h; cases h
  | node x k r ihk ihr =>
    intro par x' k' r' start fuel e hl hch hs nd hf
    cases e
    obtain ⟨fuel, rfl⟩ : ∃ n, fuel = n + 1 := ⟨fuel - 1, by
      simp only [addrs_node, List.length_cons] at hf; omega⟩
    simp only [Lay] at hl
    obtain ⟨⟨n, hn, -, -, hch', -⟩, hcyc, hlk, hlr⟩ := hl
    simp only [addrs_node, List.nodup_cons, List.nodup_append, List.length_cons,
      List.length_append] at nd hf
    rw [collectFrom]
    simp only [hn]
    refine congrArg (fun l => x :: l) (congrArg₂ (fun l₁ l₂ => l₁ ++ l₂) ?_ ?_)
    · rw [hch']
      cases k with
      | nil => rfl
      | node c kc rc =>
        have ndk := nd.2.1
        refine ihk (some x) c kc rc c fuel rfl hlk (chain_rgt_of_cyc hcyc) ?_ ndk (by omega)
        have := tops_nodup ndk
        simp only [tops_node, List.nodup_cons] at this
        exact this.1
    · cases r with
      | nil =>
        have hr : s.rgt x = some start := by simpa using hch
        obtain ⟨n', hn', hnr⟩ := rgt_eq_some hr
        have e : n' = n := by rw [hn] at hn'; exact (Option.some.inj hn').symm
        subst e
        rw [hnr]; simp
      | node y ky ry =>
        simp only [tops_node, List.cons_append, List.chain'_cons] at hch
        obtain ⟨n', hn', hnr⟩ := rgt_eq_some hch.1
        have e : n' = n := by rw [hn] at hn'; exact (Option.some.inj hn').symm
        subst e
        have hys : y ≠ start := fun e => hs (by simp [e])
        rw [hnr]
        simp only [hys, if_false]
        exact ihr par y ky ry start fuel rfl hlr hch.2
          (fun hh => hs (by simp only [tops_node, List.mem_cons]; exact Or.inr hh)) nd.2.2.1
          (by omega)

/-- The nodes reachable from `m_minNode` are the nodes of the forest of a well-formed
heap. -/
theorem nodesOf_wf {s : Store} {h : FibHeap} {f : Forest} (w : WF s h f) :
    nodesOf s h = f.addrs := by
  have hh := w.minHead
  cases f with
  | nil =>
    simp only [tops_nil, List.head?_nil] at hh
    simp [nodesOf, hh]
  | node m k r =>
    simp only [tops_node, List.head?_cons] at hh
    simp only [nodesOf, hh]
    have ndt := tops_nodup w.shape.nodup
    simp only [tops_node, List.nodup_cons] at ndt
    exact collect_addrs _ none m k r m s.next rfl w.shape.lay (chain_rgt_of_cyc w.shape.cyc)
      ndt.1 w.shape.nodup (length_le_of_bound w.shape.nodup w.bound)


/-! ## A run of `extract_min` that does not end -/

theorem minScan_stuck (x : Option Nat) (s : Store) (p : Nat) {np : FibHeapNode}
    (hp : s.cells p = some np) (hr : np.right = some p) (hx : some p ≠ x) :
    ∀ (fuel : Nat) (m : Nat), (s.cells m).isSome →
      minScanLoop x fuel s (some m) (some p) = .error .outOfFuel := by
  intro fuel
  induction fuel with
  | zero => intro m _; rfl
  | succ fuel ih =>
    intro m hm
    obtain ⟨nm, hnm⟩ := Option.isSome_iff_exists.mp hm
    simp only [minScanLoop, load_some hp, load_some hnm, bind, Except.bind, hr, ne_eq, hx,
      not_false_eq_true, if_true]
    split
    · exact ih p (by rw [hp]; rfl)
    · exact ih m hm

theorem minScan_enters_loop (x p : Nat) (s : Store) (fuel : Nat) (hx : s.rgt x = some p)
    (hp : s.rgt p = some p) (hne : p ≠ x) :
    minScanLoop (some x) fuel s (some x) (some x) = .error .outOfFuel := by
  cases fuel with
  | zero => rfl
  | succ fuel =>
    obtain ⟨nx, hnx, hnxr⟩ := rgt_eq_some hx
    obtain ⟨np, hnp, hnpr⟩ := rgt_eq_some hp
    have hne' : some p ≠ some x := fun e => hne (Option.some.inj e)
    simp only [minScanLoop, load_some hnx, bind, Except.bind, hnxr, ne_eq, hne',
      not_false_eq_true, if_true, lt_self_iff_false, if_false]
    exact minScan_stuck (some x) s p hnp hnpr hne' fuel x (by rw [hnx]; rfl)

set_option maxRecDepth 100000 in
set_option maxHeartbeats 4000000 in
/-- In a store where the node `1` has been left inside the root list `5, 3, 1, 0` with a
`left` pointer to itself, `extract_min` links `1` below `0` without taking it out of the
list, and the search for the new minimum then runs round the one-node list of `1` for
ever: every amount of fuel is used up. -/
theorem extract_min_diverges (S : Store)
    (h0 : S.cells 0 = some ⟨10, some 1, some 5, none, some 1, 1, false⟩)
    (h1 : S.cells 1 = some ⟨11, some 1, some 0, some 0, some 2, 1, false⟩)
    (h3 : S.cells 3 = some ⟨5, some 5, some 1, none, none, 0, false⟩)
    (h5 : S.cells 5 = some ⟨1, some 0, some 3, none, none, 0, false⟩) :
    ∀ fuel, extract_min fuel S ⟨some 5, 5⟩ = .error .outOfFuel := by
  intro fuel
  have hD : Dn 5 = .ok 3 := by rfl
  rcases fuel with _ | _ | _ | _ | n
  · simp [extract_min, _extract_min_node, _unparent_all, _merge, _remove_from_circular_list,
      _consolidate, consolidateLoop, consolidateInner, Store.load, Store.modify, bind,
      Except.bind, pure, Except.pure, h0, h1, h3, h5, hD]
  · simp [extract_min, _extract_min_node, _unparent_all, _merge, _remove_from_circular_list,
      _consolidate, consolidateLoop, consolidateInner, _make_child, readA, writeA,
      Store.load, Store.modify, bind,
      Except.bind, pure, Except.pure, h0, h1, h3, h5, hD]
  · simp [extract_min, _extract_min_node, _unparent_all, _merge, _remove_from_circular_list,
      _consolidate, consolidateLoop, consolidateInner, _make_child, readA, writeA,
      Store.load, Store.modify, bind,
      Except.bind, pure, Except.pure, h0, h1, h3, h5, hD]
  · simp [extract_min, _extract_min_node, _unparent_all, _merge, _remove_from_circular_list,
      _consolidate, consolidateLoop, consolidateInner, _make_child, readA, writeA,
      Store.load, Store.modify, bind,
      Except.bind, pure, Except.pure, h0, h1, h3, h5, hD]
  · simp [extract_min, _extract_min_node, _unparent_all, _merge, _remove_from_circular_list,
      _consolidate, consolidateLoop, consolidateInner, _make_child, readA, writeA,
      Store.load, Store.modify, bind,
      Except.bind, pure, Except.pure, h0, h1, h3, h5, hD]
    rw [minScan_enters_loop 3 1 _ _ (by simp [Store.rgt, h0, h1, h3, h5])
      (by simp [Store.rgt, h0, h1, h3, h5]) (by decide)]


/-! ## Sequences of operations -/

theorem kv_of_keyAt {s : Store} {a : Nat} {k : Int} (h : s.keyAt a = some k) : s.kv a = k := by
  simp [Store.kv, h]

/-- Inserting a list of keys into a well-formed heap. -/
theorem insertAll_wf : ∀ (l : List Int) {s : Store} {h : FibHeap} {f : Forest}, WF s h f →
    ∃ s' h' f' ps, insertAll l s h = .ok (s', h', ps) ∧ WF s' h' f' ∧
      (f'.addrs.map s'.kv).Perm (l ++ f.addrs.map s.kv) := by
  intro l
  induction l with
  | nil =>
    intro s h f w
    exact ⟨s, h, f, [], rfl, w, by simp⟩
  | cons k l ih =>
    intro s h f w
    obtain ⟨s₁, f₁, m, e, w₁, pa, hnext, hk, hkeys, -, -, -⟩ := wf_insert w k
    obtain ⟨s', h', f', ps, e', w', pk⟩ := ih w₁
    refine ⟨s', h', f', some s.next :: ps, ?_, w', ?_⟩
    · simp only [insertAll, e, bind, Except.bind, e', pure, Except.pure]
    · refine pk.trans ?_
      have h1 : (f₁.addrs.map s₁.kv).Perm ((s.next :: f.addrs).map s₁.kv) := pa.map _
      have h2 : (s.next :: f.addrs).map s₁.kv = k :: f.addrs.map s.kv := by
        simp only [List.map_cons, kv_of_keyAt hk, List.cons.injEq, true_and]
        refine List.map_congr_left (fun a ha => ?_)
        have hne : a ≠ s.next := fun e => lt_irrefl _ (e ▸ w.bound a ha)
        simp only [Store.kv, hkeys a hne]
      rw [h2] at h1
      exact (List.Perm.append_left l h1).trans List.perm_middle

theorem wf_nil_heap {s : Store} {h : FibHeap} (w : WF s h .nil) : h = ⟨none, 0⟩ := by
  have h1 := w.minHead
  have h2 := w.size
  cases h with
  | mk m n =>
    simp only [tops_nil, List.head?_nil, addrs_nil, List.length_nil, Nat.cast_zero] at h1 h2
    simp only [h1, h2]

/-- Draining a well-formed heap with `extract_min`: the keys come out in non-decreasing
order, they are the keys of the heap, and the heap is empty at the end. -/
theorem extractAll_wf (fuel : Nat) : ∀ (n : Nat) {s : Store} {h : FibHeap} {f : Forest},
    WF s h f → f.addrs.length = n → 2 * n + 1 ≤ fuel →
    ∃ s' ks, extractAll fuel n s h = .ok (s', ⟨none, 0⟩, ks) ∧ ks.Sorted (· ≤ ·) ∧
      ks.Perm (f.addrs.map s.kv) := by
  intro n
  induction n with
  | zero =>
    intro s h f w hn _
    have hf : f = .nil := addrs_eq_nil.mp (List.length_eq_zero.mp hn)
    subst hf
    rw [wf_nil_heap w]
    exact ⟨s, [], rfl, List.sorted_nil, by simp⟩
  | succ n ih =>
    intro s h f w hn hfuel
    have hne : f ≠ .nil := by
      intro e; rw [e] at hn; simp at hn
    obtain ⟨s₁, h₁, f₁, m, k, hm, hk, e, w₁, pa, hleast, -, -, hkeys, -, -⟩ :=
      wf_extract_min w hne (show 2 * f.addrs.length + 1 ≤ fuel by omega)
    have hlen : f₁.addrs.length = n := by
      have := pa.length_eq
      simp only [List.length_cons] at this
      omega
    obtain ⟨s', ks, e', hs, pk⟩ := ih w₁ hlen (by omega)
    have ndf : (m :: f₁.addrs).Nodup := pa.nodup_iff.mpr w.shape.nodup
    have hmap : f₁.addrs.map s₁.kv = f₁.addrs.map s.kv := by
      refine List.map_congr_left (fun a ha => ?_)
      have hne : a ≠ m := fun e => (List.nodup_cons.mp ndf).1 (e ▸ ha)
      simp only [Store.kv, hkeys a hne]
    rw [hmap] at pk
    refine ⟨s', k :: ks, ?_, ?_, ?_⟩
    · simp only [extractAll, e, bind, Except.bind, e', pure, Except.pure]
    · refine List.sorted_cons.mpr ⟨fun b hb => ?_, hs⟩
      obtain ⟨a, ha, rfl⟩ := List.mem_map.mp (pk.subset hb)
      exact hleast a (pa.subset (List.mem_cons_of_mem _ ha))
    · have h1 : (k :: f₁.addrs.map s.kv) = (m :: f₁.addrs).map s.kv := by
        simp only [List.map_cons, kv_of_keyAt hk]
      exact (List.Perm.cons k pk).trans (h1 ▸ pa.map _)


/-! ## More fuel does not change a finished run -/

theorem bind_ok' {α β : Type} {x : Except Fault α} {f : α → Except Fault β} {b : β} :
    x.bind f = .ok b ↔ ∃ a, x = .ok a ∧ f a = .ok b := by
  cases x with
  | error e => simp [Except.bind]
  | ok a => simp [Except.bind]

theorem unparentLoop_mono (x : Option Nat) : ∀ (f : Nat) (s : Store) (y : Option Nat) (r : Store),
    unparentLoop x f s y = .ok r → ∀ f', f ≤ f' → unparentLoop x f' s y = .ok r := by
  intro f
  induction f with
  | zero => intro s y r h; simp [unparentLoop] at h
  | succ f ih =>
    intro s y r h f' hf
    obtain ⟨f', rfl⟩ : ∃ n, f' = n + 1 := ⟨f' - 1, by omega⟩
    simp only [unparentLoop, bind, bind_ok'] at h ⊢
    obtain ⟨s₁, h1, n, h2, h3⟩ := h
    refine ⟨s₁, h1, n, h2, ?_⟩
    split at h3
    · rw [if_pos (by assumption)]; exact ih _ _ _ h3 f' (by omega)
    · rw [if_neg (by assumption)]; exact h3

theorem unparent_all_mono {f f' : Nat} {s r : Store} {x : Option Nat}
    (h : _unparent_all f s x = .ok r) (hf : f ≤ f') : _unparent_all f' s x = .ok r := by
  simp only [_unparent_all] at h ⊢
  split at h
  · rw [if_pos (by assumption)]; exact h
  · rw [if_neg (by assumption)]; exact unparentLoop_mono x f s x r h f' hf

theorem minScanLoop_mono (x : Option Nat) : ∀ (f : Nat) (s : Store) (m it r : Option Nat),
    minScanLoop x f s m it = .ok r → ∀ f', f ≤ f' → minScanLoop x f' s m it = .ok r := by
  intro f
  induction f with
  | zero => intro s m it r h; simp [minScanLoop] at h
  | succ f ih =>
    intro s m it r h f' hf
    obtain ⟨f', rfl⟩ : ∃ n, f' = n + 1 := ⟨f' - 1, by omega⟩
    simp only [minScanLoop, bind, bind_ok'] at h ⊢
    obtain ⟨ni, h1, nm, h2, h3⟩ := h
    refine ⟨ni, h1, nm, h2, ?_⟩
    split at h3
    · rw [if_pos (by assumption)]; exact ih _ _ _ _ h3 f' (by omega)
    · rw [if_neg (by assumption)]; exact h3

theorem consolidateInner_mono : ∀ (f : Nat) (s : Store) (A : List (Option Nat)) (x : Option Nat)
    (d : Int) (r : Store × List (Option Nat) × Option Nat × Int × Bool),
    consolidateInner f s A x d = .ok r → ∀ f', f ≤ f' → consolidateInner f' s A x d = .ok r := by
  intro f
  induction f with
  | zero => intro s A x d r h; simp [consolidateInner] at h
  | succ f ih =>
    intro s A x d r h f' hf
    obtain ⟨f', rfl⟩ : ∃ n, f' = n + 1 := ⟨f' - 1, by omega⟩
    simp only [consolidateInner, bind, bind_ok'] at h ⊢
    obtain ⟨Ad, h1, h2⟩ := h
    refine ⟨Ad, h1, ?_⟩
    split at h2
    · rw [if_pos (by assumption)]; exact h2
    · rw [if_neg (by assumption)]
      split at h2
      · rw [if_pos (by assumption)]; exact h2
      · rw [if_neg (by assumption)]
        simp only [bind_ok'] at h2 ⊢
        obtain ⟨nx, h3, ny, h4, s₁, h5, A₁, h6, h7⟩ := h2
        exact ⟨nx, h3, ny, h4, s₁, h5, A₁, h6, ih _ _ _ _ _ h7 f' (by omega)⟩

theorem consolidateLoop_mono : ∀ (f : Nat) (s : Store) (A : List (Option Nat)) (x : Option Nat)
    (r : Store × Option Nat),
    consolidateLoop f s A x = .ok r → ∀ f', f ≤ f' → consolidateLoop f' s A x = .ok r := by
  intro f
  induction f with
  | zero => intro s A x r h; simp [consolidateLoop] at h
  | succ f ih =>
    intro s A x r h f' hf
    obtain ⟨f', rfl⟩ : ∃ n, f' = n + 1 := ⟨f' - 1, by omega⟩
    simp only [consolidateLoop, bind, bind_ok'] at h ⊢
    obtain ⟨nx, h1, res, h2, h3⟩ := h
    refine ⟨nx, h1, res, consolidateInner_mono _ _ _ _ _ _ h2 _ (by omega), ?_⟩
    split at h3
    · rw [if_pos (by assumption)]; exact h3
    · rw [if_neg (by assumption)]
      simp only [bind_ok'] at h3 ⊢
      obtain ⟨n₁, h4, A₁, h5, n₂, h6, h7⟩ := h3
      exact ⟨n₁, h4, A₁, h5, n₂, h6, ih _ _ _ _ h7 f' (by omega)⟩

theorem consolidate_mono {f f' : Nat} {s : Store} {h : FibHeap} {r : Store × FibHeap}
    (hr : _consolidate f s h = .ok r) (hf : f ≤ f') : _consolidate f' s h = .ok r := by
  simp only [_consolidate, bind, bind_ok'] at hr ⊢
  obtain ⟨dn, h1, res, h2, m, h3, h4⟩ := hr
  exact ⟨dn, h1, res, consolidateLoop_mono _ _ _ _ _ h2 _ hf, m,
    minScanLoop_mono _ _ _ _ _ _ h3 _ hf, h4⟩

theorem extract_min_node_mono {f f' : Nat} {s : Store} {h : FibHeap}
    {r : Store × FibHeap × Option Nat} (hr : _extract_min_node f s h = .ok r) (hf : f ≤ f') :
    _extract_min_node f' s h = .ok r := by
  simp only [_extract_min_node] at hr ⊢
  split at hr
  · rw [if_pos (by assumption)]
    simp only [bind, bind_ok'] at hr ⊢
    obtain ⟨n₁, h1, s₁, h2, n₂, h3, res, h4, s₃, h5, n₃, h6, h7⟩ := hr
    refine ⟨n₁, h1, s₁, unparent_all_mono h2 hf, n₂, h3, res, h4, s₃, h5, n₃, h6, ?_⟩
    split at h7
    · rw [if_pos (by assumption)]; exact h7
    · rw [if_neg (by assumption)]
      simp only [bind_ok'] at h7 ⊢
      obtain ⟨n₄, h9, res', h10, h11⟩ := h7
      exact ⟨n₄, h9, res', consolidate_mono h10 hf, h11⟩
  · rw [if_neg (by assumption)]; exact hr

/-- A run of `extract_min` that ends within the fuel `f` ends with the same result
within any greater fuel. -/
theorem extract_min_mono {f f' : Nat} {s : Store} {h : FibHeap} {r : Store × FibHeap × Int}
    (hr : extract_min f s h = .ok r) (hf : f ≤ f') : extract_min f' s h = .ok r := by
  simp only [extract_min, bind, bind_ok'] at hr ⊢
  obtain ⟨res, h1, h2⟩ := hr
  exact ⟨res, extract_min_node_mono h1 hf, h2⟩


/-! ## Reachable worlds -/

theorem extract_min_nil_fault (fuel : Nat) (s : Store) (n : Int) :
    extract_min fuel s ⟨none, n⟩ = .error .nullDeref := rfl

/-- Every finished run of `extract_min` on a well-formed heap is as `wf_extract_min`
says. -/
theorem wf_extract_min_of_ok {s s' : Store} {h h' : FibHeap} {f : Forest} {fuel : Nat} {k : Int}
    (w : WF s h f) (e : extract_min fuel s h = .ok (s', h', k)) :
    ∃ f' m, h.m_minNode = some m ∧ s.keyAt m = some k ∧ WF s' h' f' ∧
      (m :: f'.addrs).Perm f.addrs ∧ (∀ a ∈ f.addrs, k ≤ s.kv a) ∧
      h'.m_numOfNodes = h.m_numOfNodes - 1 ∧ s'.next = s.next ∧
      (∀ q, q ≠ m → s'.keyAt q = s.keyAt q) ∧ s'.cells m = none ∧
      (∀ q, q ∉ f.addrs → s'.cells q = s.cells q) ∧ (Binom f → Binom f') := by
  have hne : f ≠ .nil := by
    intro hf
    subst hf
    rw [wf_nil_heap w, extract_min_nil_fault] at e
    cases e
  obtain ⟨s₁, h₁, f₁, m, k₁, hm, hk, e₁, w₁, rest⟩ :=
    wf_extract_min w hne (Nat.le_max_right fuel (2 * f.addrs.length + 1))
  have e₂ := extract_min_mono e (Nat.le_max_left fuel (2 * f.addrs.length + 1))
  rw [e₁] at e₂
  simp only [Except.ok.injEq, Prod.mk.injEq] at e₂
  obtain ⟨rfl, rfl, rfl⟩ := e₂
  exact ⟨f₁, m, hm, hk, w₁, rest⟩

/-- Every finished run of `insert` on a well-formed heap is as `wf_insert` says. -/
theorem wf_insert_of_ok {s s' : Store} {h h' : FibHeap} {f : Forest} {k : Int} {p : Option Nat}
    (w : WF s h f) (e : insert s h k = .ok (s', h', p)) :
    ∃ f', WF s' h' f' ∧ f'.addrs.Perm (s.next :: f.addrs) ∧ p = some s.next ∧
      h'.m_numOfNodes = h.m_numOfNodes + 1 ∧ s.next ≤ s'.next ∧
      (∀ q, q ∉ f.addrs → q ≠ s.next → s'.cells q = s.cells q) ∧ (Binom f → Binom f') := by
  obtain ⟨s₁, f₁, m, e₁, w₁, pa, hn, -, -, hoff, -, -, hb⟩ := wf_insert w k
  rw [e₁] at e
  simp only [Except.ok.injEq, Prod.mk.injEq] at e
  obtain ⟨rfl, rfl, rfl⟩ := e
  exact ⟨f₁, w₁, pa, rfl, rfl, by omega, hoff, hb⟩

/-- Every finished run of `merge` on two well-formed heaps without common node is as
`wf_merge` says. -/
theorem wf_merge_of_ok {s s' : Store} {h₁ h₂ h₁' h₂' : FibHeap} {f₁ f₂ : Forest}
    (w₁ : WF s h₁ f₁) (w₂ : WF s h₂ f₂) (dis : ∀ q ∈ f₁.addrs, q ∉ f₂.addrs)
    (e : merge s h₁ h₂ = .ok (s', h₁', h₂')) :
    ∃ f', WF s' h₁' f' ∧ f'.addrs.Perm (f₁.addrs ++ f₂.addrs) ∧ h₂' = ⟨none, 0⟩ ∧
      h₁'.m_numOfNodes = h₁.m_numOfNodes + h₂.m_numOfNodes ∧
      Frame s s' (f₁.addrs ++ f₂.addrs) ∧
      h₁'.m_minNode = pickMin s h₁.m_minNode h₂.m_minNode ∧
      (Binom f₁ → Binom f₂ → Binom f') := by
  obtain ⟨s₁, f', m, e₁, w, pa, fr, -, hm, hb⟩ := wf_merge w₁ w₂ dis
  rw [e₁] at e
  simp only [Except.ok.injEq, Prod.mk.injEq] at e
  obtain ⟨rfl, rfl, rfl⟩ := e
  exact ⟨f', w, pa, rfl, rfl, fr, hm, hb⟩

/-- A well-formed heap stays well-formed, with the same nodes, when the store changes
outside its nodes only and frees no address. -/
theorem wellFormed_frame {s s' : Store} {h : FibHeap} (w : WellFormed s h)
    (hc : ∀ a ∈ nodesOf s h, s'.cells a = s.cells a) (hn : s.next ≤ s'.next) :
    WellFormed s' h ∧ nodesOf s' h = nodesOf s h := by
  obtain ⟨f, w⟩ := w
  rw [nodesOf_wf w] at hc ⊢
  have w' := w.ofCells hc hn
  exact ⟨⟨f, w'⟩, nodesOf_wf w'⟩

theorem wellFormed_empty (s : Store) : WellFormed s FibHeap.empty := ⟨.nil, wf_empty s⟩

theorem nodesOf_empty (s : Store) : nodesOf s FibHeap.empty = [] := rfl

/-- The heaps of a world other than the one an operation worked on: they keep their
nodes when the operation only changed cells of the nodes `L` of that heap and cells that
were not allocated. -/
theorem winv_others {s s' : Store} {h : FibHeap} {hs : List FibHeap} (wi : WInv s (h :: hs))
    (hn : s.next ≤ s'.next)
    (hoff : ∀ q, q ∉ nodesOf s h → q < s.next → s'.cells q = s.cells q) :
    ∀ g ∈ hs, WellFormed s' g ∧ nodesOf s' g = nodesOf s g := by
  intro g hg
  have hw := wi.1 g (List.mem_cons_of_mem _ hg)
  refine wellFormed_frame hw (fun a ha => ?_) hn
  have hdis : (nodesOf s h).Disjoint (nodesOf s g) := (List.pairwise_cons.mp wi.2).1 g hg
  obtain ⟨f, w⟩ := hw
  exact hoff a (fun hh => hdis hh ha) (w.bound a (by rw [← nodesOf_wf w]; exact ha))

theorem pairwise_congr_nodes {s s' : Store} {hs : List FibHeap}
    (h : ∀ g ∈ hs, nodesOf s' g = nodesOf s g)
    (hp : hs.Pairwise (fun a b => (nodesOf s a).Disjoint (nodesOf s b))) :
    hs.Pairwise (fun a b => (nodesOf s' a).Disjoint (nodesOf s' b)) := by
  induction hs with
  | nil => exact List.Pairwise.nil
  | cons a l ih =>
    rw [List.pairwise_cons] at hp ⊢
    refine ⟨fun b hb => ?_, ih (fun g hg => h g (List.mem_cons_of_mem _ hg)) hp.2⟩
    rw [h a (List.mem_cons_self a l), h b (List.mem_cons_of_mem _ hb)]
    exact hp.1 b hb

/-- The invariant holds in every reachable world. -/
theorem reach_winv {s : Store} {hs : List FibHeap} (r : Reach s hs) : WInv s hs := by
  induction r with
  | init => exact ⟨fun h hh => by simp at hh, List.Pairwise.nil⟩
  | @create s hs _ ih =>
    refine ⟨fun h hh => ?_, List.pairwise_cons.mpr ⟨fun b _ => ?_, ih.2⟩⟩
    · simp only [List.mem_cons] at hh
      rcases hh with rfl | hh
      · exact wellFormed_empty s
      · exact ih.1 h hh
    · rw [nodesOf_empty]; exact List.disjoint_nil_left _
  | @reorder s hs hs' _ hp ih =>
    refine ⟨fun h hh => ih.1 h (hp.symm.subset hh), ?_⟩
    exact (List.Perm.pairwise_iff (fun {a b} (hab : (nodesOf s a).Disjoint (nodesOf s b)) =>
      hab.symm) hp).mp ih.2
  | @insert s s' h h' hs k p _ e ih =>
    obtain ⟨f, w⟩ := ih.1 h (List.mem_cons_self h hs)
    obtain ⟨f', w', pa, -, -, hn, hoff, -⟩ := wf_insert_of_ok w e
    have hoth := winv_others ih hn (fun q hq hlt => hoff q (by rw [← nodesOf_wf w]; exact hq)
      (by omega))
    refine ⟨fun g hg => ?_, List.pairwise_cons.mpr ⟨fun g hg => ?_, ?_⟩⟩
    · simp only [List.mem_cons] at hg
      rcases hg with rfl | hg
      · exact ⟨f', w'⟩
      · exact (hoth g hg).1
    · rw [(hoth g hg).2, nodesOf_wf w']
      intro a ha hag
      have := pa.subset ha
      simp only [List.mem_cons] at this
      rcases this with rfl | hf
      · obtain ⟨fg, wg⟩ := ih.1 g (List.mem_cons_of_mem _ hg)
        rw [nodesOf_wf wg] at hag
        exact lt_irrefl _ (wg.bound _ hag)
      · exact (List.pairwise_cons.mp ih.2).1 g hg (by rw [nodesOf_wf w]; exact hf) hag
    · exact pairwise_congr_nodes (fun g hg => (hoth g hg).2) (List.pairwise_cons.mp ih.2).2
  | @merge s s' h₁ h₂ h₁' h₂' hs _ e ih =>
    obtain ⟨f₁, w₁⟩ := ih.1 h₁ (by simp)
    obtain ⟨f₂, w₂⟩ := ih.1 h₂ (by simp)
    have hp := ih.2
    simp only [List.pairwise_cons, List.mem_cons, forall_eq_or_imp] at hp
    obtain ⟨⟨d12, d1⟩, d2, hp'⟩ := hp
    have dis : ∀ q ∈ f₁.addrs, q ∉ f₂.addrs := by
      rw [nodesOf_wf w₁, nodesOf_wf w₂] at d12
      exact fun q h1 h2 => d12 h1 h2
    obtain ⟨f', w', pa, rfl, -, fr, -⟩ := wf_merge_of_ok w₁ w₂ dis e
    have hoth : ∀ g ∈ hs, WellFormed s' g ∧ nodesOf s' g = nodesOf s g := by
      intro g hg
      refine wellFormed_frame (ih.1 g (by simp [hg])) (fun a ha => fr.off a ?_) (by rw [fr.next])
      simp only [List.mem_append, not_or]
      exact ⟨fun hh => d1 g hg (by rw [nodesOf_wf w₁]; exact hh) ha,
        fun hh => d2 g hg (by rw [nodesOf_wf w₂]; exact hh) ha⟩
    refine ⟨fun g hg => ?_, ?_⟩
    · simp only [List.mem_cons] at hg
      rcases hg with rfl | rfl | hg
      · exact ⟨f', w'⟩
      · exact wellFormed_empty s'
      · exact (hoth g hg).1
    · simp only [List.pairwise_cons, List.mem_cons, forall_eq_or_imp]
      refine ⟨⟨?_, fun g hg => ?_⟩, fun g _ => ?_, pairwise_congr_nodes (fun g hg => (hoth g hg).2) hp'⟩
      · show (nodesOf s' h₁').Disjoint (nodesOf s' FibHeap.empty)
        rw [nodesOf_empty]; exact List.disjoint_nil_right _
      · rw [(hoth g hg).2, nodesOf_wf w']
        intro a ha hag
        have := pa.subset ha
        simp only [List.mem_append] at this
        rcases this with hf | hf
        · exact d1 g hg (by rw [nodesOf_wf w₁]; exact hf) hag
        · exact d2 g hg (by rw [nodesOf_wf w₂]; exact hf) hag
      · show (nodesOf s' FibHeap.empty).Disjoint _
        rw [nodesOf_empty]; exact List.disjoint_nil_left _
  | @extract s s' h h' hs fuel k _ e ih =>
    obtain ⟨f, w⟩ := ih.1 h (List.mem_cons_self h hs)
    obtain ⟨f', m, -, -, w', pa, -, -, hn, -, -, hoff, -⟩ := wf_extract_min_of_ok w e
    have hoth := winv_others ih (le_of_eq hn.symm)
      (fun q hq _ => hoff q (by rw [← nodesOf_wf w]; exact hq))
    refine ⟨fun g hg => ?_, List.pairwise_cons.mpr ⟨fun g hg => ?_, ?_⟩⟩
    · simp only [List.mem_cons] at hg
      rcases hg with rfl | hg
      · exact ⟨f', w'⟩
      · exact (hoth g hg).1
    · rw [(hoth g hg).2, nodesOf_wf w']
      intro a ha hag
      exact (List.pairwise_cons.mp ih.2).1 g hg
        (by rw [nodesOf_wf w]; exact pa.subset (List.mem_cons_of_mem _ ha)) hag
    · exact pairwise_congr_nodes (fun g hg => (hoth g hg).2) (List.pairwise_cons.mp ih.2).2


/-! ## decrease_key on a root -/

theorem lay_addrs_parent {s : Store} {f : Forest} : ∀ {p : Nat}, Lay s (some p) f →
    ∀ a ∈ f.addrs, ∃ n q, s.cells a = some n ∧ n.parent = some q := by
  induction f with
  | nil => intro _ _ a ha; simp at ha
  | node b k r ihk ihr =>
    intro p h a ha
    simp only [Lay] at h
    simp only [addrs_node, List.mem_cons, List.mem_append] at ha
    rcases ha with rfl | ha | ha
    · obtain ⟨n, hn, hp, -⟩ := h.1
      exact ⟨n, p, hn, hp⟩
    · exact ihk h.2.2.1 a ha
    · exact ihr h.2.2.2 a ha

/-- The nodes that are not roots have a parent. -/
theorem lay_inner_parent {s : Store} {f : Forest} : ∀ {par : Option Nat}, Lay s par f →
    ∀ a ∈ f.inner, ∃ n q, s.cells a = some n ∧ n.parent = some q := by
  induction f with
  | nil => intro _ _ a ha; simp at ha
  | node b k r _ ihr =>
    intro par h a ha
    simp only [Lay] at h
    simp only [inner_node, List.mem_append] at ha
    rcases ha with ha | ha
    · exact lay_addrs_parent h.2.2.1 a ha
    · exact ihr h.2.2.2 a ha

/-- When no node has a parent, every node of a well-formed heap is a root. -/
theorem wf_flat {s : Store} {h : FibHeap} {f : Forest} (w : WF s h f)
    (hp : ∀ a n, s.cells a = some n → n.parent = none) : ∀ a ∈ f.addrs, a ∈ f.tops := by
  intro a ha
  rcases List.mem_append.mp ((addrs_perm f).subset ha) with h1 | h1
  · exact h1
  · obtain ⟨n, q, hn, hq⟩ := lay_inner_parent w.shape.lay a h1
    rw [hp a n hn] at hq
    cases hq

/-- Lowering the key of a node that is not a child keeps the forest laid out. -/
theorem lay_decrease {s : Store} {x : Nat} {nx : FibHeapNode} {newKey : Int}
    (hnx : s.cells x = some nx) (hk : newKey ≤ nx.key) {f : Forest} :
    ∀ {par : Option Nat}, Lay s par f → x ∉ f.inner →
      Lay (s.upd x (fun n => { n with key := newKey })) par f := by
  induction f with
  | nil => intros; trivial
  | node a k r _ ihr =>
    intro par h hx
    simp only [Lay] at h ⊢
    simp only [inner_node, List.mem_append, not_or] at hx
    have hkid : ∀ c ∈ k.addrs, (s.upd x (fun n => { n with key := newKey })).cells c =
        s.cells c := fun c hc => upd_cells_ne (fun (e : c = x) => hx.1 (e ▸ hc)) _
    refine ⟨?_, cyc_congr (fun c hc => hkid c (tops_subset_addrs k c hc)) h.2.1,
      lay_congr hkid h.2.2.1, ihr h.2.2.2 hx.2⟩
    obtain ⟨n, hn, h1, h2, h3, h4⟩ := h.1
    have hkv : ∀ c ∈ k.tops, (s.upd x (fun n => { n with key := newKey })).kv c = s.kv c :=
      fun c hc => kv_congr (hkid c (tops_subset_addrs k c hc))
    by_cases e : a = x
    · subst e
      rw [hnx] at hn
      cases hn
      refine ⟨_, upd_cells_self hnx _, h1, h2, h3, fun c hc => ?_⟩
      rw [hkv c hc]
      exact le_trans hk (h4 c hc)
    · refine ⟨n, by rw [upd_cells_ne e]; exact hn, h1, h2, h3, fun c hc => ?_⟩
      rw [hkv c hc]
      exact h4 c hc

/-- `decrease_key` on a root of a well-formed heap, with a key not greater than the one
it has: the call returns, the heap is well-formed on the same nodes, only the key of the
node changed, and the node is the new `m_minNode` when its key is below the old minimum. -/
theorem wf_decrease_root {s : Store} {h : FibHeap} {f : Forest} {x : Nat} {newKey : Int}
    (fuel : Nat) (w : WF s h f) (hx : x ∈ f.tops) (hk : newKey ≤ s.kv x) :
    ∃ s' h' f', decrease_key fuel s h (some x) newKey = .ok (s', h') ∧ WF s' h' f' ∧
      f'.addrs.Perm f.addrs ∧ s'.keyAt x = some newKey ∧
      (∀ q, q ≠ x → s'.cells q = s.cells q) ∧ s'.next = s.next ∧
      (∀ m, h.m_minNode = some m → newKey < s.kv m → h'.m_minNode = some x) ∧
      (∀ m, h.m_minNode = some m → ¬ newKey < s.kv m → h'.m_minNode = some m) := by
  obtain ⟨nx, hnx⟩ := Option.isSome_iff_exists.mp (w.shape.live hx)
  obtain ⟨f₁, k, f₂, rfl⟩ := tops_split hx
  have hrot : Shape s none (.node x k (f₂.append f₁)) := by
    have := w.shape.rot
    simpa using this
  have hpar : nx.parent = none := by
    obtain ⟨n, hn, hp, -⟩ := hrot.lay.1
    rw [hnx] at hn; cases hn; exact hp
  rw [kv_of_cells hnx] at hk
  have hm0 := w.minHead
  cases hm : h.m_minNode with
  | none =>
    rw [hm] at hm0
    have := (List.head?_eq_none_iff.mp hm0.symm)
    rw [this] at hx
    simp at hx
  | some m =>
  obtain ⟨hmt, hml⟩ := w.minRoot m hm
  obtain ⟨nm, hnm⟩ := Option.isSome_iff_exists.mp (w.shape.live hmt)
  let s₁ := s.upd x (fun n => { n with key := newKey })
  have hx₁ : s₁.cells x = some { nx with key := newKey } := upd_cells_self hnx _
  have hne : ∀ q, q ≠ x → s₁.cells q = s.cells q := fun q hq => upd_cells_ne hq _
  have hkv : ∀ q, q ≠ x → s₁.kv q = s.kv q := fun q hq => kv_congr (hne q hq)
  have hkx : s₁.kv x = newKey := kv_of_cells hx₁
  have nd := tops_nodup w.shape.nodup
  have hsh : Shape s₁ none (f₁.append (.node x k f₂)) := by
    refine ⟨cyc_frame w.shape.cyc (fun q _ => ?_), lay_decrease hnx hk w.shape.lay
      (mem_tops_not_inner w.shape.nodup hx), w.shape.nodup, w.shape.deg⟩
    constructor
    · rw [rgt_upd]; split
      · next e => subst e; simp [Store.rgt, hnx]
      · rfl
    · rw [lft_upd]; split
      · next e => subst e; simp [Store.lft, hnx]
      · rfl
  have hlow : ∀ r ∈ (f₁.append (.node x k f₂)).tops, min newKey (s.kv m) ≤ s₁.kv r := by
    intro r hr
    by_cases e : r = x
    · rw [e, hkx]; exact min_le_left _ _
    · rw [hkv r e]; exact le_trans (min_le_right _ _) (hml r hr)
  by_cases hlt : newKey < s.kv m ∧ m ≠ x
  · obtain ⟨hlt, hmx⟩ := hlt
    have hm₁ : s₁.cells m = some nm := by rw [hne m hmx]; exact hnm
    refine ⟨s₁, ⟨some x, h.m_numOfNodes⟩, (Forest.node x k f₂).append f₁, ?_, ⟨?_, ?_, ?_, ?_, ?_⟩,
      ?_, ?_, hne, rfl, fun m' e _ => rfl, fun m' e hc => ?_⟩
    · rw [kv_of_cells hnm] at hlt
      simp [decrease_key, _decrease_key, modify_some hnx, load_some hx₁, hpar, hm,
        load_some hm₁, hlt, bind, Except.bind, pure, Except.pure]
    · exact hsh.rot
    · have := w.size
      simp only [addrs_append, List.length_append] at this ⊢
      rw [this]; push_cast; ring
    · intro a ha
      have : a ∈ (f₁.append (.node x k f₂)).addrs := by
        simp only [addrs_append, List.mem_append] at ha ⊢
        tauto
      exact w.bound a this
    · simp
    · intro m' e r hr
      cases e
      rw [hkx]
      have : r ∈ (f₁.append (.node x k f₂)).tops := by
        simp only [tops_append, List.mem_append] at hr ⊢
        tauto
      have := hlow r this
      rwa [min_eq_left (le_of_lt hlt)] at this
    · simp only [addrs_append]
      exact List.perm_append_comm
    · simp [Store.keyAt, hx₁]
    · cases e; exact absurd hlt hc
  · have hm₁ : ∃ nm', s₁.cells m = some nm' ∧ ¬ newKey < nm'.key := by
      by_cases e : m = x
      · subst e
        exact ⟨_, hx₁, by simp⟩
      · refine ⟨nm, by rw [hne m e]; exact hnm, ?_⟩
        rw [kv_of_cells hnm] at hlt
        exact fun c => hlt ⟨c, e⟩
    obtain ⟨nm', hnm', hlt'⟩ := hm₁
    refine ⟨s₁, h, f₁.append (.node x k f₂), ?_, ⟨hsh, w.size, w.bound, w.minHead, ?_⟩,
      List.Perm.refl _, ?_, hne, rfl, fun m' e hc => ?_, fun m' e _ => e ▸ hm⟩
    · simp [decrease_key, _decrease_key, modify_some hnx, load_some hx₁, hpar, hm,
        load_some hnm', hlt', bind, Except.bind, pure, Except.pure]
    · intro m' e r hr
      rw [hm] at e; cases e
      by_cases e : m = x
      · subst e
        rw [hkx]
        have h1 := hlow r hr
        refine le_trans (le_min (le_refl _) ?_) h1
        rw [kv_of_cells hnm]
        rw [hnx] at hnm; cases hnm; exact hk
      · rw [hkv m e]
        have h1 := hlow r hr
        rwa [min_eq_right (not_lt.mp (fun c => hlt ⟨c, e⟩))] at h1
    · simp [Store.keyAt, hx₁]
    · cases e
      by_cases e : m = x
      · rw [hm, e]
      · exact absurd ⟨hc, e⟩ hlt


/-- Inserting into a well-formed heap of a store in which no node has a parent leaves a
store in which no node has a parent. -/
theorem insertAll_parent : ∀ (l : List Int) {s : Store} {h : FibHeap} {f : Forest}, WF s h f →
    (∀ a n, s.cells a = some n → n.parent = none) → ∀ {s' : Store} {h' : FibHeap}
      {ps : List (Option Nat)}, insertAll l s h = .ok (s', h', ps) →
      ∀ a n, s'.cells a = some n → n.parent = none := by
  intro l
  induction l with
  | nil =>
    intro s h f _ hp s' h' ps e
    simp only [insertAll, pure, Except.pure, Except.ok.injEq, Prod.mk.injEq] at e
    rw [← e.1]; exact hp
  | cons k l ih =>
    intro s h f w hp s' h' ps e
    obtain ⟨s₁, f₁, m, e₁, w₁, -, -, -, -, -, -, co, -⟩ := wf_insert w k
    simp only [insertAll, e₁, bind, Except.bind] at e
    cases e₂ : insertAll l s₁ ⟨m, h.m_numOfNodes + 1⟩ with
    | error x => simp [e₂] at e
    | ok r =>
      obtain ⟨s₂, h₂, ps₂⟩ := r
      simp only [e₂, pure, Except.pure, Except.ok.injEq, Prod.mk.injEq] at e
      rw [← e.1]
      refine ih w₁ (fun a n hn => ?_) e₂
      have hc := co a
      rw [hn, create_node_cells] at hc
      split at hc
      · simp only [Option.map_some', Option.some.injEq] at hc
        exact (core_eq hc).2.1
      · cases hn₀ : s.cells a with
        | none => simp [hn₀] at hc
        | some n₀ =>
          simp only [hn₀, Option.map_some', Option.some.injEq] at hc
          rw [(core_eq hc).2.1]
          exact hp a n₀ hn₀


/-! ## The heap order under the writes of the operations -/

theorem Ev.stay (s : Store) : Ev s s :=
  ⟨rfl, fun _ h => h, fun _ n h => ⟨n, h, rfl, Or.inl rfl⟩⟩

theorem Ev.seq {s₁ s₂ s₃ : Store} (h₁ : Ev s₁ s₂) (h₂ : Ev s₂ s₃) : Ev s₁ s₃ := by
  refine ⟨h₂.next.trans h₁.next, fun a h => h₂.dead a (h₁.dead a h), fun a n hn => ?_⟩
  obtain ⟨n₂, hn₂, hk₂, hp₂⟩ := h₁.live a n hn
  obtain ⟨n₃, hn₃, hk₃, hp₃⟩ := h₂.live a n₂ hn₂
  refine ⟨n₃, hn₃, hk₃.trans hk₂, ?_⟩
  rcases hp₃ with e | e | ⟨p, np, e, hc, hle⟩
  · rw [e]; exact hp₂
  · exact Or.inr (Or.inl e)
  · refine Or.inr (Or.inr ⟨p, ?_⟩)
    cases hc₁ : s₁.cells p with
    | none => rw [h₁.dead p hc₁] at hc; cases hc
    | some np₁ =>
      obtain ⟨np', hnp', hk', -⟩ := h₁.live p np₁ hc₁
      rw [hc] at hnp'; cases hnp'
      exact ⟨np₁, e, rfl, by rw [← hk', ← hk₂]; exact hle⟩

theorem Ev.order {s s' : Store} (h : Ev s s') {e : Nat} (ho : HeapOrderOff s e) :
    HeapOrderOff s' e := by
  intro x nx' y ny' hxe hx hp hy
  cases hc : s.cells x with
  | none => rw [h.dead x hc] at hx; cases hx
  | some nx =>
    obtain ⟨n', hn', hk, hpar⟩ := h.live x nx hc
    rw [hx] at hn'; cases hn'
    cases hcy : s.cells y with
    | none => rw [h.dead y hcy] at hy; cases hy
    | some ny =>
      obtain ⟨m', hm', hky, -⟩ := h.live y ny hcy
      rw [hy] at hm'; cases hm'
      rw [hk, hky]
      rcases hpar with e₁ | e₁ | ⟨p, np, e₁, hcp, hle⟩
      · exact ho x nx y ny hxe hc (e₁ ▸ hp) hcy
      · rw [e₁] at hp; cases hp
      · rw [e₁] at hp; cases hp
        rw [hcy] at hcp; cases hcp
        exact hle

theorem heapOrder_off {s : Store} (h : HeapOrder s) (e : Nat) : HeapOrderOff s e :=
  fun x nx y ny _ => h x nx y ny

theorem heapOrder_of_off {s : Store} {e : Nat} (h : HeapOrderOff s e)
    (he : ∀ ne y ny, s.cells e = some ne → ne.parent = some y → s.cells y = some ny →
      ny.key ≤ ne.key) : HeapOrder s := by
  intro x nx y ny hx hp hy
  by_cases hxe : x = e
  · subst hxe; exact he nx y ny hx hp hy
  · exact h x nx y ny hxe hx hp hy

theorem Ev.heapOrder {s s' : Store} (h : Ev s s') (ho : HeapOrder s) : HeapOrder s' :=
  heapOrder_of_off (h.order (heapOrder_off ho 0))
    (fun ne y ny h1 h2 h3 => by
      have := h.order (heapOrder_off ho 1)
      exact this 0 ne y ny (by decide) h1 h2 h3)

theorem Ev.fresh {s s' : Store} (h : Ev s s') (hf : Fresh s) : Fresh s' := by
  refine ⟨fun a ha => h.dead a (hf.alloc a (h.next ▸ ha)), fun a n' p hn' hp => ?_⟩
  rw [h.next]
  cases hc : s.cells a with
  | none => rw [h.dead a hc] at hn'; cases hn'
  | some n =>
    obtain ⟨m, hm, -, hpar⟩ := h.live a n hc
    rw [hn'] at hm; cases hm
    rcases hpar with e | e | ⟨q, nq, e, hq, -⟩
    · exact hf.par a n p hc (e ▸ hp)
    · rw [e] at hp; cases hp
    · have hqp : q = p := by rw [e] at hp; exact Option.some.inj hp
      rw [hqp] at hq
      by_contra hlt
      rw [hf.alloc p (not_lt.mp hlt)] at hq
      cases hq

theorem ev_upd (s : Store) (a : Nat) (g : FibHeapNode → FibHeapNode)
    (hg : ∀ n, s.cells a = some n → (g n).key = n.key ∧
      ((g n).parent = n.parent ∨ (g n).parent = none ∨
        ∃ p np, (g n).parent = some p ∧ s.cells p = some np ∧ np.key ≤ n.key)) :
    Ev s (s.upd a g) := by
  refine ⟨rfl, fun q hq => ?_, fun q n hn => ?_⟩
  · by_cases e : q = a
    · subst e; simp [hq]
    · rw [upd_cells_ne e]; exact hq
  · by_cases e : q = a
    · subst e
      exact ⟨g n, upd_cells_self hn g, (hg n hn).1, (hg n hn).2⟩
    · exact ⟨n, by rw [upd_cells_ne e]; exact hn, rfl, Or.inl rfl⟩

/-- A write that touches neither `key` nor `parent`. -/
theorem ev_modify {s s' : Store} {p : Option Nat} {g : FibHeapNode → FibHeapNode}
    (h : s.modify p g = .ok s') (hk : ∀ n, (g n).key = n.key)
    (hp : ∀ n, (g n).parent = n.parent) : Ev s s' := by
  obtain ⟨a, n, -, -, rfl⟩ := (modify_eq_ok _ _ _ _).mp h
  exact ev_upd s a g (fun n _ => ⟨hk n, Or.inl (hp n)⟩)

/-- The write `p->parent = nullptr`. -/
theorem ev_modify_unparent {s s' : Store} {p : Option Nat}
    (h : s.modify p (fun n => { n with parent := none }) = .ok s') : Ev s s' := by
  obtain ⟨a, n, -, -, rfl⟩ := (modify_eq_ok _ _ _ _).mp h
  exact ev_upd s a _ (fun n _ => ⟨rfl, Or.inr (Or.inl rfl)⟩)

/-- The write `c->parent = p` for a node `p` whose key is not greater. -/
theorem ev_modify_parent {s s' : Store} {c p : Option Nat} {nc np : FibHeapNode}
    (hc : s.load c = .ok nc) (hp : s.load p = .ok np) (hle : np.key ≤ nc.key)
    (h : s.modify c (fun n => { n with parent := p }) = .ok s') : Ev s s' := by
  obtain ⟨a, n, rfl, -, rfl⟩ := (modify_eq_ok _ _ _ _).mp h
  obtain ⟨b, rfl, hb⟩ := (load_eq_ok _ _ _).mp hp
  obtain ⟨a', ha', hca⟩ := (load_eq_ok _ _ _).mp hc
  cases ha'
  refine ev_upd s a _ (fun n hn => ⟨rfl, Or.inr (Or.inr ⟨b, np, rfl, hb, ?_⟩)⟩)
  rw [hca] at hn; cases hn
  exact hle

theorem ev_remove {s s' : Store} {x : Option Nat}
    (h : _remove_from_circular_list s x = .ok s') : Ev s s' := by
  simp only [_remove_from_circular_list, bind, bind_ok'] at h
  obtain ⟨nx, -, h2⟩ := h
  split at h2
  · cases h2; exact Ev.stay s
  · simp only [bind_ok'] at h2
    obtain ⟨s₁, h3, s₂, h4, h5⟩ := h2
    cases h5
    exact (ev_modify h3 (fun _ => rfl) (fun _ => rfl)).seq
      (ev_modify h4 (fun _ => rfl) (fun _ => rfl))

theorem ev_merge {s s' : Store} {a b r : Option Nat} (h : _merge s a b = .ok (s', r)) :
    Ev s s' := by
  simp only [_merge] at h
  split at h
  · cases h; exact Ev.stay s
  · split at h
    · cases h; exact Ev.stay s
    · simp only [bind, bind_ok'] at h
      obtain ⟨na, -, nb, -, n₁, -, n₂, -, s₁, h1, s₂, h2, s₃, h3, s₄, h4, h5⟩ := h
      cases h5
      exact (((ev_modify h1 (fun _ => rfl) (fun _ => rfl)).seq
        (ev_modify h2 (fun _ => rfl) (fun _ => rfl))).seq
        (ev_modify h3 (fun _ => rfl) (fun _ => rfl))).seq
        (ev_modify h4 (fun _ => rfl) (fun _ => rfl))

theorem ev_unparentLoop (x : Option Nat) : ∀ (f : Nat) (s : Store) (y : Option Nat)
    (s' : Store), unparentLoop x f s y = .ok s' → Ev s s' := by
  intro f
  induction f with
  | zero => intro s y s' h; simp [unparentLoop] at h
  | succ f ih =>
    intro s y s' h
    simp only [unparentLoop, bind, bind_ok'] at h
    obtain ⟨s₁, h1, n, -, h3⟩ := h
    have e₁ := ev_modify_unparent h1
    split at h3
    · exact e₁.seq (ih _ _ _ h3)
    · cases h3; exact e₁

theorem ev_unparent_all {f : Nat} {s s' : Store} {x : Option Nat}
    (h : _unparent_all f s x = .ok s') : Ev s s' := by
  simp only [_unparent_all] at h
  split at h
  · cases h; exact Ev.stay s
  · exact ev_unparentLoop _ _ _ _ _ h

theorem Ev.load {s s' : Store} (h : Ev s s') {p : Option Nat} {n : FibHeapNode}
    (hl : s.load p = .ok n) : ∃ n', s'.load p = .ok n' ∧ n'.key = n.key := by
  obtain ⟨a, rfl, ha⟩ := (load_eq_ok _ _ _).mp hl
  obtain ⟨n', hn', hk, -⟩ := h.live a n ha
  exact ⟨n', load_some hn', hk⟩

/-- `_make_child(child, parent)` when the key of `parent` is not greater than the key of
`child`. -/
theorem ev_make_child {s s' : Store} {c p : Option Nat} {nc np : FibHeapNode}
    (hc : s.load c = .ok nc) (hp : s.load p = .ok np) (hle : np.key ≤ nc.key)
    (h : _make_child s c p = .ok s') : Ev s s' := by
  simp only [_make_child, bind, bind_ok'] at h
  obtain ⟨s₁, h1, s₂, h2, s₃, h3, s₄, h4, n₅, -, res, h6, s₇, h7, s₈, h8, s₉, h9, h10⟩ := h
  cases h10
  obtain ⟨s₅, r⟩ := res
  have e₁ := ev_remove h1
  have e₂ := e₁.seq (ev_modify h2 (fun _ => rfl) (fun _ => rfl))
  have e₃ := e₂.seq (ev_modify h3 (fun _ => rfl) (fun _ => rfl))
  obtain ⟨nc', hc', hkc⟩ := e₃.load hc
  obtain ⟨np', hp', hkp⟩ := e₃.load hp
  have e₄ := e₃.seq (ev_modify_parent hc' hp' (by rw [hkc, hkp]; exact hle) h4)
  exact (((e₄.seq (ev_merge h6)).seq (ev_modify h7 (fun _ => rfl) (fun _ => rfl))).seq
    (ev_modify h8 (fun _ => rfl) (fun _ => rfl))).seq
    (ev_modify h9 (fun _ => rfl) (fun _ => rfl))

theorem ev_consolidateInner : ∀ (f : Nat) (s : Store) (A : List (Option Nat)) (x : Option Nat)
    (d : Int) (r : Store × List (Option Nat) × Option Nat × Int × Bool),
    consolidateInner f s A x d = .ok r → Ev s r.1 := by
  intro f
  induction f with
  | zero => intro s A x d r h; simp [consolidateInner] at h
  | succ f ih =>
    intro s A x d r h
    simp only [consolidateInner, bind, bind_ok'] at h
    obtain ⟨Ad, -, h2⟩ := h
    split at h2
    · cases h2; exact Ev.stay s
    · split at h2
      · cases h2; exact Ev.stay s
      · simp only [bind_ok'] at h2
        obtain ⟨nx, h3, ny, h4, s₁, h5, A₁, -, h7⟩ := h2
        refine Ev.seq ?_ (ih _ _ _ _ _ h7)
        by_cases hk : nx.key > ny.key
        · simp only [hk, if_true] at h5
          exact ev_make_child h3 h4 (le_of_lt hk) h5
        · simp only [hk, if_false] at h5
          exact ev_make_child h4 h3 (not_lt.mp hk) h5

theorem ev_consolidateLoop : ∀ (f : Nat) (s : Store) (A : List (Option Nat)) (x : Option Nat)
    (r : Store × Option Nat), consolidateLoop f s A x = .ok r → Ev s r.1 := by
  intro f
  induction f with
  | zero => intro s A x r h; simp [consolidateLoop] at h
  | succ f ih =>
    intro s A x r h
    simp only [consolidateLoop, bind, bind_ok'] at h
    obtain ⟨nx, -, res, h2, h3⟩ := h
    have e₁ := ev_consolidateInner _ _ _ _ _ _ h2
    split at h3
    · cases h3; exact e₁
    · simp only [bind_ok'] at h3
      obtain ⟨n₁, -, A₁, -, n₂, -, h7⟩ := h3
      exact e₁.seq (ih _ _ _ _ h7)

theorem ev_consolidate {f : Nat} {s : Store} {h : FibHeap} {r : Store × FibHeap}
    (hr : _consolidate f s h = .ok r) : Ev s r.1 := by
  simp only [_consolidate, bind, bind_ok'] at hr
  obtain ⟨dn, -, res, h2, m, -, h4⟩ := hr
  cases h4
  exact ev_consolidateLoop _ _ _ _ _ h2

theorem ev_extract_min_node {f : Nat} {s : Store} {h : FibHeap}
    {r : Store × FibHeap × Option Nat} (hr : _extract_min_node f s h = .ok r) : Ev s r.1 := by
  simp only [_extract_min_node] at hr
  split at hr
  · simp only [bind, bind_ok'] at hr
    obtain ⟨n₁, -, s₁, h2, n₂, -, res, h4, s₃, h5, n₃, -, h7⟩ := hr
    obtain ⟨s₂, r₂⟩ := res
    have e₃ := ((ev_unparent_all h2).seq (ev_merge h4)).seq (ev_remove h5)
    split at h7
    · cases h7; exact e₃
    · simp only [bind_ok'] at h7
      obtain ⟨n₄, -, res', h10, h11⟩ := h7
      cases h11
      exact e₃.seq (ev_consolidate h10)
  · cases hr; exact Ev.stay s

theorem ev_cut {s s' : Store} {h : FibHeap} {x y : Option Nat} (hc : _cut s h x y = .ok s') :
    Ev s s' ∧ ∃ a n, x = some a ∧ s'.cells a = some n ∧ n.parent = none := by
  simp only [_cut, bind, bind_ok'] at hc
  obtain ⟨s₁, h1, nx, -, h3⟩ := hc
  split at h3
  all_goals
    simp only [bind_ok'] at h3
    obtain ⟨s₂, h3, s₃, h4, res, h5, s₅, h6, s₆, h7, h8⟩ := h3
    cases h8
    obtain ⟨s₄, r⟩ := res
    refine ⟨(((((ev_remove h1).seq (ev_modify h3 (fun _ => rfl) (fun _ => rfl))).seq
      (ev_modify h4 (fun _ => rfl) (fun _ => rfl))).seq
      (ev_merge h5)).seq (ev_modify_unparent h6)).seq
      (ev_modify h7 (fun _ => rfl) (fun _ => rfl)), ?_⟩
    obtain ⟨a, n, rfl, hn, rfl⟩ := (modify_eq_ok _ _ _ _).mp h6
    obtain ⟨a', n', ha', hn', rfl⟩ := (modify_eq_ok _ _ _ _).mp h7
    cases ha'
    rw [upd_cells_self hn] at hn'
    cases hn'
    exact ⟨a, _, rfl, upd_cells_self (upd_cells_self hn _) _, rfl⟩

theorem ev_cascading_cut (h : FibHeap) : ∀ (f : Nat) (s : Store) (y : Option Nat) (s' : Store),
    _cascading_cut h f s y = .ok s' → Ev s s' := by
  intro f
  induction f with
  | zero => intro s y s' hc; simp [_cascading_cut] at hc
  | succ f ih =>
    intro s y s' hc
    simp only [_cascading_cut, bind, bind_ok'] at hc
    obtain ⟨ny, -, h2⟩ := hc
    split at h2
    · split at h2
      · exact ev_modify h2 (fun _ => rfl) (fun _ => rfl)
      · simp only [bind_ok'] at h2
        obtain ⟨s₁, h3, h4⟩ := h2
        exact (ev_cut h3).1.seq (ih _ _ _ h4)
    · cases h2; exact Ev.stay s

theorem fresh_empty : Fresh Store.empty :=
  ⟨fun _ _ => rfl, fun a n p h _ => by simp [Store.empty] at h⟩

theorem heapOrder_empty : HeapOrder Store.empty :=
  fun x nx y ny h _ _ => by simp [Store.empty] at h

theorem inv_create_node {s : Store} (hf : Fresh s) (ho : HeapOrder s) (k : Int) :
    Fresh (_create_node s k).1 ∧ HeapOrder (_create_node s k).1 := by
  refine ⟨⟨fun a ha => ?_, fun a n p hn hp => ?_⟩, fun x nx y ny hx hp hy => ?_⟩
  · rw [create_node_next] at ha
    rw [create_node_cells, if_neg (by omega)]
    exact hf.alloc a (by omega)
  · rw [create_node_next]
    rw [create_node_cells] at hn
    split at hn
    · cases hn; cases hp
    · exact Nat.lt_succ_of_lt (hf.par a n p hn hp)
  · rw [create_node_cells] at hx hy
    split at hx
    · cases hx; cases hp
    · have hlt := hf.par x nx y hx hp
      rw [if_neg (by omega)] at hy
      exact ho x nx y ny hx hp hy

theorem inv_insert {s s' : Store} {h h' : FibHeap} {k : Int} {p : Option Nat}
    (hf : Fresh s) (ho : HeapOrder s) (e : insert s h k = .ok (s', h', p)) :
    Fresh s' ∧ HeapOrder s' := by
  simp only [insert, _insert_node, bind, bind_ok'] at e
  obtain ⟨res, ⟨res', h1, h2⟩, h3⟩ := e
  cases h2
  cases h3
  obtain ⟨s₁, m⟩ := res'
  have ev := ev_merge h1
  obtain ⟨hf₀, ho₀⟩ := inv_create_node hf ho k
  exact ⟨ev.fresh hf₀, ev.heapOrder ho₀⟩

theorem inv_merge {s s' : Store} {h₁ h₂ h₁' h₂' : FibHeap}
    (hf : Fresh s) (ho : HeapOrder s) (e : merge s h₁ h₂ = .ok (s', h₁', h₂')) :
    Fresh s' ∧ HeapOrder s' := by
  simp only [merge, bind, bind_ok'] at e
  obtain ⟨res, h1, h2⟩ := e
  cases h2
  obtain ⟨s₁, m⟩ := res
  have ev := ev_merge h1
  exact ⟨ev.fresh hf, ev.heapOrder ho⟩

theorem inv_erase {s : Store} (hf : Fresh s) (ho : HeapOrder s) (a : Nat) :
    Fresh (s.erase a) ∧ HeapOrder (s.erase a) := by
  have hc : ∀ q n, (s.erase a).cells q = some n → s.cells q = some n := by
    intro q n hq
    simp only [Store.erase] at hq
    split at hq
    · cases hq
    · exact hq
  refine ⟨⟨fun q hq => ?_, fun q n p hn hp => hf.par q n p (hc q n hn) hp⟩,
    fun x nx y ny hx hp hy => ho x nx y ny (hc x nx hx) hp (hc y ny hy)⟩
  simp only [Store.erase]
  split
  · rfl
  · exact hf.alloc q hq

theorem inv_extract_min {s s' : Store} {h h' : FibHeap} {fuel : Nat} {k : Int}
    (hf : Fresh s) (ho : HeapOrder s) (e : extract_min fuel s h = .ok (s', h', k)) :
    Fresh s' ∧ HeapOrder s' := by
  simp only [extract_min, bind, bind_ok'] at e
  obtain ⟨res, h1, n, -, s₂, h3, h4⟩ := e
  cases h4
  have ev := ev_extract_min_node h1
  simp only [Store.free] at h3
  split at h3
  · cases h3
  · split at h3
    · cases h3
    · cases h3
      exact inv_erase (ev.fresh hf) (ev.heapOrder ho) _

theorem inv_decrease_key {s s' : Store} {h h' : FibHeap} {fuel : Nat} {x : Nat}
    {nx : FibHeapNode} {newKey : Int} (hf : Fresh s) (ho : HeapOrder s)
    (hx : s.cells x = some nx) (hk : newKey ≤ nx.key)
    (e : decrease_key fuel s h (some x) newKey = .ok (s', h')) :
    Fresh s' ∧ HeapOrder s' := by
  simp only [decrease_key, _decrease_key, bind, bind_ok'] at e
  obtain ⟨s₁, h1, nx₁, h2, h3⟩ := e
  have tail : ∀ {y : Store} {r : Store × FibHeap},
      (∃ a, y.load (some x) = .ok a ∧ ∃ b, y.load h.m_minNode = .ok b ∧
        (if a.key < b.key then
          (pure (y, ({ m_minNode := some x, m_numOfNodes := h.m_numOfNodes } : FibHeap)) :
            Except Fault (Store × FibHeap))
        else pure (y, h)) = .ok r) → r.1 = y := by
    intro y r hr
    obtain ⟨_, -, _, -, h6⟩ := hr
    split at h6 <;> cases h6 <;> rfl
  rw [modify_some hx] at h1
  cases h1
  have hx₁ : (s.upd x (fun n => { n with key := newKey })).cells x =
      some { nx with key := newKey } := upd_cells_self hx _
  rw [load_some hx₁] at h2
  cases h2
  have hf₁ : Fresh (s.upd x (fun n => { n with key := newKey })) := by
    refine ⟨fun a ha => ?_, fun a n p hn hp => ?_⟩
    · have hax : a ≠ x := by
        rintro rfl
        rw [hf.alloc a ha] at hx; cases hx
      rw [upd_cells_ne hax]
      exact hf.alloc a ha
    · by_cases hax : a = x
      · subst hax
        rw [hx₁] at hn; cases hn
        exact hf.par a nx p hx hp
      · rw [upd_cells_ne hax] at hn
        exact hf.par a n p hn hp
  have ho₁ : HeapOrderOff (s.upd x (fun n => { n with key := newKey })) x := by
    intro a na y ny hax ha hp hy
    rw [upd_cells_ne hax] at ha
    by_cases hyx : y = x
    · subst hyx
      rw [hx₁] at hy; cases hy
      exact le_trans hk (ho a na y nx ha hp hx)
    · rw [upd_cells_ne hyx] at hy
      exact ho a na y ny ha hp hy
  split at h3
  · simp only [bind_ok'] at h3
    obtain ⟨nx₃, h7, ny, h8, h9⟩ := h3
    rw [load_some hx₁] at h7
    cases h7
    split at h9
    · simp only [bind_ok'] at h9
      obtain ⟨s₃, h10, s₄, h11, h12⟩ := h9
      have := tail h12
      simp only at this
      subst this
      obtain ⟨ev, a, n, ha, hn, hp⟩ := ev_cut h10
      cases ha
      have ev' := ev_cascading_cut _ _ _ _ _ h11
      have ho₃ : HeapOrder s₃ := heapOrder_of_off (ev.order ho₁)
        (fun ne y ny h1 h2 _ => by rw [hn] at h1; cases h1; rw [hp] at h2; cases h2)
      exact ⟨ev'.fresh (ev.fresh hf₁), ev'.heapOrder ho₃⟩
    · rename_i hlt
      simp only [bind_ok'] at h9
      obtain ⟨y, hy, h12⟩ := h9
      cases hy
      have := tail h12
      simp only at this
      subst this
      refine ⟨hf₁, heapOrder_of_off ho₁ (fun ne y ny' h1 h2 h3 => ?_)⟩
      rw [hx₁] at h1; cases h1
      simp only at h2
      simp only [h2, load_some h3, Except.ok.injEq] at h8
      subst h8
      exact not_lt.mp hlt
  · rename_i hnone
    simp only [bind_ok'] at h3
    obtain ⟨y, hy, h12⟩ := h3
    cases hy
    have := tail h12
    simp only at this
    subst this
    simp only [ne_eq, not_not] at hnone
    refine ⟨hf₁, heapOrder_of_off ho₁ (fun ne y ny' h1 h2 h3 => ?_)⟩
    rw [hx₁] at h1; cases h1
    simp only at h2
    rw [h2] at hnone
    cases hnone

/-- In every reachable world the store has the heap order. -/
theorem reachDK_inv {s : Store} {hs : List FibHeap} (r : ReachDK s hs) :
    Fresh s ∧ HeapOrder s := by
  induction r with
  | init => exact ⟨fresh_empty, heapOrder_empty⟩
  | create _ ih => exact ih
  | reorder _ _ ih => exact ih
  | insert _ e ih => exact inv_insert ih.1 ih.2 e
  | merge _ e ih => exact inv_merge ih.1 ih.2 e
  | extract _ e ih => exact inv_extract_min ih.1 ih.2 e
  | decrease _ hx hk e ih => exact inv_decrease_key ih.1 ih.2 hx hk e


/-! ## decrease_key returns on every node of a well-formed heap -/

theorem closed_upd {s : Store} {L : List Nat} (c : Closed s L) (a : Nat)
    (g : FibHeapNode → FibHeapNode) (hg : ∀ n, s.cells a = some n → PtrsIn L n → PtrsIn L (g n)) :
    Closed (s.upd a g) L := by
  intro q hq
  obtain ⟨n, hn, hp⟩ := c q hq
  by_cases e : q = a
  · subst e
    exact ⟨g n, upd_cells_self hn g, hg n hn hp⟩
  · exact ⟨n, by rw [upd_cells_ne e]; exact hn, hp⟩

theorem closed_modify {s : Store} {L : List Nat} (c : Closed s L) {a : Nat} (ha : a ∈ L)
    (g : FibHeapNode → FibHeapNode) : s.modify (some a) g = .ok (s.upd a g) := by
  obtain ⟨n, hn, -⟩ := c a ha
  exact modify_some hn g

theorem tags_upd (s : Store) (a q : Nat) (g : FibHeapNode → FibHeapNode)
    (hg : ∀ n, tag (g n) = tag n) : ((s.upd a g).cells q).map tag = (s.cells q).map tag := by
  by_cases h : q = a
  · subst h; cases hc : s.cells q <;> simp [hc, hg]
  · simp [h]

theorem tags_of_cells {s s' : Store} {q : Nat} (h : s'.cells q = s.cells q) :
    (s'.cells q).map tag = (s.cells q).map tag := by rw [h]

theorem tag_eq {n n' : FibHeapNode} (h : tag n' = tag n) :
    n'.key = n.key ∧ n'.parent = n.parent ∧ n'.mark = n.mark := by
  simp only [tag, Prod.mk.injEq] at h
  exact h

theorem tag_cells {s s' : Store} {q : Nat} {n : FibHeapNode}
    (h : (s'.cells q).map tag = (s.cells q).map tag) (hn : s.cells q = some n) :
    ∃ n', s'.cells q = some n' ∧ tag n' = tag n := by
  rw [hn] at h
  cases hc : s'.cells q with
  | none => simp [hc] at h
  | some n' => exact ⟨n', rfl, by simpa [hc] using h⟩

theorem keyAt_of_tag {s s' : Store} {q : Nat}
    (h : (s'.cells q).map tag = (s.cells q).map tag) : s'.keyAt q = s.keyAt q := by
  have := congrArg (Option.map (fun (t : Int × Option Nat × Bool) => t.1)) h
  simpa [Store.keyAt, Option.map_map, Function.comp, tag] using this

theorem isMarked_of_tag {s s' : Store} {q : Nat}
    (h : (s'.cells q).map tag = (s.cells q).map tag) : isMarked s' q = isMarked s q := by
  unfold isMarked
  cases hc : s.cells q with
  | none =>
    rw [hc] at h
    cases hc' : s'.cells q with
    | none => rfl
    | some n' => simp [hc'] at h
  | some n =>
    obtain ⟨n', hn', ht⟩ := tag_cells h hc
    rw [hn']
    exact (tag_eq ht).2.2

theorem unlink_tag (s : Store) (l r q : Nat) :
    ((unlink s l r).cells q).map tag = (s.cells q).map tag := by
  unfold unlink
  refine (tags_upd _ _ _ _ ?_).trans (tags_upd _ _ _ _ ?_) <;> intro _ <;> rfl

theorem splice_tag (s : Store) (a b aR bL q : Nat) :
    ((splice s a b aR bL).cells q).map tag = (s.cells q).map tag := by
  unfold splice
  refine (tags_upd _ _ _ _ ?_).trans ((tags_upd _ _ _ _ ?_).trans
    ((tags_upd _ _ _ _ ?_).trans (tags_upd _ _ _ _ ?_))) <;> intro _ <;> rfl

theorem closed_live {s : Store} {L : List Nat} (c : Closed s L) {a : Nat} (ha : a ∈ L) :
    (s.cells a).isSome := by
  obtain ⟨n, hn, -⟩ := c a ha
  simp [hn]

theorem ptrsIn_setRight {L : List Nat} {n : FibHeapNode} {r : Nat} (hr : r ∈ L)
    (h : PtrsIn L n) : PtrsIn L { n with right := some r } :=
  ⟨h.1, ⟨r, hr, rfl⟩, h.2.2.1, h.2.2.2⟩

theorem ptrsIn_setLeft {L : List Nat} {n : FibHeapNode} {l : Nat} (hl : l ∈ L)
    (h : PtrsIn L n) : PtrsIn L { n with left := some l } :=
  ⟨⟨l, hl, rfl⟩, h.2.1, h.2.2.1, h.2.2.2⟩

theorem closed_unlink {s : Store} {L : List Nat} (c : Closed s L) {l r : Nat} (hl : l ∈ L)
    (hr : r ∈ L) : Closed (unlink s l r) L := by
  unfold unlink
  exact closed_upd (closed_upd c _ _ (fun _ _ h => ptrsIn_setRight hr h)) _ _
    (fun _ _ h => ptrsIn_setLeft hl h)

theorem closed_splice {s : Store} {L : List Nat} (c : Closed s L) {a b aR bL : Nat}
    (ha : a ∈ L) (hb : b ∈ L) (hR : aR ∈ L) (hL : bL ∈ L) : Closed (splice s a b aR bL) L := by
  unfold splice
  exact closed_upd (closed_upd (closed_upd (closed_upd c _ _
    (fun _ _ h => ptrsIn_setRight hb h)) _ _ (fun _ _ h => ptrsIn_setLeft ha h)) _ _
    (fun _ _ h => ptrsIn_setLeft hL h)) _ _ (fun _ _ h => ptrsIn_setRight hR h)

/-- `_remove_from_circular_list` on a node of a closed set of nodes returns. -/
theorem remove_total {s : Store} {L : List Nat} (c : Closed s L) {x : Nat} (hx : x ∈ L) :
    ∃ s', _remove_from_circular_list s (some x) = .ok s' ∧ Closed s' L ∧
      ∀ q, (s'.cells q).map tag = (s.cells q).map tag := by
  obtain ⟨nx, hnx, ⟨l, hl, hxl⟩, ⟨r, hr, hxr⟩, -, -⟩ := c x hx
  have hrgt : s.rgt x = some r := by simp [Store.rgt, hnx, hxr]
  have hlft : s.lft x = some l := by simp [Store.lft, hnx, hxl]
  by_cases e : r = x
  · exact ⟨s, remove_single (e ▸ hrgt), c, fun _ => rfl⟩
  · exact ⟨unlink s l r, remove_unlink hrgt hlft e (closed_live c hl) (closed_live c hr),
      closed_unlink c hl hr, unlink_tag s l r⟩

/-- `_merge` on two nodes of a closed set of nodes returns. -/
theorem merge_total {s : Store} {L : List Nat} (c : Closed s L) {a b : Nat} (ha : a ∈ L)
    (hb : b ∈ L) :
    ∃ s' r, _merge s (some a) (some b) = .ok (s', r) ∧ Closed s' L ∧
      ∀ q, (s'.cells q).map tag = (s.cells q).map tag := by
  obtain ⟨na, hna, ⟨al, hal, hxal⟩, ⟨ar, har, hxar⟩, -, -⟩ := c a ha
  obtain ⟨nb, hnb, ⟨bl, hbl, hxbl⟩, ⟨br, hbr, hxbr⟩, -, -⟩ := c b hb
  by_cases hk : na.key ≤ nb.key
  · exact ⟨_, _, merge_le hna hnb hk hxar hxbl (closed_live c har) (closed_live c hbl),
      closed_splice c ha hb har hbl, splice_tag _ _ _ _ _⟩
  · exact ⟨_, _, merge_gt hna hnb (not_le.mp hk) hxbr hxal (closed_live c hbr)
      (closed_live c hal), closed_splice c hb ha hbr hal, splice_tag _ _ _ _ _⟩

/-- `_cut(x, y)` on nodes of a closed set of nodes that holds `m_minNode` returns; the
keys, parents and marks of the other nodes are as before, and `x` has no parent and no
mark. -/
theorem cut_total {s : Store} {L : List Nat} {h : FibHeap} {m : Nat} (c : Closed s L)
    (hm : h.m_minNode = some m) (hmL : m ∈ L) {x y : Nat} (hx : x ∈ L) (hy : y ∈ L) :
    ∃ s', _cut s h (some x) (some y) = .ok s' ∧ Closed s' L ∧
      (∀ q, q ≠ x → (s'.cells q).map tag = (s.cells q).map tag) ∧
      (∀ q, s'.keyAt q = s.keyAt q) ∧ isMarked s' x = false := by
  obtain ⟨s₁, e₁, c₁, t₁⟩ := remove_total c hx
  obtain ⟨nx, hnx, ⟨l, hl, hxl⟩, ⟨r, hr, hxr⟩, -, -⟩ := c₁ x hx
  let cv : Option Nat := if nx.right = some x then none else nx.right
  have hcv : ∀ q, cv = some q → q ∈ L := by
    intro q hq
    simp only [cv] at hq
    split at hq
    · cases hq
    · rw [hxr] at hq; cases hq; exact hr
  let s₂ := s₁.upd y (fun n => { n with child := cv })
  have c₂ : Closed s₂ L := closed_upd c₁ _ _ (fun _ _ hp => ⟨hp.1, hp.2.1, hp.2.2.1, hcv⟩)
  let s₃ := s₂.upd y (fun n => { n with degree := n.degree - 1 })
  have c₃ : Closed s₃ L :=
    closed_upd c₂ _ _ (fun _ _ hp => ⟨hp.1, hp.2.1, hp.2.2.1, hp.2.2.2⟩)
  obtain ⟨s₄, r₄, e₄, c₄, t₄⟩ := merge_total c₃ hmL hx
  let s₅ := s₄.upd x (fun n => { n with parent := none })
  have c₅ : Closed s₅ L := closed_upd c₄ _ _
    (fun _ _ hp => ⟨hp.1, hp.2.1, (fun p hp' => by cases hp'), hp.2.2.2⟩)
  let s₆ := s₅.upd x (fun n => { n with mark := false })
  have c₆ : Closed s₆ L :=
    closed_upd c₅ _ _ (fun _ _ hp => ⟨hp.1, hp.2.1, hp.2.2.1, hp.2.2.2⟩)
  have m₂ := closed_modify c₁ hy (fun n => { n with child := cv })
  have m₃ := closed_modify c₂ hy (fun n => { n with degree := n.degree - 1 })
  have m₅ := closed_modify c₄ hx (fun n => { n with parent := none })
  have m₆ := closed_modify c₅ hx (fun n => { n with mark := false })
  have t₃ : ∀ q, (s₃.cells q).map tag = (s.cells q).map tag := by
    intro q
    refine ((tags_upd s₂ y q _ ?_).trans (tags_upd s₁ y q _ ?_)).trans (t₁ q) <;> intro _ <;> rfl
  refine ⟨s₆, ?_, c₆, fun q hq => ?_, fun q => ?_, ?_⟩
  · simp only [_cut, bind, Except.bind, e₁, load_some hnx, hm, e₄, pure, Except.pure]
    by_cases e : nx.right = some x
    · have hcv' : cv = none := by simp only [cv, e, if_true]
      rw [hcv'] at m₂
      simp only [e, if_true, m₂]
      simp only [s₃, s₂, hcv'] at m₃
      simp only [m₃]
      simp only [s₃, s₂, hcv'] at e₄
      simp only [e₄, m₅, m₆]
    · have hcv' : cv = nx.right := by simp only [cv, e, if_false]
      rw [hcv'] at m₂
      simp only [e, if_false, m₂]
      simp only [s₃, s₂, hcv'] at m₃
      simp only [m₃]
      simp only [s₃, s₂, hcv'] at e₄
      simp only [e₄, m₅, m₆]
  · have h5 : (s₆.cells q) = s₄.cells q := by
      simp only [s₆, s₅]
      rw [upd_cells_ne hq, upd_cells_ne hq]
    rw [h5]
    exact (t₄ q).trans (t₃ q)
  · have h5 : s₆.keyAt q = s₄.keyAt q := by
      refine (keyAt_upd s₅ x q _ ?_).trans (keyAt_upd s₄ x q _ ?_) <;> intro _ <;> rfl
    rw [h5]
    exact keyAt_of_tag ((t₄ q).trans (t₃ q))
  · obtain ⟨n, hn, -⟩ := c₅ x hx
    have : s₆.cells x = some { n with mark := false } := upd_cells_self hn _
    simp [isMarked, this]

theorem countP_lt_of_flip {L : List Nat} {p q : Nat → Bool}
    (hpq : ∀ a ∈ L, p a = true → q a = true) {y : Nat} (hy : y ∈ L) (hq : q y = true)
    (hp : p y = false) : L.countP p < L.countP q := by
  induction L with
  | nil => simp at hy
  | cons a t ih =>
    have hmono : t.countP p ≤ t.countP q :=
      List.countP_mono_left (fun b hb => hpq b (List.mem_cons_of_mem _ hb))
    by_cases e : y = a
    · subst e
      rw [List.countP_cons_of_neg _ _ (by simp [hp]), List.countP_cons_of_pos _ _ hq]
      omega
    · have hyt : y ∈ t := by
        rcases List.mem_cons.mp hy with h | h
        · exact absurd h e
        · exact h
      have := ih (fun b hb => hpq b (List.mem_cons_of_mem _ hb)) hyt
      by_cases hpa : p a = true
      · rw [List.countP_cons_of_pos _ _ hpa,
          List.countP_cons_of_pos _ _ (hpq a (List.mem_cons_self _ _) hpa)]
        omega
      · rw [List.countP_cons_of_neg _ _ hpa]
        by_cases hqa : q a = true
        · rw [List.countP_cons_of_pos _ _ hqa]; omega
        · rw [List.countP_cons_of_neg _ _ hqa]; omega

/-- `_cascading_cut` on a node of a closed set of nodes that holds `m_minNode` returns
when the fuel exceeds the number of marked nodes; no key changes. -/
theorem cascading_total {L : List Nat} {h : FibHeap} {m : Nat} (hm : h.m_minNode = some m)
    (hmL : m ∈ L) : ∀ (fuel : Nat) (s : Store) (y : Nat), Closed s L → y ∈ L →
      L.countP (isMarked s) < fuel →
      ∃ s', _cascading_cut h fuel s (some y) = .ok s' ∧ Closed s' L ∧
        ∀ q, s'.keyAt q = s.keyAt q := by
  intro fuel
  induction fuel with
  | zero => intro s y _ _ hf; omega
  | succ fuel ih =>
    intro s y c hy hf
    obtain ⟨ny, hny, hp⟩ := c y hy
    cases hz : ny.parent with
    | none =>
      refine ⟨s, ?_, c, fun _ => rfl⟩
      simp [_cascading_cut, load_some hny, hz, bind, Except.bind, pure, Except.pure]
    | some z =>
      have hzL : z ∈ L := hp.2.2.1 z hz
      by_cases hmk : ny.mark = false
      · refine ⟨s.upd y (fun n => { n with mark := true }), ?_,
          closed_upd c _ _ (fun _ _ hp => ⟨hp.1, hp.2.1, hp.2.2.1, hp.2.2.2⟩),
          fun q => keyAt_upd _ _ _ _ (fun _ => rfl)⟩
        simp [_cascading_cut, load_some hny, hz, hmk, modify_some hny, bind, Except.bind]
      · obtain ⟨s₁, e₁, c₁, t₁, k₁, mk₁⟩ := cut_total c hm hmL hy hzL
        have hmy : isMarked s y = true := by
          simp only [isMarked, hny]
          simpa using hmk
        have hlt : L.countP (isMarked s₁) < L.countP (isMarked s) := by
          refine countP_lt_of_flip (fun a _ ha => ?_) hy hmy mk₁
          by_cases e : a = y
          · rw [e, mk₁] at ha; cases ha
          · rw [← isMarked_of_tag (t₁ a e)]; exact ha
        obtain ⟨s₂, e₂, c₂, k₂⟩ := ih s₁ z c₁ hzL (by omega)
        refine ⟨s₂, ?_, c₂, fun q => (k₂ q).trans (k₁ q)⟩
        simp [_cascading_cut, load_some hny, hz, hmk, e₁, e₂, bind, Except.bind]

theorem cyc_lft_mem {s : Store} {l : List Nat} (h : Cyc s l) {x : Nat} (hx : x ∈ l) :
    ∃ y ∈ l, s.lft x = some y := by
  obtain ⟨l₁, l₂, rfl⟩ := List.append_of_mem hx
  have h' : Cyc s (x :: l₂ ++ l₁) := (cyc_rotate s l₁ (x :: l₂)).mp h
  refine ⟨_, ?_, cyc_lft h'⟩
  have := getLastD_mem (l₂ ++ l₁) x
  simp only [List.mem_cons, List.mem_append] at this ⊢
  tauto

/-- The nodes of a laid-out forest are allocated and their pointers stay among the nodes
of `L`, when the neighbours of the roots and the parent do. -/
theorem lay_closed {s : Store} {L : List Nat} : ∀ (f : Forest) (par : Option Nat),
    Lay s par f → (∀ t ∈ f.tops, ∃ l ∈ L, s.lft t = some l) →
    (∀ t ∈ f.tops, ∃ r ∈ L, s.rgt t = some r) → (∀ p, par = some p → p ∈ L) →
    (∀ a ∈ f.addrs, a ∈ L) → ∀ a ∈ f.addrs, ∃ n, s.cells a = some n ∧ PtrsIn L n := by
  intro f
  induction f with
  | nil => intro _ _ _ _ _ _ a ha; simp at ha
  | node b k r ihk ihr =>
    intro par hl hlft hrgt hpar hsub a ha
    simp only [Lay] at hl
    obtain ⟨⟨n, hn, hnp, -, hnc, -⟩, hcyc, hlk, hlr⟩ := hl
    simp only [addrs_node, List.mem_cons, List.mem_append] at ha
    have hsubk : ∀ q ∈ k.addrs, q ∈ L := fun q hq => hsub q (by simp [hq])
    have hsubr : ∀ q ∈ r.addrs, q ∈ L := fun q hq => hsub q (by simp [hq])
    rcases ha with rfl | ha | ha
    · refine ⟨n, hn, ?_, ?_, ?_, ?_⟩
      · obtain ⟨l, hlL, hl'⟩ := hlft a (by simp)
        obtain ⟨n', hn', hnl⟩ := lft_eq_some hl'
        rw [hn] at hn'; cases hn'
        exact ⟨l, hlL, hnl⟩
      · obtain ⟨l, hlL, hl'⟩ := hrgt a (by simp)
        obtain ⟨n', hn', hnl⟩ := rgt_eq_some hl'
        rw [hn] at hn'; cases hn'
        exact ⟨l, hlL, hnl⟩
      · intro p hp
        exact hpar p (hnp ▸ hp)
      · intro c hc
        rw [hnc] at hc
        exact hsubk c (tops_subset_addrs k c (mem_of_head? hc))
    · refine ihk (some b) hlk (fun t ht => ?_) (fun t ht => ?_) (fun p hp => ?_) hsubk a ha
      · obtain ⟨y, hy, e⟩ := cyc_lft_mem hcyc ht
        exact ⟨y, hsubk y (tops_subset_addrs k y hy), e⟩
      · obtain ⟨y, hy, e⟩ := cyc_rgt_mem hcyc ht
        exact ⟨y, hsubk y (tops_subset_addrs k y hy), e⟩
      · cases hp
        exact hsub b (by simp)
    · exact ihr par hlr (fun t ht => hlft t (by simp [ht])) (fun t ht => hrgt t (by simp [ht]))
        hpar hsubr a ha

/-- The nodes of a well-formed heap are a closed set of nodes. -/
theorem wf_closed {s : Store} {h : FibHeap} {f : Forest} (w : WF s h f) : Closed s f.addrs := by
  refine lay_closed f none w.shape.lay (fun t ht => ?_) (fun t ht => ?_)
    (fun p hp => by cases hp) (fun a ha => ha)
  · obtain ⟨y, hy, e⟩ := cyc_lft_mem w.shape.cyc ht
    exact ⟨y, tops_subset_addrs f y hy, e⟩
  · obtain ⟨y, hy, e⟩ := cyc_rgt_mem w.shape.cyc ht
    exact ⟨y, tops_subset_addrs f y hy, e⟩

/-- The walk through `child` and `right` pointers from a node of a closed set of nodes
stays in the set. -/
theorem collect_closed {s : Store} {L : List Nat} (c : Closed s L) : ∀ (fuel start x : Nat),
    x ∈ L → ∀ q ∈ collectFrom s fuel start x, q ∈ L := by
  intro fuel
  induction fuel with
  | zero => intro _ _ _ q hq; simp [collectFrom] at hq
  | succ fuel ih =>
    intro start x hx q hq
    obtain ⟨n, hn, -, ⟨r, hr, hnr⟩, -, hc⟩ := c x hx
    rw [collectFrom] at hq
    simp only [hn, hnr, List.mem_cons, List.mem_append] at hq
    rcases hq with rfl | hq | hq
    · exact hx
    · cases hch : n.child with
      | none => simp [hch] at hq
      | some c' =>
        simp only [hch] at hq
        exact ih c' c' (hc c' hch) q hq
    · split at hq
      · simp at hq
      · exact ih start r hr q hq

/-- `decrease_key` on a node of a closed set of nodes that holds `m_minNode` returns when
the fuel exceeds the number of nodes: the set is still closed, only the key of `x`
changed, and `m_minNode` is `x` when the new key is below the key of the old
`m_minNode`, which it stays otherwise. -/
theorem decrease_total {s : Store} {L : List Nat} {h : FibHeap} {m x : Nat} (newKey : Int)
    {fuel : Nat} (c : Closed s L) (hm : h.m_minNode = some m) (hmL : m ∈ L) (hx : x ∈ L)
    (hf : L.length + 1 ≤ fuel) :
    ∃ s' h' km, decrease_key fuel s h (some x) newKey = .ok (s', h') ∧ Closed s' L ∧
      (∀ q, q ≠ x → s'.keyAt q = s.keyAt q) ∧ s'.keyAt x = some newKey ∧
      s'.keyAt m = some km ∧ h'.m_minNode = some (if newKey < km then x else m) := by
  obtain ⟨nx, hnx, hpx⟩ := c x hx
  let s₁ := s.upd x (fun n => { n with key := newKey })
  have c₁ : Closed s₁ L := closed_upd c _ _ (fun _ _ hp => ⟨hp.1, hp.2.1, hp.2.2.1, hp.2.2.2⟩)
  have hx₁ : s₁.cells x = some { nx with key := newKey } := upd_cells_self hnx _
  have k₁x : s₁.keyAt x = some newKey := by simp [Store.keyAt, hx₁]
  have k₁ : ∀ q, q ≠ x → s₁.keyAt q = s.keyAt q := fun q hq => by
    simp only [Store.keyAt, s₁, upd_cells_ne hq]
  have tail : ∀ s₂, Closed s₂ L → (∀ q, s₂.keyAt q = s₁.keyAt q) →
      ∃ h' km, ((s₂.load (some x)).bind fun nx => (s₂.load h.m_minNode).bind fun nm =>
        if nx.key < nm.key then
          (pure (s₂, ({ m_minNode := some x, m_numOfNodes := h.m_numOfNodes } : FibHeap)) :
            Except Fault (Store × FibHeap))
        else pure (s₂, h)) = .ok (s₂, h') ∧ Closed s₂ L ∧
        (∀ q, q ≠ x → s₂.keyAt q = s.keyAt q) ∧ s₂.keyAt x = some newKey ∧
        s₂.keyAt m = some km ∧ h'.m_minNode = some (if newKey < km then x else m) := by
    intro s₂ c₂ k₂
    obtain ⟨nx₂, hnx₂, -⟩ := c₂ x hx
    obtain ⟨nm₂, hnm₂, -⟩ := c₂ m hmL
    have hkx : nx₂.key = newKey := by
      have := (k₂ x).trans k₁x
      simpa [Store.keyAt, hnx₂] using this
    by_cases hlt : newKey < nm₂.key
    · refine ⟨⟨some x, h.m_numOfNodes⟩, nm₂.key, ?_, c₂, fun q hq => (k₂ q).trans (k₁ q hq),
        (k₂ x).trans k₁x, by simp [Store.keyAt, hnm₂], by simp [hlt]⟩
      simp [load_some hnx₂, hm, load_some hnm₂, hkx, hlt, Except.bind, pure, Except.pure]
    · refine ⟨h, nm₂.key, ?_, c₂, fun q hq => (k₂ q).trans (k₁ q hq),
        (k₂ x).trans k₁x, by simp [Store.keyAt, hnm₂], by simp [hlt, hm]⟩
      simp [load_some hnx₂, hm, load_some hnm₂, hkx, hlt, Except.bind, pure, Except.pure]
  have hcnt : L.countP (isMarked s₁) < fuel :=
    lt_of_le_of_lt (List.countP_le_length _) (by omega)
  cases hy : nx.parent with
  | none =>
    obtain ⟨h', km, e, r⟩ := tail s₁ c₁ (fun _ => rfl)
    refine ⟨s₁, h', km, ?_, r⟩
    simp only [decrease_key, _decrease_key, bind, Except.bind, modify_some hnx, load_some hx₁, hy,
      ne_eq, not_true, if_false, pure, Except.pure] at e ⊢
    exact e
  | some y =>
    have hyL : y ∈ L := hpx.2.2.1 y hy
    obtain ⟨ny, hny, -⟩ := c₁ y hyL
    by_cases hlt : newKey < ny.key
    · obtain ⟨s₂, e₂, c₂, -, k₂, -⟩ := cut_total c₁ hm hmL hx hyL
      obtain ⟨s₃, e₃, c₃, k₃⟩ := cascading_total hm hmL fuel s₂ y c₂ hyL
        (lt_of_le_of_lt (List.countP_le_length _) (by omega))
      obtain ⟨h', km, e, r⟩ := tail s₃ c₃ (fun q => (k₃ q).trans (k₂ q))
      refine ⟨s₃, h', km, ?_, r⟩
      simp only [decrease_key, _decrease_key, bind, Except.bind, modify_some hnx,
        load_some hx₁, hy, ne_eq, reduceCtorEq, not_false_eq_true, if_true, load_some hny, hlt,
        e₂, e₃, pure, Except.pure] at e ⊢
      exact e
    · obtain ⟨h', km, e, r⟩ := tail s₁ c₁ (fun _ => rfl)
      refine ⟨s₁, h', km, ?_, r⟩
      simp only [decrease_key, _decrease_key, bind, Except.bind, modify_some hnx,
        load_some hx₁, hy, ne_eq, reduceCtorEq, not_false_eq_true, if_true, load_some hny, hlt,
        if_false, pure, Except.pure] at e ⊢
      exact e

theorem MinCorrect.subset {s : Store} {h : FibHeap} {L L' : List Nat} (mc : MinCorrect s h L)
    (hsub : ∀ a ∈ L', a ∈ L) : MinCorrect s h L' := by
  obtain ⟨m, nm, h1, h2, h3⟩ := mc
  exact ⟨m, nm, h1, h2, fun a ha => h3 a (hsub a ha)⟩

/-- A well-formed heap that is not empty is min-correct. -/
theorem wf_minCorrect {s : Store} {h : FibHeap} {f : Forest} (w : WF s h f)
    (hne : f.addrs ≠ []) : MinCorrect s h (nodesOf s h) := by
  rw [nodesOf_wf w]
  cases hm : h.m_minNode with
  | none =>
    have := w.minHead
    rw [hm] at this
    have ht := List.head?_eq_none_iff.mp this.symm
    exact absurd (addrs_eq_nil.mpr (tops_eq_nil.mp ht)) hne
  | some m =>
    obtain ⟨hmt, hml⟩ := w.minRoot m hm
    have c := wf_closed w
    obtain ⟨nm, hnm, -⟩ := c m (tops_subset_addrs f m hmt)
    refine ⟨m, nm, hm, hnm, fun a ha => ?_⟩
    obtain ⟨na, hna, -⟩ := c a ha
    refine ⟨na, hna, ?_⟩
    have := lay_lower w.shape.lay hml a ha
    rwa [kv_of_cells hnm, kv_of_cells hna] at this


/-! ## Circular lists as rings -/

/-- In a circular list every member is the right neighbour of its left neighbour and
the left neighbour of its right neighbour, and both neighbours are members. -/
theorem cyc_ring {s : Store} {L : List Nat} (h : Cyc s L) {x : Nat} (hx : x ∈ L) :
    ∃ l r, l ∈ L ∧ r ∈ L ∧ s.lft x = some l ∧ s.rgt l = some x ∧ s.rgt x = some r ∧
      s.lft r = some x := by
  obtain ⟨l₁, l₂, rfl⟩ := List.append_of_mem hx
  have h' : Cyc s (x :: (l₂ ++ l₁)) := (cyc_rotate s l₁ (x :: l₂)).mp h
  have hmem : ∀ q, q ∈ x :: (l₂ ++ l₁) → q ∈ l₁ ++ x :: l₂ := by
    intro q hq
    simp only [List.mem_cons, List.mem_append] at hq ⊢
    tauto
  have hr := cyc_rgt h'
  have hl := cyc_lft h'
  refine ⟨(l₂ ++ l₁).getLastD x, (l₂ ++ l₁).headD x, hmem _ (getLastD_mem _ _),
    hmem _ (headD_mem _ _), hl, ?_, hr, ?_⟩
  · cases hrest : (l₂ ++ l₁) using List.reverseRecOn with
    | nil => simpa [hrest] using hr
    | append_singleton ini z =>
      rw [hrest] at h'
      have h2 : Cyc s ([z] ++ (x :: ini)) := (cyc_rotate s (x :: ini) [z]).mp (by simpa using h')
      have := cyc_rgt h2
      simpa using this
  · cases hrest : (l₂ ++ l₁) with
    | nil => simpa [hrest] using hl
    | cons y t =>
      rw [hrest] at h'
      have h2 : Cyc s (y :: (t ++ [x])) := (cyc_rotate s [x] (y :: t)).mp (by simpa using h')
      have := cyc_lft h2
      simpa using this


/-- The walk along `right` lists a chain of right neighbours that ends at `start`. -/
theorem walkRight_chain (s : Store) (start : Nat) : ∀ (post : List Nat) (x fuel : Nat),
    List.Chain' (fun u v => s.rgt u = some v) (x :: post ++ [start]) → start ∉ post →
    post.length < fuel → walkRight s start fuel x = x :: post := by
  intro post
  induction post with
  | nil =>
    intro x fuel hch _ hf
    obtain ⟨fuel, rfl⟩ : ∃ f, fuel = f + 1 := ⟨fuel - 1, by omega⟩
    have hr : s.rgt x = some start := by simpa using hch
    obtain ⟨n, hn, hnr⟩ := rgt_eq_some hr
    simp [walkRight, hn, hnr]
  | cons y post ih =>
    intro x fuel hch hs hf
    obtain ⟨fuel, rfl⟩ : ∃ f, fuel = f + 1 := ⟨fuel - 1, by omega⟩
    simp only [List.cons_append, List.chain'_cons] at hch
    obtain ⟨n, hn, hnr⟩ := rgt_eq_some hch.1
    have hys : y ≠ start := fun e => hs (by simp [e])
    simp only [walkRight, hn, hnr, hys, if_false]
    rw [ih y fuel (by simpa using hch.2) (fun h => hs (List.mem_cons_of_mem _ h))
      (by simp only [List.length_cons] at hf; omega)]

/-- The walk along `right` from the entry of a circular list without repetition lists
the circular list. -/
theorem walkRight_cyc {s : Store} {c : Nat} {l : List Nat} (h : Cyc s (c :: l))
    (nd : (c :: l).Nodup) {fuel : Nat} (hf : l.length < fuel) :
    walkRight s c fuel c = c :: l :=
  walkRight_chain s c l c fuel (chain_rgt_of_cyc h) (List.nodup_cons.mp nd).1 hf

/-- The roots of a laid-out forest have the parent the forest is laid out below. -/
theorem lay_tops_parent {s : Store} {f : Forest} : ∀ {par : Option Nat}, Lay s par f →
    ∀ t ∈ f.tops, ∃ n, s.cells t = some n ∧ n.parent = par := by
  induction f with
  | nil => intro _ _ t ht; simp at ht
  | node b k r _ ihr =>
    intro par h t ht
    simp only [Lay] at h
    simp only [tops_node, List.mem_cons] at ht
    rcases ht with rfl | ht
    · obtain ⟨n, hn, hp, -⟩ := h.1
      exact ⟨n, hn, hp⟩
    · exact ihr h.2.2.2 t ht

/-- The root list of a well-formed heap is the list of the roots of its forest. -/
theorem rootList_wf {s : Store} {h : FibHeap} {f : Forest} (w : WF s h f) :
    rootList s h = f.tops := by
  have hh := w.minHead
  cases hft : f.tops with
  | nil =>
    rw [hft] at hh
    simp only [List.head?_nil] at hh
    simp [rootList, hh]
  | cons m t =>
    rw [hft] at hh
    simp only [List.head?_cons] at hh
    simp only [rootList, hh]
    have hc := w.shape.cyc
    rw [hft] at hc
    have nd := tops_nodup w.shape.nodup
    rw [hft] at nd
    refine walkRight_cyc hc nd ?_
    have hl := length_le_of_bound (tops_nodup w.shape.nodup)
      (fun a ha => w.bound a (tops_subset_addrs f a ha))
    rw [hft] at hl
    simp only [List.length_cons] at hl
    omega

theorem linked_of_cyc {s : Store} {L : List Nat} (h : Cyc s L) {t : Nat} (ht : t ∈ L)
    {n : FibHeapNode} (hn : s.cells t = some n) : Linked s t n := by
  obtain ⟨l, r, -, -, h1, h2, h3, h4⟩ := cyc_ring h ht
  obtain ⟨n₁, hn₁, e₁⟩ := lft_eq_some h1
  obtain ⟨nl, hnl, e₂⟩ := rgt_eq_some h2
  obtain ⟨n₂, hn₂, e₃⟩ := rgt_eq_some h3
  obtain ⟨nr, hnr, e₄⟩ := lft_eq_some h4
  rw [hn] at hn₁ hn₂
  cases hn₁; cases hn₂
  exact ⟨⟨l, nl, e₁, hnl, e₂⟩, ⟨r, nr, e₃, hnr, e₄⟩⟩

/-- The child list of a node of a laid-out forest is the list of the roots of its
children. -/
theorem childrenOf_kids {s : Store} {par : Option Nat} {a : Nat} {k : Forest}
    (hn : NodeOK s par a k) (hc : Cyc s k.tops) (nd : k.addrs.Nodup)
    (hb : ∀ q ∈ k.addrs, q < s.next) : childrenOf s a = k.tops := by
  obtain ⟨n, hna, -, -, hch, -⟩ := hn
  simp only [childrenOf, hna, Option.some_bind, hch]
  cases hkt : k.tops with
  | nil => rfl
  | cons c l =>
    simp only [List.head?_cons]
    rw [hkt] at hc
    have ndt := tops_nodup nd
    have hl := length_le_of_bound ndt (fun q hq => hb q (tops_subset_addrs k q hq))
    rw [hkt] at ndt hl
    simp only [List.length_cons] at hl
    exact walkRight_cyc hc ndt (by omega)

/-- Every node of a laid-out forest is linked to its neighbours and agrees with its
child list, when the roots are linked to their neighbours. -/
theorem lay_struct {s : Store} : ∀ (f : Forest) (par : Option Nat), Lay s par f →
    f.addrs.Nodup → (∀ a ∈ f.addrs, a < s.next) →
    (∀ t ∈ f.tops, ∀ n, s.cells t = some n → Linked s t n) →
    ∀ x ∈ f.addrs, ∃ n, s.cells x = some n ∧ Linked s x n ∧ ChildrenOK s x n := by
  intro f
  induction f with
  | nil => intro _ _ _ _ _ x hx; simp at hx
  | node b k r ihk ihr =>
    intro par hl nd hb hlink x hx
    simp only [Lay] at hl
    obtain ⟨hnode, hcyc, hlk, hlr⟩ := hl
    simp only [addrs_node, List.nodup_cons, List.nodup_append] at nd
    have hbk : ∀ q ∈ k.addrs, q < s.next := fun q hq => hb q (by simp [hq])
    have hbr : ∀ q ∈ r.addrs, q < s.next := fun q hq => hb q (by simp [hq])
    simp only [addrs_node, List.mem_cons, List.mem_append] at hx
    rcases hx with rfl | hx | hx
    · have hkids := childrenOf_kids hnode hcyc nd.2.1 hbk
      obtain ⟨n, hn, -, hdeg, hch, -⟩ := hnode
      refine ⟨n, hn, hlink x (by simp) n hn, ?_, ?_, ?_⟩
      · rw [hkids]; exact hdeg
      · rw [hch, hdeg]
        cases k.tops with
        | nil => simp
        | cons c t =>
          simp only [List.head?_cons, reduceCtorEq, List.length_cons, false_iff]
          push_cast
          omega
      · rw [hkids]
        exact lay_tops_parent hlk
    · exact ihk (some b) hlk nd.2.1 hbk (fun t ht n hn => linked_of_cyc hcyc ht hn) x hx
    · exact ihr par hlr nd.2.2.1 hbr (fun t ht n hn => hlink t (by simp [ht]) n hn) x hx

/-- The structure of a well-formed heap: the roots have no parent, and every node is
linked to its neighbours and agrees with its child list. -/
theorem wf_struct {s : Store} {h : FibHeap} {f : Forest} (w : WF s h f) :
    (∀ x ∈ rootList s h, ∃ n, s.cells x = some n ∧ n.parent = none) ∧
    (∀ x ∈ nodesOf s h, ∃ n, s.cells x = some n ∧ Linked s x n ∧ ChildrenOK s x n) := by
  rw [rootList_wf w, nodesOf_wf w]
  exact ⟨lay_tops_parent w.shape.lay, lay_struct f none w.shape.lay w.shape.nodup w.bound
    (fun t ht n hn => linked_of_cyc w.shape.cyc ht hn)⟩


/-! ## Marks and roots -/

theorem Calm.still (s : Store) : Calm s s := fun _ n' h hm => ⟨n', h, hm, fun e => e⟩

theorem Calm.follow {s₁ s₂ s₃ : Store} (h₁ : Calm s₁ s₂) (h₂ : Calm s₂ s₃) : Calm s₁ s₃ := by
  intro a n₃ hn₃ hm₃
  obtain ⟨n₂, hn₂, hm₂, hp₂⟩ := h₂ a n₃ hn₃ hm₃
  obtain ⟨n₁, hn₁, hm₁, hp₁⟩ := h₁ a n₂ hn₂ hm₂
  exact ⟨n₁, hn₁, hm₁, fun e => hp₁ (hp₂ e)⟩

theorem Calm.noNewMark {s s' : Store} (h : Calm s s') : NoNewMark s s' :=
  fun a n' hn hm => by
    obtain ⟨n, h1, h2, -⟩ := h a n' hn hm
    exact ⟨n, h1, h2⟩

theorem Calm.noNewMarkedRoot {s s' : Store} (h : Calm s s') : NoNewMarkedRoot s s' :=
  fun a n' hn hp hm => by
    obtain ⟨n, h1, h2, h3⟩ := h a n' hn hm
    exact ⟨n, h1, h3 hp, h2⟩

theorem NoNewMark.extend {s₁ s₂ s₃ : Store} (h₁ : NoNewMark s₁ s₂) (h₂ : NoNewMark s₂ s₃) :
    NoNewMark s₁ s₃ := by
  intro a n₃ hn₃ hm₃
  obtain ⟨n₂, hn₂, hm₂⟩ := h₂ a n₃ hn₃ hm₃
  exact h₁ a n₂ hn₂ hm₂

theorem NoNewMarkedRoot.prolong {s₁ s₂ s₃ : Store} (h₁ : NoNewMarkedRoot s₁ s₂)
    (h₂ : NoNewMarkedRoot s₂ s₃) : NoNewMarkedRoot s₁ s₃ := by
  intro a n₃ hn₃ hp₃ hm₃
  obtain ⟨n₂, hn₂, hp₂, hm₂⟩ := h₂ a n₃ hn₃ hp₃ hm₃
  exact h₁ a n₂ hn₂ hp₂ hm₂

theorem calm_upd (s : Store) (a : Nat) (g : FibHeapNode → FibHeapNode)
    (hg : ∀ n, (g n).mark = true → n.mark = true ∧ ((g n).parent = none → n.parent = none)) :
    Calm s (s.upd a g) := by
  intro q n' hn' hm
  by_cases e : q = a
  · subst e
    cases hc : s.cells q with
    | none => simp [hc] at hn'
    | some n =>
      rw [upd_cells_self hc] at hn'
      cases hn'
      exact ⟨n, rfl, (hg n hm).1, (hg n hm).2⟩
  · rw [upd_cells_ne e] at hn'
    exact ⟨n', hn', hm, fun h => h⟩

/-- A write that touches neither `mark` nor `parent`, or clears `mark`, or sets
`parent` to a node. -/
theorem calm_modify {s s' : Store} {p : Option Nat} {g : FibHeapNode → FibHeapNode}
    (h : s.modify p g = .ok s')
    (hg : ∀ n, (g n).mark = true → n.mark = true ∧ ((g n).parent = none → n.parent = none)) :
    Calm s s' := by
  obtain ⟨a, n, -, -, rfl⟩ := (modify_eq_ok _ _ _ _).mp h
  exact calm_upd s a g hg

theorem calm_remove {s s' : Store} {x : Option Nat}
    (h : _remove_from_circular_list s x = .ok s') : Calm s s' := by
  simp only [_remove_from_circular_list, bind, bind_ok'] at h
  obtain ⟨nx, -, h2⟩ := h
  split at h2
  · cases h2; exact Calm.still s
  · simp only [bind_ok'] at h2
    obtain ⟨s₁, h3, s₂, h4, h5⟩ := h2
    cases h5
    exact (calm_modify h3 (fun _ hm => ⟨hm, fun e => e⟩)).follow
      (calm_modify h4 (fun _ hm => ⟨hm, fun e => e⟩))

theorem calm_merge {s s' : Store} {a b r : Option Nat} (h : _merge s a b = .ok (s', r)) :
    Calm s s' := by
  simp only [_merge] at h
  split at h
  · cases h; exact Calm.still s
  · split at h
    · cases h; exact Calm.still s
    · simp only [bind, bind_ok'] at h
      obtain ⟨na, -, nb, -, n₁, -, n₂, -, s₁, h1, s₂, h2, s₃, h3, s₄, h4, h5⟩ := h
      cases h5
      exact (((calm_modify h1 (fun _ hm => ⟨hm, fun e => e⟩)).follow
        (calm_modify h2 (fun _ hm => ⟨hm, fun e => e⟩))).follow
        (calm_modify h3 (fun _ hm => ⟨hm, fun e => e⟩))).follow
        (calm_modify h4 (fun _ hm => ⟨hm, fun e => e⟩))

theorem calm_make_child {s s' : Store} {c p : Option Nat} (hp : p ≠ none)
    (h : _make_child s c p = .ok s') : Calm s s' := by
  simp only [_make_child, bind, bind_ok'] at h
  obtain ⟨s₁, h1, s₂, h2, s₃, h3, s₄, h4, n₅, -, res, h6, s₇, h7, s₈, h8, s₉, h9, h10⟩ := h
  cases h10
  obtain ⟨s₅, r⟩ := res
  exact (((((((calm_remove h1).follow (calm_modify h2 (fun _ hm => ⟨hm, fun e => e⟩))).follow
    (calm_modify h3 (fun _ hm => ⟨hm, fun e => e⟩))).follow
    (calm_modify h4 (fun _ hm => ⟨hm, fun e => absurd e hp⟩))).follow (calm_merge h6)).follow
    (calm_modify h7 (fun _ hm => ⟨hm, fun e => e⟩))).follow
    (calm_modify h8 (fun _ hm => ⟨hm, fun e => e⟩))).follow
    (calm_modify h9 (fun _ hm => by cases hm))

theorem load_ne_none {s : Store} {p : Option Nat} {n : FibHeapNode} (h : s.load p = .ok n) :
    p ≠ none := by
  obtain ⟨a, rfl, -⟩ := (load_eq_ok _ _ _).mp h
  simp

theorem calm_consolidateInner : ∀ (f : Nat) (s : Store) (A : List (Option Nat))
    (x : Option Nat) (d : Int) (r : Store × List (Option Nat) × Option Nat × Int × Bool),
    consolidateInner f s A x d = .ok r → Calm s r.1 := by
  intro f
  induction f with
  | zero => intro s A x d r h; simp [consolidateInner] at h
  | succ f ih =>
    intro s A x d r h
    simp only [consolidateInner, bind, bind_ok'] at h
    obtain ⟨Ad, -, h2⟩ := h
    split at h2
    · cases h2; exact Calm.still s
    · split at h2
      · cases h2; exact Calm.still s
      · simp only [bind_ok'] at h2
        obtain ⟨nx, h3, ny, h4, s₁, h5, A₁, -, h7⟩ := h2
        refine Calm.follow ?_ (ih _ _ _ _ _ h7)
        by_cases hk : nx.key > ny.key
        · simp only [hk, if_true] at h5
          exact calm_make_child (load_ne_none h4) h5
        · simp only [hk, if_false] at h5
          exact calm_make_child (load_ne_none h3) h5

theorem calm_consolidateLoop : ∀ (f : Nat) (s : Store) (A : List (Option Nat))
    (x : Option Nat) (r : Store × Option Nat), consolidateLoop f s A x = .ok r → Calm s r.1 := by
  intro f
  induction f with
  | zero => intro s A x r h; simp [consolidateLoop] at h
  | succ f ih =>
    intro s A x r h
    simp only [consolidateLoop, bind, bind_ok'] at h
    obtain ⟨nx, -, res, h2, h3⟩ := h
    have e₁ := calm_consolidateInner _ _ _ _ _ _ h2
    split at h3
    · cases h3; exact e₁
    · simp only [bind_ok'] at h3
      obtain ⟨n₁, -, A₁, -, n₂, -, h7⟩ := h3
      exact e₁.follow (ih _ _ _ _ h7)

theorem calm_consolidate {f : Nat} {s : Store} {h : FibHeap} {r : Store × FibHeap}
    (hr : _consolidate f s h = .ok r) : Calm s r.1 := by
  simp only [_consolidate, bind, bind_ok'] at hr
  obtain ⟨dn, -, res, h2, m, -, h4⟩ := hr
  cases h4
  exact calm_consolidateLoop _ _ _ _ _ h2

theorem noNewMark_unparentLoop (x : Option Nat) : ∀ (f : Nat) (s : Store) (y : Option Nat)
    (s' : Store), unparentLoop x f s y = .ok s' → NoNewMark s s' := by
  intro f
  induction f with
  | zero => intro s y s' h; simp [unparentLoop] at h
  | succ f ih =>
    intro s y s' h
    simp only [unparentLoop, bind, bind_ok'] at h
    obtain ⟨s₁, h1, n, -, h3⟩ := h
    have e₁ : NoNewMark s s₁ := by
      obtain ⟨a, n, -, -, rfl⟩ := (modify_eq_ok _ _ _ _).mp h1
      intro q n' hn' hm
      by_cases e : q = a
      · subst e
        cases hc : s.cells q with
        | none => simp [hc] at hn'
        | some n =>
          rw [upd_cells_self hc] at hn'
          cases hn'
          exact ⟨n, rfl, hm⟩
      · rw [upd_cells_ne e] at hn'
        exact ⟨n', hn', hm⟩
    split at h3
    · exact e₁.extend (ih _ _ _ h3)
    · cases h3; exact e₁

theorem noNewMark_extract_min {fuel : Nat} {s s' : Store} {h h' : FibHeap} {k : Int}
    (e : extract_min fuel s h = .ok (s', h', k)) : NoNewMark s s' := by
  simp only [extract_min, bind, bind_ok'] at e
  obtain ⟨res, h1, n, -, s₂, h3, h4⟩ := e
  cases h4
  have ev : NoNewMark s res.1 := by
    simp only [_extract_min_node] at h1
    split at h1
    · simp only [bind, bind_ok'] at h1
      obtain ⟨n₁, -, s₁, h2, n₂, -, res₂, h4, s₃, h5, n₃, -, h7⟩ := h1
      obtain ⟨s₂', r₂⟩ := res₂
      have e₁ : NoNewMark s s₁ := by
        simp only [_unparent_all] at h2
        split at h2
        · cases h2; exact (Calm.still s).noNewMark
        · exact noNewMark_unparentLoop _ _ _ _ _ h2
      have e₃ := e₁.extend ((calm_merge h4).follow (calm_remove h5)).noNewMark
      split at h7
      · cases h7; exact e₃
      · simp only [bind_ok'] at h7
        obtain ⟨n₄, -, res', h10, h11⟩ := h7
        cases h11
        exact e₃.extend (calm_consolidate h10).noNewMark
    · cases h1; exact (Calm.still s).noNewMark
  refine ev.extend ?_
  simp only [Store.free] at h3
  split at h3
  · cases h3
  · split at h3
    · cases h3
    · cases h3
      intro q n' hn' hm
      simp only [Store.erase] at hn'
      split at hn'
      · cases hn'
      · exact ⟨n', hn', hm⟩

theorem calm_cut {s s' : Store} {h : FibHeap} {x y : Option Nat}
    (hc : _cut s h x y = .ok s') : Calm s s' := by
  simp only [_cut, bind, bind_ok'] at hc
  obtain ⟨s₁, h1, nx, -, h3⟩ := hc
  split at h3
  all_goals
    simp only [bind_ok'] at h3
    obtain ⟨s₂, h3, s₃, h4, res, h5, s₅, h6, s₆, h7, h8⟩ := h3
    cases h8
    obtain ⟨s₄, r⟩ := res
    refine ((((calm_remove h1).follow (calm_modify h3 (fun _ hm => ⟨hm, fun e => e⟩))).follow
      (calm_modify h4 (fun _ hm => ⟨hm, fun e => e⟩))).follow (calm_merge h5)).follow ?_
    obtain ⟨a, n, rfl, hn, rfl⟩ := (modify_eq_ok _ _ _ _).mp h6
    obtain ⟨a', n', ha', hn', rfl⟩ := (modify_eq_ok _ _ _ _).mp h7
    cases ha'
    intro q m hm hmk
    by_cases e : q = a
    · subst e
      rw [upd_cells_self (upd_cells_self hn _)] at hm
      cases hm
      cases hmk
    · rw [upd_cells_ne e, upd_cells_ne e] at hm
      exact ⟨m, hm, hmk, fun h => h⟩

theorem noNewMarkedRoot_cascading_cut (h : FibHeap) : ∀ (f : Nat) (s : Store) (y : Option Nat)
    (s' : Store), _cascading_cut h f s y = .ok s' → NoNewMarkedRoot s s' := by
  intro f
  induction f with
  | zero => intro s y s' hc; simp [_cascading_cut] at hc
  | succ f ih =>
    intro s y s' hc
    simp only [_cascading_cut, bind, bind_ok'] at hc
    obtain ⟨ny, hny, h2⟩ := hc
    split at h2
    · rename_i hz
      split at h2
      · obtain ⟨a, n, rfl, hn, rfl⟩ := (modify_eq_ok _ _ _ _).mp h2
        rw [load_some hn] at hny
        cases hny
        intro q n' hn' hp hm
        by_cases e : q = a
        · subst e
          rw [upd_cells_self hn] at hn'
          cases hn'
          exact absurd hp hz
        · rw [upd_cells_ne e] at hn'
          exact ⟨n', hn', hp, hm⟩
      · simp only [bind_ok'] at h2
        obtain ⟨s₁, h3, h4⟩ := h2
        exact (calm_cut h3).noNewMarkedRoot.prolong (ih _ _ _ h4)
    · cases h2; exact (Calm.still s).noNewMarkedRoot

theorem noNewMarkedRoot_decrease_key {s s' : Store} {h h' : FibHeap} {fuel : Nat}
    {x : Option Nat} {newKey : Int} (e : decrease_key fuel s h x newKey = .ok (s', h')) :
    NoNewMarkedRoot s s' := by
  simp only [decrease_key, _decrease_key, bind, bind_ok'] at e
  obtain ⟨s₁, h1, nx₁, h2, h3⟩ := e
  have tail : ∀ {y : Store} {r : Store × FibHeap},
      (∃ a, y.load x = .ok a ∧ ∃ b, y.load h.m_minNode = .ok b ∧
        (if a.key < b.key then
          (pure (y, ({ m_minNode := x, m_numOfNodes := h.m_numOfNodes } : FibHeap)) :
            Except Fault (Store × FibHeap))
        else pure (y, h)) = .ok r) → r.1 = y := by
    intro y r hr
    obtain ⟨_, -, _, -, h6⟩ := hr
    split at h6 <;> cases h6 <;> rfl
  have e₁ : NoNewMarkedRoot s s₁ :=
    (calm_modify h1 (fun _ hm => ⟨hm, fun e => e⟩)).noNewMarkedRoot
  split at h3
  · simp only [bind_ok'] at h3
    obtain ⟨nx₃, h7, ny, h8, h9⟩ := h3
    split at h9
    · simp only [bind_ok'] at h9
      obtain ⟨s₃, h10, s₄, h11, h12⟩ := h9
      have := tail h12
      simp only at this
      subst this
      exact (e₁.prolong (calm_cut h10).noNewMarkedRoot).prolong
        (noNewMarkedRoot_cascading_cut _ _ _ _ _ h11)
    · simp only [bind_ok'] at h9
      obtain ⟨y, hy, h12⟩ := h9
      cases hy
      have := tail h12
      simp only at this
      subst this
      exact e₁
  · simp only [bind_ok'] at h3
    obtain ⟨y, hy, h12⟩ := h3
    cases hy
    have := tail h12
    simp only at this
    subst this
    exact e₁

theorem calm_insert {s s' : Store} {h h' : FibHeap} {k : Int} {p : Option Nat}
    (e : insert s h k = .ok (s', h', p)) : Calm s s' := by
  simp only [insert, _insert_node, bind, bind_ok'] at e
  obtain ⟨res, ⟨res', h1, h2⟩, h3⟩ := e
  cases h2
  cases h3
  obtain ⟨s₁, m⟩ := res'
  refine Calm.follow ?_ (calm_merge h1)
  intro q n' hn' hm
  rw [create_node_cells] at hn'
  split at hn'
  · cases hn'; cases hm
  · exact ⟨n', hn', hm, fun h => h⟩

/-- In every reachable world a marked node without parent is one that `extract_min` has
turned from a node with a parent into a node without one. -/
theorem reachX_inv {s : Store} {hs : List FibHeap} {X : Nat → Prop} (r : ReachX s hs X) :
    ∀ a n, s.cells a = some n → n.parent = none → n.mark = true → X a := by
  induction r with
  | init => intro a n h; simp [Store.empty] at h
  | create _ ih => exact ih
  | reorder _ _ ih => exact ih
  | insert _ e ih =>
    intro a n hn hp hm
    obtain ⟨n₀, h1, h2, h3⟩ := (calm_insert e).noNewMarkedRoot a n hn hp hm
    exact ih a n₀ h1 h2 h3
  | extract _ e ih =>
    intro a n hn hp hm
    obtain ⟨n₀, h1, h2⟩ := noNewMark_extract_min e a n hn hm
    by_cases h0 : n₀.parent = none
    · exact Or.inl (ih a n₀ h1 h0 h2)
    · exact Or.inr ⟨n₀, n, h1, h0, hn, hp⟩
  | decrease _ _ _ e ih =>
    intro a n hn hp hm
    obtain ⟨n₀, h1, h2, h3⟩ := noNewMarkedRoot_decrease_key e a n hn hp hm
    exact ih a n₀ h1 h2 h3


/-! ## The loops of `_consolidate` -/

/-- One turn of the scan loop of `_consolidate` in a state of the scan: the inner loop
ends at a root `x₁` with `d₁ = x₁->degree`; its `breakFlag` is set exactly when `x₁` is
the node in bucket `d₁`, and then the scan ends; otherwise `x₁` is put into the empty
bucket `d₁` and the scan goes on at `x₁->right`, again in a state of the scan. -/
theorem scan_turn {s : Store} {A : List (Option Nat)} {x N fuel : Nat}
    (h : ScanInv s A x N) (hf : N ≤ fuel + 1) :
    ∃ nx s₁ A₁ x₁ d₁ flag, s.cells x = some nx ∧
      consolidateInner (fuel + 1) s A (some x) nx.degree =
        .ok (s₁, A₁, some x₁, ((d₁ : Nat) : Int), flag) ∧
      s₁.deg x₁ = some (d₁ : Int) ∧ (flag = true ↔ A₁.get? d₁ = some (some x₁)) ∧
      (flag = true → consolidateLoop (fuel + 1) s A (some x) = .ok (s₁, some x₁)) ∧
      (flag = false → ∃ x₂, s₁.rgt x₁ = some x₂ ∧ ScanInv s₁ (A₁.set d₁ (some x₁)) x₂ N ∧
        consolidateLoop (fuel + 1) s A (some x) =
          consolidateLoop fuel s₁ (A₁.set d₁ (some x₁)) (some x₂)) := by
  obtain ⟨g, B, c, hx⟩ := h
  obtain ⟨d, hd, -⟩ := deg_in_bounds c.shape c.small hx
  obtain ⟨nx, hnx⟩ := Option.isSome_iff_exists.mp (c.shape.live hx)
  have hnd : nx.degree = (d : Int) := by
    rw [deg_of_cells hnx] at hd; exact Option.some.inj hd
  have hxB : x ∉ B ∨ A.get? d = some (some x) := by
    by_cases h : x ∈ B
    · right
      obtain ⟨i, hi⟩ := (c.bMem x).mp h
      have := (c.aRoot i x hi).2
      rw [hd] at this
      have e : d = i := by exact_mod_cast Option.some.inj this
      rw [e]; exact hi
    · exact Or.inl h
  have hlen : g.tops.length ≤ fuel + 1 := by
    have := tops_length_le g
    have := c.small
    omega
  obtain ⟨s₁, g₁, A₁, B₁, x₁, d₁, flag, hrun, c₁, hx₁, hd₁, pa₁, fr₁, hf1, hf2, hm1, hm2⟩ :=
    inner_spec N (fuel + 1) s g A B x d c hx hd hxB hlen
  refine ⟨nx, s₁, A₁, x₁, d₁, flag, hnx, by rw [hnd]; exact hrun, hd₁, ?_, ?_, ?_⟩
  · constructor
    · exact hf1
    · intro hA
      cases flag with
      | true => rfl
      | false =>
        have := (hf2 rfl).1
        rw [hA] at this
        simp at this
  · intro hflag
    subst hflag
    rw [consolidateLoop]
    simp only [bind, Except.bind, load_some hnx, hnd, hrun, if_true, pure, Except.pure]
  · intro hflag
    subst hflag
    obtain ⟨hA₁, hxB₁⟩ := hf2 rfl
    obtain ⟨n₁, hn₁⟩ := Option.isSome_iff_exists.mp (c₁.shape.live hx₁)
    have hnd₁ : n₁.degree = (d₁ : Int) := by
      rw [deg_of_cells hn₁] at hd₁; exact Option.some.inj hd₁
    have hlt : d₁ < A₁.length := by
      by_contra hge
      rw [List.get?_eq_none.mpr (not_lt.mp hge)] at hA₁
      simp at hA₁
    obtain ⟨x₂, hx₂, hr₂⟩ := cyc_rgt_mem c₁.shape.cyc hx₁
    obtain ⟨n₁', hn₁', hnr⟩ := rgt_eq_some hr₂
    have e₁ : n₁' = n₁ := by rw [hn₁] at hn₁'; exact (Option.some.inj hn₁').symm
    subst e₁
    have c₂ : CInv s₁ g₁ (A₁.set d₁ (some x₁)) (x₁ :: B₁) N := by
      refine ⟨c₁.shape, c₁.small, by rw [List.length_set]; exact c₁.len,
        List.nodup_cons.mpr ⟨hxB₁, c₁.bNodup⟩, ?_, ?_⟩
      · intro z
        simp only [List.mem_cons, c₁.bMem, get?_set_some_iff hlt]
        constructor
        · rintro (e | ⟨i, hi⟩)
          · exact ⟨d₁, Or.inl ⟨rfl, e⟩⟩
          · refine ⟨i, Or.inr ⟨fun e => ?_, hi⟩⟩
            rw [e, hA₁] at hi; simp at hi
        · rintro ⟨i, (⟨-, e⟩ | ⟨-, hi⟩)⟩
          · exact Or.inl e
          · exact Or.inr ⟨i, hi⟩
      · intro i z hi
        rcases (get?_set_some_iff hlt).mp hi with ⟨e1, e2⟩ | ⟨-, hi'⟩
        · subst e1 e2; exact ⟨hx₁, hd₁⟩
        · exact c₁.aRoot i z hi'
    refine ⟨x₂, hr₂, ⟨g₁, x₁ :: B₁, c₂, hx₂⟩, ?_⟩
    rw [consolidateLoop]
    simp only [bind, Except.bind, load_some hnx, hnd, hrun, Bool.false_eq_true, if_false,
      load_some hn₁, hnd₁, writeA_ok hlt, hnr]

/-- The state in which `extract_min` enters `_consolidate` on a well-formed heap of at
least two nodes: the other nodes are a laid-out forest, entered at one of its roots. -/
theorem wf_consolidate_entry {s : Store} {h : FibHeap} {f : Forest} {fuel : Nat}
    (w : WF s h f) (h2 : 2 ≤ f.addrs.length) (hf : 2 * f.addrs.length + 1 ≤ fuel) :
    ∃ s₃ x G, consolidateEntry fuel s h = .ok (s₃, ⟨some x, h.m_numOfNodes⟩) ∧
      Shape s₃ none G ∧ x ∈ G.tops ∧ G.addrs.length + 1 = f.addrs.length := by
  have hne : f ≠ .nil := by
    rintro rfl
    simp at h2
  cases hm : h.m_minNode with
  | none => exact absurd (w.minNull hm) hne
  | some m =>
    obtain ⟨hmt, -⟩ := w.minRoot m hm
    obtain ⟨k, r, v, pv, -⟩ := w.shape.view hmt
    have hlen : (1 + (k.addrs.length + r.addrs.length)) = f.addrs.length := by
      have := pv.length_eq
      simp only [addrs_node, List.length_cons, List.length_append] at this
      omega
    have hkl := tops_length_le k
    obtain ⟨s₁, s₂, s₃, G, nm, n₃, hnm, hun, hm₁, hmerge, hrem, hm₃, -, sh₃, pG, -, hG1, -⟩ :=
      extract_prep v (show k.tops.length ≤ fuel by omega)
    have hGlen : G.addrs.length = k.addrs.length + r.addrs.length := by
      have := pG.length_eq
      simpa using this
    have hGn : G ≠ .nil := by
      rintro rfl
      simp only [addrs_nil, List.length_nil] at hGlen
      omega
    obtain ⟨x, hx, hr⟩ := hG1 hGn
    refine ⟨s₃, x, G, ?_, sh₃, hx, by omega⟩
    simp only [consolidateEntry, hm, load_some hnm, hun, load_some hm₁, hmerge, hrem,
      load_some hm₃, hr, bind, Except.bind, pure, Except.pure]

/-- The scan of `_consolidate` starts in a state of the scan. -/
theorem scanInv_start {s : Store} {g : Forest} {x N : Nat} (sh : Shape s none g)
    (hx : x ∈ g.tops) (small : g.addrs.length < N) :
    ScanInv s (List.replicate (dnVal N + 1) none) x N :=
  ⟨g, [], ⟨sh, small, by simp, List.nodup_nil, fun y => by
      simp only [List.not_mem_nil, false_iff, not_exists]
      exact fun i => get?_replicate_none _ i y,
      fun i y hi => absurd hi (get?_replicate_none _ i y)⟩, hx⟩


/-! ## The fields after `_cut` and `_cascading_cut` -/

theorem pmd_upd (s : Store) (a q : Nat) (g : FibHeapNode → FibHeapNode)
    (hg : ∀ n, pmd (g n) = pmd n) : ((s.upd a g).cells q).map pmd = (s.cells q).map pmd := by
  by_cases h : q = a
  · subst h; cases hc : s.cells q <;> simp [hc, hg]
  · simp [h]

theorem pmd_modify {s s' : Store} {p : Option Nat} {g : FibHeapNode → FibHeapNode}
    (h : s.modify p g = .ok s') (hg : ∀ n, pmd (g n) = pmd n) (q : Nat) :
    (s'.cells q).map pmd = (s.cells q).map pmd := by
  obtain ⟨a, n, -, -, rfl⟩ := (modify_eq_ok _ _ _ _).mp h
  exact pmd_upd s a q g hg

theorem pmd_remove {s s' : Store} {x : Option Nat}
    (h : _remove_from_circular_list s x = .ok s') (q : Nat) :
    (s'.cells q).map pmd = (s.cells q).map pmd := by
  simp only [_remove_from_circular_list, bind, bind_ok'] at h
  obtain ⟨nx, -, h2⟩ := h
  split at h2
  · cases h2; rfl
  · simp only [bind_ok'] at h2
    obtain ⟨s₁, h3, s₂, h4, h5⟩ := h2
    cases h5
    exact (pmd_modify h4 (fun _ => rfl) q).trans (pmd_modify h3 (fun _ => rfl) q)

theorem pmd_merge {s s' : Store} {a b r : Option Nat} (h : _merge s a b = .ok (s', r))
    (q : Nat) : (s'.cells q).map pmd = (s.cells q).map pmd := by
  simp only [_merge] at h
  split at h
  · cases h; rfl
  · split at h
    · cases h; rfl
    · simp only [bind, bind_ok'] at h
      obtain ⟨na, -, nb, -, n₁, -, n₂, -, s₁, h1, s₂, h2, s₃, h3, s₄, h4, h5⟩ := h
      cases h5
      exact (pmd_modify h4 (fun _ => rfl) q).trans ((pmd_modify h3 (fun _ => rfl) q).trans
        ((pmd_modify h2 (fun _ => rfl) q).trans (pmd_modify h1 (fun _ => rfl) q)))

theorem pmd_cells {s s' : Store} {q : Nat} {n : FibHeapNode}
    (h : (s'.cells q).map pmd = (s.cells q).map pmd) (hn : s.cells q = some n) :
    ∃ n', s'.cells q = some n' ∧ n'.parent = n.parent ∧ n'.mark = n.mark ∧
      n'.degree = n.degree := by
  rw [hn] at h
  cases hc : s'.cells q with
  | none => simp [hc] at h
  | some n' =>
    simp only [hc, Option.map_some', Option.some.injEq, pmd, Prod.mk.injEq] at h
    exact ⟨n', rfl, h.1, h.2.1, h.2.2⟩

/-- The fields `parent`, `mark` and `degree` after `_cut(x, y)` for `x ≠ y`: `x` has no
parent and no mark, the degree of `y` is one less, nothing else changes. -/
theorem cut_fields {s s' : Store} {h : FibHeap} {x y : Nat}
    (hc : _cut s h (some x) (some y) = .ok s') (hxy : x ≠ y) :
    (∀ q, q ≠ x → q ≠ y → (s'.cells q).map pmd = (s.cells q).map pmd) ∧
    (∀ n, s.cells x = some n → ∃ n', s'.cells x = some n' ∧ n'.parent = none ∧
      n'.mark = false ∧ n'.degree = n.degree) ∧
    (∀ n, s.cells y = some n → ∃ n', s'.cells y = some n' ∧ n'.parent = n.parent ∧
      n'.mark = n.mark ∧ n'.degree = n.degree - 1) := by
  simp only [_cut, bind, bind_ok'] at hc
  obtain ⟨s₁, h1, nx, -, h3⟩ := hc
  split at h3
  all_goals
    simp only [bind_ok'] at h3
    obtain ⟨s₂, h3, s₃, h4, res, h5, s₅, h6, s₆, h7, h8⟩ := h3
    cases h8
    obtain ⟨s₄, r⟩ := res
    have t₂ : ∀ q, (s₂.cells q).map pmd = (s.cells q).map pmd := fun q =>
      (pmd_modify h3 (fun _ => rfl) q).trans (pmd_remove h1 q)
    have t₄ : ∀ q, (s₄.cells q).map pmd = (s₃.cells q).map pmd := fun q => pmd_merge h5 q
    obtain ⟨a₃, n₃, e₃, hn₃, rfl⟩ := (modify_eq_ok _ _ _ _).mp h4
    cases e₃
    obtain ⟨a₅, n₅, e₅, hn₅, rfl⟩ := (modify_eq_ok _ _ _ _).mp h6
    cases e₅
    obtain ⟨a₆, n₆, e₆, hn₆, rfl⟩ := (modify_eq_ok _ _ _ _).mp h7
    cases e₆
    refine ⟨fun q hqx hqy => ?_, fun n hn => ?_, fun n hn => ?_⟩
    · rw [upd_cells_ne hqx, upd_cells_ne hqx, t₄ q, upd_cells_ne hqy, t₂ q]
    · obtain ⟨n₂, hn₂, e1, e2, e3⟩ := pmd_cells (t₂ x) hn
      have hx₃ : (s₂.upd y (fun n => { n with degree := n.degree - 1 })).cells x = some n₂ := by
        rw [upd_cells_ne hxy]; exact hn₂
      obtain ⟨n₄, hn₄, f1, f2, f3⟩ := pmd_cells (t₄ x) hx₃
      refine ⟨_, upd_cells_self (upd_cells_self hn₄ _) _, rfl, rfl, ?_⟩
      simp only [f3, e3]
    · obtain ⟨n₂, hn₂, e1, e2, e3⟩ := pmd_cells (t₂ y) hn
      have hy₃ := upd_cells_self hn₂ (fun n => { n with degree := n.degree - 1 })
      obtain ⟨n₄, hn₄, f1, f2, f3⟩ := pmd_cells (t₄ y) hy₃
      have hyx : y ≠ x := fun e => hxy e.symm
      refine ⟨n₄, by rw [upd_cells_ne hyx, upd_cells_ne hyx]; exact hn₄, ?_, ?_, ?_⟩
      · rw [f1]; exact e1
      · rw [f2]; exact e2
      · rw [f3]; simp only [e3]

theorem depthOf_node_self (b : Nat) (k r : Forest) : (Forest.node b k r).depthOf b = 0 := by
  simp [Forest.depthOf]

theorem depthOf_node_kid {a b : Nat} {k r : Forest} (hab : a ≠ b) (ha : a ∈ k.addrs) :
    (Forest.node b k r).depthOf a = k.depthOf a + 1 := by
  simp [Forest.depthOf, hab, ha]

theorem depthOf_node_rest {a b : Nat} {k r : Forest} (hab : a ≠ b) (ha : a ∉ k.addrs) :
    (Forest.node b k r).depthOf a = r.depthOf a := by
  simp [Forest.depthOf, hab, ha]

/-- In a laid-out forest the parent of a root is the node the forest is laid out below,
and the parent of any other node is a node of the forest of smaller depth. -/
theorem lay_depth {s : Store} : ∀ (f : Forest) (par : Option Nat), Lay s par f →
    f.addrs.Nodup → ∀ a ∈ f.addrs, ∀ n p, s.cells a = some n → n.parent = some p →
      (a ∈ f.tops ∧ par = some p ∧ f.depthOf a = 0) ∨
      (p ∈ f.addrs ∧ f.depthOf p < f.depthOf a) := by
  intro f
  induction f with
  | nil => intro _ _ _ a ha; simp at ha
  | node b k r ihk ihr =>
    intro par hl nd a ha n p hn hp
    simp only [Lay] at hl
    obtain ⟨hnode, -, hlk, hlr⟩ := hl
    simp only [addrs_node, List.nodup_cons, List.nodup_append, List.mem_append, not_or] at nd
    simp only [addrs_node, List.mem_cons, List.mem_append] at ha
    rcases ha with rfl | ha | ha
    · left
      obtain ⟨n', hn', hp', -⟩ := hnode
      rw [hn] at hn'; cases hn'
      exact ⟨by simp, by rw [← hp', hp], depthOf_node_self _ _ _⟩
    · right
      have hab : a ≠ b := fun e => nd.1.1 (e ▸ ha)
      rcases ihk (some b) hlk nd.2.1 a ha n p hn hp with ⟨-, hpb, -⟩ | ⟨hpk, hlt⟩
      · have e : b = p := Option.some.inj hpb
        subst e
        refine ⟨by simp, ?_⟩
        rw [depthOf_node_self, depthOf_node_kid hab ha]
        omega
      · have hpb : p ≠ b := fun e => nd.1.1 (e ▸ hpk)
        refine ⟨by simp [hpk], ?_⟩
        rw [depthOf_node_kid hpb hpk, depthOf_node_kid hab ha]
        omega
    · have hab : a ≠ b := fun e => nd.1.2 (e ▸ ha)
      have hak : a ∉ k.addrs := fun h => nd.2.2.2 h ha
      rcases ihr par hlr nd.2.2.1 a ha n p hn hp with ⟨ht, hpp, hd⟩ | ⟨hpr, hlt⟩
      · left
        exact ⟨by simp [ht], hpp, by rw [depthOf_node_rest hab hak]; exact hd⟩
      · right
        have hpb : p ≠ b := fun e => nd.1.2 (e ▸ hpr)
        have hpk : p ∉ k.addrs := fun h => nd.2.2.2 h hpr
        refine ⟨by simp [hpr], ?_⟩
        rw [depthOf_node_rest hpb hpk, depthOf_node_rest hab hak]
        exact hlt

/-- In a well-formed heap the parent of a node is a node of the heap of smaller depth. -/
theorem wf_depth {s : Store} {h : FibHeap} {f : Forest} (w : WF s h f) :
    Ranked s f.addrs f.depthOf := by
  intro a ha n p hn hp
  rcases lay_depth f none w.shape.lay w.shape.nodup a ha n p hn hp with ⟨-, h0, -⟩ | h1
  · cases h0
  · exact h1

theorem ranked_cut {L : List Nat} {rk : Nat → Nat} {s s' : Store} {h : FibHeap} {x y : Nat}
    (hP : Ranked s L rk) (hc : _cut s h (some x) (some y) = .ok s') (hxy : x ≠ y) :
    Ranked s' L rk := by
  obtain ⟨c1, c2, c3⟩ := cut_fields hc hxy
  intro a ha n p hn hp
  cases hca : s.cells a with
  | none =>
    rw [(ev_cut hc).1.dead a hca] at hn
    cases hn
  | some na =>
    by_cases hax : a = x
    · subst hax
      obtain ⟨n', hn', hp', -⟩ := c2 na hca
      rw [hn] at hn'; cases hn'
      rw [hp'] at hp; cases hp
    · by_cases hay : a = y
      · subst hay
        obtain ⟨n', hn', hp', -⟩ := c3 na hca
        rw [hn] at hn'; cases hn'
        exact hP a ha na p hca (hp' ▸ hp)
      · obtain ⟨n', hn', hp', -⟩ := pmd_cells (c1 a hax hay) hca
        rw [hn] at hn'; cases hn'
        exact hP a ha na p hca (hp' ▸ hp)

/-- The fields `parent`, `mark` and `degree` of the nodes of greater rank than `y` are
not changed by `_cascading_cut(y)`. -/
theorem cascading_frame {L : List Nat} {rk : Nat → Nat} (h : FibHeap) : ∀ (fuel : Nat)
    (s : Store) (y : Nat) (s' : Store), Ranked s L rk → y ∈ L →
    _cascading_cut h fuel s (some y) = .ok s' →
    ∀ q, rk y < rk q → (s'.cells q).map pmd = (s.cells q).map pmd := by
  intro fuel
  induction fuel with
  | zero => intro s y s' _ _ hc; simp [_cascading_cut] at hc
  | succ fuel ih =>
    intro s y s' hP hy hc q hq
    simp only [_cascading_cut, bind, bind_ok'] at hc
    obtain ⟨ny, hny, h2⟩ := hc
    obtain ⟨y', e, hny'⟩ := (load_eq_ok _ _ _).mp hny
    cases e
    split at h2
    · split at h2
      · obtain ⟨a, n, e, -, rfl⟩ := (modify_eq_ok _ _ _ _).mp h2
        cases e
        have hqy : q ≠ y := fun e => by rw [e] at hq; omega
        rw [upd_cells_ne hqy]
      · simp only [bind_ok'] at h2
        obtain ⟨s₁, h3, h4⟩ := h2
        cases hz : ny.parent with
        | none => rename_i h0 _; exact absurd hz h0
        | some z =>
          rw [hz] at h3 h4
          obtain ⟨hzL, hzr⟩ := hP y hy ny z hny' hz
          have hyz : y ≠ z := fun e => by rw [← e] at hzr; omega
          obtain ⟨c1, -, -⟩ := cut_fields h3 hyz
          have hqy : q ≠ y := fun e => by rw [e] at hq; omega
          have hqz : q ≠ z := fun e => by rw [e] at hq; omega
          exact (ih s₁ z s' (ranked_cut hP h3 hyz) hzL h4 q (by omega)).trans (c1 q hqy hqz)
    · cases h2; rfl

/-- What `_cascading_cut(y)` does to `y`: nothing when `y` is a root; it marks `y` when
`y` is an unmarked node with a parent; and when `y` is a marked node with the parent `z`
it cuts `y` from `z`, which leaves `y` without parent and mark and `z` with one child
less, and goes on with `_cascading_cut(z)`. -/
theorem cascading_step {L : List Nat} {rk : Nat → Nat} (h : FibHeap) {fuel : Nat}
    {s s' : Store} {y : Nat} {ny : FibHeapNode} (hP : Ranked s L rk) (hy : y ∈ L)
    (hny : s.cells y = some ny) (hc : _cascading_cut h fuel s (some y) = .ok s') :
    ∃ ny', s'.cells y = some ny' ∧ ny'.degree = ny.degree ∧
      (ny.parent = none → ny'.parent = none ∧ ny'.mark = ny.mark) ∧
      (ny.parent ≠ none → ny.mark = false → ny'.mark = true ∧ ny'.parent = ny.parent ∧
        ∀ q, q ≠ y → (s'.cells q).map pmd = (s.cells q).map pmd) ∧
      (∀ z, ny.parent = some z → ny.mark = true → ny'.parent = none ∧ ny'.mark = false ∧
        ∃ s₁ nz nz₁ fuel', _cut s h (some y) (some z) = .ok s₁ ∧
          _cascading_cut h fuel' s₁ (some z) = .ok s' ∧ z ∈ L ∧ Ranked s₁ L rk ∧
          s.cells z = some nz ∧ s₁.cells z = some nz₁ ∧ nz₁.parent = nz.parent ∧
          nz₁.mark = nz.mark ∧ nz₁.degree = nz.degree - 1 ∧
          ∀ q, q ≠ y → q ≠ z → (s₁.cells q).map pmd = (s.cells q).map pmd) := by
  cases fuel with
  | zero => simp [_cascading_cut] at hc
  | succ fuel =>
    simp only [_cascading_cut, bind, bind_ok'] at hc
    obtain ⟨ny₀, e, h2⟩ := hc
    rw [load_some hny] at e
    cases e
    cases hz : ny.parent with
    | none =>
      simp only [hz, ne_eq, not_true_eq_false, if_false] at h2
      cases h2
      exact ⟨ny, hny, rfl, fun _ => ⟨hz, rfl⟩, fun h0 => absurd rfl h0,
        (fun z hz' => by cases hz')⟩
    | some z =>
      simp only [hz, ne_eq, reduceCtorEq, not_false_eq_true, if_true] at h2
      obtain ⟨hzL, hzr⟩ := hP y hy ny z hny hz
      have hyz : y ≠ z := fun e => by rw [← e] at hzr; omega
      by_cases hmk : ny.mark = false
      · rw [if_pos hmk, modify_some hny] at h2
        cases h2
        refine ⟨_, upd_cells_self hny _, rfl, (fun h0 => by cases h0),
          (fun _ _ => ⟨rfl, hz, (fun q hq => by rw [upd_cells_ne hq])⟩),
          (fun z' _ hm => by rw [hmk] at hm; cases hm)⟩
      · have hmt : ny.mark = true := by simpa using hmk
        rw [if_neg hmk] at h2
        simp only [bind_ok'] at h2
        obtain ⟨s₁, h3, h4⟩ := h2
        obtain ⟨c1, c2, c3⟩ := cut_fields h3 hyz
        obtain ⟨ny₁, hny₁, p1, p2, p3⟩ := c2 ny hny
        have hP₁ := ranked_cut hP h3 hyz
        have fr := cascading_frame h fuel s₁ z s' hP₁ hzL h4 y hzr
        obtain ⟨ny', hny', q1, q2, q3⟩ := pmd_cells fr hny₁
        cases hcz : s.cells z with
        | none =>
          obtain ⟨a, n, e, hn, -⟩ : ∃ a n, some z = some a ∧ s₁.cells a = some n ∧ True := by
            cases fuel with
            | zero => simp [_cascading_cut] at h4
            | succ fuel =>
              simp only [_cascading_cut, bind, bind_ok'] at h4
              obtain ⟨nz, hnz, -⟩ := h4
              obtain ⟨a, e, hn⟩ := (load_eq_ok _ _ _).mp hnz
              exact ⟨a, nz, e, hn, trivial⟩
          cases e
          rw [(ev_cut h3).1.dead z hcz] at hn
          cases hn
        | some nz =>
          obtain ⟨nz₁, hnz₁, r1, r2, r3⟩ := c3 nz hcz
          refine ⟨ny', hny', by rw [q3, p3], (fun h0 => by cases h0),
            (fun _ hm => by rw [hmt] at hm; cases hm), fun z' hz' _ => ?_⟩
          cases hz'
          exact ⟨by rw [q1, p1], by rw [q2, p2], s₁, nz, nz₁, fuel, h3, h4, hzL, hP₁, hcz,
            hnz₁, r1, r2, r3, c1⟩


/-! ## Binomial trees in the reachable worlds -/

/-- A heap of binomial trees stays one when the store changes outside its nodes only
and frees no address. -/
theorem binom_frame {s s' : Store} {h : FibHeap} (w : ∃ f, WF s h f ∧ Binom f)
    (hc : ∀ a ∈ nodesOf s h, s'.cells a = s.cells a) (hn : s.next ≤ s'.next) :
    ∃ f, WF s' h f ∧ Binom f := by
  obtain ⟨f, w, b⟩ := w
  rw [nodesOf_wf w] at hc
  exact ⟨f, w.ofCells hc hn, b⟩

/-- In every reachable world every heap is a well-formed forest of trees of `2^d` nodes
below a node of degree `d`. -/
theorem reach_binom {s : Store} {hs : List FibHeap} (r : Reach s hs) :
    ∀ h ∈ hs, ∃ f, WF s h f ∧ Binom f := by
  induction r with
  | init => intro h hh; simp at hh
  | @create s hs _ ih =>
    intro h hh
    simp only [List.mem_cons] at hh
    rcases hh with rfl | hh
    · exact ⟨.nil, wf_empty s, trivial⟩
    · exact ih h hh
  | @reorder s hs hs' _ hp ih => exact fun h hh => ih h (hp.symm.subset hh)
  | @insert s s' h h' hs k p r0 e ih =>
    have wi := reach_winv r0
    obtain ⟨f, w, b⟩ := ih h (List.mem_cons_self h hs)
    obtain ⟨f', w', pa, -, -, hn, hoff, hb⟩ := wf_insert_of_ok w e
    intro g hg
    simp only [List.mem_cons] at hg
    rcases hg with rfl | hg
    · exact ⟨f', w', hb b⟩
    · refine binom_frame (ih g (List.mem_cons_of_mem _ hg)) (fun a ha => ?_) hn
      have hdis : (nodesOf s h).Disjoint (nodesOf s g) := (List.pairwise_cons.mp wi.2).1 g hg
      obtain ⟨fg, wg, -⟩ := ih g (List.mem_cons_of_mem _ hg)
      refine hoff a (fun hh => hdis (by rw [nodesOf_wf w]; exact hh) ha) ?_
      have := wg.bound a (by rw [← nodesOf_wf wg]; exact ha)
      omega
  | @merge s s' h₁ h₂ h₁' h₂' hs r0 e ih =>
    have wi := reach_winv r0
    obtain ⟨f₁, w₁, b₁⟩ := ih h₁ (by simp)
    obtain ⟨f₂, w₂, b₂⟩ := ih h₂ (by simp)
    have hp := wi.2
    simp only [List.pairwise_cons, List.mem_cons, forall_eq_or_imp] at hp
    obtain ⟨⟨d12, d1⟩, d2, -⟩ := hp
    have dis : ∀ q ∈ f₁.addrs, q ∉ f₂.addrs := by
      rw [nodesOf_wf w₁, nodesOf_wf w₂] at d12
      exact fun q h1 h2 => d12 h1 h2
    obtain ⟨f', w', pa, rfl, -, fr, -, hb⟩ := wf_merge_of_ok w₁ w₂ dis e
    intro g hg
    simp only [List.mem_cons] at hg
    rcases hg with rfl | rfl | hg
    · exact ⟨f', w', hb b₁ b₂⟩
    · exact ⟨.nil, wf_empty s', trivial⟩
    · refine binom_frame (ih g (by simp [hg])) (fun a ha => fr.off a ?_) (by rw [fr.next])
      simp only [List.mem_append, not_or]
      exact ⟨fun hh => d1 g hg (by rw [nodesOf_wf w₁]; exact hh) ha,
        fun hh => d2 g hg (by rw [nodesOf_wf w₂]; exact hh) ha⟩
  | @extract s s' h h' hs fuel k r0 e ih =>
    have wi := reach_winv r0
    obtain ⟨f, w, b⟩ := ih h (List.mem_cons_self h hs)
    obtain ⟨f', m, -, -, w', pa, -, -, hn, -, -, hoff, hb⟩ := wf_extract_min_of_ok w e
    intro g hg
    simp only [List.mem_cons] at hg
    rcases hg with rfl | hg
    · exact ⟨f', w', hb b⟩
    · refine binom_frame (ih g (List.mem_cons_of_mem _ hg)) (fun a ha => ?_) (le_of_eq hn.symm)
      have hdis : (nodesOf s h).Disjoint (nodesOf s g) := (List.pairwise_cons.mp wi.2).1 g hg
      exact hoff a (fun hh => hdis (by rw [nodesOf_wf w]; exact hh) ha)

/-- The tree headed by a root of a laid-out forest: the root and the nodes below it. -/
theorem treeOf_node {s : Store} {par : Option Nat} {x : Nat} {k r : Forest}
    (v : Shape s par (.node x k r)) (hb : ∀ q ∈ k.addrs, q < s.next) :
    treeOf s x = x :: k.addrs := by
  obtain ⟨n, hn, -, -, hch, -⟩ := v.nodeOK
  simp only [treeOf, hn, hch]
  cases k with
  | nil => rfl
  | node c kc rc =>
    have sk := v.kids
    simp only [tops_node, List.head?_cons]
    congr 1
    refine collect_addrs _ (some x) c kc rc c s.next rfl sk.lay (chain_rgt_of_cyc sk.cyc) ?_
      sk.nodup (length_le_of_bound sk.nodup hb)
    have := tops_nodup sk.nodup
    simp only [tops_node, List.nodup_cons] at this
    exact this.1

theorem log_le_dnVal (n : Nat) : Nat.log 2 n ≤ dnVal n := by
  rcases Nat.eq_zero_or_pos n with rfl | hn
  · simp
  · refine le_dnVal ?_ (Nat.log_le_self 2 n)
    have h1 : 2 ^ Nat.log 2 n ≤ n := Nat.pow_log_le_self 2 (by omega)
    calc 1618 ^ Nat.log 2 n ≤ 2000 ^ Nat.log 2 n := Nat.pow_le_pow_left (by norm_num) _
      _ = 2 ^ Nat.log 2 n * 1000 ^ Nat.log 2 n := by rw [← Nat.mul_pow]
      _ ≤ n * 1000 ^ Nat.log 2 n := Nat.mul_le_mul_right _ h1

/-- In a well-formed heap of binomial trees a root of degree `d` heads a tree of exactly
`2^d` nodes, and `d` is at most the integer part of `log2 n`, which is at most `dnVal n`,
for the number `n` of nodes of the heap. -/
theorem root_tree_size {s : Store} {h : FibHeap} {f : Forest} (w : WF s h f) (b : Binom f)
    {x : Nat} (hx : x ∈ rootList s h) :
    ∃ d : Nat, s.deg x = some (d : Int) ∧ (treeOf s x).length = 2 ^ d ∧
      d ≤ Nat.log 2 (nodesOf s h).length ∧
      Nat.log 2 (nodesOf s h).length ≤ dnVal (nodesOf s h).length := by
  rw [rootList_wf w] at hx
  rw [nodesOf_wf w]
  obtain ⟨k, r, v, pv, -⟩ := w.shape.view hx
  obtain ⟨n, hn, -, h2, -⟩ := v.nodeOK
  have bv : Binom (.node x k r) :=
    binom_transfer w.shape.lay b _ _ v.lay (fun a ha => pv.subset ha)
  simp only [Binom] at bv
  have hb : ∀ q ∈ k.addrs, q < s.next := fun q hq =>
    w.bound q (pv.subset (by simp [hq]))
  have hlen : 1 + k.addrs.length ≤ f.addrs.length := by
    have := pv.length_eq
    simp only [addrs_node, List.length_cons, List.length_append] at this
    omega
  refine ⟨k.tops.length, by rw [deg_of_cells hn, h2], ?_, ?_, log_le_dnVal _⟩
  · rw [treeOf_node v hb, List.length_cons, ← bv.1]; omega
  · refine (Nat.pow_le_iff_le_log (by norm_num) (by omega)).mp ?_
    rw [← bv.1]; exact hlen

/-- The indices that a run of the inner loop of `_consolidate` uses are those from the
`d` it is entered with to the `d` it is left with; all of them are indices of the bucket
array, whose length stays. -/
theorem inner_index_range : ∀ (fuel : Nat) (s : Store) (A : List (Option Nat)) (x : Option Nat)
    (d : Int) (s' : Store) (A' : List (Option Nat)) (x' : Option Nat) (d' : Int) (flag : Bool),
    consolidateInner fuel s A x d = .ok (s', A', x', d', flag) →
    0 ≤ d ∧ d ≤ d' ∧ d' < A.length ∧ A'.length = A.length := by
  intro fuel
  induction fuel with
  | zero => intro s A x d s' A' x' d' flag h; simp [consolidateInner] at h
  | succ fuel ih =>
    intro s A x d s' A' x' d' flag h
    rw [consolidateInner] at h
    simp only [bind, bind_ok'] at h
    obtain ⟨Ad, hr, h⟩ := h
    have hd : 0 ≤ d ∧ d < A.length := by
      simp only [readA] at hr
      split at hr
      · cases hr
      · split at hr
        · cases hr
        · rename_i v hv
          have := List.get?_eq_some.mp hv
          obtain ⟨hlt, -⟩ := this
          omega
    split at h
    · simp only [pure, Except.pure, Except.ok.injEq, Prod.mk.injEq] at h
      obtain ⟨-, rfl, -, rfl, -⟩ := h
      exact ⟨hd.1, le_refl _, hd.2, rfl⟩
    · split at h
      · simp only [pure, Except.pure, Except.ok.injEq, Prod.mk.injEq] at h
        obtain ⟨-, rfl, -, rfl, -⟩ := h
        exact ⟨hd.1, le_refl _, hd.2, rfl⟩
      · simp only [bind_ok'] at h
        obtain ⟨nx, -, ny, -, s₁, -, A₁, hw, h⟩ := h
        have hA₁ : A₁.length = A.length := by
          simp only [writeA] at hw
          split at hw
          · cases hw
          · split at hw
            · simp only [pure, Except.pure, Except.ok.injEq] at hw
              rw [← hw, List.length_set]
            · cases hw
        obtain ⟨h1, h2, h3, h4⟩ := ih _ _ _ _ _ _ _ _ _ h
        rw [hA₁] at h3 h4
        exact ⟨hd.1, by omega, h3, h4⟩


/-! ## Allocation: the next unused address and a released one -/

/-- At the next unused address `_create_node_at` is `_create_node`. -/
theorem create_node_at_next (s : Store) (k : Int) :
    _create_node_at s s.next k = _create_node s k := by
  simp only [_create_node_at, _create_node]
  congr 2
  omega

/-- At the next unused address `insert_at` is `insert`. -/
theorem insert_at_next (s : Store) (h : FibHeap) (k : Int) :
    insert_at s h s.next k = insert s h k := by
  simp only [insert_at, insert, create_node_at_next]

/-- As long as `new` never hands out an address twice (every insertion goes through
`insert`, which takes the next unused address), the keys are ordered along every
`parent` field that points to a node that has not been released: in a world reached by
the constructor, `insert`, `merge`, `extract_min` and `decrease_key(x, newKey)` with
`newKey <= x->key`, a node `x` whose `parent` field is the address of an allocated node
`y` has `y->key <= x->key`.  Nothing is said of a `parent` field that points to a
released node, nor of a world in which a released address is handed out again. -/
theorem heap_order_while_addresses_fresh {s : Store} {hs : List FibHeap} (r : ReachDK s hs)
    (x : Nat) (nx : FibHeapNode) (y : Nat) (ny : FibHeapNode) (hx : s.cells x = some nx)
    (hp : nx.parent = some y) (hy : s.cells y = some ny) : ny.key ≤ nx.key :=
  (reachDK_inv r).2 x nx y ny hx hp hy

/-! ## The cascading cut in a well-formed heap -/

/-- In a well-formed heap, `decrease_key(x, newKey)` on a node `x` whose parent `y` has
itself a parent `z`, with `newKey < y->key`, returns (given fuel for one more turn than
there are nodes), and the fields `parent`, `mark` and `degree` of the three nodes follow
the rule of `_cascading_cut`: `x` has no parent and no mark and `y->degree` is one less;
an unmarked `y` is marked and stays a child of `z`; a marked `y` has lost parent and
mark, `z->degree` is one less, and `z` has been treated in the same way.  In a
well-formed heap `x`, `y` and `z` are three different nodes.  The sibling lists are not
covered, and neither is a heap that an earlier `_cut` has left malformed. -/
theorem cascading_cut_well_formed {s : Store} {h : FibHeap} (w : WellFormed s h)
    {x y z : Nat} {nx ny nz : FibHeapNode} (hx : x ∈ nodesOf s h)
    (hnx : s.cells x = some nx) (hxy : nx.parent = some y) (hny : s.cells y = some ny)
    (hyz : ny.parent = some z) (hnz : s.cells z = some nz) (newKey : Int)
    (hk : newKey < ny.key) (_hkx : newKey ≤ nx.key) (fuel : Nat)
    (hf : (nodesOf s h).length + 1 ≤ fuel) :
    ∃ s' h' nx' ny' nz', decrease_key fuel s h (some x) newKey = .ok (s', h') ∧
      s'.cells x = some nx' ∧ s'.cells y = some ny' ∧ s'.cells z = some nz' ∧
      nx'.parent = none ∧ nx'.mark = false ∧ ny'.degree = ny.degree - 1 ∧
      (ny.mark = false → ny'.mark = true ∧ ny'.parent = some z ∧ nz'.degree = nz.degree) ∧
      (ny.mark = true → ny'.parent = none ∧ ny'.mark = false ∧
        nz'.degree = nz.degree - 1 ∧
        (nz.parent = none → nz'.parent = none ∧ nz'.mark = nz.mark) ∧
        (nz.parent ≠ none → nz.mark = false → nz'.mark = true ∧ nz'.parent = nz.parent) ∧
        (nz.parent ≠ none → nz.mark = true → nz'.parent = none ∧ nz'.mark = false)) := by
  obtain ⟨f, w⟩ := w
  rw [nodesOf_wf w] at hx hf
  have c := wf_closed w
  have hP := wf_depth w
  obtain ⟨hyL, hry⟩ := hP x hx nx y hnx hxy
  obtain ⟨hzL, hrz⟩ := hP y hyL ny z hny hyz
  have hxy' : x ≠ y := fun e => by rw [e] at hry; omega
  have hyz' : y ≠ z := fun e => by rw [e] at hrz; omega
  have hxz' : x ≠ z := fun e => by rw [e] at hry; omega
  obtain ⟨m, hm⟩ : ∃ m, h.m_minNode = some m := by
    rw [w.minHead]
    cases hft : f.tops with
    | nil => rw [tops_eq_nil.mp hft] at hx; simp at hx
    | cons a t => exact ⟨a, rfl⟩
  have hmL := tops_subset_addrs f m (w.minRoot m hm).1
  obtain ⟨s', h', km, e, -⟩ := decrease_total newKey c hm hmL hx hf
  have e' := e
  simp only [decrease_key, _decrease_key, bind, bind_ok'] at e'
  obtain ⟨s₁, h1, nx₁, h2, h3⟩ := e'
  rw [modify_some hnx] at h1
  cases h1
  have hx₁ : (s.upd x (fun n => { n with key := newKey })).cells x =
      some { nx with key := newKey } := upd_cells_self hnx _
  have hy₁ : (s.upd x (fun n => { n with key := newKey })).cells y = some ny := by
    rw [upd_cells_ne (fun e => hxy' e.symm)]; exact hny
  have hz₁ : (s.upd x (fun n => { n with key := newKey })).cells z = some nz := by
    rw [upd_cells_ne (fun e => hxz' e.symm)]; exact hnz
  rw [load_some hx₁] at h2
  cases h2
  have hP₁ : Ranked (s.upd x (fun n => { n with key := newKey })) f.addrs f.depthOf := by
    intro a ha n p hn hp
    by_cases hax : a = x
    · subst hax
      rw [hx₁] at hn; cases hn
      exact hP a ha nx p hnx hp
    · rw [upd_cells_ne hax] at hn
      exact hP a ha n p hn hp
  have tail : ∀ {y : Store} {r : Store × FibHeap},
      (∃ a, y.load (some x) = .ok a ∧ ∃ b, y.load h.m_minNode = .ok b ∧
        (if a.key < b.key then
          (pure (y, ({ m_minNode := some x, m_numOfNodes := h.m_numOfNodes } : FibHeap)) :
            Except Fault (Store × FibHeap))
        else pure (y, h)) = .ok r) → r.1 = y := by
    intro y r hr
    obtain ⟨_, -, _, -, h6⟩ := hr
    split at h6 <;> cases h6 <;> rfl
  simp only [hxy, ne_eq, reduceCtorEq, not_false_eq_true, if_true, bind_ok'] at h3
  obtain ⟨nx₃, h7, ny₁, h8, h9⟩ := h3
  rw [load_some hx₁] at h7
  cases h7
  rw [load_some hy₁] at h8
  cases h8
  simp only [hk, if_true, bind_ok'] at h9
  obtain ⟨s₂, h10, s₃, h11, h12⟩ := h9
  have := tail h12
  simp only at this
  subst this
  -- the cut of `x` from `y`
  obtain ⟨c1, c2, c3⟩ := cut_fields h10 hxy'
  obtain ⟨nx₂, hnx₂, a1, a2, -⟩ := c2 _ hx₁
  obtain ⟨ny₂, hny₂, b1, b2, b3⟩ := c3 ny hy₁
  obtain ⟨nz₂, hnz₂, d1, d2, d3⟩ := pmd_cells (c1 z (fun e => hxz' e.symm)
    (fun e => hyz' e.symm)) hz₁
  have hP₂ := ranked_cut hP₁ h10 hxy'
  -- `x` is out of the reach of the cascading cut
  obtain ⟨nx', hnx', x1, x2, -⟩ :=
    pmd_cells (cascading_frame h fuel s₂ y s' hP₂ hyL h11 x hry) hnx₂
  obtain ⟨ny', hny', g1, g2, g3, g4⟩ := cascading_step h hP₂ hyL hny₂ h11
  by_cases hmk : ny.mark = false
  · obtain ⟨k1, k2, k3⟩ := g3 (by rw [b1, hyz]; simp) (by rw [b2]; exact hmk)
    obtain ⟨nz', hnz', z1, z2, z3⟩ := pmd_cells (k3 z (fun e => hyz' e.symm)) hnz₂
    refine ⟨s', h', nx', ny', nz', e, hnx', hny', hnz', by rw [x1, a1], by rw [x2, a2],
      by rw [g1, b3], fun _ => ⟨k1, by rw [k2, b1, hyz], by rw [z3, d3]⟩,
      (fun hm => by rw [hmk] at hm; cases hm)⟩
  · have hmt : ny.mark = true := by simpa using hmk
    obtain ⟨k1, k2, s₄, nz₀, nz₄, fuel', k3, k4, -, hP₄, k5, k6, k7, k8, k9, -⟩ :=
      g4 z (by rw [b1, hyz]) (by rw [b2]; exact hmt)
    rw [hnz₂] at k5
    cases k5
    obtain ⟨nz', hnz', t1, t2, t3, t4⟩ := cascading_step h hP₄ hzL k6 k4
    refine ⟨s', h', nx', ny', nz', e, hnx', hny', hnz', by rw [x1, a1], by rw [x2, a2],
      by rw [g1, b3], (fun hm => by rw [hmt] at hm; cases hm),
      fun _ => ⟨k1, k2, by rw [t1, k9, d3], fun h0 => ?_, fun h0 hm => ?_, fun h0 hm => ?_⟩⟩
    · obtain ⟨u1, u2⟩ := t2 (by rw [k7, d1]; exact h0)
      exact ⟨u1, by rw [u2, k8, d2]⟩
    · obtain ⟨u1, u2, -⟩ := t3 (by rw [k7, d1]; exact h0) (by rw [k8, d2]; exact hm)
      exact ⟨u1, by rw [u2, k7, d1]⟩
    · cases hw : nz.parent with
      | none => exact absurd hw h0
      | some w' =>
        obtain ⟨u1, u2, -⟩ := t4 w' (by rw [k7, d1]; exact hw) (by rw [k8, d2]; exact hm)
        exact ⟨u1, u2⟩

/-! ## More fuel does not change a finished run of `decrease_key` -/

/-- C4: `extract_min` on the empty heap.  `_extract_min_node` finds `m_minNode` null,
changes nothing and returns the null pointer; `extract_min` then reads `minNode->key`
through it.  Whatever the fuel, the run ends in the null-dereference fault: no key and no
error value reaches the caller. -/
theorem extract_min_empty_faults :
    (∀ fuel s, _extract_min_node fuel s FibHeap.empty = .ok (s, FibHeap.empty, none)) ∧
      ∀ fuel s, extract_min fuel s FibHeap.empty = .error .nullDeref :=
  ⟨fun _ _ => rfl, fun _ _ => rfl⟩

/-- C5: `delete_node` on the node holding `5` in the heap built by inserting
`-2147483648` and `5`.  The key of the node becomes `m_minimumKey`, which is not smaller
than the key of `m_minNode`, so `extract_min` frees the other node: the node at address
`0` is gone, and the node at address `1` that was to be deleted is the remaining node of
the heap, now with key `-2147483648`. -/
theorem delete_node_removes_other_node :
    (do
      let (s, h, ps) ← insertAll [-2147483648, 5] Store.empty FibHeap.empty
      let (s, h) ← delete_node 10 s h (some 1)
      pure (ps, h, liveNodes s, nodesOf s h, keysOf s (nodesOf s h))) =
    (.ok ([some 0, some 1], ⟨some 1, 1⟩, [1], [1], [some (-2147483648)]) :
      Except Fault (List (Option Nat) × FibHeap × List Nat × List Nat × List (Option Int))) := by
  rfl

/-- C9: insert 10, 11, 12, 13, 0; `extract_min`; insert 20, 30, 40, 5, 1; `extract_min`.
After the second `extract_min` the root list is `8, 0, 6, 5` with the degrees
`1, 2, 0, 0`: the roots at the addresses `6` and `5` both have degree `0`. -/
theorem consolidate_leaves_equal_degrees :
    (do
      let (s, h, _) ← insertAll [10, 11, 12, 13, 0] Store.empty FibHeap.empty
      let (s, h, k₁) ← extract_min 20 s h
      let (s, h, _) ← insertAll [20, 30, 40, 5, 1] s h
      let (s, h, k₂) ← extract_min 20 s h
      pure (k₁, k₂, rootList s h, degreesOf s (rootList s h))) =
    (.ok (0, 1, [8, 0, 6, 5], [some 1, some 2, some 0, some 0]) :
      Except Fault (Int × Int × List Nat × List (Option Int))) := by
  rfl


/-- C3: insert 10, 11, 12, 13, 0; `extract_min`; insert 1; `decrease_key` of the node
that held 13 (address `3`) to 5.  `_cut` splices the node into the root list without
resetting its `left` and `right` pointers, so its former sibling (address `1`) ends up
inside the root list.  The heap still counts 5 nodes, but the next `extract_min` does
not terminate: it runs out of fuel whatever the fuel. -/
theorem decrease_key_breaks_extract_min :
    ∃ s h,
      (do
        let (s, h, _) ← insertAll [10, 11, 12, 13, 0] Store.empty FibHeap.empty
        let (s, h, _) ← extract_min 20 s h
        let (s, h, _) ← insert s h 1
        decrease_key 20 s h (some 3) 5) = .ok (s, h) ∧
      h = ⟨some 5, 5⟩ ∧ ∀ fuel, extract_min fuel s h = .error .outOfFuel :=
  ⟨_, _, rfl, rfl, extract_min_diverges _ rfl rfl rfl rfl⟩


/-- C1: for every list of keys, inserting them one by one into an empty heap and then
calling `extract_min` as many times as there were inserts (with fuel for twice that many
loop turns) returns the keys in non-decreasing order, as a permutation of the inserted
list, and leaves the heap empty (`m_minNode` null, `m_numOfNodes` 0). -/
theorem insert_then_drain_sorts (l : List Int) (fuel : Nat) (hf : 2 * l.length + 1 ≤ fuel) :
    ∃ s₁ h₁ ps s₂ ks, insertAll l Store.empty FibHeap.empty = .ok (s₁, h₁, ps) ∧
      extractAll fuel l.length s₁ h₁ = .ok (s₂, ⟨none, 0⟩, ks) ∧
      ks.Sorted (· ≤ ·) ∧ ks.Perm l := by
  obtain ⟨s₁, h₁, f₁, ps, e, w, pk⟩ := insertAll_wf l (wf_empty Store.empty)
  simp only [addrs_nil, List.map_nil, List.append_nil] at pk
  have hlen : f₁.addrs.length = l.length := by
    have := pk.length_eq
    simpa using this
  obtain ⟨s₂, ks, e', hs, pk'⟩ := extractAll_wf fuel l.length w hlen hf
  exact ⟨s₁, h₁, ps, s₂, ks, e, e', hs, pk'.trans pk⟩

/-- The witness of C1 on the keys 5, 3, 8, 1, 9, 2, which come out as 1, 2, 3, 5, 8, 9. -/
theorem insert_then_drain_sorts_witness :
    2 * [(5 : Int), 3, 8, 1, 9, 2].length + 1 ≤ 13 ∧
      (∃ s₁ h₁ ps s₂ ks, insertAll [5, 3, 8, 1, 9, 2] Store.empty FibHeap.empty =
          .ok (s₁, h₁, ps) ∧
        extractAll 13 [(5 : Int), 3, 8, 1, 9, 2].length s₁ h₁ = .ok (s₂, ⟨none, 0⟩, ks) ∧
        ks.Sorted (· ≤ ·) ∧ ks.Perm [5, 3, 8, 1, 9, 2]) ∧
      (do
        let (s, h, _) ← insertAll [5, 3, 8, 1, 9, 2] Store.empty FibHeap.empty
        let (_, h, ks) ← extractAll 13 6 s h
        pure (h, ks)) = (.ok (⟨none, 0⟩, [1, 2, 3, 5, 8, 9]) : Except Fault (FibHeap × List Int)) :=
  ⟨by decide, insert_then_drain_sorts [5, 3, 8, 1, 9, 2] 13 (by decide), rfl⟩


/-- C6: `merge` on two well-formed heaps without common node, of sizes `m` and `n`.
The call returns; `*this` is well-formed again with `m_numOfNodes = m + n`, its nodes are
the nodes of both heaps, and no key has changed; its `m_minNode` is the other heap's one
when `*this` was empty, its own one when the other heap was empty, and otherwise the one
of smaller key, its own one on a tie; the other heap is left empty. -/
theorem merge_takes_over (s : Store) (h₁ h₂ : FibHeap) (w₁ : WellFormed s h₁)
    (w₂ : WellFormed s h₂) (dis : (nodesOf s h₁).Disjoint (nodesOf s h₂)) :
    ∃ s' h₁' h₂', merge s h₁ h₂ = .ok (s', h₁', h₂') ∧ WellFormed s' h₁' ∧
      h₁.m_numOfNodes = ((nodesOf s h₁).length : Int) ∧
      h₂.m_numOfNodes = ((nodesOf s h₂).length : Int) ∧
      h₁'.m_numOfNodes = h₁.m_numOfNodes + h₂.m_numOfNodes ∧
      h₁'.m_numOfNodes = ((nodesOf s' h₁').length : Int) ∧
      (nodesOf s' h₁').Perm (nodesOf s h₁ ++ nodesOf s h₂) ∧
      (∀ a, s'.keyAt a = s.keyAt a) ∧
      (h₁.m_minNode = none → h₁'.m_minNode = h₂.m_minNode) ∧
      (h₂.m_minNode = none → h₁'.m_minNode = h₁.m_minNode) ∧
      (∀ a b, h₁.m_minNode = some a → h₂.m_minNode = some b →
        h₁'.m_minNode = some (if s.kv a ≤ s.kv b then a else b)) ∧
      h₂'.m_minNode = none ∧ h₂'.m_numOfNodes = 0 := by
  obtain ⟨f₁, w₁⟩ := w₁
  obtain ⟨f₂, w₂⟩ := w₂
  rw [nodesOf_wf w₁, nodesOf_wf w₂] at dis ⊢
  obtain ⟨s', f', m, e, w', pa, fr, -, hm, -⟩ := wf_merge w₁ w₂ (fun q h1 h2 => dis h1 h2)
  refine ⟨s', _, _, e, ⟨f', w'⟩, w₁.size, w₂.size, rfl, by rw [nodesOf_wf w']; exact w'.size,
    ?_, fr.key, ?_, ?_, ?_, rfl, rfl⟩
  · rw [nodesOf_wf w']; exact pa
  · intro h; simp only [hm, h, pickMin]
  · intro h; simp only [hm, h]; cases h₁.m_minNode <;> rfl
  · intro a b ha hb
    simp only [hm, ha, hb, pickMin]
    split <;> rfl

/-- The witness of C6: two heaps of one node each, with the keys 3 and 2, in one store. -/
theorem merge_takes_over_witness :
    WellFormed (_create_node (_create_node Store.empty 3).1 2).1 ⟨some 0, 1⟩ ∧
      WellFormed (_create_node (_create_node Store.empty 3).1 2).1 ⟨some 1, 1⟩ ∧
      (nodesOf (_create_node (_create_node Store.empty 3).1 2).1 ⟨some 0, 1⟩).Disjoint
        (nodesOf (_create_node (_create_node Store.empty 3).1 2).1 ⟨some 1, 1⟩) ∧
      ∃ s' h₁' h₂', merge (_create_node (_create_node Store.empty 3).1 2).1 ⟨some 0, 1⟩
          ⟨some 1, 1⟩ = .ok (s', h₁', h₂') ∧
        h₁'.m_numOfNodes = 2 ∧ h₁'.m_minNode = some 1 ∧ h₂' = ⟨none, 0⟩ ∧
        (nodesOf s' h₁').Perm [0, 1] := by
  have w₁ : WellFormed (_create_node (_create_node Store.empty 3).1 2).1 ⟨some 0, 1⟩ :=
    ⟨_, (wf_create_node Store.empty 3).ofCells (fun c hc => by
      simp only [addrs_node, addrs_nil, List.append_nil, List.mem_singleton] at hc
      subst hc; rfl) (by decide)⟩
  have w₂ : WellFormed (_create_node (_create_node Store.empty 3).1 2).1 ⟨some 1, 1⟩ :=
    ⟨_, wf_create_node (_create_node Store.empty 3).1 2⟩
  have dis : (nodesOf (_create_node (_create_node Store.empty 3).1 2).1 ⟨some 0, 1⟩).Disjoint
      (nodesOf (_create_node (_create_node Store.empty 3).1 2).1 ⟨some 1, 1⟩) := by
    have e₁ : nodesOf (_create_node (_create_node Store.empty 3).1 2).1 ⟨some 0, 1⟩ = [0] := rfl
    have e₂ : nodesOf (_create_node (_create_node Store.empty 3).1 2).1 ⟨some 1, 1⟩ = [1] := rfl
    rw [e₁, e₂]
    simp
  obtain ⟨s', h₁', h₂', e, -, -, -, hn, -, hp, -, -, -, hm, h1, h2⟩ :=
    merge_takes_over _ _ _ w₁ w₂ dis
  refine ⟨w₁, w₂, dis, s', h₁', h₂', e, hn, ?_, ?_, hp⟩
  · rw [hm 0 1 rfl rfl]; rfl
  · cases h₂'; simp only at h1 h2; simp [h1, h2]


/-- C7: in every world reachable by the constructor, `insert`, `merge` (of two different
heaps) and `extract_min`, the field `m_numOfNodes` of every heap is the number of nodes
reachable from its `m_minNode` through `right` and `child` pointers.  Moreover `insert`
returns with `m_numOfNodes` increased by 1, `extract_min` on a non-empty heap returns
(given fuel for twice the number of nodes) with `m_numOfNodes` decreased by 1, and `merge`
returns with the sum of both sizes; each time the new value is again the number of
reachable nodes. -/
theorem size_accounting {s : Store} {hs : List FibHeap} (r : Reach s hs) :
    (∀ h ∈ hs, h.m_numOfNodes = ((nodesOf s h).length : Int)) ∧
    (∀ h hs' k, hs = h :: hs' → ∃ s' h' p, insert s h k = .ok (s', h', p) ∧
      h'.m_numOfNodes = h.m_numOfNodes + 1 ∧
      h'.m_numOfNodes = ((nodesOf s' h').length : Int)) ∧
    (∀ h hs' fuel, hs = h :: hs' → h.m_numOfNodes ≠ 0 →
      2 * (nodesOf s h).length + 1 ≤ fuel →
      ∃ s' h' k, extract_min fuel s h = .ok (s', h', k) ∧
        h'.m_numOfNodes = h.m_numOfNodes - 1 ∧
        h'.m_numOfNodes = ((nodesOf s' h').length : Int)) ∧
    (∀ h₁ h₂ hs', hs = h₁ :: h₂ :: hs' → ∃ s' h₁' h₂', merge s h₁ h₂ = .ok (s', h₁', h₂') ∧
      h₁'.m_numOfNodes = h₁.m_numOfNodes + h₂.m_numOfNodes ∧
      h₁'.m_numOfNodes = ((nodesOf s' h₁').length : Int) ∧ h₂'.m_numOfNodes = 0) := by
  have size_of : ∀ {s : Store} {hs : List FibHeap}, Reach s hs →
      ∀ h ∈ hs, h.m_numOfNodes = ((nodesOf s h).length : Int) := by
    intro s hs r h hh
    obtain ⟨f, w⟩ := (reach_winv r).1 h hh
    rw [nodesOf_wf w]; exact w.size
  refine ⟨size_of r, ?_, ?_, ?_⟩
  · rintro h hs' k rfl
    obtain ⟨f, w⟩ := (reach_winv r).1 h (List.mem_cons_self h hs')
    obtain ⟨s', f', m, e, -⟩ := wf_insert w k
    exact ⟨s', _, _, e, rfl, size_of (Reach.insert r e) _ (List.mem_cons_self _ _)⟩
  · rintro h hs' fuel rfl hne hf
    obtain ⟨f, w⟩ := (reach_winv r).1 h (List.mem_cons_self h hs')
    have hfn : f ≠ .nil := by
      intro e
      apply hne
      rw [w.size, e]; rfl
    rw [nodesOf_wf w] at hf
    obtain ⟨s', h', f', m, k, -, -, e, -, -, -, hn, -⟩ := wf_extract_min w hfn hf
    exact ⟨s', h', k, e, hn, size_of (Reach.extract r e) _ (List.mem_cons_self _ _)⟩
  · rintro h₁ h₂ hs' rfl
    have wi := reach_winv r
    have d12 : (nodesOf s h₁).Disjoint (nodesOf s h₂) :=
      (List.pairwise_cons.mp wi.2).1 h₂ (List.mem_cons_self h₂ hs')
    obtain ⟨f₁, w₁⟩ := wi.1 h₁ (by simp)
    obtain ⟨f₂, w₂⟩ := wi.1 h₂ (by simp)
    rw [nodesOf_wf w₁, nodesOf_wf w₂] at d12
    obtain ⟨s', f', m, e, -⟩ := wf_merge w₁ w₂ (fun q h1 h2 => d12 h1 h2)
    exact ⟨s', _, _, e, rfl, size_of (Reach.merge r e) _ (List.mem_cons_self _ _), rfl⟩

/-- The witness of C7: the world reached by inserting 3, 1, 2 into a new heap and calling
`extract_min` once; its heap counts 2 nodes. -/
theorem size_accounting_witness :
    ∃ s h, Reach s [h] ∧ h.m_numOfNodes = 2 ∧ (nodesOf s h).length = 2 ∧
      ∀ g ∈ [h], g.m_numOfNodes = ((nodesOf s g).length : Int) := by
  have r₀ : Reach Store.empty [FibHeap.empty] := Reach.create Reach.init
  have r₁ := @Reach.insert _ _ _ _ _ 3 _ r₀ rfl
  have r₂ := @Reach.insert _ _ _ _ _ 1 _ r₁ rfl
  have r₃ := @Reach.insert _ _ _ _ _ 2 _ r₂ rfl
  have r₄ := @Reach.extract _ _ _ _ _ 10 _ r₃ rfl
  exact ⟨_, _, r₄, rfl, rfl, (size_accounting r₄).1⟩


/-- C10: for every non-empty list of keys inserted one by one into an empty heap, every
node `x` of the resulting heap (there are as many as keys) and every `newKey` strictly
smaller than every key of the list, `decrease_key(x, newKey)` returns and the
`extract_min` that follows returns `newKey`. -/
theorem decrease_key_promotes_min (l : List Int) (newKey : Int) (fuel : Nat) (hl : l ≠ [])
    (hnew : ∀ k ∈ l, newKey < k) (hf : 2 * l.length + 1 ≤ fuel) :
    ∃ s h ps, insertAll l Store.empty FibHeap.empty = .ok (s, h, ps) ∧
      (nodesOf s h).length = l.length ∧
      ∀ x ∈ nodesOf s h, ∃ s₁ h₁ s₂ h₂,
        decrease_key fuel s h (some x) newKey = .ok (s₁, h₁) ∧
        extract_min fuel s₁ h₁ = .ok (s₂, h₂, newKey) := by
  obtain ⟨s, h, f, ps, e, w, pk⟩ := insertAll_wf l (wf_empty Store.empty)
  simp only [addrs_nil, List.map_nil, List.append_nil] at pk
  have hlen : f.addrs.length = l.length := by
    have := pk.length_eq
    simpa using this
  have hp := insertAll_parent l (wf_empty Store.empty)
    (fun a n hn => by simp [Store.empty] at hn) e
  refine ⟨s, h, ps, e, by rw [nodesOf_wf w, hlen], fun x hx => ?_⟩
  rw [nodesOf_wf w] at hx
  have hxt := wf_flat w hp x hx
  have hkeys : ∀ a ∈ f.addrs, newKey < s.kv a := fun a ha =>
    hnew _ (pk.subset (List.mem_map_of_mem _ ha))
  obtain ⟨m, hm⟩ : ∃ m, h.m_minNode = some m := by
    rw [w.minHead]
    cases hft : f.tops with
    | nil => rw [hft] at hxt; simp at hxt
    | cons a t => exact ⟨a, rfl⟩
  obtain ⟨s₁, h₁, f₁, e₁, w₁, pa, hkx, -, -, hmin, -⟩ :=
    wf_decrease_root fuel w hxt (le_of_lt (hkeys x hx))
  have hmx := hmin m hm (hkeys m (tops_subset_addrs f m (w.minRoot m hm).1))
  have hne : f₁ ≠ .nil := by
    rintro rfl
    have := pa.length_eq
    simp only [addrs_nil, List.length_nil] at this
    have h3 := List.length_pos.mpr hl
    omega
  obtain ⟨s₂, h₂, f₂, m', k, hm', hk', e₂, -⟩ := wf_extract_min w₁ hne
    (show 2 * f₁.addrs.length + 1 ≤ fuel by rw [pa.length_eq, hlen]; exact hf)
  rw [hmx] at hm'
  cases hm'
  rw [hkx] at hk'
  cases hk'
  exact ⟨s₁, h₁, s₂, h₂, e₁, e₂⟩

/-- The witness of C10: insert 10, 20, 30, decrease the node holding 30 (the third node
created, at address 2) to 1; `extract_min` returns 1. -/
theorem decrease_key_promotes_min_witness :
    ([(10 : Int), 20, 30] ≠ [] ∧ (∀ k ∈ [(10 : Int), 20, 30], (1 : Int) < k) ∧
      2 * [(10 : Int), 20, 30].length + 1 ≤ 7) ∧
    (∃ s h ps, insertAll [10, 20, 30] Store.empty FibHeap.empty = .ok (s, h, ps) ∧
      (nodesOf s h).length = [(10 : Int), 20, 30].length ∧
      ∀ x ∈ nodesOf s h, ∃ s₁ h₁ s₂ h₂,
        decrease_key 7 s h (some x) 1 = .ok (s₁, h₁) ∧
        extract_min 7 s₁ h₁ = .ok (s₂, h₂, 1)) ∧
    (do
      let (s, h, ps) ← insertAll [10, 20, 30] Store.empty FibHeap.empty
      let k30 ← s.load (ps.getD 2 none)
      let (s, h) ← decrease_key 7 s h (ps.getD 2 none) 1
      let (_, _, k) ← extract_min 7 s h
      pure (ps, k30.key, k)) =
      (.ok ([some 0, some 1, some 2], 30, 1) : Except Fault (List (Option Nat) × Int × Int)) :=
  ⟨⟨by decide, by decide, by decide⟩,
    decrease_key_promotes_min [10, 20, 30] 1 7 (by decide) (by decide) (by decide), rfl⟩


/-- C8: insert 10, 11, 12, 13, 0; `extract_min`; `decrease_key` of the nodes that held 11,
12 and 13 (addresses `1`, `2`, `3`) to 5, 1 and 7; `extract_min`.  Every call is within
its contract and returns.  The first `decrease_key` cuts a node that has a sibling, and
`_cut` calls `_merge` with the `left` and `right` of the cut node still pointing into the
sibling list; from there on the lists are malformed, and before the last `extract_min`
the node at `3` has `right` = the minimum (address `2`) while the minimum has `left` =
`0`.  `_remove_from_circular_list(min)` therefore leaves `3->right` as it is,
`_consolidate` starts at `min->right` = `3`, walks on to the minimum itself and makes the
node at `3` its child, and `extract_min` then deletes the minimum: the node at `3`
(key 7) is the whole root list and its `parent` field is the released address `2`.  When
`new` hands out that address again in the next `insert(100)`, the `parent` field of the
node holding 7 is a node holding 100. -/
theorem heap_order_lost_to_freed_parent :
    ∃ s h, ReachDK s [h] ∧
      s.cells 3 = some ⟨7, some 3, some 3, some 2, none, 0, false⟩ ∧ s.cells 2 = none ∧
      h.m_minNode = some 3 ∧
      ∃ s' h' nx ny, insert_at s h 2 100 = .ok (s', h', some 2) ∧
        s'.cells 3 = some nx ∧ nx.parent = some 2 ∧ s'.cells 2 = some ny ∧
        nx.key = 7 ∧ ny.key = 100 ∧ ¬ ny.key ≤ nx.key := by
  have r₀ : ReachDK Store.empty [FibHeap.empty] := ReachDK.create ReachDK.init
  have r₁ := @ReachDK.insert _ _ _ _ _ 10 _ r₀ rfl
  have r₂ := @ReachDK.insert _ _ _ _ _ 11 _ r₁ rfl
  have r₃ := @ReachDK.insert _ _ _ _ _ 12 _ r₂ rfl
  have r₄ := @ReachDK.insert _ _ _ _ _ 13 _ r₃ rfl
  have r₅ := @ReachDK.insert _ _ _ _ _ 0 _ r₄ rfl
  have r₆ := @ReachDK.extract _ _ _ _ _ 9 _ r₅ rfl
  have r₇ := @ReachDK.decrease _ _ _ _ _ 5 1 _ 5 r₆ rfl (by decide) rfl
  have r₈ := @ReachDK.decrease _ _ _ _ _ 5 2 _ 1 r₇ rfl (by decide) rfl
  have r₉ := @ReachDK.decrease _ _ _ _ _ 5 3 _ 7 r₈ rfl (by decide) rfl
  have r₁₀ := @ReachDK.extract _ _ _ _ _ 9 _ r₉ rfl
  exact ⟨_, _, r₁₀, rfl, rfl, rfl, _, _, _, _, rfl, rfl, rfl, rfl, rfl, rfl, by decide⟩

/-- C2: for every well-formed heap (of which `m_minNode` holds the least key, by
`WF.minLeast` and the heap order), `m_minNode` is afterwards a node whose key is at most
the key of every node of the heap: after `insert(k)`; after `merge` with another
well-formed heap on other nodes, one of the two not empty; after an `extract_min` on a
heap of at least two nodes; and after `decrease_key(x, newKey)` on a node `x` of the heap
with `newKey <= x->key`, both for the nodes that the heap had before the call and for the
nodes met from the new `m_minNode`.  Each call returns (given, for the last two, fuel for
the loops). -/
theorem min_correct_preserved {s : Store} {h : FibHeap} (w : WellFormed s h) :
    (∀ k, ∃ s' h' p, insert s h k = .ok (s', h', p) ∧
      (nodesOf s' h').Perm (s.next :: nodesOf s h) ∧ MinCorrect s' h' (nodesOf s' h')) ∧
    (∀ h₂, WellFormed s h₂ → (nodesOf s h).Disjoint (nodesOf s h₂) →
      (nodesOf s h ≠ [] ∨ nodesOf s h₂ ≠ []) →
      ∃ s' h' h₂', merge s h h₂ = .ok (s', h', h₂') ∧
        (nodesOf s' h').Perm (nodesOf s h ++ nodesOf s h₂) ∧
        MinCorrect s' h' (nodesOf s' h')) ∧
    (∀ fuel, 2 ≤ (nodesOf s h).length → 2 * (nodesOf s h).length + 1 ≤ fuel →
      ∃ s' h' k, extract_min fuel s h = .ok (s', h', k) ∧
        (nodesOf s' h').length + 1 = (nodesOf s h).length ∧
        MinCorrect s' h' (nodesOf s' h')) ∧
    (∀ fuel x nx newKey, x ∈ nodesOf s h → s.cells x = some nx → newKey ≤ nx.key →
      (nodesOf s h).length + 1 ≤ fuel →
      ∃ s' h', decrease_key fuel s h (some x) newKey = .ok (s', h') ∧
        MinCorrect s' h' (nodesOf s h) ∧ MinCorrect s' h' (nodesOf s' h')) := by
  obtain ⟨f, w⟩ := w
  simp only [nodesOf_wf w]
  refine ⟨fun k => ?_, fun h₂ w₂ dis hne => ?_, fun fuel h2 hf => ?_,
    fun fuel x nx newKey hx hnx hk hf => ?_⟩
  · obtain ⟨s', f', m, e, w', pa, -⟩ := wf_insert w k
    refine ⟨s', _, _, e, by rw [nodesOf_wf w']; exact pa, wf_minCorrect w' ?_⟩
    intro h0
    rw [h0] at pa
    exact List.cons_ne_nil _ _ pa.nil_eq.symm
  · obtain ⟨f₂, w₂⟩ := w₂
    simp only [nodesOf_wf w₂] at dis hne ⊢
    obtain ⟨s', f', m, e, w', pa, -⟩ := wf_merge w w₂ (fun q h1 h2 => dis h1 h2)
    refine ⟨s', _, _, e, by rw [nodesOf_wf w']; exact pa, wf_minCorrect w' ?_⟩
    intro h0
    rw [h0] at pa
    have := pa.nil_eq.symm
    simp only [List.append_eq_nil] at this
    rcases hne with h1 | h1
    · exact h1 this.1
    · exact h1 this.2
  · have hne : f ≠ .nil := by
      rintro rfl
      simp at h2
    obtain ⟨s', h', f', m, k, -, -, e, w', pa, -⟩ := wf_extract_min w hne hf
    have hl := pa.length_eq
    simp only [List.length_cons] at hl
    refine ⟨s', h', k, e, by rw [nodesOf_wf w']; exact hl, wf_minCorrect w' ?_⟩
    intro h0
    rw [h0] at hl
    simp only [List.length_nil] at hl
    omega
  · have c := wf_closed w
    obtain ⟨m, hm⟩ : ∃ m, h.m_minNode = some m := by
      rw [w.minHead]
      cases hft : f.tops with
      | nil => rw [tops_eq_nil.mp hft] at hx; simp at hx
      | cons a t => exact ⟨a, rfl⟩
    obtain ⟨hmt, hml⟩ := w.minRoot m hm
    have hmL := tops_subset_addrs f m hmt
    have hpre := lay_lower w.shape.lay hml
    obtain ⟨s', h', km, e, c', kne, kx, kmm, hmin⟩ := decrease_total newKey c hm hmL hx hf
    have kvx : s'.kv x = newKey := kv_of_keyAt kx
    have kvm : s'.kv m = km := kv_of_keyAt kmm
    have kvne : ∀ q, q ≠ x → s'.kv q = s.kv q := fun q hq => by
      simp only [Store.kv, kne q hq]
    have hkx : newKey ≤ s.kv x := by rw [kv_of_cells hnx]; exact hk
    have key : ∀ m', h'.m_minNode = some m' → m' ∈ f.addrs ∧ ∀ a ∈ f.addrs, s'.kv m' ≤ s'.kv a := by
      intro m' hm'
      rw [hmin] at hm'
      have hm'' := Option.some.inj hm'
      by_cases hlt : newKey < km
      · rw [if_pos hlt] at hm''
        subst hm''
        have hmx : m ≠ x := by
          rintro rfl
          rw [kvx] at kvm
          omega
        refine ⟨hx, fun a ha => ?_⟩
        by_cases hax : a = x
        · rw [hax]
        · rw [kvx, kvne a hax]
          have := hpre a ha
          rw [← kvne m hmx, kvm] at this
          omega
      · rw [if_neg hlt] at hm''
        subst hm''
        refine ⟨hmL, fun a ha => ?_⟩
        by_cases hax : a = x
        · rw [hax, kvm, kvx]; omega
        · rw [kvne a hax]
          by_cases hmx : m = x
          · have h1 := hpre a ha
            rw [hmx] at h1 ⊢
            rw [kvx]
            omega
          · rw [kvne m hmx]
            exact hpre a ha
    have mc : MinCorrect s' h' f.addrs := by
      have hm' := hmin
      obtain ⟨hm'L, hle⟩ := key _ hm'
      obtain ⟨nm, hnm, -⟩ := c' _ hm'L
      refine ⟨_, nm, hm', hnm, fun a ha => ?_⟩
      obtain ⟨na, hna, -⟩ := c' a ha
      refine ⟨na, hna, ?_⟩
      have := hle a ha
      rwa [kv_of_cells hnm, kv_of_cells hna] at this
    refine ⟨s', h', e, mc, mc.subset (fun a ha => ?_)⟩
    simp only [nodesOf, hmin] at ha
    exact collect_closed c' _ _ _ (key _ hmin).1 a ha

/-- The witness of C2: insert 3, 1, 2 and call `extract_min`; the heap is the node of
key 2 (address 2) with the node of key 3 (address 0) as its child.  Decreasing the key of
the child to 0 cuts it from its parent and makes it `m_minNode`. -/
theorem min_correct_preserved_witness :
    ∃ s h, Reach s [h] ∧ WellFormed s h ∧ nodesOf s h = [2, 0] ∧
      (∃ s' h', decrease_key 3 s h (some 0) 0 = .ok (s', h') ∧
        MinCorrect s' h' (nodesOf s h) ∧ MinCorrect s' h' (nodesOf s' h')) ∧
      (decrease_key 3 s h (some 0) 0).toOption.map (fun r => (r.2.m_minNode, nodesOf r.1 r.2)) =
        some (some 0, [0, 2]) := by
  have r₀ : Reach Store.empty [FibHeap.empty] := Reach.create Reach.init
  have r₁ := @Reach.insert _ _ _ _ _ 3 _ r₀ rfl
  have r₂ := @Reach.insert _ _ _ _ _ 1 _ r₁ rfl
  have r₃ := @Reach.insert _ _ _ _ _ 2 _ r₂ rfl
  have r₄ := @Reach.extract _ _ _ _ _ 10 _ r₃ rfl
  have wf := (reach_winv r₄).1 _ (List.mem_singleton_self _)
  exact ⟨_, _, r₄, wf, rfl,
    (min_correct_preserved wf).2.2.2 3 0 _ 0 (by decide) rfl (by decide) (by decide), rfl⟩


/-- C11: insert 10, 11, 12, 13, 0 and call `extract_min`: the heap is the root holding 10
(address `0`) with the children holding 11 and 13 (addresses `1` and `3`).  `_cut` of
the node at `1` from its parent at `0` (what `decrease_key` of that node to 5 calls)
leaves `x->left` and `x->right` as they were when it calls `_merge`, so afterwards the
walk of the root list from `m_minNode` is `0, 1, 3`: it goes through the sibling at `3`,
which is still a child of `0`; and the walk from `y->child` is `3, 0, 1` although
`y->degree` is 1. -/
theorem cut_with_sibling_breaks_lists :
    (do
      let (s, h, _) ← insertAll [10, 11, 12, 13, 0] Store.empty FibHeap.empty
      let (s, h, _) ← extract_min 20 s h
      let ny ← s.load (some 0)
      let s' ← _cut s h (some 1) (some 0)
      let ny' ← s'.load (some 0)
      let n3 ← s'.load (some 3)
      pure ((rootList s h, ny.child, walkRight s 1 s.next 1, ny.degree),
        (rootList s' h, ny'.child, walkRight s' 3 s'.next 3, ny'.degree, n3.parent))) =
    (.ok (([0], some 1, [1, 3], 2), ([0, 1, 3], some 3, [3, 0, 1], 1, some 0)) :
      Except Fault ((List Nat × Option Nat × List Nat × Int) ×
        (List Nat × Option Nat × List Nat × Int × Option Nat))) := by
  rfl


/-- C15: `_merge` as the list splice.  When one argument is null the other one is
returned and the store is left as it is.  For a node `a` of a circular doubly-linked
list `La` and a node `b` of another one `Lb`, without common node, the call returns the
node of smaller key (`a` when the keys are equal) and the nodes of both lists form one
circular doubly-linked list: every member is the right neighbour of its left neighbour
and the left neighbour of its right neighbour.  No key changes and no node outside the
two lists is written. -/
theorem merge_splices_lists :
    (∀ (s : Store) (b : Option Nat), _merge s none b = .ok (s, b)) ∧
    (∀ (s : Store) (a : Option Nat), _merge s a none = .ok (s, a)) ∧
    (∀ (s : Store) (a b : Nat) (La Lb : List Nat), Cyc s La → Cyc s Lb → (La ++ Lb).Nodup →
      a ∈ La → b ∈ Lb →
      ∃ s' L' na nb, s.cells a = some na ∧ s.cells b = some nb ∧
        _merge s (some a) (some b) = .ok (s', some (if na.key ≤ nb.key then a else b)) ∧
        Cyc s' L' ∧ L'.Nodup ∧ L'.Perm (La ++ Lb) ∧
        (∀ x ∈ L', ∃ l r, l ∈ L' ∧ r ∈ L' ∧ s'.lft x = some l ∧ s'.rgt l = some x ∧
          s'.rgt x = some r ∧ s'.lft r = some x) ∧
        (∀ q, s'.keyAt q = s.keyAt q) ∧ (∀ q, q ∉ La ++ Lb → s'.cells q = s.cells q)) := by
  refine ⟨merge_none_left, merge_none_right, ?_⟩
  intro s a b La Lb hA hB nd ha hb
  obtain ⟨a₁, a₂, rfl⟩ := List.append_of_mem ha
  obtain ⟨b₁, b₂, rfl⟩ := List.append_of_mem hb
  have hA' : Cyc s (a :: (a₂ ++ a₁)) := (cyc_rotate s a₁ (a :: a₂)).mp hA
  have hB' : Cyc s (b :: (b₂ ++ b₁)) := (cyc_rotate s b₁ (b :: b₂)).mp hB
  have pA : (a :: (a₂ ++ a₁)).Perm (a₁ ++ a :: a₂) :=
    @List.perm_append_comm _ (a :: a₂) a₁
  have pB : (b :: (b₂ ++ b₁)).Perm (b₁ ++ b :: b₂) :=
    @List.perm_append_comm _ (b :: b₂) b₁
  have pAB : ((a :: (a₂ ++ a₁)) ++ (b :: (b₂ ++ b₁))).Perm ((a₁ ++ a :: a₂) ++ (b₁ ++ b :: b₂)) :=
    pA.append pB
  have nd' : ((a :: (a₂ ++ a₁)) ++ (b :: (b₂ ++ b₁))).Nodup := pAB.nodup_iff.mpr nd
  obtain ⟨na, hna⟩ := Option.isSome_iff_exists.mp (cyc_live hA' (List.mem_cons_self _ _))
  obtain ⟨nb, hnb⟩ := Option.isSome_iff_exists.mp (cyc_live hB' (List.mem_cons_self _ _))
  have inL : ∀ {q : Nat} {l : List Nat}, q ∈ l →
      l.Perm ((a :: (a₂ ++ a₁)) ++ (b :: (b₂ ++ b₁))) → q ∈ (a₁ ++ a :: a₂) ++ (b₁ ++ b :: b₂) :=
    fun hq hp => pAB.subset (hp.subset hq)
  by_cases hk : na.key ≤ nb.key
  · have e := merge_cyc_le hA' hB' ((kv_le_of_cells hna hnb).mpr hk)
    have hc := splice_cyc hA' hB' nd'
    have p : (a :: b :: (b₂ ++ b₁) ++ (a₂ ++ a₁)).Perm
        ((a :: (a₂ ++ a₁)) ++ (b :: (b₂ ++ b₁))) := by
      refine List.Perm.cons a ?_
      exact @List.perm_append_comm _ (b :: (b₂ ++ b₁)) (a₂ ++ a₁)
    have fr := frame_splice s a b ((a₂ ++ a₁).headD a) ((b₂ ++ b₁).getLastD b)
      (L := (a₁ ++ a :: a₂) ++ (b₁ ++ b :: b₂))
      (by simp) (by simp)
      (inL (List.mem_append_left _ (headD_mem _ _)) (List.Perm.refl _))
      (inL (List.mem_append_right _ (getLastD_mem _ _)) (List.Perm.refl _))
    refine ⟨_, _, na, nb, hna, hnb, by rw [if_pos hk]; exact e, hc, p.nodup_iff.mpr nd',
      p.trans pAB, fun x hx => cyc_ring hc hx, fr.key, fr.off⟩
  · have hk' : nb.key < na.key := not_le.mp hk
    have e := merge_cyc_gt hA' hB' (by rw [kv_of_cells hna, kv_of_cells hnb]; exact hk')
    have nd'' : ((b :: (b₂ ++ b₁)) ++ (a :: (a₂ ++ a₁))).Nodup :=
      (@List.perm_append_comm _ (b :: (b₂ ++ b₁)) (a :: (a₂ ++ a₁))).nodup_iff.mpr nd'
    have hc := splice_cyc hB' hA' nd''
    have p : (b :: a :: (a₂ ++ a₁) ++ (b₂ ++ b₁)).Perm
        ((a :: (a₂ ++ a₁)) ++ (b :: (b₂ ++ b₁))) := by
      have h1 : (b :: a :: (a₂ ++ a₁) ++ (b₂ ++ b₁)).Perm
          ((b :: (b₂ ++ b₁)) ++ (a :: (a₂ ++ a₁))) := by
        refine List.Perm.cons b ?_
        exact @List.perm_append_comm _ (a :: (a₂ ++ a₁)) (b₂ ++ b₁)
      exact h1.trans (@List.perm_append_comm _ (b :: (b₂ ++ b₁)) (a :: (a₂ ++ a₁)))
    have fr := frame_splice s b a ((b₂ ++ b₁).headD b) ((a₂ ++ a₁).getLastD a)
      (L := (a₁ ++ a :: a₂) ++ (b₁ ++ b :: b₂))
      (by simp) (by simp)
      (inL (List.mem_append_right _ (headD_mem _ _)) (List.Perm.refl _))
      (inL (List.mem_append_left _ (getLastD_mem _ _)) (List.Perm.refl _))
    refine ⟨_, _, na, nb, hna, hnb, by rw [if_neg hk]; exact e, hc, p.nodup_iff.mpr nd',
      p.trans pAB, fun x hx => cyc_ring hc hx, fr.key, fr.off⟩

/-- The witness of C15: two nodes with the keys 3 and 2, each a one-node circular list;
`_merge` of the first with the second returns the second and makes one list of them. -/
theorem merge_splices_lists_witness :
    Cyc (_create_node (_create_node Store.empty 3).1 2).1 [0] ∧
    Cyc (_create_node (_create_node Store.empty 3).1 2).1 [1] ∧
    ∃ s' L', _merge (_create_node (_create_node Store.empty 3).1 2).1 (some 0) (some 1) =
        .ok (s', some 1) ∧ Cyc s' L' ∧ L'.Perm ([0] ++ [1]) := by
  have hA : Cyc (_create_node (_create_node Store.empty 3).1 2).1 [0] := by
    rw [cyc_singleton]; exact ⟨rfl, rfl⟩
  have hB : Cyc (_create_node (_create_node Store.empty 3).1 2).1 [1] := by
    rw [cyc_singleton]; exact ⟨rfl, rfl⟩
  obtain ⟨s', L', na, nb, hna, hnb, e, hc, -, hp, -⟩ :=
    merge_splices_lists.2.2 _ 0 1 [0] [1] hA hB (by decide) (by simp) (by simp)
  have h0 : (_create_node (_create_node Store.empty 3).1 2).1.cells 0 =
      some ⟨3, some 0, some 0, none, none, 0, false⟩ := rfl
  have h1 : (_create_node (_create_node Store.empty 3).1 2).1.cells 1 =
      some ⟨2, some 1, some 1, none, none, 0, false⟩ := rfl
  rw [h0] at hna; cases hna
  rw [h1] at hnb; cases hnb
  exact ⟨hA, hB, s', L', e, hc, hp⟩


/-- C12: in every world reachable by the constructor, `insert`, `merge` (of two
different heaps) and `extract_min`, for every heap: every node of the root list has a
null parent; and for every node `x` of the heap, `x->left->right == x` and
`x->right->left == x`, `x->degree` is the number of nodes of the circular list entered
at `x->child` (`x->child` is null exactly when the degree is 0), and every node of that
list has `x` as its parent. -/
theorem structure_invariants {s : Store} {hs : List FibHeap} (r : Reach s hs) :
    ∀ h ∈ hs,
      (∀ x ∈ rootList s h, ∃ n, s.cells x = some n ∧ n.parent = none) ∧
      (∀ x ∈ nodesOf s h, ∃ n, s.cells x = some n ∧
        (∃ l nl, n.left = some l ∧ s.cells l = some nl ∧ nl.right = some x) ∧
        (∃ r nr, n.right = some r ∧ s.cells r = some nr ∧ nr.left = some x) ∧
        n.degree = ((childrenOf s x).length : Int) ∧ (n.child = none ↔ n.degree = 0) ∧
        ∀ c ∈ childrenOf s x, ∃ nc, s.cells c = some nc ∧ nc.parent = some x) := by
  intro h hh
  obtain ⟨f, w⟩ := (reach_winv r).1 h hh
  obtain ⟨h1, h2⟩ := wf_struct w
  refine ⟨h1, fun x hx => ?_⟩
  obtain ⟨n, hn, hl, hc⟩ := h2 x hx
  exact ⟨n, hn, hl.1, hl.2, hc.1, hc.2.1, hc.2.2⟩

/-- The witness of C12: the world reached by inserting 10, 11, 12, 13, 0 into a new heap
and calling `extract_min`: its heap is the root at address `0` with the children at `1`
and `3`, and the node at `1` has the child at `2`. -/
theorem structure_invariants_witness :
    ∃ s h, Reach s [h] ∧ rootList s h = [0] ∧ nodesOf s h = [0, 1, 2, 3] ∧
      childrenOf s 0 = [1, 3] ∧ childrenOf s 1 = [2] ∧
      ∀ x ∈ nodesOf s h, ∃ n, s.cells x = some n ∧
        (∃ l nl, n.left = some l ∧ s.cells l = some nl ∧ nl.right = some x) ∧
        (∃ r nr, n.right = some r ∧ s.cells r = some nr ∧ nr.left = some x) ∧
        n.degree = ((childrenOf s x).length : Int) ∧ (n.child = none ↔ n.degree = 0) ∧
        ∀ c ∈ childrenOf s x, ∃ nc, s.cells c = some nc ∧ nc.parent = some x := by
  have r₀ : Reach Store.empty [FibHeap.empty] := Reach.create Reach.init
  have r₁ := @Reach.insert _ _ _ _ _ 10 _ r₀ rfl
  have r₂ := @Reach.insert _ _ _ _ _ 11 _ r₁ rfl
  have r₃ := @Reach.insert _ _ _ _ _ 12 _ r₂ rfl
  have r₄ := @Reach.insert _ _ _ _ _ 13 _ r₃ rfl
  have r₅ := @Reach.insert _ _ _ _ _ 0 _ r₄ rfl
  have r₆ := @Reach.extract _ _ _ _ _ 20 _ r₅ rfl
  exact ⟨_, _, r₆, rfl, rfl, rfl, rfl,
    (structure_invariants r₆ _ (List.mem_singleton_self _)).2⟩


/-- C13, the case to check: insert 10, 11, 12, 13, 0; `extract_min`; `decrease_key` of
the node holding 12 (address `2`) to 10, which cuts it from the node holding 11
(address `1`) and marks that node; `extract_min`, which removes the root holding 10 and
makes its children roots.  In the world reached the node holding 11 is in the root list,
has no parent, and is marked. -/
theorem roots_can_be_marked :
    ∃ s h X, ReachX s [h] X ∧ rootList s h = [2, 1] ∧
      ∃ n, s.cells 1 = some n ∧ n.key = 11 ∧ n.parent = none ∧ n.mark = true := by
  have r₀ : ReachX Store.empty [FibHeap.empty] _ := ReachX.create ReachX.init
  have r₁ := @ReachX.insert _ _ _ _ _ _ 10 _ r₀ rfl
  have r₂ := @ReachX.insert _ _ _ _ _ _ 11 _ r₁ rfl
  have r₃ := @ReachX.insert _ _ _ _ _ _ 12 _ r₂ rfl
  have r₄ := @ReachX.insert _ _ _ _ _ _ 13 _ r₃ rfl
  have r₅ := @ReachX.insert _ _ _ _ _ _ 0 _ r₄ rfl
  have r₆ := @ReachX.extract _ _ _ _ _ _ 20 _ r₅ rfl
  have r₇ := @ReachX.decrease _ _ _ _ _ _ 20 2 _ 10 r₆ rfl (by decide) rfl
  have r₈ := @ReachX.extract _ _ _ _ _ _ 20 _ r₇ rfl
  exact ⟨_, _, _, r₈, rfl, _, rfl, rfl, rfl, rfl⟩

/-- C13 as amended: in every world reachable by the constructor, `insert`, `extract_min`
and `decrease_key(x, newKey)` on an allocated node with `newKey <= x->key`, a node with
a null parent is marked only if a call of `extract_min` has turned it from a node with a
parent into a node without one (`_unparent_all` clears `parent` and leaves `mark`).
`insert` and `decrease_key` produce no marked node without parent, and `extract_min`
marks no node. -/
theorem marked_roots_come_from_extract_min :
    (∀ (s : Store) (hs : List FibHeap) (X : Nat → Prop), ReachX s hs X →
      ∀ a n, s.cells a = some n → n.parent = none → n.mark = true → X a) ∧
    (∀ (s s' : Store) (h h' : FibHeap) (k : Int) (p : Option Nat),
      insert s h k = .ok (s', h', p) → NoNewMarkedRoot s s') ∧
    (∀ (s s' : Store) (h h' : FibHeap) (fuel : Nat) (x : Option Nat) (newKey : Int),
      decrease_key fuel s h x newKey = .ok (s', h') → NoNewMarkedRoot s s') ∧
    (∀ (s s' : Store) (h h' : FibHeap) (fuel : Nat) (k : Int),
      extract_min fuel s h = .ok (s', h', k) → NoNewMark s s') :=
  ⟨fun _ _ _ r => reachX_inv r, fun _ _ _ _ _ _ e => (calm_insert e).noNewMarkedRoot,
    fun _ _ _ _ _ _ _ e => noNewMarkedRoot_decrease_key e,
    fun _ _ _ _ _ _ e => noNewMark_extract_min e⟩

/-- The witness of C13 as amended: in the world of the case to check, the marked root at
address `1` had the parent at address `0` before the second `extract_min` and has none
after it. -/
theorem marked_roots_come_from_extract_min_witness :
    ∃ s h X, ReachX s [h] X ∧
      (∃ n, s.cells 1 = some n ∧ n.parent = none ∧ n.mark = true) ∧ X 1 := by
  have r₀ : ReachX Store.empty [FibHeap.empty] _ := ReachX.create ReachX.init
  have r₁ := @ReachX.insert _ _ _ _ _ _ 10 _ r₀ rfl
  have r₂ := @ReachX.insert _ _ _ _ _ _ 11 _ r₁ rfl
  have r₃ := @ReachX.insert _ _ _ _ _ _ 12 _ r₂ rfl
  have r₄ := @ReachX.insert _ _ _ _ _ _ 13 _ r₃ rfl
  have r₅ := @ReachX.insert _ _ _ _ _ _ 0 _ r₄ rfl
  have r₆ := @ReachX.extract _ _ _ _ _ _ 20 _ r₅ rfl
  have r₇ := @ReachX.decrease _ _ _ _ _ _ 20 2 _ 10 r₆ rfl (by decide) rfl
  have r₈ := @ReachX.extract _ _ _ _ _ _ 20 _ r₇ rfl
  exact ⟨_, _, _, r₈, ⟨_, rfl, rfl, rfl⟩,
    marked_roots_come_from_extract_min.1 _ _ _ r₈ 1 _ rfl rfl rfl⟩


/-- C16: in every world reachable by the constructor, `insert`, `merge` (of two different
heaps) and `extract_min`, for every heap `h`:
* `extract_min` on `h`, when `h` is not empty, returns (given fuel for twice the number
  of nodes plus one loop turns);
* when `h` has at least two nodes, `extract_min` enters `_consolidate` in a state of the
  scan, and there the scan loop returns, the loop that looks for the minimum returns, and
  so does `_consolidate`.
Moreover, in every state of the scan, one turn of the scan loop ends its inner loop at a
root `x₁` with `d₁ = x₁->degree`, and the scan stops in that turn exactly when `x₁` is
the node stored in bucket `d₁`; otherwise it goes on, at `x₁->right`, in a state of the
scan. -/
theorem consolidate_terminates :
    (∀ (s : Store) (hs : List FibHeap), Reach s hs → ∀ h ∈ hs,
      (∀ fuel, h.m_numOfNodes ≠ 0 → 2 * (nodesOf s h).length + 1 ≤ fuel →
        ∃ s' h' k, extract_min fuel s h = .ok (s', h', k)) ∧
      (∀ fuel, 2 ≤ (nodesOf s h).length → 2 * (nodesOf s h).length + 1 ≤ fuel →
        ∃ s₃ x dn s₄ x' m,
          consolidateEntry fuel s h = .ok (s₃, ⟨some x, h.m_numOfNodes⟩) ∧
          Dn h.m_numOfNodes = .ok dn ∧
          ScanInv s₃ (List.replicate (dn + 1) none) x (nodesOf s h).length ∧
          consolidateLoop fuel s₃ (List.replicate (dn + 1) none) (some x) = .ok (s₄, x') ∧
          minScanLoop x' fuel s₄ x' x' = .ok m ∧
          _consolidate fuel s₃ ⟨some x, h.m_numOfNodes⟩ = .ok (s₄, ⟨m, h.m_numOfNodes⟩))) ∧
    (∀ (s : Store) (A : List (Option Nat)) (x N fuel : Nat), ScanInv s A x N → N ≤ fuel + 1 →
      ∃ nx s₁ A₁ x₁ d₁ flag, s.cells x = some nx ∧
        consolidateInner (fuel + 1) s A (some x) nx.degree =
          .ok (s₁, A₁, some x₁, ((d₁ : Nat) : Int), flag) ∧
        s₁.deg x₁ = some (d₁ : Int) ∧ (flag = true ↔ A₁.get? d₁ = some (some x₁)) ∧
        (flag = true → consolidateLoop (fuel + 1) s A (some x) = .ok (s₁, some x₁)) ∧
        (flag = false → ∃ x₂, s₁.rgt x₁ = some x₂ ∧ ScanInv s₁ (A₁.set d₁ (some x₁)) x₂ N ∧
          consolidateLoop (fuel + 1) s A (some x) =
            consolidateLoop fuel s₁ (A₁.set d₁ (some x₁)) (some x₂))) := by
  refine ⟨fun s hs r h hh => ?_, fun s A x N fuel hi hf => scan_turn hi hf⟩
  obtain ⟨f, w⟩ := (reach_winv r).1 h hh
  rw [nodesOf_wf w]
  refine ⟨fun fuel hne hf => ?_, fun fuel h2 hf => ?_⟩
  · have hfn : f ≠ .nil := by
      intro e
      apply hne
      rw [w.size, e]; rfl
    obtain ⟨s', h', f', m, k, -, -, e, -⟩ := wf_extract_min w hfn hf
    exact ⟨s', h', k, e⟩
  · obtain ⟨s₃, x, G, e, sh, hx, hlen⟩ := wf_consolidate_entry w h2 hf
    have small : G.addrs.length < f.addrs.length := by omega
    obtain ⟨s₄, G', m, hcons, -⟩ :=
      consolidate_spec sh hx small (show 2 * G.addrs.length + 1 ≤ fuel by omega)
    have hN : h.m_numOfNodes = ((f.addrs.length : Nat) : Int) := w.size
    have hdn := dn_ok (show 0 < f.addrs.length by omega)
    have hrun := hcons
    simp only [_consolidate, bind, bind_ok', hdn] at hrun
    obtain ⟨dn, h1, res, h2', m', h3, h4⟩ := hrun
    cases h1
    obtain ⟨s₄', x'⟩ := res
    simp only [pure, Except.pure, Except.ok.injEq, Prod.mk.injEq, FibHeap.mk.injEq,
      and_true] at h4
    obtain ⟨rfl, rfl⟩ := h4
    refine ⟨s₃, x, dnVal f.addrs.length, s₄', x', some m, e, by rw [hN]; exact hdn,
      scanInv_start sh hx small, h2', h3, by rw [hN]; exact hcons⟩

/-- The witness of C16: the world reached by inserting 10, 11, 12, 13, 0 into a new heap;
`extract_min` on its heap of 5 nodes returns, entering `_consolidate` on the way. -/
theorem consolidate_terminates_witness :
    ∃ s h, Reach s [h] ∧ (nodesOf s h).length = 5 ∧
      (∃ s' h' k, extract_min 11 s h = .ok (s', h', k)) ∧
      (∃ s₃ x dn s₄ x' m,
        consolidateEntry 11 s h = .ok (s₃, ⟨some x, h.m_numOfNodes⟩) ∧
        Dn h.m_numOfNodes = .ok dn ∧
        ScanInv s₃ (List.replicate (dn + 1) none) x (nodesOf s h).length ∧
        consolidateLoop 11 s₃ (List.replicate (dn + 1) none) (some x) = .ok (s₄, x') ∧
        minScanLoop x' 11 s₄ x' x' = .ok m ∧
        _consolidate 11 s₃ ⟨some x, h.m_numOfNodes⟩ = .ok (s₄, ⟨m, h.m_numOfNodes⟩)) := by
  have r₀ : Reach Store.empty [FibHeap.empty] := Reach.create Reach.init
  have r₁ := @Reach.insert _ _ _ _ _ 10 _ r₀ rfl
  have r₂ := @Reach.insert _ _ _ _ _ 11 _ r₁ rfl
  have r₃ := @Reach.insert _ _ _ _ _ 12 _ r₂ rfl
  have r₄ := @Reach.insert _ _ _ _ _ 13 _ r₃ rfl
  have r₅ := @Reach.insert _ _ _ _ _ 0 _ r₄ rfl
  have key := consolidate_terminates.1 _ _ r₅ _ (List.mem_singleton_self _)
  exact ⟨_, _, r₅, rfl, key.1 11 (by decide) (by decide), key.2 11 (by decide) (by decide)⟩


/-- C17: the accesses to the bucket array `A` of `_consolidate` stay inside the array.
* Reading or writing `A[d]` leaves the defined behaviour exactly when `d` is not an index
  of `A`, that is unless `0 ≤ d < A.length`.
* A run of the inner loop that is entered with index `d` and left with index `d'` has
  `0 ≤ d ≤ d' < A.length`, and the array keeps its length.
* In every world reachable by the constructor, `insert`, `merge` (of two different heaps)
  and `extract_min`, for every heap `h` of `n` nodes: `m_numOfNodes` is `n`; every root of
  degree `d` heads a tree of exactly `2^d` nodes, and `d ≤ floor(log2 n) ≤ Dn`; and when
  `n ≥ 2`, `extract_min` enters `_consolidate` in a state of the scan with an array of
  `Dn + 1` empty buckets, `Dn` being the integer part of `log n / log 1.618`, and the scan
  and `extract_min` return, so that no access has left the array.
* In every state of the scan for `m_numOfNodes = N` the array has `Dn + 1` entries, and one
  turn of the scan loop uses the indices from `x->degree ≥ 0` up to some `d₁ ≤ Dn` in its
  inner loop, `d₁` being the degree of the root found, at which the bucket is written. -/
theorem bucket_indices_in_bounds :
    (∀ (A : List (Option Nat)) (d : Int) (v : Option Nat),
      (readA A d = .error .outOfBounds ↔ ¬ (0 ≤ d ∧ d < A.length)) ∧
      (writeA A d v = .error .outOfBounds ↔ ¬ (0 ≤ d ∧ d < A.length)) ∧
      (0 ≤ d → d < A.length → ∃ a A', readA A d = .ok a ∧ writeA A d v = .ok A')) ∧
    (∀ (fuel : Nat) (s : Store) (A : List (Option Nat)) (x : Option Nat) (d : Int) (s' : Store)
      (A' : List (Option Nat)) (x' : Option Nat) (d' : Int) (flag : Bool),
      consolidateInner fuel s A x d = .ok (s', A', x', d', flag) →
      0 ≤ d ∧ d ≤ d' ∧ d' < A.length ∧ A'.length = A.length) ∧
    (∀ (s : Store) (hs : List FibHeap), Reach s hs → ∀ h ∈ hs,
      h.m_numOfNodes = ((nodesOf s h).length : Int) ∧
      (∀ x ∈ rootList s h, ∃ d : Nat, s.deg x = some (d : Int) ∧
        (treeOf s x).length = 2 ^ d ∧ d ≤ Nat.log 2 (nodesOf s h).length ∧
        Nat.log 2 (nodesOf s h).length ≤ dnVal (nodesOf s h).length) ∧
      (∀ fuel, 2 ≤ (nodesOf s h).length → 2 * (nodesOf s h).length + 1 ≤ fuel →
        ∃ s₃ x s₄ x' s' h' k,
          consolidateEntry fuel s h = .ok (s₃, ⟨some x, h.m_numOfNodes⟩) ∧
          Dn h.m_numOfNodes = .ok (dnVal (nodesOf s h).length) ∧
          ScanInv s₃ (List.replicate (dnVal (nodesOf s h).length + 1) none) x
            (nodesOf s h).length ∧
          consolidateLoop fuel s₃ (List.replicate (dnVal (nodesOf s h).length + 1) none)
            (some x) = .ok (s₄, x') ∧
          extract_min fuel s h = .ok (s', h', k))) ∧
    (∀ (s : Store) (A : List (Option Nat)) (x N fuel : Nat), ScanInv s A x N → N ≤ fuel + 1 →
      A.length = dnVal N + 1 ∧
      ∃ nx s₁ A₁ x₁ d₁ flag A₂, s.cells x = some nx ∧
        consolidateInner (fuel + 1) s A (some x) nx.degree =
          .ok (s₁, A₁, some x₁, ((d₁ : Nat) : Int), flag) ∧
        0 ≤ nx.degree ∧ nx.degree ≤ (d₁ : Int) ∧ d₁ ≤ dnVal N ∧ A₁.length = dnVal N + 1 ∧
        s₁.deg x₁ = some (d₁ : Int) ∧ writeA A₁ (d₁ : Int) (some x₁) = .ok A₂) := by
  refine ⟨fun A d v => ?_, inner_index_range, fun s hs r h hh => ?_,
    fun s A x N fuel hi hf => ?_⟩
  · by_cases h0 : d < 0
    · refine ⟨?_, ?_, fun h1 _ => absurd h0 (by omega)⟩
      · simp only [readA, h0, if_true, true_iff]; omega
      · simp only [writeA, h0, if_true, true_iff]; omega
    · have hd : 0 ≤ d := by omega
      by_cases h1 : d.toNat < A.length
      · have h1' : d < A.length := by omega
        obtain ⟨a, -, ha⟩ := readA_ok (A := A) h1
        have hr : readA A d = .ok a := by
          have e : ((d.toNat : Nat) : Int) = d := Int.toNat_of_nonneg hd
          rw [← e]; exact ha
        have hw : writeA A d v = .ok (A.set d.toNat v) := by
          simp only [writeA, h0, if_false, h1, if_true]; rfl
        refine ⟨?_, ?_, fun _ _ => ⟨a, _, hr, hw⟩⟩
        · rw [hr]
          simp only [reduceCtorEq, false_iff, not_not]
          exact ⟨hd, h1'⟩
        · rw [hw]
          simp only [reduceCtorEq, false_iff, not_not]
          exact ⟨hd, h1'⟩
      · have h1' : ¬ d < A.length := by omega
        refine ⟨?_, ?_, fun _ h2 => absurd h2 h1'⟩
        · simp only [readA, h0, if_false, List.get?_eq_none.mpr (not_lt.mp h1), true_iff]
          omega
        · simp only [writeA, h0, if_false, h1, true_iff]
          omega
  · obtain ⟨f, w, b⟩ := reach_binom r h hh
    refine ⟨by rw [nodesOf_wf w]; exact w.size, fun x hx => root_tree_size w b hx, ?_⟩
    rw [nodesOf_wf w]
    intro fuel h2 hf
    have hfn : f ≠ .nil := by
      rintro rfl
      simp at h2
    obtain ⟨s', h', f', m, k, -, -, e, -⟩ := wf_extract_min w hfn hf
    obtain ⟨s₃, x, G, e₃, sh, hx, hlen⟩ := wf_consolidate_entry w h2 hf
    have small : G.addrs.length < f.addrs.length := by omega
    obtain ⟨s₄, G', m', hcons, -⟩ :=
      consolidate_spec sh hx small (show 2 * G.addrs.length + 1 ≤ fuel by omega)
    have hN : h.m_numOfNodes = ((f.addrs.length : Nat) : Int) := w.size
    have hdn := dn_ok (show 0 < f.addrs.length by omega)
    have hrun := hcons
    simp only [_consolidate, bind, bind_ok', hdn] at hrun
    obtain ⟨dn, h1, res, h2', -⟩ := hrun
    cases h1
    obtain ⟨s₄', x'⟩ := res
    exact ⟨s₃, x, s₄', x', s', h', k, e₃, by rw [hN]; exact hdn, scanInv_start sh hx small,
      h2', e⟩
  · obtain ⟨nx, s₁, A₁, x₁, d₁, flag, hnx, hrun, hd₁, -⟩ := scan_turn hi hf
    obtain ⟨g, B, c, hx⟩ := hi
    obtain ⟨h1, h2, h3, h4⟩ := inner_index_range _ _ _ _ _ _ _ _ _ _ hrun
    have hlen := c.len
    have hlt : d₁ < A₁.length := by rw [h4]; exact_mod_cast h3
    refine ⟨hlen, nx, s₁, A₁, x₁, d₁, flag, _, hnx, hrun, h1, h2, ?_, by rw [h4, hlen], hd₁,
      writeA_ok hlt _⟩
    rw [h4, hlen] at hlt
    omega

/-- The witness of C17: the world reached by inserting 10, 11, 12, 13, 0 into a new heap
and calling `extract_min`; its heap has 4 nodes in one tree, the root has degree 2 and
heads a tree of `2^2` nodes, and the next `extract_min` enters `_consolidate` with
`Dn = 2` and returns. -/
theorem bucket_indices_in_bounds_witness :
    ∃ s h, Reach s [h] ∧ (nodesOf s h).length = 4 ∧ rootList s h = [0] ∧
      (∀ x ∈ rootList s h, ∃ d : Nat, s.deg x = some (d : Int) ∧
        (treeOf s x).length = 2 ^ d ∧ d ≤ Nat.log 2 (nodesOf s h).length ∧
        Nat.log 2 (nodesOf s h).length ≤ dnVal (nodesOf s h).length) ∧
      (∃ s₃ x s₄ x' s' h' k,
        consolidateEntry 9 s h = .ok (s₃, ⟨some x, h.m_numOfNodes⟩) ∧
        Dn h.m_numOfNodes = .ok (dnVal (nodesOf s h).length) ∧
        ScanInv s₃ (List.replicate (dnVal (nodesOf s h).length + 1) none) x
          (nodesOf s h).length ∧
        consolidateLoop 9 s₃ (List.replicate (dnVal (nodesOf s h).length + 1) none)
          (some x) = .ok (s₄, x') ∧
        extract_min 9 s h = .ok (s', h', k)) := by
  have r₀ : Reach Store.empty [FibHeap.empty] := Reach.create Reach.init
  have r₁ := @Reach.insert _ _ _ _ _ 10 _ r₀ rfl
  have r₂ := @Reach.insert _ _ _ _ _ 11 _ r₁ rfl
  have r₃ := @Reach.insert _ _ _ _ _ 12 _ r₂ rfl
  have r₄ := @Reach.insert _ _ _ _ _ 13 _ r₃ rfl
  have r₅ := @Reach.insert _ _ _ _ _ 0 _ r₄ rfl
  have r₆ := @Reach.extract _ _ _ _ _ 11 _ r₅ rfl
  have key := bucket_indices_in_bounds.2.2.1 _ _ r₆ _ (List.mem_singleton_self _)
  exact ⟨_, _, r₆, rfl, rfl, key.2.1, key.2.2 9 (by decide) (by decide)⟩

end Lab8

namespace Lab3

/-! ## Splay tree: stores -/

theorem patch_apply {T : Type} (s : Mem T) (a : Nat) (f : Node T → Node T) (x : Nat) :
    patch s a f x = if x = a then (s a).map f else s x := rfl

theorem patcho_apply {T : Type} (s : Mem T) (v : Option Nat) (f : Node T → Node T)
    (x : Nat) : patcho s v f x = if v = some x then (s x).map f else s x := by
  cases v with
  | none => simp [patcho]
  | some c =>
    simp only [patcho, patch_apply, Option.some.injEq]
    by_cases h : x = c
    · subst h; simp
    · simp [h, Ne.symm h]

theorem isSome_patch {T : Type} (s : Mem T) (a : Nat) (f : Node T → Node T) (x : Nat) :
    (patch s a f x).isSome = (s x).isSome := by
  simp only [patch_apply]
  split
  · next h => subst h; cases s x <;> rfl
  · rfl

theorem isSome_patcho {T : Type} (s : Mem T) (v : Option Nat) (f : Node T → Node T) (x : Nat) :
    (patcho s v f x).isSome = (s x).isSome := by
  cases v with
  | none => rfl
  | some c => exact isSome_patch s c f x

theorem alive_patch {T : Type} (s : Mem T) (a : Nat) (f : Node T → Node T) (v : Option Nat) :
    alive (patch s a f) v = alive s v := by
  cases v with
  | none => rfl
  | some c => exact isSome_patch s a f c

theorem alive_patcho {T : Type} (s : Mem T) (w : Option Nat) (f : Node T → Node T)
    (v : Option Nat) : alive (patcho s w f) v = alive s v := by
  cases v with
  | none => rfl
  | some c => exact isSome_patcho s w f c

theorem alive_some {T : Type} (s : Mem T) (c : Nat) : alive s (some c) = (s c).isSome := rfl

theorem amend_eval {T : Type} {s : Mem T} {x : Nat} (f : Node T → Node T)
    (h : (s x).isSome = true) : amend s (some x) f = .ok (patch s x f) := by
  obtain ⟨n, hn⟩ := Option.isSome_iff_exists.mp h
  simp [amend, hn]

theorem assigned_apply {T : Type} (s : Mem T) (a : Nat) (m : Member) (v np : Option Nat)
    (x : Nat) : assigned s a m v np x =
      if v = some x then (if x = a then (s a).map (m.assign v) else s x).map
        (fun n => { n with parent := np })
      else if x = a then (s a).map (m.assign v) else s x := by
  simp only [assigned, patcho_apply, patch_apply]

theorem isSome_assigned {T : Type} (s : Mem T) (a : Nat) (m : Member) (v np : Option Nat)
    (x : Nat) : (assigned s a m v np x).isSome = (s x).isSome := by
  simp only [assigned, isSome_patcho, isSome_patch]

theorem alive_assigned {T : Type} (s : Mem T) (a : Nat) (m : Member) (v np w : Option Nat) :
    alive (assigned s a m v np) w = alive s w := by
  simp only [assigned, alive_patcho, alive_patch]

theorem set_eval {T : Type} {s : Mem T} {x : Nat} (m : Member) (v np : Option Nat)
    (h : (s x).isSome = true) (hv : alive s v = true) :
    set s (some x) m v np = .ok (assigned s x m v np) := by
  simp only [set, amend_eval _ h, bind, Except.bind, assigned]
  cases v with
  | none => rfl
  | some c =>
    have : ((patch s x (m.assign (some c))) c).isSome = true := by
      rw [isSome_patch]; exact hv
    simp [amend_eval _ this, patcho]

theorem data_patch {T : Type} (s : Mem T) (a : Nat) (f : Node T → Node T)
    (hf : ∀ n, (f n).data = n.data) (x : Nat) :
    (patch s a f x).map Node.data = (s x).map Node.data := by
  simp only [patch_apply]
  split
  · next h =>
    subst h
    cases s x <;> simp [hf]
  · rfl

theorem data_patcho {T : Type} (s : Mem T) (v : Option Nat) (f : Node T → Node T)
    (hf : ∀ n, (f n).data = n.data) (x : Nat) :
    (patcho s v f x).map Node.data = (s x).map Node.data := by
  cases v with
  | none => rfl
  | some c => exact data_patch s c f hf x

theorem data_assign {T : Type} (m : Member) (v : Option Nat) (n : Node T) :
    (m.assign v n).data = n.data := by
  cases m <;> rfl

theorem data_patch_assign {T : Type} (s : Mem T) (a : Nat) (m : Member) (v : Option Nat)
    (x : Nat) : (patch s a (m.assign v) x).map Node.data = (s x).map Node.data :=
  data_patch s a _ (data_assign m v) x

theorem data_patch_parent {T : Type} (s : Mem T) (a : Nat) (v : Option Nat) (x : Nat) :
    (patch s a (fun n => { n with parent := v }) x).map Node.data = (s x).map Node.data :=
  data_patch s a (fun n => { n with parent := v }) (fun _ => rfl) x

theorem data_patcho_parent {T : Type} (s : Mem T) (w v : Option Nat) (x : Nat) :
    (patcho s w (fun n => { n with parent := v }) x).map Node.data = (s x).map Node.data :=
  data_patcho s w (fun n => { n with parent := v }) (fun _ => rfl) x

theorem data_assigned {T : Type} (s : Mem T) (a : Nat) (m : Member) (v np : Option Nat)
    (x : Nat) : (assigned s a m v np x).map Node.data = (s x).map Node.data := by
  simp only [assigned, data_patcho_parent, data_patch_assign]

/-! ## Splay tree: lists without repetition -/

theorem blocks_disjoint {Ls : List (List Nat)} (nd : Ls.flatten.Nodup) (i j : Nat) (hij : i < j)
    {X Y : List Nat} (hi : Ls.get? i = some X) (hj : Ls.get? j = some Y) : X.Disjoint Y := by
  have hp := (List.nodup_flatten.mp nd).2
  obtain ⟨hi', ei⟩ := List.get?_eq_some.mp hi
  obtain ⟨hj', ej⟩ := List.get?_eq_some.mp hj
  have := List.pairwise_iff_getElem.mp hp i j hi' hj' hij
  rw [← ei, ← ej]
  exact this

theorem blocks_nodup {Ls : List (List Nat)} (nd : Ls.flatten.Nodup) (i : Nat)
    {X : List Nat} (hi : Ls.get? i = some X) : X.Nodup :=
  (List.nodup_flatten.mp nd).1 X (List.get?_mem hi)

/-! ## Splay tree: trees in the store -/

@[simp] theorem root_nil : Tree.nil.root = none := rfl

@[simp] theorem root_node (l : Tree) (a : Nat) (r : Tree) : (Tree.node l a r).root = some a := rfl

@[simp] theorem inorder_nil : Tree.nil.inorder = [] := rfl

@[simp] theorem inorder_node (l : Tree) (a : Nat) (r : Tree) :
    (Tree.node l a r).inorder = l.inorder ++ a :: r.inorder := rfl

theorem root_mem {t : Tree} {c : Nat} (h : t.root = some c) : c ∈ t.inorder := by
  cases t with
  | nil => cases h
  | node l a r =>
    simp only [root_node, Option.some.injEq] at h
    subst h
    simp

theorem root_ne {t : Tree} {x : Nat} (h : x ∉ t.inorder) : t.root ≠ some x :=
  fun e => h (root_mem e)

theorem laid_alive {T : Type} {s : Mem T} {par : Option Nat} {t : Tree} (h : Laid s par t) :
    alive s t.root = true := by
  cases t with
  | nil => rfl
  | node l a r =>
    obtain ⟨⟨d, hd⟩, -, -⟩ := h
    simp [alive, hd]

/-- A tree stays laid out when the cells of its nodes stay. -/
theorem laid_congr {T : Type} {s s' : Mem T} : ∀ {t : Tree} {par : Option Nat}, Laid s par t →
    (∀ x ∈ t.inorder, s' x = s x) → Laid s' par t := by
  intro t
  induction t with
  | nil => intro _ _ _; trivial
  | node l a r ihl ihr =>
    intro par h hs
    obtain ⟨⟨d, hd⟩, hl, hr⟩ := h
    refine ⟨⟨d, by rw [hs a (by simp), hd]⟩, ihl hl (fun x hx => hs x ?_),
      ihr hr (fun x hx => hs x ?_)⟩
    · simp [hx]
    · simp [hx]

/-- A tree is laid out below a new parent when the `parent` member of its root is set
and the other cells of its nodes stay. -/
theorem laid_root {T : Type} {s s' : Mem T} {t : Tree} {par par' : Option Nat}
    (h : Laid s par t) (nd : t.inorder.Nodup)
    (hr : ∀ c, t.root = some c → s' c = (s c).map (fun n => { n with parent := par' }))
    (hs : ∀ x ∈ t.inorder, t.root ≠ some x → s' x = s x) : Laid s' par' t := by
  cases t with
  | nil => trivial
  | node l a r =>
    obtain ⟨⟨d, hd⟩, hl, hr'⟩ := h
    simp only [inorder_node, inorder_nil, List.nodup_append, List.nodup_cons, List.disjoint_cons_right] at nd
    obtain ⟨-, ⟨har, -⟩, hal, -⟩ := nd
    refine ⟨⟨d, by rw [hr a rfl, hd]; rfl⟩, laid_congr hl (fun x hx => hs x ?_ ?_),
      laid_congr hr' (fun x hx => hs x ?_ ?_)⟩
    · simp [hx]
    · simp only [root_node, ne_eq, Option.some.injEq]
      rintro rfl; exact hal hx
    · simp [hx]
    · simp only [root_node, ne_eq, Option.some.injEq]
      rintro rfl; exact har hx

/-! ## Splay tree: paths -/

theorem inorder_plug : ∀ (c : List Crumb) (t : Tree),
    (plug c t).inorder = ctxL c ++ t.inorder ++ ctxR c := by
  intro c
  induction c with
  | nil => intro t; simp [plug, ctxL, ctxR]
  | cons f c ih =>
    intro t
    obtain ⟨dir, p, sib⟩ := f
    cases dir with
    | L => simp [plug, ctxL, ctxR, ih, List.append_assoc]
    | R => simp [plug, ctxL, ctxR, ih, List.append_assoc]

/-- Every node of a tree is the root of a subtree at the end of a path. -/
theorem plug_of_mem : ∀ (t : Tree) (n : Nat), n ∈ t.inorder →
    ∃ c a b, t = plug c (.node a n b) := by
  intro t
  induction t with
  | nil => intro n h; simp at h
  | node l x r ihl ihr =>
    intro n h
    simp only [inorder_node, List.mem_append, List.mem_cons] at h
    rcases h with h | rfl | h
    · obtain ⟨c, a, b, e⟩ := ihl n h
      refine ⟨c ++ [⟨.L, x, r⟩], a, b, ?_⟩
      rw [e]
      clear e
      generalize Tree.node a n b = u
      induction c generalizing u with
      | nil => rfl
      | cons f c ih =>
        obtain ⟨dir, p, sib⟩ := f
        cases dir <;> simp only [List.cons_append, plug] <;> exact ih _
    · exact ⟨[], l, r, rfl⟩
    · obtain ⟨c, a, b, e⟩ := ihr n h
      refine ⟨c ++ [⟨.R, x, l⟩], a, b, ?_⟩
      rw [e]
      clear e
      generalize Tree.node a n b = u
      induction c generalizing u with
      | nil => rfl
      | cons f c ih =>
        obtain ⟨dir, p, sib⟩ := f
        cases dir <;> simp only [List.cons_append, plug] <;> exact ih _

/-- The subtree at the end of a path of a laid-out tree: it is laid out below its parent,
which is not one of its nodes and points to it. -/
theorem plug_focus {T : Type} {s : Mem T} : ∀ (c : List Crumb) (t : Tree),
    Laid s none (plug c t) → (plug c t).inorder.Nodup →
    Laid s (ctxPar c) t ∧ t.inorder.Nodup ∧
      ∀ q, ctxPar c = some q → q ∉ t.inorder ∧
        ∃ d l r pp, s q = some ⟨d, l, r, pp⟩ ∧ (l = t.root ∨ (l ≠ t.root ∧ r = t.root)) := by
  intro c
  induction c with
  | nil =>
    intro t h nd
    exact ⟨h, nd, fun q hq => by simp [ctxPar] at hq⟩
  | cons f c ih =>
    intro t h nd
    obtain ⟨dir, p, sib⟩ := f
    cases dir with
    | L =>
      obtain ⟨h1, nd1, -⟩ := ih (.node t p sib) h nd
      obtain ⟨⟨d, hd⟩, ht, -⟩ := h1
      simp only [inorder_node, List.nodup_append, List.nodup_cons, List.disjoint_cons_right] at nd1
      refine ⟨ht, nd1.1, fun q hq => ?_⟩
      simp only [ctxPar, Option.some.injEq] at hq
      subst hq
      exact ⟨nd1.2.2.1, d, _, _, _, hd, Or.inl rfl⟩
    | R =>
      obtain ⟨h1, nd1, -⟩ := ih (.node sib p t) h nd
      obtain ⟨⟨d, hd⟩, -, ht⟩ := h1
      simp only [inorder_node, List.nodup_append, List.nodup_cons, List.disjoint_cons_right] at nd1
      refine ⟨ht, nd1.2.1.2, fun q hq => ?_⟩
      simp only [ctxPar, Option.some.injEq] at hq
      subst hq
      refine ⟨nd1.2.1.1, d, _, _, _, hd, ?_⟩
      by_cases e : sib.root = t.root
      · exact Or.inl e
      · exact Or.inr ⟨e, rfl⟩

theorem relinkNode_self {T : Type} (p : Nat) (q : Node T) : relinkNode p p q = q := by
  obtain ⟨d, l, r, pp⟩ := q
  simp only [relinkNode]
  split
  · next h => subst h; rfl
  · split
    · next h => subst h; rfl
    · rfl

/-- The subtree at the end of a path is replaced by a tree of the same nodes, laid out
below the same parent, which now points to the new root: the whole tree is laid out
again. -/
theorem plug_replace {T : Type} {s s' : Mem T} : ∀ (c : List Crumb) (t t' : Tree) (g n : Nat),
    Laid s none (plug c t) → (plug c t).inorder.Nodup → t.root = some g → t'.root = some n →
    Laid s' (ctxPar c) t' → (∀ x, x ∈ t'.inorder ↔ x ∈ t.inorder) →
    (∀ x, x ∉ t.inorder → ctxPar c ≠ some x → s' x = s x) →
    (∀ q, ctxPar c = some q → s' q = (s q).map (relinkNode g n)) →
    Laid s' none (plug c t') := by
  intro c
  induction c with
  | nil => intro t t' g n _ _ _ _ h' _ _ _; exact h'
  | cons f c ih =>
    intro t t' g n h nd hg hn h' hmem hfr hq
    obtain ⟨dir, p, sib⟩ := f
    have hp := hq p rfl
    cases dir with
    | L =>
      obtain ⟨h1, nd1, hc⟩ := plug_focus c (.node t p sib) h nd
      obtain ⟨⟨d, hd⟩, ht, hsib⟩ := h1
      simp only [inorder_node, List.nodup_append, List.nodup_cons, List.disjoint_cons_right] at nd1
      obtain ⟨ndt, ⟨hps, nds⟩, hpt, dts⟩ := nd1
      refine ih (.node t p sib) (.node t' p sib) p p h nd rfl rfl ⟨⟨d, ?_⟩, h', ?_⟩ ?_ ?_ ?_
      · rw [hp, hd, hg, hn]
        simp [relinkNode]
      · refine laid_congr hsib (fun x hx => hfr x (fun hh => dts hh hx) ?_)
        simp only [ctxPar, ne_eq, Option.some.injEq]
        rintro rfl; exact hps hx
      · intro x; simp [hmem]
      · intro x hx _
        simp only [inorder_node, List.mem_append, List.mem_cons, not_or] at hx
        refine hfr x hx.1 ?_
        simp only [ctxPar, ne_eq, Option.some.injEq]
        exact fun e => hx.2.1 e.symm
      · intro q hqc
        obtain ⟨hqn, -⟩ := hc q hqc
        simp only [inorder_node, List.mem_append, List.mem_cons, not_or] at hqn
        rw [hfr q hqn.1 (by
          simp only [ctxPar, ne_eq, Option.some.injEq]
          exact fun e => hqn.2.1 e.symm)]
        cases s q with
        | none => rfl
        | some nq => simp [relinkNode_self]
    | R =>
      obtain ⟨h1, nd1, hc⟩ := plug_focus c (.node sib p t) h nd
      obtain ⟨⟨d, hd⟩, hsib, ht⟩ := h1
      simp only [inorder_node, List.nodup_append, List.nodup_cons, List.disjoint_cons_right] at nd1
      obtain ⟨nds, ⟨hpt, ndt⟩, hps, dst⟩ := nd1
      have hsg : sib.root ≠ some g := root_ne (fun hh => dst hh (root_mem hg))
      refine ih (.node sib p t) (.node sib p t') p p h nd rfl rfl ⟨⟨d, ?_⟩, ?_, h'⟩ ?_ ?_ ?_
      · rw [hp, hd, hg, hn]
        simp [relinkNode, hsg]
      · refine laid_congr hsib (fun x hx => hfr x (fun hh => dst hx hh) ?_)
        simp only [ctxPar, ne_eq, Option.some.injEq]
        rintro rfl; exact hps hx
      · intro x; simp [hmem]
      · intro x hx _
        simp only [inorder_node, List.mem_append, List.mem_cons, not_or] at hx
        refine hfr x hx.2.2 ?_
        simp only [ctxPar, ne_eq, Option.some.injEq]
        exact fun e => hx.2.1 e.symm
      · intro q hqc
        obtain ⟨hqn, -⟩ := hc q hqc
        simp only [inorder_node, List.mem_append, List.mem_cons, not_or] at hqn
        rw [hfr q hqn.2.2 (by
          simp only [ctxPar, ne_eq, Option.some.injEq]
          exact fun e => hqn.2.1 e.symm)]
        cases s q with
        | none => rfl
        | some nq => simp [relinkNode_self]

/-- The first statements of `zigzig` and `zigzag` for a subtree with root `g` at the end
of a path: the parent of `g`, if there is one, is made to point to `n`. -/
theorem relink_eval {T : Type} {s : Mem T} {c : List Crumb} {t : Tree} {g : Nat} (n : Nat)
    (h : Laid s none (plug c t)) (nd : (plug c t).inorder.Nodup) (hg : t.root = some g) :
    ∃ s₀, relink s (some n) (some g) (ctxPar c) = .ok s₀ ∧
      (∀ x, ctxPar c ≠ some x → s₀ x = s x) ∧
      (∀ q, ctxPar c = some q → s₀ q = (s q).map (relinkNode g n)) ∧
      (∀ x, (s₀ x).map Node.data = (s x).map Node.data) := by
  obtain ⟨h1, -, hc⟩ := plug_focus c t h nd
  cases t with
  | nil => simp at hg
  | node l g' r =>
    simp only [root_node, Option.some.injEq] at hg
    subst hg
    obtain ⟨⟨d, hd⟩, -, -⟩ := h1
    cases hq : ctxPar c with
    | none =>
      rw [hq] at hd
      refine ⟨s, ?_, fun _ _ => rfl, fun q hq' => by simp at hq', fun _ => rfl⟩
      simp [relink, isLeftSon, isRightSon, fetch, hd, bind, Except.bind, pure, Except.pure]
    | some q =>
      rw [hq] at hd
      obtain ⟨-, dq, ql, qr, qp, hcq, hlr⟩ := hc q hq
      simp only [root_node] at hlr
      rcases hlr with rfl | ⟨hl, rfl⟩
      · refine ⟨patch s q (fun nq => { nq with left := some n }), ?_, ?_, ?_, ?_⟩
        · simp [relink, isLeftSon, isRightSon, fetch, hd, hcq, bind, Except.bind, pure,
            Except.pure, amend]
        · intro x hx
          have : x ≠ q := fun e => hx (by rw [e])
          simp [patch_apply, this]
        · intro q' hq'
          simp only [Option.some.injEq] at hq'
          subst hq'
          simp [patch_apply, hcq, relinkNode]
        · intro x
          exact data_patch s q (fun nq => { nq with left := some n }) (fun _ => rfl) x
      · refine ⟨patch s q (fun nq => { nq with right := some n }), ?_, ?_, ?_, ?_⟩
        · simp [relink, isLeftSon, isRightSon, fetch, hd, hcq, bind, Except.bind, pure,
            Except.pure, amend, hl]
        · intro x hx
          have : x ≠ q := fun e => hx (by rw [e])
          simp [patch_apply, this]
        · intro q' hq'
          simp only [Option.some.injEq] at hq'
          subst hq'
          simp [patch_apply, hcq, relinkNode, hl]
        · intro x
          exact data_patch s q (fun nq => { nq with right := some n }) (fun _ => rfl) x

/-! ## Splay tree: the rotations -/

/-- `zig` on the left son `n` of the root `p`: the tree is rotated to the right. -/
theorem zig_left {T : Type} {s : Mem T} {a b C : Tree} {n p : Nat}
    (hl : Laid s none (.node (.node a n b) p C))
    (nd : (Tree.node (.node a n b) p C).inorder.Nodup) :
    ∃ s', zig s (some n) = .ok s' ∧ Laid s' none (.node a n (.node b p C)) ∧
      (∀ x, (s' x).map Node.data = (s x).map Node.data) ∧
      (∀ x, x ∉ (Tree.node (.node a n b) p C).inorder → s' x = s x) := by
  simp only [Laid, root_node] at hl
  obtain ⟨⟨dkp, kc_p⟩, ⟨⟨dkn, kc_n⟩, kl_a, kl_b⟩, kl_C⟩ := hl
  have nd' : [a.inorder, [n], b.inorder, [p], C.inorder].flatten.Nodup := by
    simpa [List.flatten, List.append_assoc] using nd
  have e_n_p : n ≠ p := fun e =>
    blocks_disjoint nd' 1 3 (by decide) rfl rfl (List.mem_singleton_self n) (e ▸
        List.mem_singleton_self p)
  have m_n_a : n ∉ a.inorder := fun h =>
    blocks_disjoint nd' 0 1 (by decide) rfl rfl h (List.mem_singleton_self n)
  have r_a_n : a.root ≠ some n := root_ne m_n_a
  have m_n_b : n ∉ b.inorder := fun h =>
    blocks_disjoint nd' 1 2 (by decide) rfl rfl (List.mem_singleton_self n) h
  have r_b_n : b.root ≠ some n := root_ne m_n_b
  have m_n_C : n ∉ C.inorder := fun h =>
    blocks_disjoint nd' 1 4 (by decide) rfl rfl (List.mem_singleton_self n) h
  have r_C_n : C.root ≠ some n := root_ne m_n_C
  have m_p_a : p ∉ a.inorder := fun h =>
    blocks_disjoint nd' 0 3 (by decide) rfl rfl h (List.mem_singleton_self p)
  have r_a_p : a.root ≠ some p := root_ne m_p_a
  have m_p_b : p ∉ b.inorder := fun h =>
    blocks_disjoint nd' 2 3 (by decide) rfl rfl h (List.mem_singleton_self p)
  have r_b_p : b.root ≠ some p := root_ne m_p_b
  have m_p_C : p ∉ C.inorder := fun h =>
    blocks_disjoint nd' 3 4 (by decide) rfl rfl (List.mem_singleton_self p) h
  have r_C_p : C.root ≠ some p := root_ne m_p_C
  have j_a_b : a.inorder.Disjoint b.inorder :=
    blocks_disjoint nd' 0 2 (by decide) rfl rfl
  have j_a_C : a.inorder.Disjoint C.inorder :=
    blocks_disjoint nd' 0 4 (by decide) rfl rfl
  have j_b_C : b.inorder.Disjoint C.inorder :=
    blocks_disjoint nd' 2 4 (by decide) rfl rfl
  have u_b : b.inorder.Nodup := blocks_nodup nd' 2 rfl
  have v_b := laid_alive kl_b
  have hex : zig s (some n) = .ok (patch (assigned (assigned s p .left (b.root) (some p)) n .right
      (some p) (some n)) n (fun nn => { nn with parent := none })) := by
    simp [zig, isLeftSon, isRightSon, fetch, amend_eval, set_eval, isSome_patch, isSome_assigned,
      alive_patch, alive_assigned, alive_some, bind, Except.bind, pure, Except.pure, patch_apply,
      assigned_apply, kc_n, kc_p, e_n_p, Ne.symm e_n_p, r_a_n, r_b_n, r_C_n, r_a_p, r_b_p, r_C_p,
      v_b]
  refine ⟨_, hex, ⟨⟨dkn, ?_⟩, laid_congr kl_a ?_, ⟨⟨dkp, ?_⟩, laid_root kl_b u_b ?_ ?_, laid_congr
      kl_C ?_⟩⟩, ?_, ?_⟩
  · simp [patch_apply, assigned_apply, Member.assign, kc_n, kc_p, e_n_p, Ne.symm e_n_p, r_a_n, r_b_n,
      r_C_n, r_a_p, r_b_p, r_C_p]
  · intro x hx
    have x_n : x ≠ n := fun e => m_n_a (e ▸ hx)
    have x_p : x ≠ p := fun e => m_p_a (e ▸ hx)
    have y_b : b.root ≠ some x := root_ne (fun h => j_a_b hx h)
    simp [patch_apply, assigned_apply, x_n, Ne.symm x_n, x_p, Ne.symm x_p, y_b]
  · simp [patch_apply, assigned_apply, Member.assign, kc_n, kc_p, e_n_p, Ne.symm e_n_p, r_a_n, r_b_n,
      r_C_n, r_a_p, r_b_p, r_C_p]
  · intro x hc
    have hx := root_mem hc
    have x_n : x ≠ n := fun e => m_n_b (e ▸ hx)
    have x_p : x ≠ p := fun e => m_p_b (e ▸ hx)
    simp [patch_apply, assigned_apply, hc, x_n, Ne.symm x_n, x_p, Ne.symm x_p]
  · intro x hx hxr
    have x_n : x ≠ n := fun e => m_n_b (e ▸ hx)
    have x_p : x ≠ p := fun e => m_p_b (e ▸ hx)
    simp [patch_apply, assigned_apply, hxr, x_n, Ne.symm x_n, x_p, Ne.symm x_p]
  · intro x hx
    have x_n : x ≠ n := fun e => m_n_C (e ▸ hx)
    have x_p : x ≠ p := fun e => m_p_C (e ▸ hx)
    have y_b : b.root ≠ some x := root_ne (fun h => j_b_C h hx)
    simp [patch_apply, assigned_apply, x_n, Ne.symm x_n, x_p, Ne.symm x_p, y_b]
  · intro x
    simp only [data_patch_parent, data_assigned]
  · intro x hx
    simp only [inorder_node, List.mem_append, List.mem_cons] at hx
    have x_n : x ≠ n := fun e => hx (by simp [e])
    have x_p : x ≠ p := fun e => hx (by simp [e])
    have y_b : b.root ≠ some x := root_ne (fun h => hx (by simp [h]))
    simp [patch_apply, assigned_apply, x_n, Ne.symm x_n, x_p, Ne.symm x_p, y_b]

/-- The loop of `splay` in the case of `zig_left`: its last turn calls `zig`. -/
theorem zig_left_step {T : Type} {s s' : Mem T} {a b C : Tree} {n p : Nat}
    (hl : Laid s none (.node (.node a n b) p C))
    (nd : (Tree.node (.node a n b) p C).inorder.Nodup)
    (hex : zig s (some n) = .ok s') (fuel : Nat) :
    splayLoop (fuel + 1) s (some n) = .ok (s', some n) := by
  simp only [Laid, root_node] at hl
  obtain ⟨⟨dp, c_p⟩, ⟨⟨dn, c_n⟩, l_a, l_b⟩, l_C⟩ := hl
  have nd' : [a.inorder, [n], b.inorder, [p], C.inorder].flatten.Nodup := by
    simpa [List.flatten, List.append_assoc] using nd
  have e_n_p : n ≠ p := fun e =>
    blocks_disjoint nd' 1 3 (by decide) rfl rfl (List.mem_singleton_self n) (e ▸
        List.mem_singleton_self p)
  have r_a_n : a.root ≠ some n := root_ne (fun h =>
    blocks_disjoint nd' 0 1 (by decide) rfl rfl h (List.mem_singleton_self n))
  have r_b_n : b.root ≠ some n := root_ne (fun h =>
    blocks_disjoint nd' 1 2 (by decide) rfl rfl (List.mem_singleton_self n) h)
  have r_C_n : C.root ≠ some n := root_ne (fun h =>
    blocks_disjoint nd' 1 4 (by decide) rfl rfl (List.mem_singleton_self n) h)
  have r_a_p : a.root ≠ some p := root_ne (fun h =>
    blocks_disjoint nd' 0 3 (by decide) rfl rfl h (List.mem_singleton_self p))
  have r_b_p : b.root ≠ some p := root_ne (fun h =>
    blocks_disjoint nd' 2 3 (by decide) rfl rfl h (List.mem_singleton_self p))
  have r_C_p : C.root ≠ some p := root_ne (fun h =>
    blocks_disjoint nd' 3 4 (by decide) rfl rfl (List.mem_singleton_self p) h)
  simp [splayLoop, hex, isLeftSon, isRightSon, fetch, bind, Except.bind, pure, Except.pure, c_n, c_p,
    e_n_p, Ne.symm e_n_p, r_a_n, r_b_n, r_C_n, r_a_p, r_b_p, r_C_p]

/-- `zig` on the right son `n` of the root `p`: the tree is rotated to the left. -/
theorem zig_right {T : Type} {s : Mem T} {A a b : Tree} {p n : Nat}
    (hl : Laid s none (.node A p (.node a n b)))
    (nd : (Tree.node A p (.node a n b)).inorder.Nodup) :
    ∃ s', zig s (some n) = .ok s' ∧ Laid s' none (.node (.node A p a) n b) ∧
      (∀ x, (s' x).map Node.data = (s x).map Node.data) ∧
      (∀ x, x ∉ (Tree.node A p (.node a n b)).inorder → s' x = s x) := by
  simp only [Laid, root_node] at hl
  obtain ⟨⟨dkp, kc_p⟩, kl_A, ⟨⟨dkn, kc_n⟩, kl_a, kl_b⟩⟩ := hl
  have nd' : [A.inorder, [p], a.inorder, [n], b.inorder].flatten.Nodup := by
    simpa [List.flatten, List.append_assoc] using nd
  have e_p_n : p ≠ n := fun e =>
    blocks_disjoint nd' 1 3 (by decide) rfl rfl (List.mem_singleton_self p) (e ▸
        List.mem_singleton_self n)
  have m_p_A : p ∉ A.inorder := fun h =>
    blocks_disjoint nd' 0 1 (by decide) rfl rfl h (List.mem_singleton_self p)
  have r_A_p : A.root ≠ some p := root_ne m_p_A
  have m_p_a : p ∉ a.inorder := fun h =>
    blocks_disjoint nd' 1 2 (by decide) rfl rfl (List.mem_singleton_self p) h
  have r_a_p : a.root ≠ some p := root_ne m_p_a
  have m_p_b : p ∉ b.inorder := fun h =>
    blocks_disjoint nd' 1 4 (by decide) rfl rfl (List.mem_singleton_self p) h
  have r_b_p : b.root ≠ some p := root_ne m_p_b
  have m_n_A : n ∉ A.inorder := fun h =>
    blocks_disjoint nd' 0 3 (by decide) rfl rfl h (List.mem_singleton_self n)
  have r_A_n : A.root ≠ some n := root_ne m_n_A
  have m_n_a : n ∉ a.inorder := fun h =>
    blocks_disjoint nd' 2 3 (by decide) rfl rfl h (List.mem_singleton_self n)
  have r_a_n : a.root ≠ some n := root_ne m_n_a
  have m_n_b : n ∉ b.inorder := fun h =>
    blocks_disjoint nd' 3 4 (by decide) rfl rfl (List.mem_singleton_self n) h
  have r_b_n : b.root ≠ some n := root_ne m_n_b
  have j_A_a : A.inorder.Disjoint a.inorder :=
    blocks_disjoint nd' 0 2 (by decide) rfl rfl
  have j_A_b : A.inorder.Disjoint b.inorder :=
    blocks_disjoint nd' 0 4 (by decide) rfl rfl
  have j_a_b : a.inorder.Disjoint b.inorder :=
    blocks_disjoint nd' 2 4 (by decide) rfl rfl
  have u_a : a.inorder.Nodup := blocks_nodup nd' 2 rfl
  have v_a := laid_alive kl_a
  have hex : zig s (some n) = .ok (patch (assigned (assigned s p .right (a.root) (some p)) n .left
      (some p) (some n)) n (fun nn => { nn with parent := none })) := by
    simp [zig, isLeftSon, isRightSon, fetch, amend_eval, set_eval, isSome_patch, isSome_assigned,
      alive_patch, alive_assigned, alive_some, bind, Except.bind, pure, Except.pure, patch_apply,
      assigned_apply, kc_p, kc_n, e_p_n, Ne.symm e_p_n, r_A_p, r_a_p, r_b_p, r_A_n, r_a_n, r_b_n,
      v_a]
  refine ⟨_, hex, ⟨⟨dkn, ?_⟩, ⟨⟨dkp, ?_⟩, laid_congr kl_A ?_, laid_root kl_a u_a ?_ ?_⟩, laid_congr
      kl_b ?_⟩, ?_, ?_⟩
  · simp [patch_apply, assigned_apply, Member.assign, kc_p, kc_n, e_p_n, Ne.symm e_p_n, r_A_p, r_a_p,
      r_b_p, r_A_n, r_a_n, r_b_n]
  · simp [patch_apply, assigned_apply, Member.assign, kc_p, kc_n, e_p_n, Ne.symm e_p_n, r_A_p, r_a_p,
      r_b_p, r_A_n, r_a_n, r_b_n]
  · intro x hx
    have x_p : x ≠ p := fun e => m_p_A (e ▸ hx)
    have x_n : x ≠ n := fun e => m_n_A (e ▸ hx)
    have y_a : a.root ≠ some x := root_ne (fun h => j_A_a hx h)
    simp [patch_apply, assigned_apply, x_p, Ne.symm x_p, x_n, Ne.symm x_n, y_a]
  · intro x hc
    have hx := root_mem hc
    have x_p : x ≠ p := fun e => m_p_a (e ▸ hx)
    have x_n : x ≠ n := fun e => m_n_a (e ▸ hx)
    simp [patch_apply, assigned_apply, hc, x_p, Ne.symm x_p, x_n, Ne.symm x_n]
  · intro x hx hxr
    have x_p : x ≠ p := fun e => m_p_a (e ▸ hx)
    have x_n : x ≠ n := fun e => m_n_a (e ▸ hx)
    simp [patch_apply, assigned_apply, hxr, x_p, Ne.symm x_p, x_n, Ne.symm x_n]
  · intro x hx
    have x_p : x ≠ p := fun e => m_p_b (e ▸ hx)
    have x_n : x ≠ n := fun e => m_n_b (e ▸ hx)
    have y_a : a.root ≠ some x := root_ne (fun h => j_a_b h hx)
    simp [patch_apply, assigned_apply, x_p, Ne.symm x_p, x_n, Ne.symm x_n, y_a]
  · intro x
    simp only [data_patch_parent, data_assigned]
  · intro x hx
    simp only [inorder_node, List.mem_append, List.mem_cons] at hx
    have x_p : x ≠ p := fun e => hx (by simp [e])
    have x_n : x ≠ n := fun e => hx (by simp [e])
    have y_a : a.root ≠ some x := root_ne (fun h => hx (by simp [h]))
    simp [patch_apply, assigned_apply, x_p, Ne.symm x_p, x_n, Ne.symm x_n, y_a]

/-- The loop of `splay` in the case of `zig_right`: its last turn calls `zig`. -/
theorem zig_right_step {T : Type} {s s' : Mem T} {A a b : Tree} {p n : Nat}
    (hl : Laid s none (.node A p (.node a n b)))
    (nd : (Tree.node A p (.node a n b)).inorder.Nodup)
    (hex : zig s (some n) = .ok s') (fuel : Nat) :
    splayLoop (fuel + 1) s (some n) = .ok (s', some n) := by
  simp only [Laid, root_node] at hl
  obtain ⟨⟨dp, c_p⟩, l_A, ⟨⟨dn, c_n⟩, l_a, l_b⟩⟩ := hl
  have nd' : [A.inorder, [p], a.inorder, [n], b.inorder].flatten.Nodup := by
    simpa [List.flatten, List.append_assoc] using nd
  have e_p_n : p ≠ n := fun e =>
    blocks_disjoint nd' 1 3 (by decide) rfl rfl (List.mem_singleton_self p) (e ▸
        List.mem_singleton_self n)
  have r_A_p : A.root ≠ some p := root_ne (fun h =>
    blocks_disjoint nd' 0 1 (by decide) rfl rfl h (List.mem_singleton_self p))
  have r_a_p : a.root ≠ some p := root_ne (fun h =>
    blocks_disjoint nd' 1 2 (by decide) rfl rfl (List.mem_singleton_self p) h)
  have r_b_p : b.root ≠ some p := root_ne (fun h =>
    blocks_disjoint nd' 1 4 (by decide) rfl rfl (List.mem_singleton_self p) h)
  have r_A_n : A.root ≠ some n := root_ne (fun h =>
    blocks_disjoint nd' 0 3 (by decide) rfl rfl h (List.mem_singleton_self n))
  have r_a_n : a.root ≠ some n := root_ne (fun h =>
    blocks_disjoint nd' 2 3 (by decide) rfl rfl h (List.mem_singleton_self n))
  have r_b_n : b.root ≠ some n := root_ne (fun h =>
    blocks_disjoint nd' 3 4 (by decide) rfl rfl (List.mem_singleton_self n) h)
  simp [splayLoop, hex, isLeftSon, isRightSon, fetch, bind, Except.bind, pure, Except.pure, c_p, c_n,
    e_p_n, Ne.symm e_p_n, r_A_p, r_a_p, r_b_p, r_A_n, r_a_n, r_b_n]

/-- `zigzig` on the left son `n` of the left son `p` of `g`, after the statements that make the
parent of `g` point to `n`. -/
theorem zigzig_left {T : Type} {s s₀ : Mem T} {a b B C : Tree} {n p g : Nat}
    {mp : Option Nat} (hl : Laid s mp (.node (.node (.node a n b) p B) g C))
    (nd : (Tree.node (.node (.node a n b) p B) g C).inorder.Nodup)
    (hrel : relink s (some n) (some g) mp = .ok s₀)
    (h₀ : ∀ x ∈ (Tree.node (.node (.node a n b) p B) g C).inorder, s₀ x = s x) :
    ∃ s', zigzig s (some n) = .ok s' ∧ Laid s' mp (.node a n (.node b p (.node B g C))) ∧
      (∀ x, (s' x).map Node.data = (s₀ x).map Node.data) ∧
      (∀ x, x ∉ (Tree.node (.node (.node a n b) p B) g C).inorder → s' x = s₀ x) := by
  have hl₀ := laid_congr hl h₀
  simp only [Laid, root_node] at hl hl₀
  obtain ⟨⟨dg, c_g⟩, ⟨⟨dp, c_p⟩, ⟨⟨dn, c_n⟩, l_a, l_b⟩, l_B⟩, l_C⟩ := hl
  obtain ⟨⟨dkg, kc_g⟩, ⟨⟨dkp, kc_p⟩, ⟨⟨dkn, kc_n⟩, kl_a, kl_b⟩, kl_B⟩, kl_C⟩ := hl₀
  have nd' : [a.inorder, [n], b.inorder, [p], B.inorder, [g], C.inorder].flatten.Nodup := by
    simpa [List.flatten, List.append_assoc] using nd
  have e_n_p : n ≠ p := fun e =>
    blocks_disjoint nd' 1 3 (by decide) rfl rfl (List.mem_singleton_self n) (e ▸
        List.mem_singleton_self p)
  have e_n_g : n ≠ g := fun e =>
    blocks_disjoint nd' 1 5 (by decide) rfl rfl (List.mem_singleton_self n) (e ▸
        List.mem_singleton_self g)
  have e_p_g : p ≠ g := fun e =>
    blocks_disjoint nd' 3 5 (by decide) rfl rfl (List.mem_singleton_self p) (e ▸
        List.mem_singleton_self g)
  have m_n_a : n ∉ a.inorder := fun h =>
    blocks_disjoint nd' 0 1 (by decide) rfl rfl h (List.mem_singleton_self n)
  have r_a_n : a.root ≠ some n := root_ne m_n_a
  have m_n_b : n ∉ b.inorder := fun h =>
    blocks_disjoint nd' 1 2 (by decide) rfl rfl (List.mem_singleton_self n) h
  have r_b_n : b.root ≠ some n := root_ne m_n_b
  have m_n_B : n ∉ B.inorder := fun h =>
    blocks_disjoint nd' 1 4 (by decide) rfl rfl (List.mem_singleton_self n) h
  have r_B_n : B.root ≠ some n := root_ne m_n_B
  have m_n_C : n ∉ C.inorder := fun h =>
    blocks_disjoint nd' 1 6 (by decide) rfl rfl (List.mem_singleton_self n) h
  have r_C_n : C.root ≠ some n := root_ne m_n_C
  have m_p_a : p ∉ a.inorder := fun h =>
    blocks_disjoint nd' 0 3 (by decide) rfl rfl h (List.mem_singleton_self p)
  have r_a_p : a.root ≠ some p := root_ne m_p_a
  have m_p_b : p ∉ b.inorder := fun h =>
    blocks_disjoint nd' 2 3 (by decide) rfl rfl h (List.mem_singleton_self p)
  have r_b_p : b.root ≠ some p := root_ne m_p_b
  have m_p_B : p ∉ B.inorder := fun h =>
    blocks_disjoint nd' 3 4 (by decide) rfl rfl (List.mem_singleton_self p) h
  have r_B_p : B.root ≠ some p := root_ne m_p_B
  have m_p_C : p ∉ C.inorder := fun h =>
    blocks_disjoint nd' 3 6 (by decide) rfl rfl (List.mem_singleton_self p) h
  have r_C_p : C.root ≠ some p := root_ne m_p_C
  have m_g_a : g ∉ a.inorder := fun h =>
    blocks_disjoint nd' 0 5 (by decide) rfl rfl h (List.mem_singleton_self g)
  have r_a_g : a.root ≠ some g := root_ne m_g_a
  have m_g_b : g ∉ b.inorder := fun h =>
    blocks_disjoint nd' 2 5 (by decide) rfl rfl h (List.mem_singleton_self g)
  have r_b_g : b.root ≠ some g := root_ne m_g_b
  have m_g_B : g ∉ B.inorder := fun h =>
    blocks_disjoint nd' 4 5 (by decide) rfl rfl h (List.mem_singleton_self g)
  have r_B_g : B.root ≠ some g := root_ne m_g_B
  have m_g_C : g ∉ C.inorder := fun h =>
    blocks_disjoint nd' 5 6 (by decide) rfl rfl (List.mem_singleton_self g) h
  have r_C_g : C.root ≠ some g := root_ne m_g_C
  have j_a_b : a.inorder.Disjoint b.inorder :=
    blocks_disjoint nd' 0 2 (by decide) rfl rfl
  have j_a_B : a.inorder.Disjoint B.inorder :=
    blocks_disjoint nd' 0 4 (by decide) rfl rfl
  have j_a_C : a.inorder.Disjoint C.inorder :=
    blocks_disjoint nd' 0 6 (by decide) rfl rfl
  have j_b_B : b.inorder.Disjoint B.inorder :=
    blocks_disjoint nd' 2 4 (by decide) rfl rfl
  have j_b_C : b.inorder.Disjoint C.inorder :=
    blocks_disjoint nd' 2 6 (by decide) rfl rfl
  have j_B_C : B.inorder.Disjoint C.inorder :=
    blocks_disjoint nd' 4 6 (by decide) rfl rfl
  have u_b : b.inorder.Nodup := blocks_nodup nd' 2 rfl
  have v_b := laid_alive kl_b
  have u_B : B.inorder.Nodup := blocks_nodup nd' 4 rfl
  have v_B := laid_alive kl_B
  have hex : zigzig s (some n) = .ok (patch (assigned (assigned (assigned (assigned s₀ g .left
      (B.root) (some g)) p .right (some g) (some p)) p .left (b.root) (some p)) n .right (some p)
      (some n)) n (fun nn => { nn with parent := mp })) := by
    simp [zigzig, hrel, isLeftSon, isRightSon, fetch, amend_eval, set_eval, isSome_patch,
      isSome_assigned, alive_patch, alive_assigned, alive_some, bind, Except.bind, pure, Except.pure,
      patch_apply, assigned_apply, kc_n, kc_p, kc_g, c_n, c_p, c_g, e_n_p, Ne.symm e_n_p, e_n_g,
      Ne.symm e_n_g, e_p_g, Ne.symm e_p_g, r_a_n, r_b_n, r_B_n, r_C_n, r_a_p, r_b_p, r_B_p, r_C_p,
      r_a_g, r_b_g, r_B_g, r_C_g, v_b, v_B]
  refine ⟨_, hex, ⟨⟨dkn, ?_⟩, laid_congr kl_a ?_, ⟨⟨dkp, ?_⟩, laid_root kl_b u_b ?_ ?_, ⟨⟨dkg, ?_⟩,
      laid_root kl_B u_B ?_ ?_, laid_congr kl_C ?_⟩⟩⟩, ?_, ?_⟩
  · simp [patch_apply, assigned_apply, Member.assign, kc_n, kc_p, kc_g, e_n_p, Ne.symm e_n_p, e_n_g,
      Ne.symm e_n_g, e_p_g, Ne.symm e_p_g, r_a_n, r_b_n, r_B_n, r_C_n, r_a_p, r_b_p, r_B_p, r_C_p,
      r_a_g, r_b_g, r_B_g, r_C_g]
  · intro x hx
    have x_n : x ≠ n := fun e => m_n_a (e ▸ hx)
    have x_p : x ≠ p := fun e => m_p_a (e ▸ hx)
    have x_g : x ≠ g := fun e => m_g_a (e ▸ hx)
    have y_b : b.root ≠ some x := root_ne (fun h => j_a_b hx h)
    have y_B : B.root ≠ some x := root_ne (fun h => j_a_B hx h)
    simp [patch_apply, assigned_apply, x_n, Ne.symm x_n, x_p, Ne.symm x_p, x_g, Ne.symm x_g, y_b, y_B]
  · simp [patch_apply, assigned_apply, Member.assign, kc_n, kc_p, kc_g, e_n_p, Ne.symm e_n_p, e_n_g,
      Ne.symm e_n_g, e_p_g, Ne.symm e_p_g, r_a_n, r_b_n, r_B_n, r_C_n, r_a_p, r_b_p, r_B_p, r_C_p,
      r_a_g, r_b_g, r_B_g, r_C_g]
  · intro x hc
    have hx := root_mem hc
    have x_n : x ≠ n := fun e => m_n_b (e ▸ hx)
    have x_p : x ≠ p := fun e => m_p_b (e ▸ hx)
    have x_g : x ≠ g := fun e => m_g_b (e ▸ hx)
    have y_B : B.root ≠ some x := root_ne (fun h => j_b_B hx h)
    simp [patch_apply, assigned_apply, hc, x_n, Ne.symm x_n, x_p, Ne.symm x_p, x_g, Ne.symm x_g, y_B]
  · intro x hx hxr
    have x_n : x ≠ n := fun e => m_n_b (e ▸ hx)
    have x_p : x ≠ p := fun e => m_p_b (e ▸ hx)
    have x_g : x ≠ g := fun e => m_g_b (e ▸ hx)
    have y_B : B.root ≠ some x := root_ne (fun h => j_b_B hx h)
    simp [patch_apply, assigned_apply, hxr, x_n, Ne.symm x_n, x_p, Ne.symm x_p, x_g, Ne.symm x_g, y_B]
  · simp [patch_apply, assigned_apply, Member.assign, kc_n, kc_p, kc_g, e_n_p, Ne.symm e_n_p, e_n_g,
      Ne.symm e_n_g, e_p_g, Ne.symm e_p_g, r_a_n, r_b_n, r_B_n, r_C_n, r_a_p, r_b_p, r_B_p, r_C_p,
      r_a_g, r_b_g, r_B_g, r_C_g]
  · intro x hc
    have hx := root_mem hc
    have x_n : x ≠ n := fun e => m_n_B (e ▸ hx)
    have x_p : x ≠ p := fun e => m_p_B (e ▸ hx)
    have x_g : x ≠ g := fun e => m_g_B (e ▸ hx)
    have y_b : b.root ≠ some x := root_ne (fun h => j_b_B h hx)
    simp [patch_apply, assigned_apply, hc, x_n, Ne.symm x_n, x_p, Ne.symm x_p, x_g, Ne.symm x_g, y_b]
  · intro x hx hxr
    have x_n : x ≠ n := fun e => m_n_B (e ▸ hx)
    have x_p : x ≠ p := fun e => m_p_B (e ▸ hx)
    have x_g : x ≠ g := fun e => m_g_B (e ▸ hx)
    have y_b : b.root ≠ some x := root_ne (fun h => j_b_B h hx)
    simp [patch_apply, assigned_apply, hxr, x_n, Ne.symm x_n, x_p, Ne.symm x_p, x_g, Ne.symm x_g, y_b]
  · intro x hx
    have x_n : x ≠ n := fun e => m_n_C (e ▸ hx)
    have x_p : x ≠ p := fun e => m_p_C (e ▸ hx)
    have x_g : x ≠ g := fun e => m_g_C (e ▸ hx)
    have y_b : b.root ≠ some x := root_ne (fun h => j_b_C h hx)
    have y_B : B.root ≠ some x := root_ne (fun h => j_B_C h hx)
    simp [patch_apply, assigned_apply, x_n, Ne.symm x_n, x_p, Ne.symm x_p, x_g, Ne.symm x_g, y_b, y_B]
  · intro x
    simp only [data_patch_parent, data_assigned]
  · intro x hx
    simp only [inorder_node, List.mem_append, List.mem_cons] at hx
    have x_n : x ≠ n := fun e => hx (by simp [e])
    have x_p : x ≠ p := fun e => hx (by simp [e])
    have x_g : x ≠ g := fun e => hx (by simp [e])
    have y_b : b.root ≠ some x := root_ne (fun h => hx (by simp [h]))
    have y_B : B.root ≠ some x := root_ne (fun h => hx (by simp [h]))
    simp [patch_apply, assigned_apply, x_n, Ne.symm x_n, x_p, Ne.symm x_p, x_g, Ne.symm x_g, y_b, y_B]

/-- The loop of `splay` in the case of `zigzig_left`: one turn calls `zigzig`. -/
theorem zigzig_left_step {T : Type} {s s' : Mem T} {a b B C : Tree} {n p g : Nat}
    {mp : Option Nat} (hl : Laid s mp (.node (.node (.node a n b) p B) g C))
    (nd : (Tree.node (.node (.node a n b) p B) g C).inorder.Nodup)
    (hex : zigzig s (some n) = .ok s') (fuel : Nat) :
    splayLoop (fuel + 1) s (some n) = splayLoop fuel s' (some n) := by
  simp only [Laid, root_node] at hl
  obtain ⟨⟨dg, c_g⟩, ⟨⟨dp, c_p⟩, ⟨⟨dn, c_n⟩, l_a, l_b⟩, l_B⟩, l_C⟩ := hl
  have nd' : [a.inorder, [n], b.inorder, [p], B.inorder, [g], C.inorder].flatten.Nodup := by
    simpa [List.flatten, List.append_assoc] using nd
  have e_n_p : n ≠ p := fun e =>
    blocks_disjoint nd' 1 3 (by decide) rfl rfl (List.mem_singleton_self n) (e ▸
        List.mem_singleton_self p)
  have e_n_g : n ≠ g := fun e =>
    blocks_disjoint nd' 1 5 (by decide) rfl rfl (List.mem_singleton_self n) (e ▸
        List.mem_singleton_self g)
  have e_p_g : p ≠ g := fun e =>
    blocks_disjoint nd' 3 5 (by decide) rfl rfl (List.mem_singleton_self p) (e ▸
        List.mem_singleton_self g)
  have r_a_n : a.root ≠ some n := root_ne (fun h =>
    blocks_disjoint nd' 0 1 (by decide) rfl rfl h (List.mem_singleton_self n))
  have r_b_n : b.root ≠ some n := root_ne (fun h =>
    blocks_disjoint nd' 1 2 (by decide) rfl rfl (List.mem_singleton_self n) h)
  have r_B_n : B.root ≠ some n := root_ne (fun h =>
    blocks_disjoint nd' 1 4 (by decide) rfl rfl (List.mem_singleton_self n) h)
  have r_C_n : C.root ≠ some n := root_ne (fun h =>
    blocks_disjoint nd' 1 6 (by decide) rfl rfl (List.mem_singleton_self n) h)
  have r_a_p : a.root ≠ some p := root_ne (fun h =>
    blocks_disjoint nd' 0 3 (by decide) rfl rfl h (List.mem_singleton_self p))
  have r_b_p : b.root ≠ some p := root_ne (fun h =>
    blocks_disjoint nd' 2 3 (by decide) rfl rfl h (List.mem_singleton_self p))
  have r_B_p : B.root ≠ some p := root_ne (fun h =>
    blocks_disjoint nd' 3 4 (by decide) rfl rfl (List.mem_singleton_self p) h)
  have r_C_p : C.root ≠ some p := root_ne (fun h =>
    blocks_disjoint nd' 3 6 (by decide) rfl rfl (List.mem_singleton_self p) h)
  have r_a_g : a.root ≠ some g := root_ne (fun h =>
    blocks_disjoint nd' 0 5 (by decide) rfl rfl h (List.mem_singleton_self g))
  have r_b_g : b.root ≠ some g := root_ne (fun h =>
    blocks_disjoint nd' 2 5 (by decide) rfl rfl h (List.mem_singleton_self g))
  have r_B_g : B.root ≠ some g := root_ne (fun h =>
    blocks_disjoint nd' 4 5 (by decide) rfl rfl h (List.mem_singleton_self g))
  have r_C_g : C.root ≠ some g := root_ne (fun h =>
    blocks_disjoint nd' 5 6 (by decide) rfl rfl (List.mem_singleton_self g) h)
  simp [splayLoop, hex, isLeftSon, isRightSon, fetch, bind, Except.bind, pure, Except.pure, c_n, c_p,
    c_g, e_n_p, Ne.symm e_n_p, e_n_g, Ne.symm e_n_g, e_p_g, Ne.symm e_p_g, r_a_n, r_b_n, r_B_n,
    r_C_n, r_a_p, r_b_p, r_B_p, r_C_p, r_a_g, r_b_g, r_B_g, r_C_g]

/-- `zigzig` on the right son `n` of the right son `p` of `g`, after the statements that make the
parent of `g` point to `n`. -/
theorem zigzig_right {T : Type} {s s₀ : Mem T} {A B a b : Tree} {g p n : Nat}
    {mp : Option Nat} (hl : Laid s mp (.node A g (.node B p (.node a n b))))
    (nd : (Tree.node A g (.node B p (.node a n b))).inorder.Nodup)
    (hrel : relink s (some n) (some g) mp = .ok s₀)
    (h₀ : ∀ x ∈ (Tree.node A g (.node B p (.node a n b))).inorder, s₀ x = s x) :
    ∃ s', zigzig s (some n) = .ok s' ∧ Laid s' mp (.node (.node (.node A g B) p a) n b) ∧
      (∀ x, (s' x).map Node.data = (s₀ x).map Node.data) ∧
      (∀ x, x ∉ (Tree.node A g (.node B p (.node a n b))).inorder → s' x = s₀ x) := by
  have hl₀ := laid_congr hl h₀
  simp only [Laid, root_node] at hl hl₀
  obtain ⟨⟨dg, c_g⟩, l_A, ⟨⟨dp, c_p⟩, l_B, ⟨⟨dn, c_n⟩, l_a, l_b⟩⟩⟩ := hl
  obtain ⟨⟨dkg, kc_g⟩, kl_A, ⟨⟨dkp, kc_p⟩, kl_B, ⟨⟨dkn, kc_n⟩, kl_a, kl_b⟩⟩⟩ := hl₀
  have nd' : [A.inorder, [g], B.inorder, [p], a.inorder, [n], b.inorder].flatten.Nodup := by
    simpa [List.flatten, List.append_assoc] using nd
  have e_g_p : g ≠ p := fun e =>
    blocks_disjoint nd' 1 3 (by decide) rfl rfl (List.mem_singleton_self g) (e ▸
        List.mem_singleton_self p)
  have e_g_n : g ≠ n := fun e =>
    blocks_disjoint nd' 1 5 (by decide) rfl rfl (List.mem_singleton_self g) (e ▸
        List.mem_singleton_self n)
  have e_p_n : p ≠ n := fun e =>
    blocks_disjoint nd' 3 5 (by decide) rfl rfl (List.mem_singleton_self p) (e ▸
        List.mem_singleton_self n)
  have m_g_A : g ∉ A.inorder := fun h =>
    blocks_disjoint nd' 0 1 (by decide) rfl rfl h (List.mem_singleton_self g)
  have r_A_g : A.root ≠ some g := root_ne m_g_A
  have m_g_B : g ∉ B.inorder := fun h =>
    blocks_disjoint nd' 1 2 (by decide) rfl rfl (List.mem_singleton_self g) h
  have r_B_g : B.root ≠ some g := root_ne m_g_B
  have m_g_a : g ∉ a.inorder := fun h =>
    blocks_disjoint nd' 1 4 (by decide) rfl rfl (List.mem_singleton_self g) h
  have r_a_g : a.root ≠ some g := root_ne m_g_a
  have m_g_b : g ∉ b.inorder := fun h =>
    blocks_disjoint nd' 1 6 (by decide) rfl rfl (List.mem_singleton_self g) h
  have r_b_g : b.root ≠ some g := root_ne m_g_b
  have m_p_A : p ∉ A.inorder := fun h =>
    blocks_disjoint nd' 0 3 (by decide) rfl rfl h (List.mem_singleton_self p)
  have r_A_p : A.root ≠ some p := root_ne m_p_A
  have m_p_B : p ∉ B.inorder := fun h =>
    blocks_disjoint nd' 2 3 (by decide) rfl rfl h (List.mem_singleton_self p)
  have r_B_p : B.root ≠ some p := root_ne m_p_B
  have m_p_a : p ∉ a.inorder := fun h =>
    blocks_disjoint nd' 3 4 (by decide) rfl rfl (List.mem_singleton_self p) h
  have r_a_p : a.root ≠ some p := root_ne m_p_a
  have m_p_b : p ∉ b.inorder := fun h =>
    blocks_disjoint nd' 3 6 (by decide) rfl rfl (List.mem_singleton_self p) h
  have r_b_p : b.root ≠ some p := root_ne m_p_b
  have m_n_A : n ∉ A.inorder := fun h =>
    blocks_disjoint nd' 0 5 (by decide) rfl rfl h (List.mem_singleton_self n)
  have r_A_n : A.root ≠ some n := root_ne m_n_A
  have m_n_B : n ∉ B.inorder := fun h =>
    blocks_disjoint nd' 2 5 (by decide) rfl rfl h (List.mem_singleton_self n)
  have r_B_n : B.root ≠ some n := root_ne m_n_B
  have m_n_a : n ∉ a.inorder := fun h =>
    blocks_disjoint nd' 4 5 (by decide) rfl rfl h (List.mem_singleton_self n)
  have r_a_n : a.root ≠ some n := root_ne m_n_a
  have m_n_b : n ∉ b.inorder := fun h =>
    blocks_disjoint nd' 5 6 (by decide) rfl rfl (List.mem_singleton_self n) h
  have r_b_n : b.root ≠ some n := root_ne m_n_b
  have j_A_B : A.inorder.Disjoint B.inorder :=
    blocks_disjoint nd' 0 2 (by decide) rfl rfl
  have j_A_a : A.inorder.Disjoint a.inorder :=
    blocks_disjoint nd' 0 4 (by decide) rfl rfl
  have j_A_b : A.inorder.Disjoint b.inorder :=
    blocks_disjoint nd' 0 6 (by decide) rfl rfl
  have j_B_a : B.inorder.Disjoint a.inorder :=
    blocks_disjoint nd' 2 4 (by decide) rfl rfl
  have j_B_b : B.inorder.Disjoint b.inorder :=
    blocks_disjoint nd' 2 6 (by decide) rfl rfl
  have j_a_b : a.inorder.Disjoint b.inorder :=
    blocks_disjoint nd' 4 6 (by decide) rfl rfl
  have u_B : B.inorder.Nodup := blocks_nodup nd' 2 rfl
  have v_B := laid_alive kl_B
  have u_a : a.inorder.Nodup := blocks_nodup nd' 4 rfl
  have v_a := laid_alive kl_a
  have hex : zigzig s (some n) = .ok (patch (assigned (assigned (assigned (assigned s₀ g .right
      (B.root) (some g)) p .left (some g) (some p)) p .right (a.root) (some p)) n .left (some p)
      (some n)) n (fun nn => { nn with parent := mp })) := by
    simp [zigzig, hrel, isLeftSon, isRightSon, fetch, amend_eval, set_eval, isSome_patch,
      isSome_assigned, alive_patch, alive_assigned, alive_some, bind, Except.bind, pure, Except.pure,
      patch_apply, assigned_apply, kc_g, kc_p, kc_n, c_g, c_p, c_n, e_g_p, Ne.symm e_g_p, e_g_n,
      Ne.symm e_g_n, e_p_n, Ne.symm e_p_n, r_A_g, r_B_g, r_a_g, r_b_g, r_A_p, r_B_p, r_a_p, r_b_p,
      r_A_n, r_B_n, r_a_n, r_b_n, v_B, v_a]
  refine ⟨_, hex, ⟨⟨dkn, ?_⟩, ⟨⟨dkp, ?_⟩, ⟨⟨dkg, ?_⟩, laid_congr kl_A ?_, laid_root kl_B u_B ?_ ?_⟩,
      laid_root kl_a u_a ?_ ?_⟩, laid_congr kl_b ?_⟩, ?_, ?_⟩
  · simp [patch_apply, assigned_apply, Member.assign, kc_g, kc_p, kc_n, e_g_p, Ne.symm e_g_p, e_g_n,
      Ne.symm e_g_n, e_p_n, Ne.symm e_p_n, r_A_g, r_B_g, r_a_g, r_b_g, r_A_p, r_B_p, r_a_p, r_b_p,
      r_A_n, r_B_n, r_a_n, r_b_n]
  · simp [patch_apply, assigned_apply, Member.assign, kc_g, kc_p, kc_n, e_g_p, Ne.symm e_g_p, e_g_n,
      Ne.symm e_g_n, e_p_n, Ne.symm e_p_n, r_A_g, r_B_g, r_a_g, r_b_g, r_A_p, r_B_p, r_a_p, r_b_p,
      r_A_n, r_B_n, r_a_n, r_b_n]
  · simp [patch_apply, assigned_apply, Member.assign, kc_g, kc_p, kc_n, e_g_p, Ne.symm e_g_p, e_g_n,
      Ne.symm e_g_n, e_p_n, Ne.symm e_p_n, r_A_g, r_B_g, r_a_g, r_b_g, r_A_p, r_B_p, r_a_p, r_b_p,
      r_A_n, r_B_n, r_a_n, r_b_n]
  · intro x hx
    have x_g : x ≠ g := fun e => m_g_A (e ▸ hx)
    have x_p : x ≠ p := fun e => m_p_A (e ▸ hx)
    have x_n : x ≠ n := fun e => m_n_A (e ▸ hx)
    have y_B : B.root ≠ some x := root_ne (fun h => j_A_B hx h)
    have y_a : a.root ≠ some x := root_ne (fun h => j_A_a hx h)
    simp [patch_apply, assigned_apply, x_g, Ne.symm x_g, x_p, Ne.symm x_p, x_n, Ne.symm x_n, y_B, y_a]
  · intro x hc
    have hx := root_mem hc
    have x_g : x ≠ g := fun e => m_g_B (e ▸ hx)
    have x_p : x ≠ p := fun e => m_p_B (e ▸ hx)
    have x_n : x ≠ n := fun e => m_n_B (e ▸ hx)
    have y_a : a.root ≠ some x := root_ne (fun h => j_B_a hx h)
    simp [patch_apply, assigned_apply, hc, x_g, Ne.symm x_g, x_p, Ne.symm x_p, x_n, Ne.symm x_n, y_a]
  · intro x hx hxr
    have x_g : x ≠ g := fun e => m_g_B (e ▸ hx)
    have x_p : x ≠ p := fun e => m_p_B (e ▸ hx)
    have x_n : x ≠ n := fun e => m_n_B (e ▸ hx)
    have y_a : a.root ≠ some x := root_ne (fun h => j_B_a hx h)
    simp [patch_apply, assigned_apply, hxr, x_g, Ne.symm x_g, x_p, Ne.symm x_p, x_n, Ne.symm x_n, y_a]
  · intro x hc
    have hx := root_mem hc
    have x_g : x ≠ g := fun e => m_g_a (e ▸ hx)
    have x_p : x ≠ p := fun e => m_p_a (e ▸ hx)
    have x_n : x ≠ n := fun e => m_n_a (e ▸ hx)
    have y_B : B.root ≠ some x := root_ne (fun h => j_B_a h hx)
    simp [patch_apply, assigned_apply, hc, x_g, Ne.symm x_g, x_p, Ne.symm x_p, x_n, Ne.symm x_n, y_B]
  · intro x hx hxr
    have x_g : x ≠ g := fun e => m_g_a (e ▸ hx)
    have x_p : x ≠ p := fun e => m_p_a (e ▸ hx)
    have x_n : x ≠ n := fun e => m_n_a (e ▸ hx)
    have y_B : B.root ≠ some x := root_ne (fun h => j_B_a h hx)
    simp [patch_apply, assigned_apply, hxr, x_g, Ne.symm x_g, x_p, Ne.symm x_p, x_n, Ne.symm x_n, y_B]
  · intro x hx
    have x_g : x ≠ g := fun e => m_g_b (e ▸ hx)
    have x_p : x ≠ p := fun e => m_p_b (e ▸ hx)
    have x_n : x ≠ n := fun e => m_n_b (e ▸ hx)
    have y_B : B.root ≠ some x := root_ne (fun h => j_B_b h hx)
    have y_a : a.root ≠ some x := root_ne (fun h => j_a_b h hx)
    simp [patch_apply, assigned_apply, x_g, Ne.symm x_g, x_p, Ne.symm x_p, x_n, Ne.symm x_n, y_B, y_a]
  · intro x
    simp only [data_patch_parent, data_assigned]
  · intro x hx
    simp only [inorder_node, List.mem_append, List.mem_cons] at hx
    have x_g : x ≠ g := fun e => hx (by simp [e])
    have x_p : x ≠ p := fun e => hx (by simp [e])
    have x_n : x ≠ n := fun e => hx (by simp [e])
    have y_B : B.root ≠ some x := root_ne (fun h => hx (by simp [h]))
    have y_a : a.root ≠ some x := root_ne (fun h => hx (by simp [h]))
    simp [patch_apply, assigned_apply, x_g, Ne.symm x_g, x_p, Ne.symm x_p, x_n, Ne.symm x_n, y_B, y_a]

/-- The loop of `splay` in the case of `zigzig_right`: one turn calls `zigzig`. -/
theorem zigzig_right_step {T : Type} {s s' : Mem T} {A B a b : Tree} {g p n : Nat}
    {mp : Option Nat} (hl : Laid s mp (.node A g (.node B p (.node a n b))))
    (nd : (Tree.node A g (.node B p (.node a n b))).inorder.Nodup)
    (hex : zigzig s (some n) = .ok s') (fuel : Nat) :
    splayLoop (fuel + 1) s (some n) = splayLoop fuel s' (some n) := by
  simp only [Laid, root_node] at hl
  obtain ⟨⟨dg, c_g⟩, l_A, ⟨⟨dp, c_p⟩, l_B, ⟨⟨dn, c_n⟩, l_a, l_b⟩⟩⟩ := hl
  have nd' : [A.inorder, [g], B.inorder, [p], a.inorder, [n], b.inorder].flatten.Nodup := by
    simpa [List.flatten, List.append_assoc] using nd
  have e_g_p : g ≠ p := fun e =>
    blocks_disjoint nd' 1 3 (by decide) rfl rfl (List.mem_singleton_self g) (e ▸
        List.mem_singleton_self p)
  have e_g_n : g ≠ n := fun e =>
    blocks_disjoint nd' 1 5 (by decide) rfl rfl (List.mem_singleton_self g) (e ▸
        List.mem_singleton_self n)
  have e_p_n : p ≠ n := fun e =>
    blocks_disjoint nd' 3 5 (by decide) rfl rfl (List.mem_singleton_self p) (e ▸
        List.mem_singleton_self n)
  have r_A_g : A.root ≠ some g := root_ne (fun h =>
    blocks_disjoint nd' 0 1 (by decide) rfl rfl h (List.mem_singleton_self g))
  have r_B_g : B.root ≠ some g := root_ne (fun h =>
    blocks_disjoint nd' 1 2 (by decide) rfl rfl (List.mem_singleton_self g) h)
  have r_a_g : a.root ≠ some g := root_ne (fun h =>
    blocks_disjoint nd' 1 4 (by decide) rfl rfl (List.mem_singleton_self g) h)
  have r_b_g : b.root ≠ some g := root_ne (fun h =>
    blocks_disjoint nd' 1 6 (by decide) rfl rfl (List.mem_singleton_self g) h)
  have r_A_p : A.root ≠ some p := root_ne (fun h =>
    blocks_disjoint nd' 0 3 (by decide) rfl rfl h (List.mem_singleton_self p))
  have r_B_p : B.root ≠ some p := root_ne (fun h =>
    blocks_disjoint nd' 2 3 (by decide) rfl rfl h (List.mem_singleton_self p))
  have r_a_p : a.root ≠ some p := root_ne (fun h =>
    blocks_disjoint nd' 3 4 (by decide) rfl rfl (List.mem_singleton_self p) h)
  have r_b_p : b.root ≠ some p := root_ne (fun h =>
    blocks_disjoint nd' 3 6 (by decide) rfl rfl (List.mem_singleton_self p) h)
  have r_A_n : A.root ≠ some n := root_ne (fun h =>
    blocks_disjoint nd' 0 5 (by decide) rfl rfl h (List.mem_singleton_self n))
  have r_B_n : B.root ≠ some n := root_ne (fun h =>
    blocks_disjoint nd' 2 5 (by decide) rfl rfl h (List.mem_singleton_self n))
  have r_a_n : a.root ≠ some n := root_ne (fun h =>
    blocks_disjoint nd' 4 5 (by decide) rfl rfl h (List.mem_singleton_self n))
  have r_b_n : b.root ≠ some n := root_ne (fun h =>
    blocks_disjoint nd' 5 6 (by decide) rfl rfl (List.mem_singleton_self n) h)
  simp [splayLoop, hex, isLeftSon, isRightSon, fetch, bind, Except.bind, pure, Except.pure, c_g, c_p,
    c_n, e_g_p, Ne.symm e_g_p, e_g_n, Ne.symm e_g_n, e_p_n, Ne.symm e_p_n, r_A_g, r_B_g, r_a_g,
    r_b_g, r_A_p, r_B_p, r_a_p, r_b_p, r_A_n, r_B_n, r_a_n, r_b_n]

/-- `zigzag` on the right son `n` of the left son `p` of `g`, after the statements that make the
parent of `g` point to `n`. -/
theorem zigzag_left {T : Type} {s s₀ : Mem T} {A a b D : Tree} {p n g : Nat}
    {mp : Option Nat} (hl : Laid s mp (.node (.node A p (.node a n b)) g D))
    (nd : (Tree.node (.node A p (.node a n b)) g D).inorder.Nodup)
    (hrel : relink s (some n) (some g) mp = .ok s₀)
    (h₀ : ∀ x ∈ (Tree.node (.node A p (.node a n b)) g D).inorder, s₀ x = s x) :
    ∃ s', zigzag s (some n) = .ok s' ∧ Laid s' mp (.node (.node A p a) n (.node b g D)) ∧
      (∀ x, (s' x).map Node.data = (s₀ x).map Node.data) ∧
      (∀ x, x ∉ (Tree.node (.node A p (.node a n b)) g D).inorder → s' x = s₀ x) := by
  have hl₀ := laid_congr hl h₀
  simp only [Laid, root_node] at hl hl₀
  obtain ⟨⟨dg, c_g⟩, ⟨⟨dp, c_p⟩, l_A, ⟨⟨dn, c_n⟩, l_a, l_b⟩⟩, l_D⟩ := hl
  obtain ⟨⟨dkg, kc_g⟩, ⟨⟨dkp, kc_p⟩, kl_A, ⟨⟨dkn, kc_n⟩, kl_a, kl_b⟩⟩, kl_D⟩ := hl₀
  have nd' : [A.inorder, [p], a.inorder, [n], b.inorder, [g], D.inorder].flatten.Nodup := by
    simpa [List.flatten, List.append_assoc] using nd
  have e_p_n : p ≠ n := fun e =>
    blocks_disjoint nd' 1 3 (by decide) rfl rfl (List.mem_singleton_self p) (e ▸
        List.mem_singleton_self n)
  have e_p_g : p ≠ g := fun e =>
    blocks_disjoint nd' 1 5 (by decide) rfl rfl (List.mem_singleton_self p) (e ▸
        List.mem_singleton_self g)
  have e_n_g : n ≠ g := fun e =>
    blocks_disjoint nd' 3 5 (by decide) rfl rfl (List.mem_singleton_self n) (e ▸
        List.mem_singleton_self g)
  have m_p_A : p ∉ A.inorder := fun h =>
    blocks_disjoint nd' 0 1 (by decide) rfl rfl h (List.mem_singleton_self p)
  have r_A_p : A.root ≠ some p := root_ne m_p_A
  have m_p_a : p ∉ a.inorder := fun h =>
    blocks_disjoint nd' 1 2 (by decide) rfl rfl (List.mem_singleton_self p) h
  have r_a_p : a.root ≠ some p := root_ne m_p_a
  have m_p_b : p ∉ b.inorder := fun h =>
    blocks_disjoint nd' 1 4 (by decide) rfl rfl (List.mem_singleton_self p) h
  have r_b_p : b.root ≠ some p := root_ne m_p_b
  have m_p_D : p ∉ D.inorder := fun h =>
    blocks_disjoint nd' 1 6 (by decide) rfl rfl (List.mem_singleton_self p) h
  have r_D_p : D.root ≠ some p := root_ne m_p_D
  have m_n_A : n ∉ A.inorder := fun h =>
    blocks_disjoint nd' 0 3 (by decide) rfl rfl h (List.mem_singleton_self n)
  have r_A_n : A.root ≠ some n := root_ne m_n_A
  have m_n_a : n ∉ a.inorder := fun h =>
    blocks_disjoint nd' 2 3 (by decide) rfl rfl h (List.mem_singleton_self n)
  have r_a_n : a.root ≠ some n := root_ne m_n_a
  have m_n_b : n ∉ b.inorder := fun h =>
    blocks_disjoint nd' 3 4 (by decide) rfl rfl (List.mem_singleton_self n) h
  have r_b_n : b.root ≠ some n := root_ne m_n_b
  have m_n_D : n ∉ D.inorder := fun h =>
    blocks_disjoint nd' 3 6 (by decide) rfl rfl (List.mem_singleton_self n) h
  have r_D_n : D.root ≠ some n := root_ne m_n_D
  have m_g_A : g ∉ A.inorder := fun h =>
    blocks_disjoint nd' 0 5 (by decide) rfl rfl h (List.mem_singleton_self g)
  have r_A_g : A.root ≠ some g := root_ne m_g_A
  have m_g_a : g ∉ a.inorder := fun h =>
    blocks_disjoint nd' 2 5 (by decide) rfl rfl h (List.mem_singleton_self g)
  have r_a_g : a.root ≠ some g := root_ne m_g_a
  have m_g_b : g ∉ b.inorder := fun h =>
    blocks_disjoint nd' 4 5 (by decide) rfl rfl h (List.mem_singleton_self g)
  have r_b_g : b.root ≠ some g := root_ne m_g_b
  have m_g_D : g ∉ D.inorder := fun h =>
    blocks_disjoint nd' 5 6 (by decide) rfl rfl (List.mem_singleton_self g) h
  have r_D_g : D.root ≠ some g := root_ne m_g_D
  have j_A_a : A.inorder.Disjoint a.inorder :=
    blocks_disjoint nd' 0 2 (by decide) rfl rfl
  have j_A_b : A.inorder.Disjoint b.inorder :=
    blocks_disjoint nd' 0 4 (by decide) rfl rfl
  have j_A_D : A.inorder.Disjoint D.inorder :=
    blocks_disjoint nd' 0 6 (by decide) rfl rfl
  have j_a_b : a.inorder.Disjoint b.inorder :=
    blocks_disjoint nd' 2 4 (by decide) rfl rfl
  have j_a_D : a.inorder.Disjoint D.inorder :=
    blocks_disjoint nd' 2 6 (by decide) rfl rfl
  have j_b_D : b.inorder.Disjoint D.inorder :=
    blocks_disjoint nd' 4 6 (by decide) rfl rfl
  have u_a : a.inorder.Nodup := blocks_nodup nd' 2 rfl
  have v_a := laid_alive kl_a
  have u_b : b.inorder.Nodup := blocks_nodup nd' 4 rfl
  have v_b := laid_alive kl_b
  have hex : zigzag s (some n) = .ok (patch (assigned (assigned (assigned (assigned s₀ g .left
      (b.root) (some g)) p .right (a.root) (some p)) n .left (some p) (some n)) n .right (some g)
      (some n)) n (fun nn => { nn with parent := mp })) := by
    simp [zigzag, hrel, isLeftSon, isRightSon, fetch, amend_eval, set_eval, isSome_patch,
      isSome_assigned, alive_patch, alive_assigned, alive_some, bind, Except.bind, pure, Except.pure,
      patch_apply, assigned_apply, kc_p, kc_n, kc_g, c_p, c_n, c_g, e_p_n, Ne.symm e_p_n, e_p_g,
      Ne.symm e_p_g, e_n_g, Ne.symm e_n_g, r_A_p, r_a_p, r_b_p, r_D_p, r_A_n, r_a_n, r_b_n, r_D_n,
      r_A_g, r_a_g, r_b_g, r_D_g, v_a, v_b]
  refine ⟨_, hex, ⟨⟨dkn, ?_⟩, ⟨⟨dkp, ?_⟩, laid_congr kl_A ?_, laid_root kl_a u_a ?_ ?_⟩, ⟨⟨dkg, ?_⟩,
      laid_root kl_b u_b ?_ ?_, laid_congr kl_D ?_⟩⟩, ?_, ?_⟩
  · simp [patch_apply, assigned_apply, Member.assign, kc_p, kc_n, kc_g, e_p_n, Ne.symm e_p_n, e_p_g,
      Ne.symm e_p_g, e_n_g, Ne.symm e_n_g, r_A_p, r_a_p, r_b_p, r_D_p, r_A_n, r_a_n, r_b_n, r_D_n,
      r_A_g, r_a_g, r_b_g, r_D_g]
  · simp [patch_apply, assigned_apply, Member.assign, kc_p, kc_n, kc_g, e_p_n, Ne.symm e_p_n, e_p_g,
      Ne.symm e_p_g, e_n_g, Ne.symm e_n_g, r_A_p, r_a_p, r_b_p, r_D_p, r_A_n, r_a_n, r_b_n, r_D_n,
      r_A_g, r_a_g, r_b_g, r_D_g]
  · intro x hx
    have x_p : x ≠ p := fun e => m_p_A (e ▸ hx)
    have x_n : x ≠ n := fun e => m_n_A (e ▸ hx)
    have x_g : x ≠ g := fun e => m_g_A (e ▸ hx)
    have y_a : a.root ≠ some x := root_ne (fun h => j_A_a hx h)
    have y_b : b.root ≠ some x := root_ne (fun h => j_A_b hx h)
    simp [patch_apply, assigned_apply, x_p, Ne.symm x_p, x_n, Ne.symm x_n, x_g, Ne.symm x_g, y_a, y_b]
  · intro x hc
    have hx := root_mem hc
    have x_p : x ≠ p := fun e => m_p_a (e ▸ hx)
    have x_n : x ≠ n := fun e => m_n_a (e ▸ hx)
    have x_g : x ≠ g := fun e => m_g_a (e ▸ hx)
    have y_b : b.root ≠ some x := root_ne (fun h => j_a_b hx h)
    simp [patch_apply, assigned_apply, hc, x_p, Ne.symm x_p, x_n, Ne.symm x_n, x_g, Ne.symm x_g, y_b]
  · intro x hx hxr
    have x_p : x ≠ p := fun e => m_p_a (e ▸ hx)
    have x_n : x ≠ n := fun e => m_n_a (e ▸ hx)
    have x_g : x ≠ g := fun e => m_g_a (e ▸ hx)
    have y_b : b.root ≠ some x := root_ne (fun h => j_a_b hx h)
    simp [patch_apply, assigned_apply, hxr, x_p, Ne.symm x_p, x_n, Ne.symm x_n, x_g, Ne.symm x_g, y_b]
  · simp [patch_apply, assigned_apply, Member.assign, kc_p, kc_n, kc_g, e_p_n, Ne.symm e_p_n, e_p_g,
      Ne.symm e_p_g, e_n_g, Ne.symm e_n_g, r_A_p, r_a_p, r_b_p, r_D_p, r_A_n, r_a_n, r_b_n, r_D_n,
      r_A_g, r_a_g, r_b_g, r_D_g]
  · intro x hc
    have hx := root_mem hc
    have x_p : x ≠ p := fun e => m_p_b (e ▸ hx)
    have x_n : x ≠ n := fun e => m_n_b (e ▸ hx)
    have x_g : x ≠ g := fun e => m_g_b (e ▸ hx)
    have y_a : a.root ≠ some x := root_ne (fun h => j_a_b h hx)
    simp [patch_apply, assigned_apply, hc, x_p, Ne.symm x_p, x_n, Ne.symm x_n, x_g, Ne.symm x_g, y_a]
  · intro x hx hxr
    have x_p : x ≠ p := fun e => m_p_b (e ▸ hx)
    have x_n : x ≠ n := fun e => m_n_b (e ▸ hx)
    have x_g : x ≠ g := fun e => m_g_b (e ▸ hx)
    have y_a : a.root ≠ some x := root_ne (fun h => j_a_b h hx)
    simp [patch_apply, assigned_apply, hxr, x_p, Ne.symm x_p, x_n, Ne.symm x_n, x_g, Ne.symm x_g, y_a]
  · intro x hx
    have x_p : x ≠ p := fun e => m_p_D (e ▸ hx)
    have x_n : x ≠ n := fun e => m_n_D (e ▸ hx)
    have x_g : x ≠ g := fun e => m_g_D (e ▸ hx)
    have y_a : a.root ≠ some x := root_ne (fun h => j_a_D h hx)
    have y_b : b.root ≠ some x := root_ne (fun h => j_b_D h hx)
    simp [patch_apply, assigned_apply, x_p, Ne.symm x_p, x_n, Ne.symm x_n, x_g, Ne.symm x_g, y_a, y_b]
  · intro x
    simp only [data_patch_parent, data_assigned]
  · intro x hx
    simp only [inorder_node, List.mem_append, List.mem_cons] at hx
    have x_p : x ≠ p := fun e => hx (by simp [e])
    have x_n : x ≠ n := fun e => hx (by simp [e])
    have x_g : x ≠ g := fun e => hx (by simp [e])
    have y_a : a.root ≠ some x := root_ne (fun h => hx (by simp [h]))
    have y_b : b.root ≠ some x := root_ne (fun h => hx (by simp [h]))
    simp [patch_apply, assigned_apply, x_p, Ne.symm x_p, x_n, Ne.symm x_n, x_g, Ne.symm x_g, y_a, y_b]

/-- The loop of `splay` in the case of `zigzag_left`: one turn calls `zigzag`. -/
theorem zigzag_left_step {T : Type} {s s' : Mem T} {A a b D : Tree} {p n g : Nat}
    {mp : Option Nat} (hl : Laid s mp (.node (.node A p (.node a n b)) g D))
    (nd : (Tree.node (.node A p (.node a n b)) g D).inorder.Nodup)
    (hex : zigzag s (some n) = .ok s') (fuel : Nat) :
    splayLoop (fuel + 1) s (some n) = splayLoop fuel s' (some n) := by
  simp only [Laid, root_node] at hl
  obtain ⟨⟨dg, c_g⟩, ⟨⟨dp, c_p⟩, l_A, ⟨⟨dn, c_n⟩, l_a, l_b⟩⟩, l_D⟩ := hl
  have nd' : [A.inorder, [p], a.inorder, [n], b.inorder, [g], D.inorder].flatten.Nodup := by
    simpa [List.flatten, List.append_assoc] using nd
  have e_p_n : p ≠ n := fun e =>
    blocks_disjoint nd' 1 3 (by decide) rfl rfl (List.mem_singleton_self p) (e ▸
        List.mem_singleton_self n)
  have e_p_g : p ≠ g := fun e =>
    blocks_disjoint nd' 1 5 (by decide) rfl rfl (List.mem_singleton_self p) (e ▸
        List.mem_singleton_self g)
  have e_n_g : n ≠ g := fun e =>
    blocks_disjoint nd' 3 5 (by decide) rfl rfl (List.mem_singleton_self n) (e ▸
        List.mem_singleton_self g)
  have r_A_p : A.root ≠ some p := root_ne (fun h =>
    blocks_disjoint nd' 0 1 (by decide) rfl rfl h (List.mem_singleton_self p))
  have r_a_p : a.root ≠ some p := root_ne (fun h =>
    blocks_disjoint nd' 1 2 (by decide) rfl rfl (List.mem_singleton_self p) h)
  have r_b_p : b.root ≠ some p := root_ne (fun h =>
    blocks_disjoint nd' 1 4 (by decide) rfl rfl (List.mem_singleton_self p) h)
  have r_D_p : D.root ≠ some p := root_ne (fun h =>
    blocks_disjoint nd' 1 6 (by decide) rfl rfl (List.mem_singleton_self p) h)
  have r_A_n : A.root ≠ some n := root_ne (fun h =>
    blocks_disjoint nd' 0 3 (by decide) rfl rfl h (List.mem_singleton_self n))
  have r_a_n : a.root ≠ some n := root_ne (fun h =>
    blocks_disjoint nd' 2 3 (by decide) rfl rfl h (List.mem_singleton_self n))
  have r_b_n : b.root ≠ some n := root_ne (fun h =>
    blocks_disjoint nd' 3 4 (by decide) rfl rfl (List.mem_singleton_self n) h)
  have r_D_n : D.root ≠ some n := root_ne (fun h =>
    blocks_disjoint nd' 3 6 (by decide) rfl rfl (List.mem_singleton_self n) h)
  have r_A_g : A.root ≠ some g := root_ne (fun h =>
    blocks_disjoint nd' 0 5 (by decide) rfl rfl h (List.mem_singleton_self g))
  have r_a_g : a.root ≠ some g := root_ne (fun h =>
    blocks_disjoint nd' 2 5 (by decide) rfl rfl h (List.mem_singleton_self g))
  have r_b_g : b.root ≠ some g := root_ne (fun h =>
    blocks_disjoint nd' 4 5 (by decide) rfl rfl h (List.mem_singleton_self g))
  have r_D_g : D.root ≠ some g := root_ne (fun h =>
    blocks_disjoint nd' 5 6 (by decide) rfl rfl (List.mem_singleton_self g) h)
  simp [splayLoop, hex, isLeftSon, isRightSon, fetch, bind, Except.bind, pure, Except.pure, c_p, c_n,
    c_g, e_p_n, Ne.symm e_p_n, e_p_g, Ne.symm e_p_g, e_n_g, Ne.symm e_n_g, r_A_p, r_a_p, r_b_p,
    r_D_p, r_A_n, r_a_n, r_b_n, r_D_n, r_A_g, r_a_g, r_b_g, r_D_g]

/-- `zigzag` on the left son `n` of the right son `p` of `g`, after the statements that make the
parent of `g` point to `n`. -/
theorem zigzag_right {T : Type} {s s₀ : Mem T} {A a b D : Tree} {g n p : Nat}
    {mp : Option Nat} (hl : Laid s mp (.node A g (.node (.node a n b) p D)))
    (nd : (Tree.node A g (.node (.node a n b) p D)).inorder.Nodup)
    (hrel : relink s (some n) (some g) mp = .ok s₀)
    (h₀ : ∀ x ∈ (Tree.node A g (.node (.node a n b) p D)).inorder, s₀ x = s x) :
    ∃ s', zigzag s (some n) = .ok s' ∧ Laid s' mp (.node (.node A g a) n (.node b p D)) ∧
      (∀ x, (s' x).map Node.data = (s₀ x).map Node.data) ∧
      (∀ x, x ∉ (Tree.node A g (.node (.node a n b) p D)).inorder → s' x = s₀ x) := by
  have hl₀ := laid_congr hl h₀
  simp only [Laid, root_node] at hl hl₀
  obtain ⟨⟨dg, c_g⟩, l_A, ⟨⟨dp, c_p⟩, ⟨⟨dn, c_n⟩, l_a, l_b⟩, l_D⟩⟩ := hl
  obtain ⟨⟨dkg, kc_g⟩, kl_A, ⟨⟨dkp, kc_p⟩, ⟨⟨dkn, kc_n⟩, kl_a, kl_b⟩, kl_D⟩⟩ := hl₀
  have nd' : [A.inorder, [g], a.inorder, [n], b.inorder, [p], D.inorder].flatten.Nodup := by
    simpa [List.flatten, List.append_assoc] using nd
  have e_g_n : g ≠ n := fun e =>
    blocks_disjoint nd' 1 3 (by decide) rfl rfl (List.mem_singleton_self g) (e ▸
        List.mem_singleton_self n)
  have e_g_p : g ≠ p := fun e =>
    blocks_disjoint nd' 1 5 (by decide) rfl rfl (List.mem_singleton_self g) (e ▸
        List.mem_singleton_self p)
  have e_n_p : n ≠ p := fun e =>
    blocks_disjoint nd' 3 5 (by decide) rfl rfl (List.mem_singleton_self n) (e ▸
        List.mem_singleton_self p)
  have m_g_A : g ∉ A.inorder := fun h =>
    blocks_disjoint nd' 0 1 (by decide) rfl rfl h (List.mem_singleton_self g)
  have r_A_g : A.root ≠ some g := root_ne m_g_A
  have m_g_a : g ∉ a.inorder := fun h =>
    blocks_disjoint nd' 1 2 (by decide) rfl rfl (List.mem_singleton_self g) h
  have r_a_g : a.root ≠ some g := root_ne m_g_a
  have m_g_b : g ∉ b.inorder := fun h =>
    blocks_disjoint nd' 1 4 (by decide) rfl rfl (List.mem_singleton_self g) h
  have r_b_g : b.root ≠ some g := root_ne m_g_b
  have m_g_D : g ∉ D.inorder := fun h =>
    blocks_disjoint nd' 1 6 (by decide) rfl rfl (List.mem_singleton_self g) h
  have r_D_g : D.root ≠ some g := root_ne m_g_D
  have m_n_A : n ∉ A.inorder := fun h =>
    blocks_disjoint nd' 0 3 (by decide) rfl rfl h (List.mem_singleton_self n)
  have r_A_n : A.root ≠ some n := root_ne m_n_A
  have m_n_a : n ∉ a.inorder := fun h =>
    blocks_disjoint nd' 2 3 (by decide) rfl rfl h (List.mem_singleton_self n)
  have r_a_n : a.root ≠ some n := root_ne m_n_a
  have m_n_b : n ∉ b.inorder := fun h =>
    blocks_disjoint nd' 3 4 (by decide) rfl rfl (List.mem_singleton_self n) h
  have r_b_n : b.root ≠ some n := root_ne m_n_b
  have m_n_D : n ∉ D.inorder := fun h =>
    blocks_disjoint nd' 3 6 (by decide) rfl rfl (List.mem_singleton_self n) h
  have r_D_n : D.root ≠ some n := root_ne m_n_D
  have m_p_A : p ∉ A.inorder := fun h =>
    blocks_disjoint nd' 0 5 (by decide) rfl rfl h (List.mem_singleton_self p)
  have r_A_p : A.root ≠ some p := root_ne m_p_A
  have m_p_a : p ∉ a.inorder := fun h =>
    blocks_disjoint nd' 2 5 (by decide) rfl rfl h (List.mem_singleton_self p)
  have r_a_p : a.root ≠ some p := root_ne m_p_a
  have m_p_b : p ∉ b.inorder := fun h =>
    blocks_disjoint nd' 4 5 (by decide) rfl rfl h (List.mem_singleton_self p)
  have r_b_p : b.root ≠ some p := root_ne m_p_b
  have m_p_D : p ∉ D.inorder := fun h =>
    blocks_disjoint nd' 5 6 (by decide) rfl rfl (List.mem_singleton_self p) h
  have r_D_p : D.root ≠ some p := root_ne m_p_D
  have j_A_a : A.inorder.Disjoint a.inorder :=
    blocks_disjoint nd' 0 2 (by decide) rfl rfl
  have j_A_b : A.inorder.Disjoint b.inorder :=
    blocks_disjoint nd' 0 4 (by decide) rfl rfl
  have j_A_D : A.inorder.Disjoint D.inorder :=
    blocks_disjoint nd' 0 6 (by decide) rfl rfl
  have j_a_b : a.inorder.Disjoint b.inorder :=
    blocks_disjoint nd' 2 4 (by decide) rfl rfl
  have j_a_D : a.inorder.Disjoint D.inorder :=
    blocks_disjoint nd' 2 6 (by decide) rfl rfl
  have j_b_D : b.inorder.Disjoint D.inorder :=
    blocks_disjoint nd' 4 6 (by decide) rfl rfl
  have u_a : a.inorder.Nodup := blocks_nodup nd' 2 rfl
  have v_a := laid_alive kl_a
  have u_b : b.inorder.Nodup := blocks_nodup nd' 4 rfl
  have v_b := laid_alive kl_b
  have hex : zigzag s (some n) = .ok (patch (assigned (assigned (assigned (assigned s₀ g .right
      (a.root) (some g)) p .left (b.root) (some p)) n .right (some p) (some n)) n .left (some g)
      (some n)) n (fun nn => { nn with parent := mp })) := by
    simp [zigzag, hrel, isLeftSon, isRightSon, fetch, amend_eval, set_eval, isSome_patch,
      isSome_assigned, alive_patch, alive_assigned, alive_some, bind, Except.bind, pure, Except.pure,
      patch_apply, assigned_apply, kc_g, kc_n, kc_p, c_g, c_n, c_p, e_g_n, Ne.symm e_g_n, e_g_p,
      Ne.symm e_g_p, e_n_p, Ne.symm e_n_p, r_A_g, r_a_g, r_b_g, r_D_g, r_A_n, r_a_n, r_b_n, r_D_n,
      r_A_p, r_a_p, r_b_p, r_D_p, v_a, v_b]
  refine ⟨_, hex, ⟨⟨dkn, ?_⟩, ⟨⟨dkg, ?_⟩, laid_congr kl_A ?_, laid_root kl_a u_a ?_ ?_⟩, ⟨⟨dkp, ?_⟩,
      laid_root kl_b u_b ?_ ?_, laid_congr kl_D ?_⟩⟩, ?_, ?_⟩
  · simp [patch_apply, assigned_apply, Member.assign, kc_g, kc_n, kc_p, e_g_n, Ne.symm e_g_n, e_g_p,
      Ne.symm e_g_p, e_n_p, Ne.symm e_n_p, r_A_g, r_a_g, r_b_g, r_D_g, r_A_n, r_a_n, r_b_n, r_D_n,
      r_A_p, r_a_p, r_b_p, r_D_p]
  · simp [patch_apply, assigned_apply, Member.assign, kc_g, kc_n, kc_p, e_g_n, Ne.symm e_g_n, e_g_p,
      Ne.symm e_g_p, e_n_p, Ne.symm e_n_p, r_A_g, r_a_g, r_b_g, r_D_g, r_A_n, r_a_n, r_b_n, r_D_n,
      r_A_p, r_a_p, r_b_p, r_D_p]
  · intro x hx
    have x_g : x ≠ g := fun e => m_g_A (e ▸ hx)
    have x_n : x ≠ n := fun e => m_n_A (e ▸ hx)
    have x_p : x ≠ p := fun e => m_p_A (e ▸ hx)
    have y_a : a.root ≠ some x := root_ne (fun h => j_A_a hx h)
    have y_b : b.root ≠ some x := root_ne (fun h => j_A_b hx h)
    simp [patch_apply, assigned_apply, x_g, Ne.symm x_g, x_n, Ne.symm x_n, x_p, Ne.symm x_p, y_a, y_b]
  · intro x hc
    have hx := root_mem hc
    have x_g : x ≠ g := fun e => m_g_a (e ▸ hx)
    have x_n : x ≠ n := fun e => m_n_a (e ▸ hx)
    have x_p : x ≠ p := fun e => m_p_a (e ▸ hx)
    have y_b : b.root ≠ some x := root_ne (fun h => j_a_b hx h)
    simp [patch_apply, assigned_apply, hc, x_g, Ne.symm x_g, x_n, Ne.symm x_n, x_p, Ne.symm x_p, y_b]
  · intro x hx hxr
    have x_g : x ≠ g := fun e => m_g_a (e ▸ hx)
    have x_n : x ≠ n := fun e => m_n_a (e ▸ hx)
    have x_p : x ≠ p := fun e => m_p_a (e ▸ hx)
    have y_b : b.root ≠ some x := root_ne (fun h => j_a_b hx h)
    simp [patch_apply, assigned_apply, hxr, x_g, Ne.symm x_g, x_n, Ne.symm x_n, x_p, Ne.symm x_p, y_b]
  · simp [patch_apply, assigned_apply, Member.assign, kc_g, kc_n, kc_p, e_g_n, Ne.symm e_g_n, e_g_p,
      Ne.symm e_g_p, e_n_p, Ne.symm e_n_p, r_A_g, r_a_g, r_b_g, r_D_g, r_A_n, r_a_n, r_b_n, r_D_n,
      r_A_p, r_a_p, r_b_p, r_D_p]
  · intro x hc
    have hx := root_mem hc
    have x_g : x ≠ g := fun e => m_g_b (e ▸ hx)
    have x_n : x ≠ n := fun e => m_n_b (e ▸ hx)
    have x_p : x ≠ p := fun e => m_p_b (e ▸ hx)
    have y_a : a.root ≠ some x := root_ne (fun h => j_a_b h hx)
    simp [patch_apply, assigned_apply, hc, x_g, Ne.symm x_g, x_n, Ne.symm x_n, x_p, Ne.symm x_p, y_a]
  · intro x hx hxr
    have x_g : x ≠ g := fun e => m_g_b (e ▸ hx)
    have x_n : x ≠ n := fun e => m_n_b (e ▸ hx)
    have x_p : x ≠ p := fun e => m_p_b (e ▸ hx)
    have y_a : a.root ≠ some x := root_ne (fun h => j_a_b h hx)
    simp [patch_apply, assigned_apply, hxr, x_g, Ne.symm x_g, x_n, Ne.symm x_n, x_p, Ne.symm x_p, y_a]
  · intro x hx
    have x_g : x ≠ g := fun e => m_g_D (e ▸ hx)
    have x_n : x ≠ n := fun e => m_n_D (e ▸ hx)
    have x_p : x ≠ p := fun e => m_p_D (e ▸ hx)
    have y_a : a.root ≠ some x := root_ne (fun h => j_a_D h hx)
    have y_b : b.root ≠ some x := root_ne (fun h => j_b_D h hx)
    simp [patch_apply, assigned_apply, x_g, Ne.symm x_g, x_n, Ne.symm x_n, x_p, Ne.symm x_p, y_a, y_b]
  · intro x
    simp only [data_patch_parent, data_assigned]
  · intro x hx
    simp only [inorder_node, List.mem_append, List.mem_cons] at hx
    have x_g : x ≠ g := fun e => hx (by simp [e])
    have x_n : x ≠ n := fun e => hx (by simp [e])
    have x_p : x ≠ p := fun e => hx (by simp [e])
    have y_a : a.root ≠ some x := root_ne (fun h => hx (by simp [h]))
    have y_b : b.root ≠ some x := root_ne (fun h => hx (by simp [h]))
    simp [patch_apply, assigned_apply, x_g, Ne.symm x_g, x_n, Ne.symm x_n, x_p, Ne.symm x_p, y_a, y_b]

/-- The loop of `splay` in the case of `zigzag_right`: one turn calls `zigzag`. -/
theorem zigzag_right_step {T : Type} {s s' : Mem T} {A a b D : Tree} {g n p : Nat}
    {mp : Option Nat} (hl : Laid s mp (.node A g (.node (.node a n b) p D)))
    (nd : (Tree.node A g (.node (.node a n b) p D)).inorder.Nodup)
    (hex : zigzag s (some n) = .ok s') (fuel : Nat) :
    splayLoop (fuel + 1) s (some n) = splayLoop fuel s' (some n) := by
  simp only [Laid, root_node] at hl
  obtain ⟨⟨dg, c_g⟩, l_A, ⟨⟨dp, c_p⟩, ⟨⟨dn, c_n⟩, l_a, l_b⟩, l_D⟩⟩ := hl
  have nd' : [A.inorder, [g], a.inorder, [n], b.inorder, [p], D.inorder].flatten.Nodup := by
    simpa [List.flatten, List.append_assoc] using nd
  have e_g_n : g ≠ n := fun e =>
    blocks_disjoint nd' 1 3 (by decide) rfl rfl (List.mem_singleton_self g) (e ▸
        List.mem_singleton_self n)
  have e_g_p : g ≠ p := fun e =>
    blocks_disjoint nd' 1 5 (by decide) rfl rfl (List.mem_singleton_self g) (e ▸
        List.mem_singleton_self p)
  have e_n_p : n ≠ p := fun e =>
    blocks_disjoint nd' 3 5 (by decide) rfl rfl (List.mem_singleton_self n) (e ▸
        List.mem_singleton_self p)
  have r_A_g : A.root ≠ some g := root_ne (fun h =>
    blocks_disjoint nd' 0 1 (by decide) rfl rfl h (List.mem_singleton_self g))
  have r_a_g : a.root ≠ some g := root_ne (fun h =>
    blocks_disjoint nd' 1 2 (by decide) rfl rfl (List.mem_singleton_self g) h)
  have r_b_g : b.root ≠ some g := root_ne (fun h =>
    blocks_disjoint nd' 1 4 (by decide) rfl rfl (List.mem_singleton_self g) h)
  have r_D_g : D.root ≠ some g := root_ne (fun h =>
    blocks_disjoint nd' 1 6 (by decide) rfl rfl (List.mem_singleton_self g) h)
  have r_A_n : A.root ≠ some n := root_ne (fun h =>
    blocks_disjoint nd' 0 3 (by decide) rfl rfl h (List.mem_singleton_self n))
  have r_a_n : a.root ≠ some n := root_ne (fun h =>
    blocks_disjoint nd' 2 3 (by decide) rfl rfl h (List.mem_singleton_self n))
  have r_b_n : b.root ≠ some n := root_ne (fun h =>
    blocks_disjoint nd' 3 4 (by decide) rfl rfl (List.mem_singleton_self n) h)
  have r_D_n : D.root ≠ some n := root_ne (fun h =>
    blocks_disjoint nd' 3 6 (by decide) rfl rfl (List.mem_singleton_self n) h)
  have r_A_p : A.root ≠ some p := root_ne (fun h =>
    blocks_disjoint nd' 0 5 (by decide) rfl rfl h (List.mem_singleton_self p))
  have r_a_p : a.root ≠ some p := root_ne (fun h =>
    blocks_disjoint nd' 2 5 (by decide) rfl rfl h (List.mem_singleton_self p))
  have r_b_p : b.root ≠ some p := root_ne (fun h =>
    blocks_disjoint nd' 4 5 (by decide) rfl rfl h (List.mem_singleton_self p))
  have r_D_p : D.root ≠ some p := root_ne (fun h =>
    blocks_disjoint nd' 5 6 (by decide) rfl rfl (List.mem_singleton_self p) h)
  simp [splayLoop, hex, isLeftSon, isRightSon, fetch, bind, Except.bind, pure, Except.pure, c_g, c_n,
    c_p, e_g_n, Ne.symm e_g_n, e_g_p, Ne.symm e_g_p, e_n_p, Ne.symm e_n_p, r_A_g, r_a_g, r_b_g,
    r_D_g, r_A_n, r_a_n, r_b_n, r_D_n, r_A_p, r_a_p, r_b_p, r_D_p]

/-! ## Splay tree: the loop of `splay` -/

theorem ctx_length (c : List Crumb) : c.length ≤ (ctxL c).length + (ctxR c).length := by
  induction c with
  | nil => simp
  | cons f c ih =>
    obtain ⟨dir, p, sib⟩ := f
    cases dir <;> simp only [ctxL, ctxR, List.length_cons, List.length_append,
      List.length_singleton] <;> omega

theorem ctxPar_mem {c : List Crumb} {q : Nat} (h : ctxPar c = some q) (t : Tree) :
    q ∈ (plug c t).inorder := by
  cases c with
  | nil => simp [ctxPar] at h
  | cons f c =>
    obtain ⟨dir, p, sib⟩ := f
    simp only [ctxPar, Option.some.injEq] at h
    subst h
    cases dir <;> simp [plug, inorder_plug]

/-- The loop of `splay` on the node `n` at the end of a path of a laid-out tree: within
as many turns as the path is long it returns `n`, the tree is laid out again with `n` at
its root and the same in-order sequence, no data has changed and no cell outside the
tree. -/
theorem splayLoop_spec {T : Type} (n : Nat) : ∀ (fuel : Nat) (s : Mem T) (c : List Crumb)
    (a b : Tree), Laid s none (plug c (.node a n b)) → (plug c (.node a n b)).inorder.Nodup →
    c.length < fuel →
    ∃ s' a' b', splayLoop fuel s (some n) = .ok (s', some n) ∧ Laid s' none (.node a' n b') ∧
      (Tree.node a' n b').inorder = (plug c (.node a n b)).inorder ∧
      (∀ x, (s' x).map Node.data = (s x).map Node.data) ∧
      (∀ x, x ∉ (plug c (.node a n b)).inorder → s' x = s x) := by
  intro fuel
  induction fuel with
  | zero => intro s c a b _ _ hf; omega
  | succ fuel ih =>
    intro s c a b hl nd hf
    have double : ∀ (c' : List Crumb) (t t' : Tree) (g : Nat) (a' b' : Tree),
        plug c (.node a n b) = plug c' t → c'.length < fuel → t.root = some g →
        t' = .node a' n b' → t'.inorder = t.inorder →
        (∀ s₀, relink s (some n) (some g) (ctxPar c') = .ok s₀ →
          (∀ x ∈ t.inorder, s₀ x = s x) → ∃ s', 
            splayLoop (fuel + 1) s (some n) = splayLoop fuel s' (some n) ∧
            Laid s' (ctxPar c') t' ∧ (∀ x, (s' x).map Node.data = (s₀ x).map Node.data) ∧
            (∀ x, x ∉ t.inorder → s' x = s₀ x)) →
        ∃ s' a' b', splayLoop (fuel + 1) s (some n) = .ok (s', some n) ∧
          Laid s' none (.node a' n b') ∧
          (Tree.node a' n b').inorder = (plug c (.node a n b)).inorder ∧
          (∀ x, (s' x).map Node.data = (s x).map Node.data) ∧
          (∀ x, x ∉ (plug c (.node a n b)).inorder → s' x = s x) := by
      intro c' t t' g a' b' e hf' hg ht' hio hstep
      rw [e] at hl nd ⊢
      obtain ⟨hfoc, ndt, hhead⟩ := plug_focus c' t hl nd
      obtain ⟨s₀, hrel, f0, q0, d0⟩ := relink_eval n hl nd hg
      have h₀ : ∀ x ∈ t.inorder, s₀ x = s x := fun x hx =>
        f0 x (fun e => (hhead x e).1 hx)
      obtain ⟨s₁, hrun, hlay, d1, f1⟩ := hstep s₀ hrel h₀
      have hl₁ : Laid s₁ none (plug c' t') :=
        plug_replace c' t t' g n hl nd hg (by rw [ht']; rfl) hlay (fun x => by rw [hio])
          (fun x hx hq => (f1 x hx).trans (f0 x hq))
          (fun q hq => by rw [f1 q (hhead q hq).1, q0 q hq])
      have hio' : (plug c' t').inorder = (plug c' t).inorder := by
        rw [inorder_plug, inorder_plug, hio]
      have nd₁ : (plug c' t').inorder.Nodup := by rw [hio']; exact nd
      rw [ht'] at hl₁ nd₁ hio'
      obtain ⟨s₂, a₂, b₂, hrun₂, hlay₂, hio₂, d2, f2⟩ := ih s₁ c' a' b' hl₁ nd₁ hf'
      refine ⟨s₂, a₂, b₂, by rw [hrun, hrun₂], hlay₂, by rw [hio₂, hio'], fun x => ?_,
        fun x hx => ?_⟩
      · rw [d2, d1, d0]
      · have hxt : x ∉ t.inorder := fun hh => hx (by
          rw [inorder_plug]; simp [hh])
        rw [f2 x (by rw [hio']; exact hx), f1 x hxt]
        exact f0 x (fun e => hx (ctxPar_mem e t))
    match c, hl, nd, hf, double with
    | [], hl, nd, _, _ =>
      obtain ⟨⟨d, hd⟩, ha, hb⟩ := hl
      exact ⟨s, a, b, by simp [splayLoop, fetch, hd, bind, Except.bind, pure, Except.pure],
        ⟨⟨d, hd⟩, ha, hb⟩, rfl, fun _ => rfl, fun _ _ => rfl⟩
    | [⟨.L, p, C⟩], hl, nd, _, _ =>
      obtain ⟨s', hex, hlay, hd, hf'⟩ := zig_left hl nd
      exact ⟨s', a, .node b p C, zig_left_step hl nd hex fuel, hlay,
        by simp [plug, List.append_assoc], hd, hf'⟩
    | [⟨.R, p, A⟩], hl, nd, _, _ =>
      obtain ⟨s', hex, hlay, hd, hf'⟩ := zig_right hl nd
      exact ⟨s', .node A p a, b, zig_right_step hl nd hex fuel, hlay,
        by simp [plug, List.append_assoc], hd, hf'⟩
    | ⟨.L, p, B⟩ :: ⟨.L, g, C⟩ :: c', hl, nd, hf, double =>
      refine double c' (.node (.node (.node a n b) p B) g C) _ g a (.node b p (.node B g C))
        rfl (by simp only [List.length_cons] at hf; omega) rfl rfl
        (by simp [List.append_assoc]) (fun s₀ hrel h₀ => ?_)
      obtain ⟨hfoc, ndt, -⟩ := plug_focus c' _ hl nd
      obtain ⟨s', hex, hlay, hd, hf'⟩ := zigzig_left hfoc ndt hrel h₀
      exact ⟨s', zigzig_left_step hfoc ndt hex fuel, hlay, hd, hf'⟩
    | ⟨.R, p, B⟩ :: ⟨.R, g, A⟩ :: c', hl, nd, hf, double =>
      refine double c' (.node A g (.node B p (.node a n b))) _ g (.node (.node A g B) p a) b
        rfl (by simp only [List.length_cons] at hf; omega) rfl rfl
        (by simp [List.append_assoc]) (fun s₀ hrel h₀ => ?_)
      obtain ⟨hfoc, ndt, -⟩ := plug_focus c' _ hl nd
      obtain ⟨s', hex, hlay, hd, hf'⟩ := zigzig_right hfoc ndt hrel h₀
      exact ⟨s', zigzig_right_step hfoc ndt hex fuel, hlay, hd, hf'⟩
    | ⟨.R, p, A⟩ :: ⟨.L, g, D⟩ :: c', hl, nd, hf, double =>
      refine double c' (.node (.node A p (.node a n b)) g D) _ g (.node A p a) (.node b g D)
        rfl (by simp only [List.length_cons] at hf; omega) rfl rfl
        (by simp [List.append_assoc]) (fun s₀ hrel h₀ => ?_)
      obtain ⟨hfoc, ndt, -⟩ := plug_focus c' _ hl nd
      obtain ⟨s', hex, hlay, hd, hf'⟩ := zigzag_left hfoc ndt hrel h₀
      exact ⟨s', zigzag_left_step hfoc ndt hex fuel, hlay, hd, hf'⟩
    | ⟨.L, p, D⟩ :: ⟨.R, g, A⟩ :: c', hl, nd, hf, double =>
      refine double c' (.node A g (.node (.node a n b) p D)) _ g (.node A g a) (.node b p D)
        rfl (by simp only [List.length_cons] at hf; omega) rfl rfl
        (by simp [List.append_assoc]) (fun s₀ hrel h₀ => ?_)
      obtain ⟨hfoc, ndt, -⟩ := plug_focus c' _ hl nd
      obtain ⟨s', hex, hlay, hd, hf'⟩ := zigzag_right hfoc ndt hrel h₀
      exact ⟨s', zigzag_right_step hfoc ndt hex fuel, hlay, hd, hf'⟩

/-- C18: `splay(n)` on a node `n` of a finite binary tree that is laid out in the store
with consistent pointers (the root has no parent, and every node is the parent of the
nodes its `left` and `right` point to; no node occurs twice): given fuel for as many
turns of the loop as the tree has nodes, the call returns `n`; afterwards `n->parent` is
null, the nodes are laid out again as a tree with consistent pointers whose root is `n`,
the in-order sequence of the nodes is the same, and so is the in-order sequence of their
data values (no data value has changed); no cell outside the tree has changed. -/
theorem splay_correct {T : Type} (s : Mem T) (t : Tree) (n fuel : Nat)
    (hl : Laid s none t) (nd : t.inorder.Nodup) (hn : n ∈ t.inorder)
    (hf : t.inorder.length ≤ fuel) :
    ∃ s' t', splay fuel s (some n) = .ok (s', some n) ∧
      (∃ d l r, s' n = some ⟨d, l, r, none⟩) ∧
      Laid s' none t' ∧ t'.root = some n ∧ t'.inorder = t.inorder ∧
      t'.inorder.map (fun x => (s' x).map Node.data) =
        t.inorder.map (fun x => (s x).map Node.data) ∧
      (∀ x, (s' x).map Node.data = (s x).map Node.data) ∧
      (∀ x, x ∉ t.inorder → s' x = s x) := by
  obtain ⟨c, a, b, rfl⟩ := plug_of_mem t n hn
  have hc : c.length < fuel := by
    have h1 := ctx_length c
    rw [inorder_plug] at hf
    simp only [inorder_node, List.length_append, List.length_cons] at hf
    omega
  obtain ⟨s', a', b', hrun, hlay, hio, hd, hfr⟩ := splayLoop_spec n fuel s c a b hl nd hc
  refine ⟨s', .node a' n b', hrun, ?_, hlay, rfl, hio, ?_, hd, hfr⟩
  · obtain ⟨⟨d, hd'⟩, -, -⟩ := hlay
    exact ⟨d, _, _, hd'⟩
  · rw [hio]
    exact List.map_congr_left (fun x _ => hd x)

/-- The witness of C18: `splay` on the node 3 of the tree of `demoStore`, a right son of
a left son. -/
theorem splay_correct_witness :
    Laid demoStore none demoTree ∧ demoTree.inorder = [1, 2, 3, 4, 5] ∧
      ∃ s' t', splay 5 demoStore (some 3) = .ok (s', some 3) ∧
        (∃ d l r, s' 3 = some ⟨d, l, r, none⟩) ∧
        Laid s' none t' ∧ t'.root = some 3 ∧ t'.inorder = demoTree.inorder ∧
        t'.inorder.map (fun x => (s' x).map Node.data) =
          demoTree.inorder.map (fun x => (demoStore x).map Node.data) ∧
        (∀ x, (s' x).map Node.data = (demoStore x).map Node.data) ∧
        (∀ x, x ∉ demoTree.inorder → s' x = demoStore x) :=
  have hl : Laid demoStore none demoTree :=
    ⟨⟨40, rfl⟩, ⟨⟨20, rfl⟩, ⟨⟨10, rfl⟩, trivial, trivial⟩, ⟨⟨30, rfl⟩, trivial, trivial⟩⟩,
      ⟨⟨50, rfl⟩, trivial, trivial⟩⟩
  ⟨hl, rfl, splay_correct demoStore demoTree 3 5 hl (by decide) (by decide) (by decide)⟩

end Lab3
